import Mathlib

/-!
# Timeline consistency checks of the engraving model

A shallow embedding of `src/engraving/libmscore/check.cpp`
(`Measure::fillGap`, `Measure::checkMeasure`, `Score::sanityCheck`) and proofs
about it.  Ticks are exact rationals, a track is `staffIdx * VOICES + voice`,
a measure holds its chain of ChordRest segments, and a segment holds one slot
per track.
-/

namespace Ms

/-! ## Data model -/

/-- Exact rational tick count (class `Fraction`). -/
abbrev Fraction := ℚ

/-- Number of voices of a staff. -/
def VOICES : Nat := 4

/-- Duration kinds of `TDuration` (`DurationType` of durationtype.h). -/
inductive DurationType
  | V_LONG | V_BREVE | V_WHOLE | V_HALF | V_QUARTER | V_EIGHTH | V_16TH | V_32ND
  | V_64TH | V_128TH | V_256TH | V_512TH | V_1024TH | V_ZERO | V_MEASURE | V_INVALID
  deriving DecidableEq, Repr

/-- Test `TDuration::isValid`. -/
def DurationType.isValid (d : DurationType) : Bool :=
  decide (d ≠ DurationType.V_INVALID)

/-- Test `TDuration::isMeasure`. -/
def DurationType.isMeasure (d : DurationType) : Bool :=
  decide (d = DurationType.V_MEASURE)

/-- What check.cpp uses but src does not hold: `setVal len` is the duration type
that `TDuration::setVal(len.ticks())` leaves in a default-constructed
`TDuration` (durationtype.cpp), and `fillGapDefault` is the default value that
measure.h declares for the `useGapRests` argument of `Measure::fillGap`. -/
structure Env where
  setVal : Fraction → DurationType
  fillGapDefault : Bool

/-- A tuplet, identified by `id` (its address in the source); `ticks` is
`DurationElement::ticks()` of the tuplet, its whole length. -/
structure Tuplet where
  id : Nat
  ticks : Fraction
  deriving DecidableEq, Repr

/-- A chord or rest sitting in a track slot of a ChordRest segment.  `ticks` is
`DurationElement::ticks()`, `topTuplet` the outermost enclosing tuplet and
`ratio` the product of the ratios of all enclosing tuplets (1 outside
tuplets).  The track of the element is the slot it sits in. -/
structure ChordRest where
  ticks : Fraction
  isRest : Bool
  durationType : DurationType
  gap : Bool
  topTuplet : Option Tuplet
  ratio : Fraction
  deriving DecidableEq, Repr

/-- A segment of type ChordRest: its tick relative to the measure and one
slot per track (`Segment::element(track)`). -/
structure Segment where
  rtick : Fraction
  element : Nat → Option ChordRest

/-- A measure: start tick, nominal length `ticks`, the multi-measure-rest flag,
the per-staff `hasVoices` flag and the chain of its ChordRest segments in
chain order (`first(SegmentType::ChordRest)`, `next(SegmentType::ChordRest)`). -/
structure Measure where
  tick : Fraction
  ticks : Fraction
  isMMRest : Bool
  hasVoices : Nat → Bool
  segs : List Segment

/-- A score: number of staves, `staff(staffIdx)->timeStretch(tick)` and the
chain of measures (`firstMeasure()`, `nextMeasure()`). -/
structure Score where
  nstaves : Nat
  timeStretch : Nat → Fraction → Fraction
  measures : List Measure

/-- Messages that `Measure::checkMeasure` sends to `qDebug`. -/
inductive Diag
  | inMeasureOverrun (track : Nat)
  | inMeasureUnderrun (track : Nat)
  | measureOverrun (track : Nat)
  deriving DecidableEq, Repr

/-! ## Inserting a rest -/

/-- Put `cr` into the slot of `track`, replacing what the slot held. -/
def Segment.setElement (s : Segment) (track : Nat) (cr : ChordRest) : Segment :=
  { s with element := Function.update s.element track (some cr) }

/-- A fresh ChordRest segment holding only `cr` on `track`. -/
def Segment.single (rtick : Fraction) (track : Nat) (cr : ChordRest) : Segment :=
  { rtick := rtick, element := Function.update (fun _ => none) track (some cr) }

/-- Modelled from the spec: `Measure::getSegment` is not in src.  Lookup or
create the ChordRest segment at `rtick` (an existing segment at that tick is
reused, a new one goes in front of the first segment with a greater tick, a
stable sorted insert) and put `cr` into its slot of `track`. -/
def addToChain (rtick : Fraction) (track : Nat) (cr : ChordRest) : List Segment → List Segment
  | [] => [Segment.single rtick track cr]
  | s :: rest =>
    if s.rtick < rtick then s :: addToChain rtick track cr rest
    else if s.rtick = rtick then s.setElement track cr :: rest
    else Segment.single rtick track cr :: s :: rest

/-- Modelled from the spec: `Score::undoAddCR` is not in src.  The mutation
interface `insertElement(kind, tick, track, payload)`: the element is added to
the ChordRest segment of measure `m` at absolute tick `tick`, in the slot of
its track. -/
def undoAddCR (cr : ChordRest) (track : Nat) (m : Measure) (tick : Fraction) : Measure :=
  { m with segs := addToChain (tick - m.tick) track cr m.segs }

/-- The rest that `Measure::fillGap` builds: length `len`, duration type `d`,
gap flag `useGapRests`, in no tuplet. -/
def gapRest (len : Fraction) (d : DurationType) (useGapRests : Bool) : ChordRest :=
  { ticks := len, isRest := true, durationType := d, gap := useGapRests,
    topTuplet := none, ratio := 1 }

/-- Method `Measure::fillGap` (check.cpp 227-245). -/
def fillGap (env : Env) (m : Measure) (pos len : Fraction) (track : Nat) (stretch : Fraction)
    (useGapRests : Bool) : Measure :=
  let d := env.setVal len
  if d.isValid then
    undoAddCR (gapRest len d useGapRests) track m (pos / stretch + m.tick)
  else m

/-! ## The measure check -/

/-- Whether the segment holds, on `track`, a member of `tuplet`. -/
def Segment.inTuplet (tuplet : Tuplet) (track : Nat) (s : Segment) : Bool :=
  match s.element track with
  | some cr => decide (cr.topTuplet = some tuplet)
  | none => false

/-- Modelled from the spec: `skipTuplet` is not in src.  Iteration resumes at
the segment following the tuplet's last member: of the chain `rest` that
follows the current segment, what follows the last segment holding a member of
`tuplet` on `track` (all of `rest` when the current member is the last). -/
def skipTuplet (tuplet : Tuplet) (track : Nat) : List Segment → List Segment
  | [] => []
  | s :: rest =>
    if (s :: rest).any (Segment.inTuplet tuplet track) then skipTuplet tuplet track rest
    else s :: rest

/-- The chain at which the walk resumes after the element `cr` of the current
segment (check.cpp 289-293): behind the last member of its outermost tuplet,
or `rest`, the chain that follows the current segment, outside tuplets. -/
def resume (cr : ChordRest) (track : Nat) (rest : List Segment) : List Segment :=
  match cr.topTuplet with
  | some tuplet => skipTuplet tuplet track rest
  | none => rest

/-- Value `de->ticks()` of check.cpp 288-294: the length of the outermost
tuplet of `cr`, or of `cr` itself outside tuplets. -/
def ChordRest.deTicks (cr : ChordRest) : Fraction :=
  match cr.topTuplet with
  | some tuplet => tuplet.ticks
  | none => cr.ticks

/-- The inner loop of `Measure::checkMeasure` (check.cpp 269-295) for one
track: the chain still to walk, the running `expectedPos`, the measure and the
messages so far; it returns the measure, the messages and the final
`expectedPos`.  A rest that `fillGap` inserts lies in front of the current
segment, so the chain still to walk is the one seen before the insertion
(`fillGap_in_front`, for a positive time stretch). -/
def walk (env : Env) (track : Nat) (stretch : Fraction) (useGapRests : Bool) :
    List Segment → Fraction → Measure → List Diag → Measure × List Diag × Fraction
  | [], expectedPos, m, log => (m, log, expectedPos)
  | seg :: rest, expectedPos, m, log =>
    match seg.element track with
    | none => walk env track stretch useGapRests rest expectedPos m log
    | some cr =>
      let currentPos := seg.rtick * stretch
      if currentPos < expectedPos then
        (m, log ++ [Diag.inMeasureOverrun track], expectedPos)
      else
        let m1 := if currentPos > expectedPos then
            fillGap env m expectedPos (currentPos - expectedPos) track stretch useGapRests
          else m
        let log1 := if currentPos > expectedPos then log ++ [Diag.inMeasureUnderrun track]
          else log
        walk env track stretch useGapRests (resume cr track rest) (currentPos + cr.deTicks)
          m1 log1
termination_by segs => segs.length
decreasing_by
  all_goals simp_wf
  all_goals first
    | omega
    | (have h : ∀ (t : Tuplet) (l : List Segment), (skipTuplet t track l).length ≤ l.length := by
        intro t l
        induction l with
        | nil => simp [skipTuplet]
        | cons s tl ih =>
          unfold skipTuplet
          split
          · exact Nat.le_succ_of_le ih
          · exact Nat.le_refl _
       unfold resume
       split
       · exact Nat.lt_succ_of_le (h _ rest)
       · omega)

/-- One round of the track loop of `Measure::checkMeasure` (check.cpp 265-304):
the walk, then the trailing gap or the overrun message. -/
def checkTrack (env : Env) (stretch f : Fraction) (useGapRests : Bool)
    (st : Measure × List Diag) (track : Nat) : Measure × List Diag :=
  let r := walk env track stretch useGapRests st.1.segs 0 st.1 st.2
  let expectedPos := r.2.2
  if f > expectedPos then
    if expectedPos ≠ 0 then
      (fillGap env r.1 expectedPos (f - expectedPos) track stretch env.fillGapDefault, r.2.1)
    else (r.1, r.2.1)
  else if f < expectedPos then (r.1, r.2.1 ++ [Diag.measureOverrun track])
  else (r.1, r.2.1)

/-- Method `Measure::checkMeasure` (check.cpp 254-305): the measure after the
check and the messages it reported. -/
def checkMeasure (env : Env) (sc : Score) (m : Measure) (staffIdx : Nat) (useGapRests : Bool) :
    Measure × List Diag :=
  if m.isMMRest then (m, [])
  else
    let strack := staffIdx * VOICES
    let dtrack := strack + (if m.hasVoices staffIdx then VOICES else 1)
    let stretch := sc.timeStretch staffIdx m.tick
    let f := m.ticks * stretch
    (List.range' strack (dtrack - strack)).foldl (checkTrack env stretch f useGapRests) (m, [])

/-! ## The sanity check -/

/-- Modelled from the spec: `DurationElement::actualTicks` is not in src.  The
actual tick length of an element after tuplet and stretch scaling: its length
divided by the ratios of its tuplets and by the time stretch of its staff at
its tick. -/
def actualTicks (sc : Score) (m : Measure) (staffIdx : Nat) (seg : Segment) (cr : ChordRest) :
    Fraction :=
  cr.ticks / cr.ratio / sc.timeStretch staffIdx (m.tick + seg.rtick)

/-- Locals of one staff round of `Score::sanityCheck`: the array `voices` and
`fmrest0`, the full measure rest of voice 0, kept as the index of its segment
in the chain. -/
structure Scan where
  voices : Nat → Fraction
  fmrest0 : Option Nat

/-- Body of the voice loop of `Score::sanityCheck` (check.cpp 127-137) for the
segment `seg` at index `idx` of the chain. -/
def scanVoice (sc : Score) (m : Measure) (staffIdx : Nat) (seg : Segment) (idx : Nat)
    (acc : Scan) (v : Nat) : Scan :=
  match seg.element (staffIdx * VOICES + v) with
  | none => acc
  | some cr =>
    { voices := Function.update acc.voices v (acc.voices v + actualTicks sc m staffIdx seg cr)
      fmrest0 := if v = 0 ∧ cr.isRest = true ∧ cr.durationType.isMeasure = true then some idx
        else acc.fmrest0 }

/-- The segment loop of `Score::sanityCheck` (check.cpp 125-139); `idx` is the
index of the head of the chain still to scan. -/
def scanSegs (sc : Score) (m : Measure) (staffIdx : Nat) : List Segment → Nat → Scan → Scan
  | [], _, acc => acc
  | seg :: rest, idx, acc =>
    scanSegs sc m staffIdx rest (idx + 1)
      ((List.range VOICES).foldl (scanVoice sc m staffIdx seg idx) acc)

/-- Call `Rest::setTicks(len)` on the element in slot `track` of the segment at
index `idx` of the chain. -/
def setTicksAt (track : Nat) (len : Fraction) : Nat → List Segment → List Segment
  | _, [] => []
  | 0, s :: rest =>
    (match s.element track with
      | some cr => s.setElement track { cr with ticks := len }
      | none => s) :: rest
  | idx + 1, s :: rest => s :: setTicksAt track len idx rest

/-- Error lines of `Score::sanityCheck`: "Measure %1, staff %2 incomplete.
Expected: %3; Found: %4" and "Measure %1, staff %2, voice %3 too long.
Expected: %4; Found: %5". -/
inductive SanityMsg
  | incomplete (measureNo staffNo : Nat) (expected found : Fraction)
  | tooLong (measureNo staffNo voiceNo : Nat) (expected found : Fraction)
  deriving DecidableEq, Repr

/-- Body of the loop over voices 1..VOICES-1 (check.cpp 158-169). -/
def checkUpperVoice (mNumber staffIdx : Nat) (mLen : Fraction) (scan : Scan)
    (st : Measure × List SanityMsg × Bool) (v : Nat) : Measure × List SanityMsg × Bool :=
  if scan.voices v > mLen then
    (st.1, st.2.1 ++ [SanityMsg.tooLong mNumber (staffIdx + 1) (v + 1) mLen (scan.voices v)], false)
  else st

/-- Body of the staff loop of `Score::sanityCheck` (check.cpp 119-170): the
state is the measure, the text `error` and `result`. -/
def sanityStaff (sc : Score) (mNumber : Nat) (st : Measure × List SanityMsg × Bool)
    (staffIdx : Nat) : Measure × List SanityMsg × Bool :=
  let m := st.1
  let mLen := m.ticks
  let scan := scanSegs sc m staffIdx m.segs 0 { voices := fun _ => 0, fmrest0 := none }
  let st1 : Measure × List SanityMsg × Bool :=
    if scan.voices 0 ≠ mLen then
      ((match scan.fmrest0 with
        | some idx => { m with segs := setTicksAt (staffIdx * VOICES) mLen idx m.segs }
        | none => m),
       st.2.1 ++ [SanityMsg.incomplete mNumber (staffIdx + 1) mLen (scan.voices 0)], false)
    else st
  (List.range' 1 (VOICES - 1)).foldl (checkUpperVoice mNumber staffIdx mLen scan) st1

/-- The measure loop of `Score::sanityCheck` (check.cpp 116-172): the measures
still to check, `mNumber`, `error` and `result`; it returns the measures after
the check with the final `error` and `result`. -/
def sanityMeasures (sc : Score) :
    List Measure → Nat → List SanityMsg → Bool → List Measure × List SanityMsg × Bool
  | [], _, error, result => ([], error, result)
  | m :: rest, mNumber, error, result =>
    let r := (List.range sc.nstaves).foldl (sanityStaff sc mNumber) (m, error, result)
    let r2 := sanityMeasures sc rest (mNumber + 1) r.2.1 r.2.2
    (r.1 :: r2.1, r2.2.1, r2.2.2)

/-- What a call of `Score::sanityCheck` leaves: the returned value, the score,
`MScore::lastError` and the JSON object written to the file, if any (its
`result` is 0 for `true`, and `error` is present when it is 1). -/
structure SanityOutcome where
  result : Bool
  score : Score
  lastError : List SanityMsg
  json : Option (Bool × List SanityMsg)

/-- Method `Score::sanityCheck` (check.cpp 111-193).  `canOpen` tells whether
the file `name` can be opened for writing and `lastError` is
`MScore::lastError` before the call. -/
def sanityCheck (sc : Score) (name : String) (canOpen : Bool) (lastError : List SanityMsg) :
    SanityOutcome :=
  let r := sanityMeasures sc sc.measures 1 [] true
  let sc1 : Score := { sc with measures := r.1 }
  if !name.isEmpty then
    if !canOpen then
      { result := false, score := sc1, lastError := lastError, json := none }
    else
      { result := r.2.2, score := sc1, lastError := lastError,
        json := some (r.2.2, if r.2.2 then [] else r.2.1) }
  else
    { result := r.2.2, score := sc1, lastError := r.2.1, json := none }

/-! ## Concrete inputs -/

/-- A duration table that accepts every length: the greatest plain note value
not longer than `len`, the rest of the length going into dots. -/
def dottedSetVal (len : Fraction) : DurationType :=
  if len = 0 then DurationType.V_MEASURE
  else if 1 ≤ len then DurationType.V_WHOLE
  else if 1 / 2 ≤ len then DurationType.V_HALF
  else if 1 / 4 ≤ len then DurationType.V_QUARTER
  else if 1 / 8 ≤ len then DurationType.V_EIGHTH
  else DurationType.V_16TH

/-- Environment with the table `dottedSetVal` and `d` as default of `fillGap`. -/
def dottedEnv (d : Bool) : Env := { setVal := dottedSetVal, fillGapDefault := d }

/-- A chord of length `len` outside tuplets. -/
def chord (len : Fraction) (d : DurationType) : ChordRest :=
  { ticks := len, isRest := false, durationType := d, gap := false, topTuplet := none,
    ratio := 1 }

/-- A visible rest of length `len` and duration type `d` outside tuplets. -/
def plainRest (len : Fraction) (d : DurationType) : ChordRest :=
  { ticks := len, isRest := true, durationType := d, gap := false, topTuplet := none,
    ratio := 1 }

/-- A score of one staff without time stretch. -/
def oneStaff (ms : List Measure) : Score :=
  { nstaves := 1, timeStretch := fun _ _ => 1, measures := ms }

/-- A 4/4 measure at tick 0 with the chain `segs`, no staff having voices. -/
def measure44 (segs : List Segment) : Measure :=
  { tick := 0, ticks := 1, isMMRest := false, hasVoices := fun _ => false, segs := segs }

/-- Scenario A: voice 0 holds a quarter rest at tick 0 and nothing else. -/
def scenarioA : Measure :=
  measure44 [Segment.single 0 0 (plainRest (1 / 4) DurationType.V_QUARTER)]

/-- Voice 0 holds a single chord of length 5/8 at tick 3/8: the gap in front of
it has length 3/8. -/
def lateChord : Measure :=
  measure44 [Segment.single (3 / 8) 0 (chord (5 / 8) DurationType.V_HALF)]

/-- Voice 0 holds a dotted half chord at tick 1/4 and a quarter chord at tick
1/2, inside the first chord. -/
def overlapping : Measure :=
  measure44 [Segment.single (1 / 4) 0 (chord (3 / 4) DurationType.V_HALF),
    Segment.single (1 / 2) 0 (chord (1 / 4) DurationType.V_QUARTER)]

/-- The triplet of scenario B: it occupies [0, 1/2). -/
def triplet : Tuplet := { id := 1, ticks := 1 / 2 }

/-- A member of `triplet`: nominal length 1/4, ratio 3/2, actual length 1/6. -/
def tripletChord : ChordRest :=
  { ticks := 1 / 4, isRest := false, durationType := DurationType.V_QUARTER, gap := false,
    topTuplet := some triplet, ratio := 3 / 2 }

/-- Scenario B: the three members of `triplet` at ticks 0, 1/6 and 1/3,
followed by a half chord at tick 1/2. -/
def scenarioB : Measure :=
  measure44 [Segment.single 0 0 tripletChord, Segment.single (1 / 6) 0 tripletChord,
    Segment.single (1 / 3) 0 tripletChord,
    Segment.single (1 / 2) 0 (chord (1 / 2) DurationType.V_HALF)]

/-! ## What the sanity check is compared with -/

/-- Actual length of what the segment holds in voice `v` of staff `staffIdx`,
0 for an empty slot. -/
def voiceTicks (sc : Score) (m : Measure) (staffIdx v : Nat) (seg : Segment) : Fraction :=
  match seg.element (staffIdx * VOICES + v) with
  | some cr => actualTicks sc m staffIdx seg cr
  | none => 0

/-- Occupied duration of voice `v` of staff `staffIdx` in measure `m`: the sum of
the actual lengths of the ChordRest elements of that track. -/
def voiceSum (sc : Score) (m : Measure) (staffIdx v : Nat) : Fraction :=
  (m.segs.map (voiceTicks sc m staffIdx v)).sum

/-- Whether the segment holds in voice 0 of staff `staffIdx` a rest whose
duration type is the full measure. -/
def Segment.fmRest0 (staffIdx : Nat) (seg : Segment) : Bool :=
  match seg.element (staffIdx * VOICES) with
  | some cr => cr.isRest && cr.durationType.isMeasure
  | none => false

/-- Index in the chain of the last segment holding a full measure rest in
voice 0 of staff `staffIdx`. -/
def lastFMRest (staffIdx : Nat) : List Segment → Option Nat
  | [] => none
  | seg :: rest =>
    match lastFMRest staffIdx rest with
    | some i => some (i + 1)
    | none => if seg.fmRest0 staffIdx then some 0 else none

/-- Set to `len` the length of the element in slot `t` of the segment of index
`i`, for the slots picked by `pick`; `base` is the index of the head of the
chain. -/
def repairSegs (pick : Nat → Nat → Bool) (len : Fraction) : List Segment → Nat → List Segment
  | [], _ => []
  | seg :: rest, base =>
    { seg with element := fun t =>
        if pick base t then (seg.element t).map (fun cr => { cr with ticks := len })
        else seg.element t } :: repairSegs pick len rest (base + 1)

/-- The slots whose element is set to the measure length on account of a staff
below `n`: voice 0 of such a staff whose voice 0 does not add up to the length
of the measure, in the last segment of the chain that holds a full measure
rest in that voice. -/
def repairedBelow (sc : Score) (m : Measure) (n i t : Nat) : Bool :=
  decide (t % VOICES = 0 ∧ t / VOICES < n ∧
    voiceSum sc m (t / VOICES) 0 ≠ m.ticks ∧ lastFMRest (t / VOICES) m.segs = some i)

/-- The slots whose element `Score::sanityCheck` sets to the measure length:
those of `repairedBelow` for the staves of the score. -/
def repaired (sc : Score) (m : Measure) (i t : Nat) : Bool :=
  repairedBelow sc m sc.nstaves i t

/-- What `Score::sanityCheck` demands of staff `staffIdx` in measure `m`: voice 0
adds up to the length of the measure and no other voice is longer. -/
def staffOk (sc : Score) (m : Measure) (staffIdx : Nat) : Prop :=
  voiceSum sc m staffIdx 0 = m.ticks ∧
    ∀ v, 1 ≤ v → v < VOICES → voiceSum sc m staffIdx v ≤ m.ticks

/-- The measure as `Score::sanityCheck` leaves it. -/
def repairedMeasure (sc : Score) (m : Measure) : Measure :=
  { m with segs := repairSegs (repaired sc m) m.ticks m.segs 0 }

/-- A full measure rest of length 1/2 followed by a quarter chord at tick 1/2:
voice 0 adds up to 3/4 in a 4/4 measure. -/
def mixedVoice : Measure :=
  measure44 [Segment.single 0 0 (plainRest (1 / 2) DurationType.V_MEASURE),
    Segment.single (1 / 2) 0 (chord (1 / 4) DurationType.V_QUARTER)]

/-- A full measure rest of length 5/4 alone in voice 0 of a 4/4 measure. -/
def longRest : Measure :=
  measure44 [Segment.single 0 0 (plainRest (5 / 4) DurationType.V_MEASURE)]

/-! ## The content of a track -/

/-- Content of track `t` in chain order: the tick and the element of every
segment that holds an element on the track. -/
def trackView (t : Nat) (segs : List Segment) : List (Fraction × ChordRest) :=
  segs.filterMap (fun seg => (seg.element t).map (fun cr => (seg.rtick, cr)))

/-- The function `skipTuplet` on the content of a track: what follows the last
member of `tuplet`. -/
def skipV (tuplet : Tuplet) : List (Fraction × ChordRest) → List (Fraction × ChordRest)
  | [] => []
  | p :: rest =>
    if (p :: rest).any (fun q => decide (q.2.topTuplet = some tuplet)) then skipV tuplet rest
    else p :: rest

/-- The function `resume` on the content of a track. -/
def resumeV (cr : ChordRest) (rest : List (Fraction × ChordRest)) :
    List (Fraction × ChordRest) :=
  match cr.topTuplet with
  | some tuplet => skipV tuplet rest
  | none => rest

/-- Sum of the lengths of the elements after tuplet scaling
(`DurationElement::globalTicks`). -/
def globalSum (v : List (Fraction × ChordRest)) : Fraction :=
  (v.map (fun p => p.2.ticks / p.2.ratio)).sum

/-- A voice the walk can account for, with time stretch `s`: what the walk
meets has a positive length (`deTicks`), and the element met together with the
elements `run` that the walk skips behind it (the further members of its
tuplet; nothing outside tuplets) have global lengths adding up to that length
and start before its end. -/
inductive RegularV (s : Fraction) : List (Fraction × ChordRest) → Prop
  | nil : RegularV s []
  | step (p : Fraction × ChordRest) (run tail : List (Fraction × ChordRest)) :
      resumeV p.2 (run ++ tail) = tail → 0 < p.2.deTicks →
      globalSum (p :: run) = p.2.deTicks →
      (∀ q ∈ run, q.1 * s < p.1 * s + p.2.deTicks) →
      RegularV s tail → RegularV s (p :: (run ++ tail))

/-- What the walk may skip behind an element `cr`: nothing outside tuplets,
and for a member of a tuplet nothing or a run that ends with a member of the
tuplet. -/
def SkipOk (cr : ChordRest) (run : List (Fraction × ChordRest)) : Prop :=
  match cr.topTuplet with
  | none => run = []
  | some tuplet => run = [] ∨ ∃ init last, run = init ++ [last] ∧ last.2.topTuplet = some tuplet

/-- No element of `v` belongs to the outermost tuplet of `cr`. -/
def NoMember (cr : ChordRest) (v : List (Fraction × ChordRest)) : Prop :=
  match cr.topTuplet with
  | none => True
  | some tuplet => ∀ q ∈ v, q.2.topTuplet ≠ some tuplet

/-- The walk with time stretch `s`, started with `expectedPos = e0` on the
content `walked ++ ahead`, finds every element it meets in `walked` at its
expected position and arrives at `ahead` with `expectedPos = e`. -/
inductive ReachV (s : Fraction) :
    List (Fraction × ChordRest) → List (Fraction × ChordRest) → Fraction → Fraction → Prop
  | nil (ahead : List (Fraction × ChordRest)) (e : Fraction) : ReachV s [] ahead e e
  | step (p : Fraction × ChordRest) (run walked ahead : List (Fraction × ChordRest))
      (e0 e : Fraction) :
      p.1 * s = e0 → SkipOk p.2 run → NoMember p.2 (walked ++ ahead) →
      ReachV s walked ahead (e0 + p.2.deTicks) e → ReachV s (p :: (run ++ walked)) ahead e0 e

/-- The chain is in strictly increasing tick order. -/
def ChainSorted (segs : List Segment) : Prop :=
  segs.Pairwise (fun a b => a.rtick < b.rtick)

/-- Invariant of the walk of track `t` with time stretch `s`: the chain is
sorted, and the content of the track is a part that the walk has passed,
finding every element at its expected position, followed by the content
`ahead` still to walk; the global lengths of the passed part add up to
`expectedPos = e`, and every element of that part starts before `e`. -/
def WalkInv (s : Fraction) (t : Nat) (segs : List Segment)
    (ahead : List (Fraction × ChordRest)) (e : Fraction) : Prop :=
  ChainSorted segs ∧ ∃ P, trackView t segs = P ++ ahead ∧ ReachV s P ahead 0 e ∧
    globalSum P = e ∧ (∀ p ∈ P, p.1 * s < e) ∧ 0 ≤ e ∧ (P ≠ [] → 0 < e)

/-- Voice 0 of the staff is empty and voice 1 holds a whole chord at tick 0. -/
def upperVoiceOnly : Measure :=
  { tick := 0, ticks := 1, isMMRest := false, hasVoices := fun _ => true,
    segs := [Segment.single 0 1 (chord 1 DurationType.V_WHOLE)] }

/-! ## The whole check -/

/-- The overrun messages of `Measure::checkMeasure`. -/
def Diag.isOverrun : Diag → Bool
  | Diag.inMeasureOverrun _ => true
  | Diag.inMeasureUnderrun _ => false
  | Diag.measureOverrun _ => true

/-- The tracks that `Measure::checkMeasure` walks for staff `j` (check.cpp
260-265): `strack` to `dtrack - 1`. -/
def staffTracks (m : Measure) (j : Nat) : List Nat :=
  List.range' (j * VOICES) (if m.hasVoices j then VOICES else 1)

/-- One staff of the measure check: `checkMeasure` on the measure reached so
far, its messages added to those so far. -/
def checkStaff (env : Env) (sc : Score) (u : Bool) (st : Measure × List Diag) (j : Nat) :
    Measure × List Diag :=
  ((checkMeasure env sc st.1 j u).1, st.2 ++ (checkMeasure env sc st.1 j u).2)

/-- Method `Measure::checkMeasure` run on every staff of the score for one
measure. -/
def checkAllStaves (env : Env) (sc : Score) (u : Bool) (m : Measure) : Measure × List Diag :=
  (List.range sc.nstaves).foldl (checkStaff env sc u) (m, [])

/-- Method `Measure::checkMeasure` run on every measure and every staff of the
score: the score it leaves and the messages it reports. -/
def checkAll (env : Env) (sc : Score) (u : Bool) : Score × List Diag :=
  ({ sc with measures := sc.measures.map (fun m => (checkAllStaves env sc u m).1) },
   (sc.measures.map (fun m => (checkAllStaves env sc u m).2)).flatten)

/-- Modelled from the spec: `runConsistencyCheck` is not in src.  The whole
check of the diagnostic interface: `Measure::checkMeasure` on every measure
and staff, then `Score::sanityCheck`; it gives the outcome of the sanity check
and the messages of the measure check. -/
def runConsistencyCheck (env : Env) (sc : Score) (u : Bool) (name : String) (canOpen : Bool)
    (lastError : List SanityMsg) : SanityOutcome × List Diag :=
  (sanityCheck (checkAll env sc u).1 name canOpen lastError, (checkAll env sc u).2)

/-- A track the measure check has nothing to do on, with time stretch `s` and
scaled measure length `f`: it is empty, or its content is found entirely at
the expected positions from 0 to `f`. -/
def Settled (s f : Fraction) (t : Nat) (segs : List Segment) : Prop :=
  trackView t segs = [] ∨ ReachV s (trackView t segs) [] 0 f

/-- A staff of a measure the measure check has nothing to do on: the measure is
a multi-measure rest, or every track walked for the staff is settled. -/
def StaffSettled (sc : Score) (m : Measure) (j : Nat) : Prop :=
  m.isMMRest = true ∨
    ∀ t ∈ staffTracks m j,
      Settled (sc.timeStretch j m.tick) (m.ticks * sc.timeStretch j m.tick) t m.segs

/-- The measure `longRest` with the length of its rest set to 4/4. -/
def longRestFixed : Measure :=
  measure44 [Segment.single 0 0 (plainRest 1 DurationType.V_MEASURE)]


/-! ## The report of the sanity check -/

/-- The lines that the report of `Score::sanityCheck` holds for staff `staffIdx`
of measure `m`, numbered `mNumber`: one for voice 0 if it does not add up to the
length of the measure, then one for each voice 1..VOICES-1 that is longer;
staves and voices are numbered from 1. -/
def staffReport (sc : Score) (m : Measure) (mNumber staffIdx : Nat) : List SanityMsg :=
  (if voiceSum sc m staffIdx 0 ≠ m.ticks then
      [SanityMsg.incomplete mNumber (staffIdx + 1) m.ticks (voiceSum sc m staffIdx 0)]
    else []) ++
  ((List.range' 1 (VOICES - 1)).filter (fun v => decide (voiceSum sc m staffIdx v > m.ticks))).map
    (fun v => SanityMsg.tooLong mNumber (staffIdx + 1) (v + 1) m.ticks (voiceSum sc m staffIdx v))

/-- The lines of the report for the staves below `n` of measure `m`, in the
order of the staves. -/
def measureReport (sc : Score) (m : Measure) (mNumber n : Nat) : List SanityMsg :=
  ((List.range n).map (staffReport sc m mNumber)).flatten

/-- The lines of the report for the measures `ms`, the first of them numbered
`mNumber`, in the order of the chain. -/
def scoreReport (sc : Score) : List Measure → Nat → List SanityMsg
  | [], _ => []
  | m :: rest, mNumber => measureReport sc m mNumber sc.nstaves ++ scoreReport sc rest (mNumber + 1)

/-! ## Writing the score: `scorefile.cpp` -/

namespace Scorefile

/-- Segment types that `Score::writeSegments` tells apart. -/
inductive SegmentType
  | KeySig
  | TimeSig
  | ChordRest
  | EndBarLine
  | Other
  deriving DecidableEq, Repr

/-- What `Score::writeSegments` reads of an element, be it the principal
element of a segment or one of its annotations: `track()`, `generated()`,
`systemFlag()`, `isChordRest()`, and `isRest() && toRest(e)->isGap()`; `id`
tells the elements apart. -/
structure EngravingItem where
  id : Nat
  track : Int
  generated : Bool
  systemFlag : Bool
  isChordRest : Bool
  isGapRest : Bool
  deriving DecidableEq, Repr

/-- Values of `Spanner::Anchor`. -/
inductive Anchor
  | SEGMENT
  | MEASURE
  | CHORD
  | NOTE
  deriving DecidableEq, Repr

/-- What `Score::writeSegments` reads of a spanner; `track2` is -1 when no end
track is recorded. -/
structure Spanner where
  id : Nat
  tick : Fraction
  tick2 : Fraction
  track : Int
  track2 : Int
  generated : Bool
  isSlur : Bool
  isVolta : Bool
  anchor : Anchor
  deriving DecidableEq

/-- Modelled from the spec: `Spanner::effectiveTrack2` is not in src.  The track
matching for the end anchor uses the end track that the spanner records, and
its start track when it records none (-1), as the last loop of
`Score::writeSegments` spells out. -/
def Spanner.effectiveTrack2 (s : Spanner) : Int :=
  if s.track2 = -1 then s.track else s.track2

/-- A position as `Location` holds it: a tick and a track. -/
structure Location where
  frac : Fraction
  track : Int
  deriving DecidableEq

/-- Modelled from the spec: `Location::toRelative` is not in src.  The relative
move descriptor is the difference of tick and of track against the reference
position. -/
def Location.toRelative (dest curr : Location) : Location :=
  { frac := dest.frac - curr.frac, track := dest.track - curr.track }

/-- What the writer receives, call by call.  A voice tag carries no track: the
track kept with `voiceOpen` and `voiceClose` is that of the call that wrote the
tag.
* `voiceEmpty`: `xml.tagE("voice")`;
* `voiceOpen`: `xml.stag("voice")`;
* `voiceClose`: the `xml.etag()` that ends a track in `Score::writeSegments`;
* `move`: `dest.write(xml)` of `writeVoiceMove`;
* `barline`: the element of slot `idx` written with track offset `idx` for an
  end bar line segment with an empty slot;
* `annotated`: `e1->write(xml)` of an annotation;
* `spannerStart`, `spannerEnd`: `writeSpannerStart` and `writeSpannerEnd` at a
  segment of the walk, given by its tick;
* `spannerEndLast`: `writeSpannerEnd(xml, lastMeasure(), track, endTick)`;
* `keySig`, `timeSig`: the signatures made up for `forceTimeSig`;
* `tupletStart`, `element`, `tupletEnd`: `writeTupletStart`, `e->write(xml)` of
  the principal element of a segment of the given type, `writeTupletEnd`;
* `segment`: what `segment->write(xml)` writes. -/
inductive Event
  | voiceEmpty
  | voiceOpen (track : Int)
  | voiceClose (track : Int)
  | move (rel : Location)
  | barline (idx : Int) (e : EngravingItem)
  | annotated (e : EngravingItem)
  | spannerStart (s : Spanner) (tick : Fraction) (track : Int)
  | spannerEnd (s : Spanner) (tick : Fraction) (track : Int)
  | spannerEndLast (s : Spanner) (track : Int) (endTick : Fraction)
  | keySig (key : Int)
  | timeSig (sig : Fraction)
  | tupletStart (e : EngravingItem)
  | element (type : SegmentType) (e : EngravingItem)
  | tupletEnd (e : EngravingItem)
  | segment (tick : Fraction)
  deriving DecidableEq

/-- The state of the `XmlWriter` that `scorefile.cpp` reads and sets, with the
calls received so far. -/
structure XmlWriter where
  curTick : Fraction
  curTrack : Int
  clipboardmode : Bool
  out : List Event

/-- Append a call to the output. -/
def XmlWriter.emit (xml : XmlWriter) (ev : Event) : XmlWriter :=
  { xml with out := xml.out ++ [ev] }

/-- What `Score::writeSegments` asks of code that is not in src:
`xml.canWrite(e)` for an element and for a spanner, `xml.canWriteVoice(track)`,
the key `staff(staffIdx)->key(tick)`, the time signature
`sigmap()->timesig(tick).timesig()`, and the tick of the writer after
`e->write(xml)` of a principal element, from the element and the tick before. -/
structure Context where
  canWrite : EngravingItem → Bool
  canWriteSpanner : Spanner → Bool
  canWriteVoice : Int → Bool
  key : Int → Fraction → Int
  timesig : Fraction → Fraction
  tickAfter : EngravingItem → Fraction → Fraction

/-- The loop `while (lastTrackWritten < (track - 1))` of `writeVoiceMove`. -/
def emptyVoices (track : Int) (xml : XmlWriter) (lastTrackWritten : Int) : XmlWriter × Int :=
  if lastTrackWritten < track - 1 then
    emptyVoices track (xml.emit Event.voiceEmpty) (lastTrackWritten + 1)
  else (xml, lastTrackWritten)
termination_by (track - 1 - lastTrackWritten).toNat
decreasing_by omega

/-- Function `writeVoiceMove` (scorefile.cpp 543-575): `segTick` is
`seg->tick()`; it returns the writer, `lastTrackWritten` and
`voiceTagWritten`. -/
def writeVoiceMove (xml : XmlWriter) (segTick startTick : Fraction) (track lastTrackWritten : Int) :
    XmlWriter × Int × Bool :=
  let r : XmlWriter × Int × Bool :=
    if lastTrackWritten < track ∧ xml.clipboardmode = false then
      let w := emptyVoices track xml lastTrackWritten
      ({ w.1.emit (Event.voiceOpen track) with curTick := startTick, curTrack := track },
        w.2 + 1, true)
    else (xml, lastTrackWritten, false)
  if r.1.curTick ≠ segTick ∨ track ≠ r.1.curTrack then
    let curr : Location := { frac := r.1.curTick, track := r.1.curTrack }
    let dest : Location := { frac := segTick, track := track }
    ({ r.1.emit (Event.move (dest.toRelative curr)) with curTick := segTick, curTrack := track },
      r.2.1, r.2.2)
  else r


/-- What `Score::writeSegments` reads of a segment: `tick()`, `segmentType()`,
`enabled()`, whether its measure is a multi-measure rest, the flag `written`,
the principal element of each track and the annotations. -/
structure Segment where
  tick : Fraction
  segmentType : SegmentType
  enabled : Bool
  inMMRest : Bool
  written : Bool
  element : Int → Option EngravingItem
  annotations : List EngravingItem

/-- Modelled from the spec: `Segment::write` is not in src and the spec does not
describe it.  By the comment at its call in `Score::writeSegments` (write only
once) it writes the segment unless the flag `written` is set, and sets the
flag. -/
def Segment.write (seg : Segment) (xml : XmlWriter) : XmlWriter × Segment :=
  if seg.written then (xml, seg)
  else (xml.emit (Event.segment seg.tick), { seg with written := true })

/-- The arguments of `Score::writeSegments` and what it reads of the score,
other than the chain of segments: `ssegTick` is `sseg->tick()`, `esegTick` is
the tick of `eseg` if there is one, `lastMeasureEndTick` is
`lastMeasure()->endTick()` and `sl` is what `spannerMap().findOverlapping`
returns. -/
structure Range where
  strack : Int
  etrack : Int
  ssegTick : Fraction
  esegTick : Option Fraction
  lastMeasureEndTick : Fraction
  writeSystemElements : Bool
  forceTimeSig : Bool
  sl : List Spanner

/-- Local `endTick` of `Score::writeSegments`. -/
def Range.endTick (r : Range) : Fraction :=
  match r.esegTick with
  | some t => t
  | none => r.lastMeasureEndTick

/-- The list `spanners` of `Score::writeSegments` (scorefile.cpp 612-624). -/
def selectSpanners (ctx : Context) (clip : Bool) (sl : List Spanner) : List Spanner :=
  sl.filter (fun s => !(s.generated || !ctx.canWriteSpanner s) && !(clip && s.isVolta))

/-- Locals of the track loop of `Score::writeSegments`, with the writer. -/
structure TrackState where
  xml : XmlWriter
  lastTrackWritten : Int
  voiceTagWritten : Bool
  timeSigWritten : Bool
  crWritten : Bool
  keySigWritten : Bool

/-- Append a call to the output of the writer. -/
def TrackState.emit (st : TrackState) (ev : Event) : TrackState :=
  { st with xml := st.xml.emit ev }

/-- Statement `voiceTagWritten |= writeVoiceMove(xml, segment, startTick, track,
&lastTrackWritten)`. -/
def TrackState.voiceMove (st : TrackState) (segTick startTick : Fraction) (track : Int) :
    TrackState :=
  let r := writeVoiceMove st.xml segTick startTick track st.lastTrackWritten
  { st with xml := r.1, lastTrackWritten := r.2.1,
            voiceTagWritten := st.voiceTagWritten || r.2.2 }

/-- Statement `if (needMove) { voiceTagWritten |= writeVoiceMove(...); needMove
= false; }`: the state comes with `needMove`. -/
def moveIfNeeded (segTick startTick : Fraction) (track : Int) (p : TrackState × Bool) :
    TrackState × Bool :=
  if p.2 then (p.1.voiceMove segTick startTick track, false) else p

/-- The loop `for (int idx = track - VOICES; idx >= 0; idx -= VOICES)` of the
bar line case (scorefile.cpp 652-662): the first slot that holds an element. -/
def findBarLine (seg : Segment) (idx : Int) : Option (Int × EngravingItem) :=
  if 0 ≤ idx then
    match seg.element idx with
    | some e => some (idx, e)
    | none => findBarLine seg (idx - VOICES)
  else none
termination_by (idx + VOICES).toNat
decreasing_by simp only [VOICES]; omega

/-- The bar line case of `Score::writeSegments` (scorefile.cpp 649-663): at an
end bar line segment with no element in the slot of the first voice of a staff,
when system elements are written, the bar line of the nearest staff above that
has one is written. -/
def writeBarLine (r : Range) (seg : Segment) (track : Int) (st : TrackState) : TrackState :=
  if seg.segmentType = SegmentType.EndBarLine ∧ seg.element track = none
      ∧ r.writeSystemElements = true ∧ track % VOICES = 0 then
    match findBarLine seg (track - VOICES) with
    | some (idx, b) => st.emit (Event.barline idx b)
    | none => st
  else st

/-- Body of the loop over the annotations (scorefile.cpp 664-673). -/
def writeAnnotated (r : Range) (seg : Segment) (startTick : Fraction) (track : Int)
    (p : TrackState × Bool) (e1 : EngravingItem) : TrackState × Bool :=
  if e1.track ≠ track ∨ e1.generated = true
      ∨ (e1.systemFlag = true ∧ r.writeSystemElements = false) then p
  else
    let q := moveIfNeeded seg.tick startTick track p
    (q.1.emit (Event.annotated e1), q.2)

/-- Body of the loop over the spanners at a segment (scorefile.cpp 677-704). -/
def writeSpannerEdges (r : Range) (clip : Bool) (seg : Segment) (startTick : Fraction)
    (track : Int) (p : TrackState × Bool) (s : Spanner) : TrackState × Bool :=
  let p1 : TrackState × Bool :=
    if s.track = track then
      let isEnd : Bool :=
        if s.anchor = Anchor.CHORD ∨ s.anchor = Anchor.NOTE then decide (s.tick2 < r.endTick)
        else decide (s.tick2 ≤ r.endTick)
      if s.tick = seg.tick ∧ (clip = false ∨ isEnd = true) ∧ s.isSlur = false then
        let q := moveIfNeeded seg.tick startTick track p
        (q.1.emit (Event.spannerStart s seg.tick track), q.2)
      else p
    else p
  if s.tick2 = seg.tick ∧ s.isSlur = false ∧ s.effectiveTrack2 = track
      ∧ (clip = false ∨ s.tick ≥ r.ssegTick) then
    let q := moveIfNeeded seg.tick startTick track p1
    (q.1.emit (Event.spannerEnd s seg.tick track), q.2)
  else p1

/-- Block of `forceTimeSig` (scorefile.cpp 716-734): the voice tag is opened,
a key signature is made up unless one was written, and a time signature is
made up. -/
def forceSignatures (ctx : Context) (seg : Segment) (startTick : Fraction) (track : Int)
    (st : TrackState) : TrackState :=
  let a := st.voiceMove seg.tick startTick track
  let b : TrackState :=
    if a.keySigWritten = false then
      { a.emit (Event.keySig (ctx.key (track / VOICES) seg.tick)) with keySigWritten := true }
    else a
  { b.emit (Event.timeSig (ctx.timesig seg.tick)) with timeSigWritten := true }

/-- Writing the principal element `e` of the segment (scorefile.cpp 714-763),
once it is known to be written. -/
def writeElement (ctx : Context) (r : Range) (seg : Segment) (startTick : Fraction)
    (track : Int) (p : TrackState × Bool) (e : EngravingItem) : TrackState × Segment :=
  let st4 : TrackState :=
    if r.forceTimeSig = true ∧ track % VOICES = 0 ∧ seg.segmentType = SegmentType.ChordRest
        ∧ p.1.timeSigWritten = false ∧ p.1.crWritten = false then
      forceSignatures ctx seg startTick track p.1
    else p.1
  let st5 : TrackState := if p.2 then st4.voiceMove seg.tick startTick track else st4
  let st6 : TrackState := if e.isChordRest then st5.emit (Event.tupletStart e) else st5
  let st7 : TrackState :=
    { st6 with xml := { st6.xml.emit (Event.element seg.segmentType e) with
                        curTick := ctx.tickAfter e st6.xml.curTick } }
  let st8 : TrackState := if e.isChordRest then st7.emit (Event.tupletEnd e) else st7
  let w : XmlWriter × Segment := if e.isGapRest then (st8.xml, seg) else seg.write st8.xml
  let st9 : TrackState := { st8 with xml := w.1 }
  let st10 : TrackState :=
    if r.forceTimeSig then
      { st9 with
        keySigWritten := st9.keySigWritten || decide (seg.segmentType = SegmentType.KeySig)
        timeSigWritten := st9.timeSigWritten || decide (seg.segmentType = SegmentType.TimeSig)
        crWritten := st9.crWritten || decide (seg.segmentType = SegmentType.ChordRest) }
    else st9
  (st10, w.2)

/-- Body of the segment loop of `Score::writeSegments` (scorefile.cpp 638-764)
for the track `track`; it returns the state and the segment as it is left. -/
def writeSegment (ctx : Context) (r : Range) (clip : Bool) (spanners : List Spanner)
    (startTick : Fraction) (track : Int) (st : TrackState) (seg0 : Segment) :
    TrackState × Segment :=
  if seg0.enabled = false then (st, seg0)
  else
    let seg : Segment := if track = 0 then { seg0 with written := false } else seg0
    let e := seg.element track
    let needMove : Bool := decide (seg.tick ≠ st.xml.curTick ∨ track > st.lastTrackWritten)
    let st1 : TrackState := writeBarLine r seg track st
    let p2 := seg.annotations.foldl (writeAnnotated r seg startTick track) (st1, needMove)
    let p3 : TrackState × Bool :=
      if seg.inMMRest = false ∧ seg.segmentType = SegmentType.ChordRest then
        spanners.foldl (writeSpannerEdges r clip seg startTick track) p2
      else p2
    match e with
    | none => (p3.1, seg)
    | some e =>
      if ctx.canWrite e = false then (p3.1, seg)
      else if e.generated then (p3.1, seg)
      else writeElement ctx r seg startTick track p3 e

/-- The segment loop of `Score::writeSegments` over the chain `segs`, the
segments from `sseg` up to `eseg` as these stand after the adjustment for
multi-measure rests in clipboard mode (scorefile.cpp 590-610). -/
def writeChain (ctx : Context) (r : Range) (clip : Bool) (spanners : List Spanner)
    (startTick : Fraction) (track : Int) : TrackState → List Segment → TrackState × List Segment
  | st, [] => (st, [])
  | st, seg :: rest =>
    let a := writeSegment ctx r clip spanners startTick track st seg
    let b := writeChain ctx r clip spanners startTick track a.1 rest
    (b.1, a.2 :: b.2)

/-- Body of the loop that writes the spanner endings after the last segment
(scorefile.cpp 768-776). -/
def writeLastSpannerEnd (r : Range) (clip : Bool) (track : Int) (st : TrackState)
    (s : Spanner) : TrackState :=
  if s.tick2 = r.endTick ∧ s.isSlur = false
      ∧ (s.track2 = track ∨ (s.track2 = -1 ∧ s.track = track))
      ∧ (clip = false ∨ s.tick ≥ r.ssegTick) then
    st.emit (Event.spannerEndLast s track r.endTick)
  else st

/-- Body of the track loop of `Score::writeSegments` (scorefile.cpp 627-782): the
state is the writer, `lastTrackWritten` and the chain. -/
def writeTrack (ctx : Context) (r : Range) (clip : Bool) (spanners : List Spanner)
    (startTick : Fraction) (acc : XmlWriter × Int × List Segment) (track : Int) :
    XmlWriter × Int × List Segment :=
  if ctx.canWriteVoice track = false then acc
  else
    let st0 : TrackState :=
      { xml := acc.1, lastTrackWritten := acc.2.1, voiceTagWritten := false,
        timeSigWritten := false, crWritten := false, keySigWritten := false }
    let w := writeChain ctx r clip spanners startTick track st0 acc.2.2
    let st1 : TrackState :=
      if clip = true ∨ r.esegTick = none then
        spanners.foldl (writeLastSpannerEnd r clip track) w.1
      else w.1
    let st2 : TrackState :=
      if st1.voiceTagWritten then st1.emit (Event.voiceClose track) else st1
    (st2.xml, st2.lastTrackWritten, w.2)

/-- The tracks `strack`, ..., `etrack - 1` of the track loop. -/
def trackRange (strack etrack : Int) : List Int :=
  (List.range (etrack - strack).toNat).map (fun (k : Nat) => strack + (k : Int))

/-- Method `Score::writeSegments` (scorefile.cpp 583-783) on the chain `segs`;
it returns the writer and the chain as it is left. -/
def writeSegments (ctx : Context) (xml : XmlWriter) (r : Range) (segs : List Segment) :
    XmlWriter × List Segment :=
  let startTick := xml.curTick
  let clip := xml.clipboardmode
  let spanners := selectSpanners ctx clip r.sl
  let res := (trackRange r.strack r.etrack).foldl
    (writeTrack ctx r clip spanners startTick) (xml, r.strack - 1, segs)
  (res.1, res.2.2)

end Scorefile

/-! ## The output of `Score::writeSegments` -/

namespace Scorefile

/-- Whether the call writes a voice tag: empty, opening or closing. -/
def Event.isVoice : Event → Bool
  | Event.voiceEmpty => true
  | Event.voiceOpen _ => true
  | Event.voiceClose _ => true
  | _ => false

/-- Whether the call writes a voice marker: an empty or an opening voice tag. -/
def Event.isMarker : Event → Bool
  | Event.voiceEmpty => true
  | Event.voiceOpen _ => true
  | _ => false

/-- Number of voice markers, empty and opening, in the output. -/
def markerCount (l : List Event) : Nat :=
  l.countP Event.isMarker

/-- Reading the opening and closing voice tags of an output: the state is the
track of the voice tag that is open, if any; reading fails on an opening tag
inside an open one and on a closing tag that does not close the open one. -/
def voiceStep (open_ : Option Int) (ev : Event) : Option (Option Int) :=
  match ev, open_ with
  | Event.voiceOpen t, none => some (some t)
  | Event.voiceOpen _, some _ => none
  | Event.voiceClose t, some u => if t = u then some none else none
  | Event.voiceClose _, none => none
  | _, o => some o

/-- Reading the voice tags of a whole output, from the state `open_`. -/
def voiceRun : Option Int → List Event → Option (Option Int)
  | o, [] => some o
  | o, ev :: rest =>
    match voiceStep o ev with
    | some o1 => voiceRun o1 rest
    | none => none

/-- The opening and closing voice tags of the output are balanced and properly
nested: every opening tag is closed, by the closing tag of its own track, before
the next one opens, and nothing is closed that was not opened. -/
def Balanced (l : List Event) : Prop :=
  voiceRun none l = some none

/-- The voice tags of an output of `Score::writeSegments` called with `strack`:
`VoiceTrace strack l ltw b` tells that the output `l` can be written by empty
markers, opening markers and closing tags in turn, each marker standing for the
track after the one before, from `strack` on; `ltw` is the track of the last
marker and `b` tells that its voice tag is open. -/
inductive VoiceTrace (strack : Int) : List Event → Int → Bool → Prop
  | nil : VoiceTrace strack [] (strack - 1) false
  | other {l : List Event} {ltw : Int} {b : Bool} (ev : Event) :
      VoiceTrace strack l ltw b → ev.isVoice = false → VoiceTrace strack (l ++ [ev]) ltw b
  | empty {l : List Event} {ltw : Int} :
      VoiceTrace strack l ltw false →
        VoiceTrace strack (l ++ [Event.voiceEmpty]) (ltw + 1) false
  | opened {l : List Event} {ltw : Int} :
      VoiceTrace strack l ltw false →
        VoiceTrace strack (l ++ [Event.voiceOpen (ltw + 1)]) (ltw + 1) true
  | closed {l : List Event} {ltw : Int} :
      VoiceTrace strack l ltw true →
        VoiceTrace strack (l ++ [Event.voiceClose ltw]) ltw false

/-- What the filters of `Score::writeSegments` let through: an annotation that
is not generated, and that carries the system flag only if system elements are
written; a principal element that is not generated and that the writer can
write; a spanner of the list `spanners`.  The bar line of another staff and the
signatures made up are written as they come, and a voice tag is not content. -/
def Written (ctx : Context) (r : Range) (spanners : List Spanner) : Event → Prop
  | Event.voiceEmpty => False
  | Event.voiceOpen _ => False
  | Event.voiceClose _ => False
  | Event.move _ => False
  | Event.annotated a =>
      a.generated = false ∧ (a.systemFlag = true → r.writeSystemElements = true)
  | Event.element _ e => e.generated = false ∧ ctx.canWrite e = true
  | Event.spannerStart s _ _ => s ∈ spanners
  | Event.spannerEnd s _ _ => s ∈ spanners
  | Event.spannerEndLast s _ _ => s ∈ spanners
  | _ => True

/-- How the body of the track loop for `track` gets from one state to another:
by writing content that passes the filters, by calls of `writeVoiceMove` for
`track`, and by setting the tick of the writer and the flags of
`forceTimeSig`. -/
inductive Steps (ctx : Context) (r : Range) (spanners : List Spanner) (startTick : Fraction)
    (track : Int) : TrackState → TrackState → Prop
  | refl (st : TrackState) : Steps ctx r spanners startTick track st st
  | emit {st st1 : TrackState} (ev : Event) :
      Steps ctx r spanners startTick track st st1 → Written ctx r spanners ev →
        Steps ctx r spanners startTick track st (st1.emit ev)
  | voiceMove {st st1 : TrackState} (segTick : Fraction) :
      Steps ctx r spanners startTick track st st1 →
        Steps ctx r spanners startTick track st (st1.voiceMove segTick startTick track)
  | frame {st st1 : TrackState} (st2 : TrackState) :
      Steps ctx r spanners startTick track st st1 →
        st2.xml.out = st1.xml.out → st2.xml.clipboardmode = st1.xml.clipboardmode →
        st2.lastTrackWritten = st1.lastTrackWritten →
        st2.voiceTagWritten = st1.voiceTagWritten →
        Steps ctx r spanners startTick track st st2

end Scorefile

namespace Scorefile

/-- What holds of the voice tags between two statements of the body of the
track loop for `track`: `new` is the output of the call of
`Score::writeSegments` so far.  Either no voice tag was written for the track,
and the last marker stands for a track before it, or the voice tag of the track
is open and is the last marker. -/
def VoiceInv (strack track : Int) (st : TrackState) (new : List Event) : Prop :=
  (st.voiceTagWritten = false ∧ st.lastTrackWritten < track
      ∧ VoiceTrace strack new st.lastTrackWritten false)
    ∨ (st.voiceTagWritten = true ∧ st.lastTrackWritten = track
      ∧ VoiceTrace strack new track true)

end Scorefile

/-! ## Concrete inputs for the writer -/

namespace Scorefile

/-- A context whose writer lets every element, spanner and voice through, with
the key D major (two sharps) and the time signature 4/4 everywhere, and with
element writes that leave the tick of the writer alone. -/
def plainContext : Context :=
  { canWrite := fun _ => true, canWriteSpanner := fun _ => true, canWriteVoice := fun _ => true,
    key := fun _ _ => 2, timesig := fun _ => 1, tickAfter := fun _ t => t }

/-- A writer at tick `tick` and track `track` that has written nothing. -/
def freshWriter (tick : Fraction) (track : Int) (clip : Bool) : XmlWriter :=
  { curTick := tick, curTrack := track, clipboardmode := clip, out := [] }

/-- A chord of the given track. -/
def chordItem (id : Nat) (track : Int) : EngravingItem :=
  { id := id, track := track, generated := false, systemFlag := false, isChordRest := true,
    isGapRest := false }

/-- An enabled segment of an ordinary measure that holds `e` in the slot of its
track and nothing else. -/
def segmentOf (type : SegmentType) (tick : Fraction) (e : EngravingItem) : Segment :=
  { tick := tick, segmentType := type, enabled := true, inMMRest := false, written := false,
    element := fun t => if t = e.track then some e else none, annotations := [] }

/-- A call for the tracks `strack` to `etrack - 1` from tick 0 to the end of the
score at tick `endTick`, with no end segment. -/
def plainRange (strack etrack : Int) (endTick : Fraction) (sl : List Spanner) : Range :=
  { strack := strack, etrack := etrack, ssegTick := 0, esegTick := none,
    lastMeasureEndTick := endTick, writeSystemElements := true, forceTimeSig := false, sl := sl }

end Scorefile

/-! ## The content that `Score::writeSegments` writes at a segment -/

namespace Scorefile

/-- Whether the call writes content: anything but a voice tag or a move. -/
def Event.isContent : Event → Bool
  | Event.voiceEmpty => false
  | Event.voiceOpen _ => false
  | Event.voiceClose _ => false
  | Event.move _ => false
  | _ => true

/-- The content of an output: what is left without the voice tags and the
moves. -/
def content (l : List Event) : List Event :=
  l.filter Event.isContent

/-- The bar line that the bar line case writes at the segment for `track`. -/
def barLineContent (r : Range) (seg : Segment) (track : Int) : List Event :=
  if seg.segmentType = SegmentType.EndBarLine ∧ seg.element track = none
      ∧ r.writeSystemElements = true ∧ track % VOICES = 0 then
    match findBarLine seg (track - VOICES) with
    | some (idx, b) => [Event.barline idx b]
    | none => []
  else []

/-- The annotations of the segment that are written for `track`: those of the
track that are not generated and that carry no system flag unless system
elements are written, in the order of the list. -/
def annotatedContent (r : Range) (seg : Segment) (track : Int) : List Event :=
  (seg.annotations.filter (fun e1 =>
    !(decide (e1.track ≠ track) || e1.generated || (e1.systemFlag && !r.writeSystemElements)))).map
    Event.annotated

/-- The markers of the spanner `s` that are written at the segment for `track`:
the start marker, then the end marker, each under the condition of
`Score::writeSegments` (scorefile.cpp 679-703). -/
def spannerEdgesAt (r : Range) (clip : Bool) (seg : Segment) (track : Int) (s : Spanner) :
    List Event :=
  (if s.track = track ∧ s.tick = seg.tick
        ∧ (clip = false ∨
          (if s.anchor = Anchor.CHORD ∨ s.anchor = Anchor.NOTE then decide (s.tick2 < r.endTick)
            else decide (s.tick2 ≤ r.endTick)) = true)
        ∧ s.isSlur = false then
      [Event.spannerStart s seg.tick track]
    else []) ++
  (if s.tick2 = seg.tick ∧ s.isSlur = false ∧ s.effectiveTrack2 = track
        ∧ (clip = false ∨ s.tick ≥ r.ssegTick) then
      [Event.spannerEnd s seg.tick track]
    else [])

/-- What is written with the principal element `e` of the segment, with the
flags `timeSigWritten`, `crWritten` and `keySigWritten` as they stand: the
signatures made up for `forceTimeSig`, the element between the start and the
end of its tuplet, and the segment. -/
def elementContent (ctx : Context) (r : Range) (seg : Segment) (track : Int)
    (timeSigWritten crWritten keySigWritten : Bool) (e : EngravingItem) : List Event :=
  (if r.forceTimeSig = true ∧ track % VOICES = 0 ∧ seg.segmentType = SegmentType.ChordRest
        ∧ timeSigWritten = false ∧ crWritten = false then
      (if keySigWritten = false then [Event.keySig (ctx.key (track / VOICES) seg.tick)] else [])
        ++ [Event.timeSig (ctx.timesig seg.tick)]
    else []) ++
  (if e.isChordRest then [Event.tupletStart e] else []) ++
  [Event.element seg.segmentType e] ++
  (if e.isChordRest then [Event.tupletEnd e] else []) ++
  (if e.isGapRest = true ∨ seg.written = true then [] else [Event.segment seg.tick])

/-- What is written with the principal element of the segment for `track`, if
it has one that is written: one that the writer can write and that is not
generated. -/
def principalContent (ctx : Context) (r : Range) (seg : Segment) (track : Int)
    (timeSigWritten crWritten keySigWritten : Bool) : List Event :=
  match seg.element track with
  | none => []
  | some e =>
    if ctx.canWrite e = false ∨ e.generated = true then []
    else elementContent ctx r seg track timeSigWritten crWritten keySigWritten e

/-- The content that the body of the segment loop writes at the segment for
`track`, in the order in which it is written: the bar line of a staff above,
the annotations, the spanner markers, and what comes with the principal
element. -/
def segmentContent (ctx : Context) (r : Range) (clip : Bool) (spanners : List Spanner)
    (track : Int) (st : TrackState) (seg0 : Segment) : List Event :=
  if seg0.enabled = false then []
  else
    let seg : Segment := if track = 0 then { seg0 with written := false } else seg0
    barLineContent r seg track ++ annotatedContent r seg track ++
    (if seg.inMMRest = false ∧ seg.segmentType = SegmentType.ChordRest then
        spanners.flatMap (spannerEdgesAt r clip seg track)
      else []) ++
    principalContent ctx r seg track st.timeSigWritten st.crWritten st.keySigWritten

/-- The two states agree on the flags of `forceTimeSig`. -/
def SameFlags (a b : TrackState) : Prop :=
  a.timeSigWritten = b.timeSigWritten ∧ a.crWritten = b.crWritten
    ∧ a.keySigWritten = b.keySigWritten

end Scorefile

namespace Scorefile

/-- A spanner over two staves: from tick 10 on track 0 to tick 50 on track 4. -/
def crossStaff : Spanner :=
  { id := 1, tick := 10, tick2 := 50, track := 0, track2 := 4, generated := false,
    isSlur := false, isVolta := false, anchor := Anchor.SEGMENT }

/-- Two ChordRest segments, at tick 10 with a chord on track 0 and at tick 50
with a chord on track 4. -/
def crossStaffSegments : List Segment :=
  [segmentOf SegmentType.ChordRest 10 (chordItem 1 0),
    segmentOf SegmentType.ChordRest 50 (chordItem 2 4)]

/-- Whether the call writes a spanner marker at a segment. -/
def Event.isEdge : Event → Bool
  | Event.spannerStart _ _ _ => true
  | Event.spannerEnd _ _ _ => true
  | _ => false

end Scorefile

namespace Scorefile

/-- The state in which the track loop of a call on `freshWriter 0 0 false` with
`strack` 0 starts its first track. -/
def freshState : TrackState :=
  { xml := freshWriter 0 0 false, lastTrackWritten := -1, voiceTagWritten := false,
    timeSigWritten := false, crWritten := false, keySigWritten := false }

end Scorefile

namespace Scorefile

/-- A spanner of track 0 from tick 0 to tick 1 that records no end track. -/
def endingSpanner : Spanner :=
  { id := 2, tick := 0, tick2 := 1, track := 0, track2 := -1, generated := false,
    isSlur := false, isVolta := false, anchor := Anchor.SEGMENT }

/-- A call for track 0 from tick 0 up to an end segment at tick 1, outside
clipboard mode, with `endingSpanner` returned by the overlap query. -/
def rangeToSegment : Range :=
  { plainRange 0 1 1 [endingSpanner] with esegTick := some 1 }

/-- The test of the loop that writes the spanner endings after the last segment
(scorefile.cpp 769-773). -/
def endsAtRangeEnd (r : Range) (clip : Bool) (track : Int) (s : Spanner) : Bool :=
  decide (s.tick2 = r.endTick ∧ s.isSlur = false
    ∧ (s.track2 = track ∨ (s.track2 = -1 ∧ s.track = track))
    ∧ (clip = false ∨ s.tick ≥ r.ssegTick))

end Scorefile

namespace Scorefile

/-- A call that writes track 0 of a selection starting at tick 4, with
`forceTimeSig` set. -/
def selectionRange : Range :=
  { strack := 0, etrack := 1, ssegTick := 4, esegTick := none, lastMeasureEndTick := 8,
    writeSystemElements := true, forceTimeSig := true, sl := [] }

/-- A time signature element of track 0. -/
def timeSigItem : EngravingItem :=
  { id := 3, track := 0, generated := false, systemFlag := false, isChordRest := false,
    isGapRest := false }

/-- A dynamic of track 0, to stand among the annotations of a segment. -/
def dynamicItem : EngravingItem :=
  { id := 4, track := 0, generated := false, systemFlag := false, isChordRest := false,
    isGapRest := false }

end Scorefile

namespace Scorefile

/-- A generated bar line of track 0. -/
def generatedBarLine : EngravingItem :=
  { id := 5, track := 0, generated := true, systemFlag := false, isChordRest := false,
    isGapRest := false }

/-- Whether the call writes an annotation. -/
def Event.isAnnotated : Event → Bool
  | Event.annotated _ => true
  | _ => false

end Scorefile

/-! ## What writing does to the score -/

namespace Scorefile

/-- What `Score::write` reads and sets of a part: `show()`. -/
structure Part where
  id : Nat
  shown : Bool
  deriving DecidableEq, Repr

/-- What `Score::write` and `Score::writeScore` read and set of the score: the
parts, the style value `createMultiMeasureRests`, and the attributes
`_mscoreVersion`, `_mscoreRevision` and `_mscVersion`. -/
structure Score where
  parts : List Part
  createMultiMeasureRests : Bool
  mscoreVersion : String
  mscoreRevision : Int
  mscVersion : Int
  deriving DecidableEq, Repr

/-- The values of the running program that `Score::writeScore` stores: the
macros `VERSION` and `MSCVERSION`, and `revision.toInt(0, 16)`. -/
structure Program where
  version : String
  revision : Int
  mscVersion : Int

/-- The loop over the parts of `Score::write` (scorefile.cpp 106-117): with
multi-measure rests, every hidden part is made visible; it returns the score
and, part by part, whether the part was appended to `hiddenParts`. -/
def showHiddenParts (sc : Score) : Score × List Bool :=
  if sc.createMultiMeasureRests then
    ({ sc with parts := sc.parts.map (fun p => if p.shown then p else { p with shown := true }) },
      sc.parts.map (fun p => !p.shown))
  else (sc, sc.parts.map (fun _ => false))

/-- The loop `for (Part* p : hiddenParts) p->setShow(false)` of `Score::write`
(scorefile.cpp 120-122). -/
def hideAgain (sc : Score) (hidden : List Bool) : Score :=
  { sc with parts :=
      List.zipWith (fun p h => if h then { p with shown := false } else p) sc.parts hidden }

/-- What the lines of `Score::write` (scorefile.cpp 98-271) do to the score:
the hidden parts are shown for the layout and hidden again.  The calls
`startCmd`, `doLayout`, `checkMidiMapping` and `endCmd`, and what is written,
are not part of this. -/
def Score.write (sc : Score) : Score :=
  let a := showHiddenParts sc
  let unhide := a.2.any (fun h => h)
  if unhide then hideAgain a.1 a.2 else a.1

/-- What `Score::writeScore` (scorefile.cpp 484-508) does to the score and what
it returns. -/
def Score.writeScore (prog : Program) (sc : Score) (onlySelection : Bool) : Score × Bool :=
  let sc1 := sc.write
  let sc2 : Score :=
    if !onlySelection then
      { sc1 with mscoreVersion := prog.version, mscoreRevision := prog.revision,
                 mscVersion := prog.mscVersion }
    else sc1
  (sc2, true)

/-- A score of one visible part, read from a file of version 3.01. -/
def oldScore : Score :=
  { parts := [{ id := 0, shown := true }], createMultiMeasureRests := false,
    mscoreVersion := "3.6.2", mscoreRevision := 0, mscVersion := 301 }

/-- A program of version 4.0 that writes files of version 4.00. -/
def newProgram : Program :=
  { version := "4.0.0", revision := 0, mscVersion := 400 }

end Scorefile

/-! ## Element kinds: `engravingobject.h` -/

namespace Engraving

/-- The element kinds that engravingobject.h names, with `INVALID`, the kind of
an object before it is given one; the enumeration `ElementType` itself is
declared outside src, and `OTHER` stands for any kind of it that the
header does not name. -/
inductive ElementType
  | INVALID
  | NOTE
  | REST
  | MMREST
  | CHORD
  | BAR_LINE
  | ARTICULATION
  | FERMATA
  | MARKER
  | CLEF
  | KEYSIG
  | TIMESIG
  | MEASURE
  | TEMPO_TEXT
  | BREATH
  | HBOX
  | VBOX
  | TBOX
  | FBOX
  | TIE
  | SLUR
  | GLISSANDO
  | GLISSANDO_SEGMENT
  | SYSTEM_DIVIDER
  | REHEARSAL_MARK
  | HARMONY
  | VOLTA
  | JUMP
  | OTTAVA
  | LAYOUT_BREAK
  | SEGMENT
  | TREMOLO
  | SYSTEM
  | LYRICS
  | STEM
  | BEAM
  | HOOK
  | STEM_SLASH
  | SLUR_SEGMENT
  | TIE_SEGMENT
  | SPACER
  | STAFF_LINES
  | AMBITUS
  | BRACKET
  | INSTRUMENT_CHANGE
  | STAFFTYPE_CHANGE
  | HAIRPIN
  | HAIRPIN_SEGMENT
  | BEND
  | TREMOLOBAR
  | MEASURE_REPEAT
  | TUPLET
  | NOTEDOT
  | DYNAMIC
  | INSTRUMENT_NAME
  | ACCIDENTAL
  | TEXTLINE
  | TEXTLINE_SEGMENT
  | PEDAL
  | PEDAL_SEGMENT
  | OTTAVA_SEGMENT
  | LEDGER_LINE
  | ACTION_ICON
  | VOLTA_SEGMENT
  | NOTELINE
  | TRILL
  | TRILL_SEGMENT
  | LET_RING
  | LET_RING_SEGMENT
  | VIBRATO
  | PALM_MUTE
  | PALM_MUTE_SEGMENT
  | VIBRATO_SEGMENT
  | SYMBOL
  | FSYMBOL
  | FINGERING
  | NOTEHEAD
  | LYRICSLINE
  | LYRICSLINE_SEGMENT
  | FIGURED_BASS
  | STAFF_STATE
  | ARPEGGIO
  | IMAGE
  | CHORDLINE
  | FRET_DIAGRAM
  | PAGE
  | TEXT
  | MEASURE_NUMBER
  | MMREST_RANGE
  | STAFF_TEXT
  | SYSTEM_TEXT
  | BRACKET_ITEM
  | SCORE
  | STAFF
  | PART
  | BAGPIPE_EMBELLISHMENT
  | LASSO
  | STICKING
  | OTHER
  deriving DecidableEq, Repr

/-- What the tests of engravingobject.h read of an `EngravingObject`: its
`type()`. -/
structure EngravingObject where
  type : ElementType
  deriving DecidableEq, Repr

/-- Test `isRest()`, made by `CONVERT(Rest, REST)`. -/
def EngravingObject.isRest (e : EngravingObject) : Bool := decide (e.type = ElementType.REST)

/-- Test `isMMRest()`. -/
def EngravingObject.isMMRest (e : EngravingObject) : Bool :=
  decide (e.type = ElementType.MMREST)

/-- Test `isMeasureRepeat()`. -/
def EngravingObject.isMeasureRepeat (e : EngravingObject) : Bool :=
  decide (e.type = ElementType.MEASURE_REPEAT)

/-- Test `isChord()`. -/
def EngravingObject.isChord (e : EngravingObject) : Bool := decide (e.type = ElementType.CHORD)

/-- Test `isTuplet()`. -/
def EngravingObject.isTuplet (e : EngravingObject) : Bool :=
  decide (e.type = ElementType.TUPLET)

/-- Test `isSlurSegment()`. -/
def EngravingObject.isSlurSegment (e : EngravingObject) : Bool :=
  decide (e.type = ElementType.SLUR_SEGMENT)

/-- Test `isTieSegment()`. -/
def EngravingObject.isTieSegment (e : EngravingObject) : Bool :=
  decide (e.type = ElementType.TIE_SEGMENT)

/-- Test `isMeasure()`. -/
def EngravingObject.isMeasure (e : EngravingObject) : Bool :=
  decide (e.type = ElementType.MEASURE)

/-- Test `isVBox()`. -/
def EngravingObject.isVBox (e : EngravingObject) : Bool := decide (e.type = ElementType.VBOX)

/-- Test `isHBox()`. -/
def EngravingObject.isHBox (e : EngravingObject) : Bool := decide (e.type = ElementType.HBOX)

/-- Test `isTBox()`. -/
def EngravingObject.isTBox (e : EngravingObject) : Bool := decide (e.type = ElementType.TBOX)

/-- Test `isFBox()`. -/
def EngravingObject.isFBox (e : EngravingObject) : Bool := decide (e.type = ElementType.FBOX)

/-- Test `isRestFamily()` (engravingobject.h 461). -/
def EngravingObject.isRestFamily (e : EngravingObject) : Bool :=
  e.isRest || e.isMMRest || e.isMeasureRepeat

/-- Test `isChordRest()` (engravingobject.h 462). -/
def EngravingObject.isChordRest (e : EngravingObject) : Bool :=
  e.isRestFamily || e.isChord

/-- Test `isDurationElement()` (engravingobject.h 463). -/
def EngravingObject.isDurationElement (e : EngravingObject) : Bool :=
  e.isChordRest || e.isTuplet

/-- Test `isSlurTieSegment()` (engravingobject.h 464). -/
def EngravingObject.isSlurTieSegment (e : EngravingObject) : Bool :=
  e.isSlurSegment || e.isTieSegment

/-- Test `isBox()` (engravingobject.h 466). -/
def EngravingObject.isBox (e : EngravingObject) : Bool :=
  e.isVBox || e.isHBox || e.isTBox || e.isFBox

/-- Test `isMeasureBase()` (engravingobject.h 468). -/
def EngravingObject.isMeasureBase (e : EngravingObject) : Bool :=
  e.isMeasure || e.isBox

/-- A cast guarded by `Q_ASSERT(cond)`: the pointer comes back as it is, and
there is no result when the assertion fails. -/
def castIf (cond : Bool) (e : Option EngravingObject) : Option (Option EngravingObject) :=
  if cond then some e else none

/-- Cast `toChordRest`, either overload (engravingobject.h 541-553); a null
pointer is `none`. -/
def toChordRest (e : Option EngravingObject) : Option (Option EngravingObject) :=
  castIf (match e with
    | none => true
    | some o => decide (o.type = ElementType.CHORD) || decide (o.type = ElementType.REST)
        || decide (o.type = ElementType.MMREST)
        || decide (o.type = ElementType.MEASURE_REPEAT)) e

/-- Cast `toDurationElement`, either overload (engravingobject.h 555-569). -/
def toDurationElement (e : Option EngravingObject) : Option (Option EngravingObject) :=
  castIf (match e with
    | none => true
    | some o => decide (o.type = ElementType.CHORD) || decide (o.type = ElementType.REST)
        || decide (o.type = ElementType.MMREST)
        || decide (o.type = ElementType.MEASURE_REPEAT)
        || decide (o.type = ElementType.TUPLET)) e

/-- Cast `toRest`, either overload (engravingobject.h 571-581). -/
def toRest (e : Option EngravingObject) : Option (Option EngravingObject) :=
  castIf (match e with
    | none => true
    | some o => o.isRestFamily) e

/-- Cast `toSlurTieSegment`, either overload (engravingobject.h 583-593). -/
def toSlurTieSegment (e : Option EngravingObject) : Option (Option EngravingObject) :=
  castIf (match e with
    | none => true
    | some o => decide (o.type = ElementType.SLUR_SEGMENT)
        || decide (o.type = ElementType.TIE_SEGMENT)) e

/-- Cast `toMeasureBase` of a pointer to a constant object (engravingobject.h
595-599). -/
def toMeasureBaseConst (e : Option EngravingObject) : Option (Option EngravingObject) :=
  castIf (match e with
    | none => true
    | some o => o.isMeasure || o.isVBox || o.isHBox || o.isTBox || o.isFBox) e

/-- Cast `toMeasureBase` (engravingobject.h 601-605). -/
def toMeasureBase (e : Option EngravingObject) : Option (Option EngravingObject) :=
  castIf (match e with
    | none => true
    | some o => o.isMeasureBase) e

/-- Whether the cast is accepted for the pointer: a null pointer, or an object
that passes `test`. -/
def Accepts (test : EngravingObject → Bool) (e : Option EngravingObject) : Prop :=
  e = none ∨ ∃ o, e = some o ∧ test o = true

end Engraving

/-! ## The check of the keys: `Score::checkKeys` -/

namespace CheckKeys

/-- A key, as the integer that `int(k)` gives. -/
abbrev Key := Int

/-- What `Score::checkKeys` reads of a segment: its type, its tick, and for
each track the key of the key signature that the slot holds,
`toKeySig(element)->key()`, if it holds one. -/
structure Segment where
  segmentType : Scorefile.SegmentType
  tick : Fraction
  element : Nat → Option Key

/-- What `Score::checkKeys` reads of a measure: its tick and its segments. -/
structure Measure where
  tick : Fraction
  segments : List Segment

/-- What `Score::checkKeys` reads of the score: the number of staves, the key
map `staff(i)->key(tick)` of each staff and the chain of measures. -/
structure Score where
  nstaves : Nat
  key : Nat → Fraction → Key
  measures : List Measure

/-- Modelled from the spec: `Measure::findSegment` is not in src.  The lookup
of a segment by type and tick: the first segment of the measure that has this
type and this tick, if there is one. -/
def Measure.findSegment (m : Measure) (type : Scorefile.SegmentType) (tick : Fraction) :
    Option Segment :=
  m.segments.find? (fun s => decide (s.segmentType = type) && decide (s.tick = tick))

/-- Body of the measure loop of `Score::checkKeys` (check.cpp 206-217) for
staff `i`: the state is `k` and `rc`. -/
def checkMeasureKey (sc : Score) (i : Nat) (st : Key × Bool) (m : Measure) : Key × Bool :=
  let k : Key :=
    match m.findSegment Scorefile.SegmentType.KeySig m.tick with
    | some s =>
      match s.element (i * VOICES) with
      | some key => key
      | none => st.1
    | none => st.1
  (k, if sc.key i m.tick ≠ k then false else st.2)

/-- Body of the staff loop of `Score::checkKeys` (check.cpp 204-218). -/
def checkStaffKeys (sc : Score) (rc : Bool) (i : Nat) : Bool :=
  (sc.measures.foldl (checkMeasureKey sc i) (sc.key i 0, rc)).2

/-- Method `Score::checkKeys` (check.cpp 200-221). -/
def checkKeys (sc : Score) : Bool :=
  (List.range sc.nstaves).foldl (checkStaffKeys sc) true

/-- The key of the key signature element of staff `i` in the KeySig segment at
the start tick of the measure, if the measure has such a segment and the
segment such an element. -/
def keySigAt (i : Nat) (m : Measure) : Option Key :=
  (m.findSegment Scorefile.SegmentType.KeySig m.tick).bind (fun s => s.element (i * VOICES))

/-- The actual key of staff `i` after the measures `upTo`: the key of the most
recent key signature element of the staff found at the start of one of these
measures, and the value of the key map at tick 0 when there is none. -/
def actualKey (sc : Score) (i : Nat) (upTo : List Measure) : Key :=
  match (upTo.reverse.filterMap (keySigAt i)).head? with
  | some k => k
  | none => sc.key i 0

end CheckKeys

/-! ## The score cursor: `mcursor.cpp` -/

namespace Cursor

/-- What `MCursor::addChord` reads of a `TDuration` (durationtype.h is not in
src): the duration kind and the values of `fraction()` and `ticks()`. -/
structure TDuration where
  type : DurationType
  fraction : Fraction
  ticks : Fraction
  deriving DecidableEq, Repr

/-- A note: the pitch that `Note::setPitch` stores. -/
structure Note where
  pitch : Int
  deriving DecidableEq, Repr

/-- A chord: its track, duration type, length and notes in the order of
`Chord::add`. -/
structure Chord where
  track : Int
  durationType : TDuration
  ticks : Fraction
  notes : List Note
  deriving DecidableEq, Repr

/-- Method `Chord::add` for a note: the note joins the notes of the chord. -/
def Chord.add (ch : Chord) (note : Note) : Chord :=
  { ch with notes := ch.notes ++ [note] }

/-- What a track slot of a segment holds: a chord, or an element of another
kind (a rest, for one). -/
inductive Item
  | chord (c : Chord)
  | other
  deriving DecidableEq, Repr

/-- A ChordRest segment: its tick and one slot per track. -/
structure Segment where
  tick : Fraction
  element : Int → Option Item

/-- A measure: start tick, time signature, length and its ChordRest segments. -/
structure Measure where
  tick : Fraction
  timesig : Fraction
  ticks : Fraction
  segments : List Segment

/-- The score of the cursor: its list of measures. -/
structure MasterScore where
  measures : List Measure

/-- Fields of `MCursor`: the score, `_tick`, `_track` and `_sig`. -/
structure MCursor where
  score : MasterScore
  tick : Fraction
  track : Int
  sig : Fraction

/-- Method `MCursor::move` (mcursor.cpp 158-162). -/
def MCursor.move (c : MCursor) (t : Int) (tick : Fraction) : MCursor :=
  { c with track := t, tick := tick }

/-- The measure that `MCursor::createMeasures` builds (mcursor.cpp 71-74): a
new measure with its tick set to `tick` and time signature and length set to
`sig`. -/
def newMeasure (tick sig : Fraction) : Measure :=
  { tick := tick, timesig := sig, ticks := sig, segments := [] }

/-- The loop of `MCursor::createMeasures` (mcursor.cpp 62-76) on the measure
list of the score, `fuel` bounding the number of passes: `lastMeasure()` is
the last measure of the list and `measures()->add` puts the new measure behind
it. -/
def createMeasuresLoop (sig cursorTick : Fraction) : Nat → List Measure → Option (List Measure)
  | 0, _ => none
  | fuel + 1, ms =>
    match ms.getLast? with
    | some measure =>
      let tick := measure.tick + measure.ticks
      if tick > cursorTick then some ms
      else createMeasuresLoop sig cursorTick fuel (ms ++ [newMeasure tick sig])
    | none => createMeasuresLoop sig cursorTick fuel (ms ++ [newMeasure 0 sig])

/-- Method `MCursor::createMeasures` (mcursor.cpp 59-77). -/
def MCursor.createMeasures (fuel : Nat) (c : MCursor) : Option MCursor :=
  (createMeasuresLoop c.sig c.tick fuel c.score.measures).map
    (fun ms => { c with score := { measures := ms } })

/-- The end tick of the last measure of the list, and 0 for the empty list: the
value of `tick` in a pass of the loop of `createMeasures`. -/
def endTick (ms : List Measure) : Fraction :=
  match ms.getLast? with
  | some measure => measure.tick + measure.ticks
  | none => 0

/-- The last measure ends behind the cursor tick: the test under which the loop
of `createMeasures` is left. -/
def pastCursor (cursorTick : Fraction) (ms : List Measure) : Prop :=
  ∃ measure, ms.getLast? = some measure ∧ cursorTick < measure.tick + measure.ticks

/-- Whether the measure holds the tick. -/
def Measure.holds (m : Measure) (tick : Fraction) : Bool :=
  decide (m.tick ≤ tick) && decide (tick < m.tick + m.ticks)

/-- Modelled from the spec: `Score::tick2measure` is not in src.  The lookup of
a measure by tick: the first measure of the list that holds the tick, if there
is one. -/
def tick2measure (ms : List Measure) (tick : Fraction) : Option Measure :=
  ms.find? (fun m => m.holds tick)

/-- The ChordRest segment of the measure at `tick`, if it has one. -/
def Measure.findSegment (m : Measure) (tick : Fraction) : Option Segment :=
  m.segments.find? (fun s => decide (s.tick = tick))

/-- Modelled from the spec: `Measure::getSegment` is not in src.  Lookup or
create: the ChordRest segment of the measure at `tick`, and a new segment with
empty slots when the measure has none there. -/
def Measure.getSegment (m : Measure) (tick : Fraction) : Segment :=
  match m.findSegment tick with
  | some s => s
  | none => { tick := tick, element := fun _ => none }

/-- Cast `toChord` (the CONVERT line of engravingobject.h),
`Q_ASSERT(e == 0 || e->isChord())` followed by a static cast: a null pointer
stays one and a chord is returned.  For another element the assertion fails:
with `assertions` compiled in the program stops there, and with assertions
compiled out the pointer is returned as it is. -/
def toChord (assertions : Bool) : Option Item → Option (Option Item)
  | none => some none
  | some (Item.chord c) => some (some (Item.chord c))
  | some Item.other => if assertions then none else some (some Item.other)

/-- Call `chord->add(note)` through the pointer that `toChord` returned: a
chord takes the note.  The method is virtual: for an element that is no chord
the call goes to the `add` of that element, which is not in src, and the
element stays an element that is no chord. -/
def Item.add (it : Item) (note : Note) : Item :=
  match it with
  | Item.chord c => Item.chord (c.add note)
  | Item.other => Item.other

/-- The segment with `item` in the slot of `track`. -/
def Segment.setElement (s : Segment) (track : Int) (item : Item) : Segment :=
  { s with element := Function.update s.element track (some item) }

/-- Write a segment back into the chain: it takes the place of the segment with
its tick, and goes in front of the first segment with a greater tick when
there is none. -/
def storeSegment (seg : Segment) : List Segment → List Segment
  | [] => [seg]
  | s :: rest =>
    if s.tick < seg.tick then s :: storeSegment seg rest
    else if s.tick = seg.tick then seg :: rest
    else seg :: s :: rest

/-- The measure with the segment written back into its chain. -/
def Measure.store (m : Measure) (seg : Segment) : Measure :=
  { m with segments := storeSegment seg m.segments }

/-- The chord that `MCursor::addChord` builds for an empty slot (mcursor.cpp
90-93): track, duration type and length are set, and it has no note yet. -/
def newChord (track : Int) (duration : TDuration) : Chord :=
  { track := track, durationType := duration, ticks := duration.fraction, notes := [] }

/-- Write a measure back into the list: `f` is applied to the first measure that
holds `tick`, the one `tick2measure` returned. -/
def storeMeasure (tick : Fraction) (f : Measure → Measure) : List Measure → List Measure
  | [] => []
  | m :: rest => if m.holds tick then f m :: rest else m :: storeMeasure tick f rest

/-- Method `MCursor::addChord` (mcursor.cpp 83-102), with or without
`assertions` compiled in.  The result is the cursor after the call and the
element that the pointer returned points to; it is `none` when
`createMeasures` runs out of fuel, when `tick2measure` finds no measure, and
when the assertion of `toChord` stops the program.  The measure, the segment
and the chord are objects reached by address in the source: the model writes
them back at their place. -/
def MCursor.addChord (assertions : Bool) (fuel : Nat) (c : MCursor) (pitch : Int)
    (duration : TDuration) : Option (MCursor × Item) :=
  match c.createMeasures fuel with
  | none => none
  | some c1 =>
    match tick2measure c1.score.measures c1.tick with
    | none => none
    | some measure =>
      let segment := measure.getSegment c1.tick
      match toChord assertions (segment.element c1.track) with
      | none => none
      | some found =>
        let chord : Item :=
          match found with
          | some it => it
          | none => Item.chord (newChord c1.track duration)
        let chord1 : Item := chord.add { pitch := pitch }
        let segment1 : Segment := segment.setElement c1.track chord1
        let measures1 := storeMeasure c1.tick (fun m => m.store segment1) c1.score.measures
        some ({ c1 with score := { measures := measures1 }, tick := c1.tick + duration.ticks },
          chord1)

/-- Each measure of the list begins where the one before it ends, the first at
tick 0: the chain that `createMeasures` builds. -/
def Chain (ms : List Measure) : Prop :=
  ∀ pre m post, ms = pre ++ m :: post → m.tick = endTick pre

/-- What the slot of `track` holds in the ChordRest segment at `tick` of the
measure that holds `tick`; `none` also when there is no such measure or
segment. -/
def slot (ms : List Measure) (tick : Fraction) (track : Int) : Option Item :=
  (tick2measure ms tick).bind (fun m => (m.findSegment tick).bind (fun s => s.element track))

/-- A quarter as `TDuration`. -/
def quarter : TDuration :=
  { type := DurationType.V_QUARTER, fraction := 1 / 4, ticks := 1 / 4 }

/-- A new cursor with the time signature 4/4 on an empty score. -/
def emptyCursor : MCursor :=
  { score := { measures := [] }, tick := 0, track := 0, sig := 1 }

/-- A cursor at tick 0 of track 0 on a score of one 4/4 measure whose ChordRest
segment at tick 0 holds a half note chord of pitch 64 on track 0. -/
def chordCursor : MCursor :=
  { score := { measures := [{ tick := 0, timesig := 1, ticks := 1, segments :=
      [{ tick := 0, element := fun track =>
          if track = 0 then
            some (Item.chord { track := 0,
                               durationType := { type := DurationType.V_HALF,
                                                 fraction := 1 / 2, ticks := 1 / 2 },
                               ticks := 1 / 2, notes := [{ pitch := 64 }] })
          else none }] }] },
    tick := 0, track := 0, sig := 1 }

end Cursor

/-! ## The measure loop of `Score::write` -/

namespace Scorefile

/-- What `Score::write` and `writeMeasure` read of a measure base: `id` stands
for its address, `isMeasure` tells a measure from a box, `mmRest` is the
measure that `toMeasure(m)->mmRest()` returns, and `endTick` its end tick. -/
structure MeasureBase where
  id : Nat
  isMeasure : Bool
  mmRest : Option Nat
  endTick : Fraction
  deriving DecidableEq, Repr

/-- A call `write(xml, staffIdx, writeSystemElements, forceTimeSig)` on the
measure base `target`. -/
structure WriteCall where
  target : Nat
  staffIdx : Int
  writeSystemElements : Bool
  forceTimeSig : Bool
  deriving DecidableEq, Repr

/-- The writer as the measure loop sees it: its current tick and the calls of
`write` made on it so far. -/
structure StaffWriter where
  curTick : Fraction
  writes : List WriteCall
  deriving DecidableEq, Repr

/-- Function `writeMeasure` (scorefile.cpp 78-92). -/
def writeMeasure (sc : Score) (xml : StaffWriter) (m : MeasureBase) (staffIdx : Int)
    (writeSystemElements forceTimeSig : Bool) : StaffWriter :=
  let xml1 : StaffWriter :=
    if m.isMeasure || staffIdx == 0 then
      { xml with writes := xml.writes ++ [⟨m.id, staffIdx, writeSystemElements, forceTimeSig⟩] }
    else xml
  let xml2 : StaffWriter :=
    if sc.createMultiMeasureRests && m.isMeasure then
      match m.mmRest with
      | some mm =>
        { xml1 with
          writes := xml1.writes ++ [⟨mm, staffIdx, writeSystemElements, forceTimeSig⟩] }
      | none => xml1
    else xml1
  { xml2 with curTick := m.endTick }

/-- A call of `writeMeasure` in the measure loop: the measure base and the
flag `forceTimeSig` passed for it. -/
structure MeasureCall where
  m : MeasureBase
  forceTimeSig : Bool
  deriving DecidableEq, Repr

/-- State of the measure loop of `Score::write` (scorefile.cpp 244-256): the
two flags, the writer, and the calls of `writeMeasure` made so far. -/
structure MeasureLoop where
  firstMeasureWritten : Bool
  forceTimeSig : Bool
  xml : StaffWriter
  calls : List MeasureCall

/-- Body of the measure loop of `Score::write` (scorefile.cpp 246-255). -/
def writeStep (sc : Score) (selectionOnly : Bool) (staffIdx : Int) (writeSystemElements : Bool)
    (st : MeasureLoop) (m : MeasureBase) : MeasureLoop :=
  let st1 : MeasureLoop :=
    if selectionOnly && m.isMeasure then
      if !st.firstMeasureWritten then
        { st with forceTimeSig := true, firstMeasureWritten := true }
      else { st with forceTimeSig := false }
    else st
  { st1 with
    xml := writeMeasure sc st1.xml m staffIdx writeSystemElements st1.forceTimeSig
    calls := st1.calls ++ [⟨m, st1.forceTimeSig⟩] }

/-- Body of the staff loop of `Score::write` for staff `staffIdx` (scorefile.cpp
239-258) without the tags of the staff: `range` holds the measure bases from
`measureStart` up to `measureEnd`, `startTick` is `measureStart->tick()`. -/
def writeStaff (sc : Score) (selectionOnly : Bool) (staffStart staffIdx : Int)
    (startTick : Fraction) (xml : StaffWriter) (range : List MeasureBase) : MeasureLoop :=
  range.foldl (writeStep sc selectionOnly staffIdx (decide (staffIdx = staffStart)))
    { firstMeasureWritten := false, forceTimeSig := false,
      xml := { xml with curTick := startTick }, calls := [] }

/-- The calls of `write` that a call of `writeMeasure` makes: on the measure
base itself, for a measure or on staff 0, and on the multi-measure rest of a
measure when the score creates multi-measure rests. -/
def writesOf (sc : Score) (staffIdx : Int) (writeSystemElements : Bool) (c : MeasureCall) :
    List WriteCall :=
  (if c.m.isMeasure || staffIdx == 0 then
      [⟨c.m.id, staffIdx, writeSystemElements, c.forceTimeSig⟩]
    else []) ++
  (if sc.createMultiMeasureRests && c.m.isMeasure then
      match c.m.mmRest with
      | some mm => [⟨mm, staffIdx, writeSystemElements, c.forceTimeSig⟩]
      | none => []
    else [])

/-- The calls of `writeMeasure` that the measure loop makes on `range` when it
is entered with the flags `firstMeasureWritten` and `forceTimeSig`. -/
def passedCalls (selectionOnly : Bool) : Bool → Bool → List MeasureBase → List MeasureCall
  | _, _, [] => []
  | firstMeasureWritten, forceTimeSig, m :: rest =>
    if selectionOnly && m.isMeasure then
      if !firstMeasureWritten then ⟨m, true⟩ :: passedCalls selectionOnly true true rest
      else ⟨m, false⟩ :: passedCalls selectionOnly firstMeasureWritten false rest
    else ⟨m, forceTimeSig⟩ :: passedCalls selectionOnly firstMeasureWritten forceTimeSig rest

/-- A score that creates multi-measure rests. -/
def mmScore : Score :=
  { parts := [{ id := 0, shown := true }], createMultiMeasureRests := true,
    mscoreVersion := "4.0.0", mscoreRevision := 0, mscVersion := 400 }

/-- A selection of two measures, the first of which has the multi-measure rest
7 linked to it. -/
def mmSelection : List MeasureBase :=
  [{ id := 0, isMeasure := true, mmRest := some 7, endTick := 1 },
   { id := 1, isMeasure := true, mmRest := none, endTick := 2 }]

end Scorefile

/-! ## Reading the first staff: `Score::readStaff` -/

namespace ReadStaff

/-- What `Score::readStaff` reads and sets of a measure: tick, length, time
signature and the multi-measure-rest flag `isMMRest()`. -/
structure MeasureData where
  tick : Fraction
  ticks : Fraction
  timesig : Fraction
  isMMRest : Bool
  deriving DecidableEq, Repr

/-- An entry of the measure list of the score: a measure with the measure that
`setMMRest` linked to it, or a box with its tick. -/
inductive MeasureBase
  | measure (m : MeasureData) (mmRest : Option MeasureData)
  | box (tick : Fraction)
  deriving DecidableEq, Repr

/-- What `Score::readStaff` reads and sets of the reader: tick, track, the
index of the current measure and the last measure.  The pointer
`e.lastMeasure()` is the position of that measure in the measure list. -/
structure XmlReader where
  tick : Fraction
  track : Int
  currentMeasureIndex : Nat
  lastMeasure : Option Nat

/-- The start elements that the loop of the branch `staff == 0` meets.  The
calls `measure->read(e, staff)` with `measure->checkMeasure(staff)` behind it
and `mb->read(e)` are not in src or work on the content: `read` is what they
make of the measure as created and of the reader.  `val` of a tick tag is
`Fraction::fromTicks(fileDivision(e.readInt()))`. -/
inductive Tag
  | measure (read : MeasureData → XmlReader → MeasureData × XmlReader)
  | box (read : XmlReader → XmlReader)
  | tick (val : Fraction)
  | unknown

/-- State of the loop: the reader, the counter `measureIdx` and the measure
list of the score. -/
structure ReadState where
  e : XmlReader
  measureIdx : Nat
  measures : List MeasureBase

/-- Method `setTick` of a measure. -/
def MeasureData.setTick (m : MeasureData) (tick : Fraction) : MeasureData :=
  { m with tick := tick }

/-- The measure that `e.lastMeasure()` points to, if the pointer is set. -/
def lastMeasure (ms : List MeasureBase) (e : XmlReader) : Option MeasureData :=
  match e.lastMeasure with
  | none => none
  | some i =>
    match ms[i]? with
    | some (MeasureBase.measure m _) => some m
    | _ => none

/-- Call `m1->setMMRest(measure)` on the measure at position `i` of the list. -/
def setMMRest (ms : List MeasureBase) (i : Nat) (mm : MeasureData) : List MeasureBase :=
  match ms[i]? with
  | some (MeasureBase.measure m1 _) => ms.set i (MeasureBase.measure m1 (some mm))
  | _ => ms

/-- The measure as `Score::readStaff` creates it (scorefile.cpp 312-320): its
tick is the tick of the reader, and length and time signature are the time
signature of the last measure, 4/4 when there is none. -/
def newMeasure (st : ReadState) : MeasureData :=
  let f : Fraction :=
    match lastMeasure st.measures st.e with
    | some m => m.timesig
    | none => 4 / 4
  { tick := st.e.tick, ticks := f, timesig := f, isMMRest := false }

/-- The reader that `measure->read` is called with: the index of the current
measure is set to `measureIdx` (scorefile.cpp 314). -/
def enterMeasure (st : ReadState) : XmlReader :=
  { st.e with currentMeasureIndex := st.measureIdx }

/-- The measure and the reader after `measure->read(e, staff)` and
`measure->checkMeasure(staff)` (scorefile.cpp 321-322). -/
def readMeasure (st : ReadState)
    (read : MeasureData → XmlReader → MeasureData × XmlReader) : MeasureData × XmlReader :=
  read (newMeasure st) (enterMeasure st)

/-- Body of the loop of the branch `staff == 0` of `Score::readStaff`
(scorefile.cpp 309-350) for one start element. -/
def readStep (st : ReadState) : Tag → ReadState
  | Tag.measure read =>
    let r := readMeasure st read
    let measure := r.1
    let e := r.2
    if !measure.isMMRest then
      { e := { e with lastMeasure := some st.measures.length,
                      tick := measure.tick + measure.ticks },
        measureIdx := st.measureIdx + 1,
        measures := st.measures ++ [MeasureBase.measure measure none] }
    else
      match e.lastMeasure, lastMeasure st.measures e with
      | some i, some m1 =>
        { e := e, measureIdx := st.measureIdx + 1,
          measures := setMMRest st.measures i (measure.setTick m1.tick) }
      | _, _ => { e := e, measureIdx := st.measureIdx + 1, measures := st.measures }
  | Tag.box read =>
    let e := read st.e
    { st with e := e, measures := st.measures ++ [MeasureBase.box e.tick] }
  | Tag.tick val => { st with e := { st.e with tick := val } }
  | Tag.unknown => st

/-- Method `Score::readStaff` for the staff with `id = 1`, the branch
`staff == 0` (scorefile.cpp 300-351): `tags` are the start elements of the
staff, `measures` the measure list of the score. -/
def readStaff (e : XmlReader) (measures : List MeasureBase) (tags : List Tag) : ReadState :=
  tags.foldl readStep
    { e := { e with currentMeasureIndex := 0, tick := 0, track := 0 * VOICES },
      measureIdx := 0, measures := measures }

/-- The links of the measure list are in order: no measure of the list is a
multi-measure rest, and a measure linked to a measure of the list is a
multi-measure rest with the tick of that measure. -/
def LinkInv (ms : List MeasureBase) : Prop :=
  ∀ m mm, MeasureBase.measure m mm ∈ ms →
    m.isMMRest = false ∧ ∀ r, mm = some r → r.isMMRest = true ∧ r.tick = m.tick

/-- A new reader: no last measure. -/
def newReader : XmlReader :=
  { tick := 0, track := 0, currentMeasureIndex := 0, lastMeasure := none }

/-- A measure element that leaves the measure as created. -/
def readPlain (m : MeasureData) (e : XmlReader) : MeasureData × XmlReader := (m, e)

/-- A measure element with the attribute `len="1/4"`: an upbeat of a quarter. -/
def readUpbeat (m : MeasureData) (e : XmlReader) : MeasureData × XmlReader :=
  ({ m with ticks := 1 / 4 }, e)

/-- A measure element of a multi-measure rest of length `len`. -/
def readMMRest (len : Fraction) (m : MeasureData) (e : XmlReader) : MeasureData × XmlReader :=
  ({ m with ticks := len, isMMRest := true }, e)

end ReadStaff

/-! ## Theorems -/

/-! ### Unfolding the walk -/

theorem walk_nil (env : Env) (track : Nat) (stretch : Fraction) (u : Bool) (e : Fraction)
    (m : Measure) (log : List Diag) :
    walk env track stretch u [] e m log = (m, log, e) := by
  rw [walk]

theorem walk_cons_none (env : Env) (track : Nat) (stretch : Fraction) (u : Bool)
    (seg : Segment) (rest : List Segment) (e : Fraction) (m : Measure) (log : List Diag)
    (h : seg.element track = none) :
    walk env track stretch u (seg :: rest) e m log = walk env track stretch u rest e m log := by
  rw [walk]; simp [h]

theorem walk_cons_overrun (env : Env) (track : Nat) (stretch : Fraction) (u : Bool)
    (seg : Segment) (rest : List Segment) (e : Fraction) (m : Measure) (log : List Diag)
    (cr : ChordRest) (h : seg.element track = some cr) (hlt : seg.rtick * stretch < e) :
    walk env track stretch u (seg :: rest) e m log
      = (m, log ++ [Diag.inMeasureOverrun track], e) := by
  rw [walk]; simp [h, hlt]

theorem walk_cons_exact (env : Env) (track : Nat) (stretch : Fraction) (u : Bool)
    (seg : Segment) (rest : List Segment) (e : Fraction) (m : Measure) (log : List Diag)
    (cr : ChordRest) (h : seg.element track = some cr) (heq : seg.rtick * stretch = e) :
    walk env track stretch u (seg :: rest) e m log
      = walk env track stretch u (resume cr track rest) (e + cr.deTicks) m log := by
  rw [walk]; simp [h, heq]

theorem walk_cons_gap (env : Env) (track : Nat) (stretch : Fraction) (u : Bool)
    (seg : Segment) (rest : List Segment) (e : Fraction) (m : Measure) (log : List Diag)
    (cr : ChordRest) (h : seg.element track = some cr) (hgt : e < seg.rtick * stretch) :
    walk env track stretch u (seg :: rest) e m log
      = walk env track stretch u (resume cr track rest) (seg.rtick * stretch + cr.deTicks)
          (fillGap env m e (seg.rtick * stretch - e) track stretch u)
          (log ++ [Diag.inMeasureUnderrun track]) := by
  rw [walk]; simp [h, hgt, not_lt.mpr (le_of_lt hgt)]

/-! ### Frame lemmas: a rest inserted on one track leaves the others alone -/

theorem addToChain_other_none (r : Fraction) (t1 t : Nat) (cr : ChordRest) (hne : t ≠ t1)
    (l : List Segment) (h : ∀ seg ∈ l, seg.element t = none) :
    ∀ seg ∈ addToChain r t1 cr l, seg.element t = none := by
  induction l with
  | nil =>
    intro seg hseg
    simp only [addToChain, List.mem_singleton] at hseg
    subst hseg
    simp [Segment.single, Function.update_noteq hne]
  | cons s rest ih =>
    have hs : s.element t = none := h s (List.mem_cons_self _ _)
    have hrest : ∀ seg ∈ rest, seg.element t = none :=
      fun seg hseg => h seg (List.mem_cons_of_mem _ hseg)
    intro seg hseg
    unfold addToChain at hseg
    split at hseg
    · rcases List.mem_cons.mp hseg with h1 | h1
      · subst h1; exact hs
      · exact ih hrest seg h1
    · split at hseg
      · rcases List.mem_cons.mp hseg with h1 | h1
        · subst h1
          simp [Segment.setElement, Function.update_noteq hne, hs]
        · exact hrest seg h1
      · rcases List.mem_cons.mp hseg with h1 | h1
        · subst h1
          simp [Segment.single, Function.update_noteq hne]
        · exact h seg h1

theorem fillGap_other_none (env : Env) (m : Measure) (pos len : Fraction) (t1 t : Nat)
    (stretch : Fraction) (u : Bool) (hne : t ≠ t1)
    (h : ∀ seg ∈ m.segs, seg.element t = none) :
    ∀ seg ∈ (fillGap env m pos len t1 stretch u).segs, seg.element t = none := by
  unfold fillGap
  dsimp only
  split
  · exact addToChain_other_none _ t1 t _ hne m.segs h
  · exact h

theorem skipTuplet_length_le (tuplet : Tuplet) (track : Nat) (l : List Segment) :
    (skipTuplet tuplet track l).length ≤ l.length := by
  induction l with
  | nil => simp [skipTuplet]
  | cons s rest ih =>
    unfold skipTuplet
    split
    · exact Nat.le_succ_of_le ih
    · exact Nat.le_refl _

theorem resume_length_le (cr : ChordRest) (track : Nat) (l : List Segment) :
    (resume cr track l).length ≤ l.length := by
  unfold resume
  split
  · exact skipTuplet_length_le _ _ _
  · exact Nat.le_refl _

/-- Induction along the walk: the empty chain, an empty slot, an overrun, an
element at the expected position, an element behind a gap. -/
theorem walk_induction (env : Env) (track : Nat) (stretch : Fraction) (u : Bool)
    (P : List Segment → Fraction → Measure → List Diag → Prop)
    (hnil : ∀ e m log, P [] e m log)
    (hnone : ∀ seg rest e m log, seg.element track = none → P rest e m log →
      P (seg :: rest) e m log)
    (hover : ∀ seg rest e m log cr, seg.element track = some cr → seg.rtick * stretch < e →
      P (seg :: rest) e m log)
    (hexact : ∀ seg rest e m log cr, seg.element track = some cr → seg.rtick * stretch = e →
      P (resume cr track rest) (e + cr.deTicks) m log → P (seg :: rest) e m log)
    (hgap : ∀ seg rest e m log cr, seg.element track = some cr → e < seg.rtick * stretch →
      P (resume cr track rest) (seg.rtick * stretch + cr.deTicks)
        (fillGap env m e (seg.rtick * stretch - e) track stretch u)
        (log ++ [Diag.inMeasureUnderrun track]) → P (seg :: rest) e m log)
    (chain : List Segment) (e : Fraction) (m : Measure) (log : List Diag) : P chain e m log := by
  have key : ∀ n (chain : List Segment), chain.length ≤ n → ∀ e m log, P chain e m log := by
    intro n
    induction n with
    | zero =>
      intro chain hlen e m log
      have : chain = [] := List.length_eq_zero.mp (Nat.le_zero.mp hlen)
      subst this
      exact hnil e m log
    | succ n ih =>
      intro chain hlen e m log
      cases chain with
      | nil => exact hnil e m log
      | cons seg rest =>
        have hrest : rest.length ≤ n := by simpa using hlen
        cases hcr : seg.element track with
        | none => exact hnone seg rest e m log hcr (ih rest hrest e m log)
        | some cr =>
          have hres : (resume cr track rest).length ≤ n :=
            le_trans (resume_length_le cr track rest) hrest
          rcases lt_trichotomy (seg.rtick * stretch) e with hlt | heq | hgt
          · exact hover seg rest e m log cr hcr hlt
          · exact hexact seg rest e m log cr hcr heq (ih _ hres _ _ _)
          · exact hgap seg rest e m log cr hcr hgt (ih _ hres _ _ _)
  exact key chain.length chain (Nat.le_refl _) e m log

theorem walk_other_none (env : Env) (t1 t : Nat) (stretch : Fraction) (u : Bool) (hne : t ≠ t1)
    (chain : List Segment) (e : Fraction) (m : Measure) (log : List Diag) :
    (∀ seg ∈ m.segs, seg.element t = none) →
    ∀ seg ∈ (walk env t1 stretch u chain e m log).1.segs, seg.element t = none := by
  refine walk_induction env t1 stretch u
    (fun chain e m log => (∀ seg ∈ m.segs, seg.element t = none) →
      ∀ seg ∈ (walk env t1 stretch u chain e m log).1.segs, seg.element t = none)
    ?_ ?_ ?_ ?_ ?_ chain e m log
  · intro e m log h; rw [walk_nil]; exact h
  · intro seg rest e m log hnone ih h
    rw [walk_cons_none _ _ _ _ _ _ _ _ _ hnone]; exact ih h
  · intro seg rest e m log cr hcr hlt h
    rw [walk_cons_overrun _ _ _ _ _ _ _ _ _ cr hcr hlt]; exact h
  · intro seg rest e m log cr hcr heq ih h
    rw [walk_cons_exact _ _ _ _ _ _ _ _ _ cr hcr heq]; exact ih h
  · intro seg rest e m log cr hcr hgt ih h
    rw [walk_cons_gap _ _ _ _ _ _ _ _ _ cr hcr hgt]
    exact ih (fillGap_other_none env m _ _ t1 t stretch u hne h)

theorem walk_empty_track (env : Env) (t : Nat) (stretch : Fraction) (u : Bool)
    (chain : List Segment) (e : Fraction) (m : Measure) (log : List Diag)
    (h : ∀ seg ∈ chain, seg.element t = none) :
    walk env t stretch u chain e m log = (m, log, e) := by
  induction chain with
  | nil => rw [walk_nil]
  | cons seg rest ih =>
    rw [walk_cons_none _ _ _ _ _ _ _ _ _ (h seg (List.mem_cons_self _ _))]
    exact ih (fun s hs => h s (List.mem_cons_of_mem _ hs))

theorem checkTrack_keeps_none (env : Env) (stretch f : Fraction) (u : Bool) (t : Nat)
    (st : Measure × List Diag) (t1 : Nat)
    (h : ∀ seg ∈ st.1.segs, seg.element t = none) :
    ∀ seg ∈ (checkTrack env stretch f u st t1).1.segs, seg.element t = none := by
  by_cases hne : t = t1
  · subst hne
    unfold checkTrack
    rw [walk_empty_track env t stretch u st.1.segs 0 st.1 st.2 h]
    simp only [ne_eq, not_true_eq_false, if_false]
    split
    · exact h
    · split <;> exact h
  · have hw := walk_other_none env t1 t stretch u hne st.1.segs 0 st.1 st.2 h
    unfold checkTrack
    dsimp only
    split
    · split
      · exact fillGap_other_none env _ _ _ t1 t stretch _ hne hw
      · exact hw
    · split <;> exact hw

theorem foldl_checkTrack_keeps_none (env : Env) (stretch f : Fraction) (u : Bool) (t : Nat)
    (tracks : List Nat) (st : Measure × List Diag)
    (h : ∀ seg ∈ st.1.segs, seg.element t = none) :
    ∀ seg ∈ (tracks.foldl (checkTrack env stretch f u) st).1.segs, seg.element t = none := by
  induction tracks generalizing st with
  | nil => exact h
  | cons t1 rest ih =>
    rw [List.foldl_cons]
    exact ih _ (checkTrack_keeps_none env stretch f u t st t1 h)

/-! ### The claims on `Measure::checkMeasure` -/

/-- C6: a track that holds no ChordRest element in the measure holds none after
`Measure::checkMeasure`, whichever staff is checked: nothing is inserted on an
empty voice. -/
theorem checkMeasure_empty_voice_untouched (env : Env) (sc : Score) (m : Measure)
    (staffIdx : Nat) (useGapRests : Bool) (track : Nat)
    (h : ∀ seg ∈ m.segs, seg.element track = none) :
    ∀ seg ∈ (checkMeasure env sc m staffIdx useGapRests).1.segs, seg.element track = none := by
  unfold checkMeasure
  split
  · exact h
  · exact foldl_checkTrack_keeps_none env _ _ useGapRests track _ (m, []) h

/-- Witness of C6: voice 1 of scenario A is empty and stays empty, while voice 0
of that measure receives a rest. -/
theorem checkMeasure_empty_voice_untouched_witness :
    (∀ seg ∈ scenarioA.segs, seg.element 1 = none) ∧
      ∀ seg ∈ (checkMeasure (dottedEnv true) (oneStaff []) scenarioA 0 true).1.segs,
        seg.element 1 = none :=
  ⟨by simp [scenarioA, measure44, Segment.single],
   checkMeasure_empty_voice_untouched (dottedEnv true) (oneStaff []) scenarioA 0 true 1
     (by simp [scenarioA, measure44, Segment.single])⟩

/-- C3, amended: when the walk of a track meets a ChordRest element with
`currentPos < expectedPos`, it reports the in-measure overrun and stops there:
the measure is returned as the walk had it on reaching that element, with
nothing inserted, removed or changed at that point, and neither that element
nor the chain behind it is looked at; `expectedPos` keeps its value. -/
theorem checkMeasure_overrun_stops (env : Env) (track : Nat) (stretch : Fraction) (u : Bool)
    (seg : Segment) (rest : List Segment) (e : Fraction) (m : Measure) (log : List Diag)
    (cr : ChordRest) (hcr : seg.element track = some cr) (hlt : seg.rtick * stretch < e) :
    walk env track stretch u (seg :: rest) e m log
      = (m, log ++ [Diag.inMeasureOverrun track], e) :=
  walk_cons_overrun env track stretch u seg rest e m log cr hcr hlt

/-- Witness of C3: a quarter chord at tick 1/2 met with `expectedPos = 1`. -/
theorem checkMeasure_overrun_stops_witness :
    (Segment.single (1 / 2) 0 (chord (1 / 4) DurationType.V_QUARTER)).element 0
        = some (chord (1 / 4) DurationType.V_QUARTER) ∧
      (Segment.single (1 / 2) 0 (chord (1 / 4) DurationType.V_QUARTER)).rtick * 1 < (1 : Fraction) ∧
      walk (dottedEnv true) 0 1 true
          [Segment.single (1 / 2) 0 (chord (1 / 4) DurationType.V_QUARTER)] 1 overlapping []
        = (overlapping, [] ++ [Diag.inMeasureOverrun 0], 1) :=
  ⟨by simp [Segment.single], by norm_num [Segment.single],
   checkMeasure_overrun_stops (dottedEnv true) 0 1 true
     (Segment.single (1 / 2) 0 (chord (1 / 4) DurationType.V_QUARTER)) [] 1 overlapping []
     (chord (1 / 4) DurationType.V_QUARTER) (by simp [Segment.single])
     (by norm_num [Segment.single])⟩

/-- Counterexample to C3 as stated: in `overlapping` the walk of track 0 fills
the gap [0, 1/4) in front of the first chord and then finds the second chord
inside the first; the overrun is reported and the track has received a rest. -/
theorem checkMeasure_overrun_after_fill :
    (checkMeasure (dottedEnv true) (oneStaff []) overlapping 0 true).2
        = [Diag.inMeasureUnderrun 0, Diag.inMeasureOverrun 0] ∧
      (checkMeasure (dottedEnv true) (oneStaff []) overlapping 0 true).1.segs.map
          (fun s => (s.rtick, s.element 0))
        = [(0, some (gapRest (1 / 4) DurationType.V_QUARTER true)),
           (1 / 4, some (chord (3 / 4) DurationType.V_HALF)),
           (1 / 2, some (chord (1 / 4) DurationType.V_QUARTER))] := by
  have h1 : ((1 : ℚ) / 4 + 3 / 4) = 1 := by norm_num
  constructor <;>
  · simp [checkMeasure, overlapping, measure44, oneStaff, VOICES, checkTrack, walk,
      Segment.single, chord, fillGap, dottedEnv, dottedSetVal, ChordRest.deTicks, resume,
      DurationType.isValid, undoAddCR, addToChain, gapRest]
    norm_num [addToChain, Segment.single]
    try simp

/-- C4, the code at the failing input: whatever default `d` measure.h declares
for the `useGapRests` argument of `fillGap`, `checkMeasure` called on scenario A
with `useGapRests = !d` fills the trailing gap [1/4, 1) with a rest whose gap
flag is `d`, not the value passed by the caller. -/
theorem checkMeasure_trailing_gap_flag (d : Bool) :
    (checkMeasure (dottedEnv d) (oneStaff []) scenarioA 0 (!d)).1.segs.map
        (fun s => (s.rtick, s.element 0))
      = [(0, some (plainRest (1 / 4) DurationType.V_QUARTER)),
         (1 / 4, some (gapRest (3 / 4) DurationType.V_HALF d))] := by
  simp [checkMeasure, scenarioA, measure44, oneStaff, VOICES, checkTrack, walk,
    Segment.single, plainRest, fillGap, dottedEnv, dottedSetVal, ChordRest.deTicks, resume,
    DurationType.isValid, undoAddCR, addToChain, gapRest]
  norm_num [addToChain, Segment.single]
  simp

/-! ### Tuplets -/

theorem skipTuplet_no_member (tuplet : Tuplet) (track : Nat) (l : List Segment) :
    ∀ s ∈ skipTuplet tuplet track l, s.inTuplet tuplet track = false := by
  induction l with
  | nil => simp [skipTuplet]
  | cons s rest ih =>
    unfold skipTuplet
    split
    · exact ih
    · rename_i hany
      intro x hx
      cases hx' : x.inTuplet tuplet track with
      | false => rfl
      | true => exact absurd (List.any_eq_true.mpr ⟨x, hx, hx'⟩) hany

theorem skipTuplet_split (tuplet : Tuplet) (track : Nat) (l : List Segment) :
    ∃ run, l = run ++ skipTuplet tuplet track l ∧
      (run = [] ∨ ∃ init last, run = init ++ [last] ∧ last.inTuplet tuplet track = true) := by
  induction l with
  | nil => exact ⟨[], by simp [skipTuplet], Or.inl rfl⟩
  | cons s rest ih =>
    by_cases hany : (s :: rest).any (Segment.inTuplet tuplet track) = true
    · have hskip : skipTuplet tuplet track (s :: rest) = skipTuplet tuplet track rest := by
        rw [skipTuplet]; simp only [hany, if_true]
      obtain ⟨run, hrun, hlast⟩ := ih
      refine ⟨s :: run, ?_, Or.inr ?_⟩
      · rw [hskip, List.cons_append, ← hrun]
      · rcases hlast with hnil | ⟨init, last, hinit, hmem⟩
        · subst hnil
          refine ⟨[], s, rfl, ?_⟩
          have hrest : rest = skipTuplet tuplet track rest := by simpa using hrun
          obtain ⟨x, hx, hx'⟩ := List.any_eq_true.mp hany
          rcases List.mem_cons.mp hx with h1 | h1
          · rw [← h1]; exact hx'
          · rw [hrest] at h1
            rw [skipTuplet_no_member tuplet track rest x h1] at hx'
            exact absurd hx' (by simp)
        · exact ⟨s :: init, last, by rw [hinit, List.cons_append], hmem⟩
    · have hskip : skipTuplet tuplet track (s :: rest) = s :: rest := by
        rw [skipTuplet]; simp only [hany, if_false]; simp
      exact ⟨[], by rw [hskip]; rfl, Or.inl rfl⟩

/-- C5: when the walk meets, not in front of `expectedPos`, an element whose
outermost tuplet is `tuplet`, it goes on with `expectedPos = currentPos +
tuplet.ticks`, one advance by the full length of the tuplet, at the chain that
follows the last segment holding a member of the tuplet on the track: that
chain holds no member of the tuplet, and what is skipped is empty or ends with
a member.  In scenario B the triplet occupying [0, 1/2) is met at tick 0 and
the walk goes on at the half chord behind its third member with
`expectedPos = 1/2`, to end with `expectedPos = 1`. -/
theorem checkMeasure_tuplet_unit (env : Env) (track : Nat) (stretch : Fraction) (u : Bool)
    (seg : Segment) (rest : List Segment) (e : Fraction) (m : Measure) (log : List Diag)
    (cr : ChordRest) (tuplet : Tuplet) (hcr : seg.element track = some cr)
    (htop : cr.topTuplet = some tuplet) (hpos : ¬ seg.rtick * stretch < e) :
    walk env track stretch u (seg :: rest) e m log
        = walk env track stretch u (skipTuplet tuplet track rest)
            (seg.rtick * stretch + tuplet.ticks)
            (if e < seg.rtick * stretch then
              fillGap env m e (seg.rtick * stretch - e) track stretch u else m)
            (if e < seg.rtick * stretch then log ++ [Diag.inMeasureUnderrun track] else log) ∧
      (∀ s ∈ skipTuplet tuplet track rest, s.inTuplet tuplet track = false) ∧
      (∃ run, rest = run ++ skipTuplet tuplet track rest ∧
        (run = [] ∨ ∃ init last, run = init ++ [last] ∧ last.inTuplet tuplet track = true)) ∧
      walk env 0 1 u scenarioB.segs 0 scenarioB []
        = walk env 0 1 u [Segment.single (1 / 2) 0 (chord (1 / 2) DurationType.V_HALF)] (1 / 2)
            scenarioB [] ∧
      walk env 0 1 u scenarioB.segs 0 scenarioB [] = (scenarioB, [], 1) := by
  have hres : resume cr track rest = skipTuplet tuplet track rest := by
    simp [resume, htop]
  have hde : cr.deTicks = tuplet.ticks := by simp [ChordRest.deTicks, htop]
  have hB : walk env 0 1 u scenarioB.segs 0 scenarioB []
      = walk env 0 1 u [Segment.single (1 / 2) 0 (chord (1 / 2) DurationType.V_HALF)] (1 / 2)
          scenarioB [] := by
    have hseg : scenarioB.segs = Segment.single 0 0 tripletChord ::
        [Segment.single (1 / 6) 0 tripletChord, Segment.single (1 / 3) 0 tripletChord,
          Segment.single (1 / 2) 0 (chord (1 / 2) DurationType.V_HALF)] := rfl
    rw [hseg, walk_cons_exact env 0 1 u _ _ 0 scenarioB [] tripletChord
      (by simp [Segment.single]) (by simp [Segment.single])]
    have h1 : tripletChord.deTicks = 1 / 2 := by
      simp [ChordRest.deTicks, tripletChord, triplet]
    have h2 : resume tripletChord 0
        [Segment.single (1 / 6) 0 tripletChord, Segment.single (1 / 3) 0 tripletChord,
          Segment.single (1 / 2) 0 (chord (1 / 2) DurationType.V_HALF)]
        = [Segment.single (1 / 2) 0 (chord (1 / 2) DurationType.V_HALF)] := by
      simp [resume, tripletChord, skipTuplet, Segment.inTuplet, Segment.single, chord, triplet]
    rw [h1, h2]
    norm_num
  refine ⟨?_, skipTuplet_no_member tuplet track rest, skipTuplet_split tuplet track rest, hB, ?_⟩
  · rcases lt_or_eq_of_le (not_lt.mp hpos) with hlt | heq
    · rw [walk_cons_gap _ _ _ _ _ _ _ _ _ cr hcr hlt, hres, hde]
      simp [hlt]
    · rw [walk_cons_exact _ _ _ _ _ _ _ _ _ cr hcr heq.symm, hres, hde]
      simp [← heq]
  · rw [hB, walk_cons_exact env 0 1 u _ _ (1 / 2) scenarioB []
      (chord (1 / 2) DurationType.V_HALF) (by simp [Segment.single])
      (by norm_num [Segment.single])]
    have h3 : (chord (1 / 2) DurationType.V_HALF).deTicks = 1 / 2 := by
      simp [ChordRest.deTicks, chord]
    rw [h3]
    simp [resume, chord, walk_nil]
    norm_num

/-- Witness of C5: the first member of the triplet of scenario B, met at
`expectedPos = 0`. -/
theorem checkMeasure_tuplet_unit_witness :
    (Segment.single 0 0 tripletChord).element 0 = some tripletChord ∧
      tripletChord.topTuplet = some triplet ∧
      walk (dottedEnv true) 0 1 true scenarioB.segs 0 scenarioB [] = (scenarioB, [], 1) :=
  ⟨by simp [Segment.single], rfl,
   (checkMeasure_tuplet_unit (dottedEnv true) 0 1 true (Segment.single 0 0 tripletChord)
      [Segment.single (1 / 6) 0 tripletChord, Segment.single (1 / 3) 0 tripletChord,
        Segment.single (1 / 2) 0 (chord (1 / 2) DurationType.V_HALF)]
      0 scenarioB [] tripletChord triplet (by simp [Segment.single]) rfl
      (by norm_num [Segment.single])).2.2.2.2⟩

/-- C7, scenario A: in a 4/4 measure without time stretch whose voice 0 holds
only a quarter rest at tick 0, `checkMeasure` adds to the chain exactly one
segment, at tick 1/4, holding on track 0 a rest of length 3/4 (3/4 being a
length that `TDuration` accepts); it reports nothing, and the sum that
`sanityCheck` then forms for voice 0 is 4/4. -/
theorem checkMeasure_scenarioA (env : Env) (sc : Score) (u : Bool)
    (hs : ∀ x, sc.timeStretch 0 x = 1) (hv : (env.setVal (3 / 4)).isValid = true) :
    (checkMeasure env sc scenarioA 0 u).1.segs
        = scenarioA.segs ++
          [Segment.single (1 / 4) 0 (gapRest (3 / 4) (env.setVal (3 / 4)) env.fillGapDefault)] ∧
      (checkMeasure env sc scenarioA 0 u).2 = [] ∧
      (scanSegs sc (checkMeasure env sc scenarioA 0 u).1 0
          (checkMeasure env sc scenarioA 0 u).1.segs 0
          { voices := fun _ => 0, fmrest0 := none }).voices 0 = 1 := by
  have h34 : (1 : ℚ) - 1 / 4 = 3 / 4 := by norm_num
  have hm : checkMeasure env sc scenarioA 0 u
      = ({ scenarioA with segs := scenarioA.segs ++
          [Segment.single (1 / 4) 0 (gapRest (3 / 4) (env.setVal (3 / 4)) env.fillGapDefault)] },
         []) := by
    simp [checkMeasure, scenarioA, measure44, VOICES, checkTrack, walk, Segment.single,
      plainRest, fillGap, ChordRest.deTicks, resume, undoAddCR, addToChain, hs, h34, hv]
    norm_num [addToChain, Segment.single]
    exact hv
  rw [hm]
  refine ⟨rfl, rfl, ?_⟩
  simp [scanSegs, scanVoice, scenarioA, measure44, VOICES, Segment.single, plainRest, gapRest,
    actualTicks, hs, List.range, List.range.loop, Function.update_apply]
  norm_num

/-- Witness of C7: the duration table `dottedSetVal` accepts the length 3/4. -/
theorem checkMeasure_scenarioA_witness :
    (checkMeasure (dottedEnv true) (oneStaff []) scenarioA 0 true).1.segs
        = scenarioA.segs ++
          [Segment.single (1 / 4) 0
            (gapRest (3 / 4) ((dottedEnv true).setVal (3 / 4)) (dottedEnv true).fillGapDefault)] ∧
      (checkMeasure (dottedEnv true) (oneStaff []) scenarioA 0 true).2 = [] ∧
      (scanSegs (oneStaff []) (checkMeasure (dottedEnv true) (oneStaff []) scenarioA 0 true).1 0
          (checkMeasure (dottedEnv true) (oneStaff []) scenarioA 0 true).1.segs 0
          { voices := fun _ => 0, fmrest0 := none }).voices 0 = 1 :=
  checkMeasure_scenarioA (dottedEnv true) (oneStaff []) true (fun _ => rfl)
    (by norm_num [dottedEnv, dottedSetVal, DurationType.isValid]; decide)

/-! ### The scan of `Score::sanityCheck` -/

theorem scanVoice_fold (sc : Score) (m : Measure) (j : Nat) (seg : Segment) (idx : Nat)
    (acc : Scan) (n : Nat) :
    (∀ v, ((List.range n).foldl (scanVoice sc m j seg idx) acc).voices v
        = acc.voices v + if v < n then voiceTicks sc m j v seg else 0) ∧
      ((List.range n).foldl (scanVoice sc m j seg idx) acc).fmrest0
        = if 0 < n ∧ seg.fmRest0 j = true then some idx else acc.fmrest0 := by
  induction n with
  | zero => simp
  | succ n ih =>
    obtain ⟨ihv, ihf⟩ := ih
    rw [List.range_succ, List.foldl_append, List.foldl_cons, List.foldl_nil]
    cases hcr : seg.element (j * VOICES + n) with
    | none =>
      have hstep : scanVoice sc m j seg idx
          ((List.range n).foldl (scanVoice sc m j seg idx) acc) n
          = (List.range n).foldl (scanVoice sc m j seg idx) acc := by
        simp [scanVoice, hcr]
      rw [hstep]
      constructor
      · intro v
        rw [ihv v]
        by_cases hvn : v < n
        · simp [hvn, Nat.lt_succ_of_lt hvn]
        · by_cases hv : v = n
          · subst hv; simp [voiceTicks, hcr]
          · have : ¬ v < n + 1 := by omega
            simp [hvn, this]
      · rw [ihf]
        cases n with
        | zero =>
          have hcr0 : seg.element (j * VOICES) = none := by simpa using hcr
          simp [Segment.fmRest0, hcr0]
        | succ k => simp
    | some cr =>
      have hstep : scanVoice sc m j seg idx
          ((List.range n).foldl (scanVoice sc m j seg idx) acc) n
          = { voices := Function.update
                ((List.range n).foldl (scanVoice sc m j seg idx) acc).voices n
                (((List.range n).foldl (scanVoice sc m j seg idx) acc).voices n
                  + actualTicks sc m j seg cr)
              fmrest0 := if n = 0 ∧ cr.isRest = true ∧ cr.durationType.isMeasure = true
                then some idx
                else ((List.range n).foldl (scanVoice sc m j seg idx) acc).fmrest0 } := by
        simp [scanVoice, hcr]
      rw [hstep]
      constructor
      · intro v
        by_cases hv : v = n
        · subst hv
          simp [Function.update_same, ihv, voiceTicks, hcr]
        · simp only [Function.update_noteq hv]
          rw [ihv v]
          by_cases hvn : v < n
          · simp [hvn, Nat.lt_succ_of_lt hvn]
          · have : ¬ v < n + 1 := by omega
            simp [hvn, this]
      · simp only [ihf]
        cases n with
        | zero =>
          have hcr0 : seg.element (j * VOICES) = some cr := by simpa using hcr
          simp [Segment.fmRest0, hcr0]
        | succ k => simp

theorem scanSegs_spec (sc : Score) (m : Measure) (j : Nat) (segs : List Segment) :
    ∀ (base : Nat) (acc : Scan),
      (∀ v, v < VOICES → (scanSegs sc m j segs base acc).voices v
          = acc.voices v + (segs.map (voiceTicks sc m j v)).sum) ∧
        (scanSegs sc m j segs base acc).fmrest0
          = match lastFMRest j segs with
            | some i => some (base + i)
            | none => acc.fmrest0 := by
  induction segs with
  | nil => intro base acc; simp [scanSegs, lastFMRest]
  | cons seg rest ih =>
    intro base acc
    obtain ⟨hv, hf⟩ := scanVoice_fold sc m j seg base acc VOICES
    obtain ⟨ihv, ihf⟩ := ih (base + 1) ((List.range VOICES).foldl (scanVoice sc m j seg base) acc)
    rw [scanSegs]
    constructor
    · intro v hlt
      rw [ihv v hlt, hv v]
      simp [hlt, add_assoc]
    · rw [ihf, hf, lastFMRest]
      cases hl : lastFMRest j rest with
      | some i => simp [Nat.add_assoc, Nat.add_comm 1 i]
      | none =>
        by_cases hfm : seg.fmRest0 j = true
        · simp [hfm, VOICES]
        · simp [hfm]

/-! ### The repair of `Score::sanityCheck` -/

theorem repairSegs_congr (p q : Nat → Nat → Bool) (len : Fraction) (segs : List Segment) :
    ∀ base, (∀ i t, base ≤ i → p i t = q i t) →
      repairSegs p len segs base = repairSegs q len segs base := by
  induction segs with
  | nil => intro base _; simp [repairSegs]
  | cons seg rest ih =>
    intro base h
    simp only [repairSegs]
    rw [ih (base + 1) (fun i t hi => h i t (by omega))]
    have hp : (fun t => if p base t = true then
          Option.map (fun cr : ChordRest => { cr with ticks := len }) (seg.element t)
        else seg.element t)
        = fun t => if q base t = true then
          Option.map (fun cr : ChordRest => { cr with ticks := len }) (seg.element t)
        else seg.element t := by
      funext t
      rw [h base t (Nat.le_refl _)]
    rw [hp]

theorem repairSegs_none (p : Nat → Nat → Bool) (len : Fraction) (segs : List Segment) :
    ∀ base, (∀ i t, base ≤ i → p i t = false) → repairSegs p len segs base = segs := by
  induction segs with
  | nil => intro base _; simp [repairSegs]
  | cons seg rest ih =>
    intro base h
    simp only [repairSegs]
    rw [ih (base + 1) (fun i t hi => h i t (by omega))]
    have hp : (fun t => if p base t = true then
          Option.map (fun cr : ChordRest => { cr with ticks := len }) (seg.element t)
        else seg.element t) = seg.element := by
      funext t
      simp [h base t (Nat.le_refl _)]
    rw [hp]

theorem setTicksAt_repairSegs (p : Nat → Nat → Bool) (len : Fraction) (track : Nat)
    (segs : List Segment) :
    ∀ base idx, p (base + idx) track = false →
      setTicksAt track len idx (repairSegs p len segs base)
        = repairSegs (fun i t => p i t || (decide (i = base + idx) && decide (t = track)))
            len segs base := by
  induction segs with
  | nil => intro base idx _; cases idx <;> simp [repairSegs, setTicksAt]
  | cons seg rest ih =>
    intro base idx hp
    cases idx with
    | zero =>
      simp only [repairSegs, setTicksAt, Nat.add_zero] at hp ⊢
      have htail : repairSegs p len rest (base + 1)
          = repairSegs (fun i t => p i t || (decide (i = base) && decide (t = track)))
              len rest (base + 1) := by
        apply repairSegs_congr
        intro i t hi
        have : i ≠ base := by omega
        simp [this]
      rw [← htail]
      congr 1
      simp only [hp, Bool.false_eq_true, if_false]
      cases hs : seg.element track with
      | none =>
        simp only
        congr 1
        funext t
        by_cases ht : t = track
        · subst ht; simp [hs]
        · simp [ht]
      | some cr =>
        simp only [Segment.setElement]
        congr 1
        funext t
        by_cases ht : t = track
        · subst ht; simp [hs]
        · simp [ht, Function.update_noteq ht]
    | succ k =>
      simp only [repairSegs, setTicksAt]
      have hp1 : p (base + 1 + k) track = false := by
        rw [← hp]; congr 1; omega
      rw [ih (base + 1) k hp1]
      have htail : repairSegs
            (fun i t => p i t || (decide (i = base + 1 + k) && decide (t = track)))
            len rest (base + 1)
          = repairSegs (fun i t => p i t || (decide (i = base + (k + 1)) && decide (t = track)))
              len rest (base + 1) := by
        apply repairSegs_congr
        intro i t _
        have : (i = base + 1 + k) = (i = base + (k + 1)) := by
          apply propext; constructor <;> intro h <;> omega
        simp [this]
      rw [htail]
      congr 1
      congr 1
      funext t
      have : base ≠ base + (k + 1) := by omega
      simp [this]

theorem repairSegs_voiceTicks (sc : Score) (m1 m : Measure) (j v : Nat) (p : Nat → Nat → Bool)
    (len : Fraction) (htick : m1.tick = m.tick) (hp : ∀ i, p i (j * VOICES + v) = false)
    (segs : List Segment) :
    ∀ base, (repairSegs p len segs base).map (voiceTicks sc m1 j v)
      = segs.map (voiceTicks sc m j v) := by
  induction segs with
  | nil => intro base; simp [repairSegs]
  | cons seg rest ih =>
    intro base
    simp only [repairSegs, List.map_cons]
    rw [ih (base + 1)]
    congr 1
    simp [voiceTicks, hp base, actualTicks, htick]

theorem repairSegs_lastFMRest (j : Nat) (p : Nat → Nat → Bool) (len : Fraction)
    (hp : ∀ i, p i (j * VOICES) = false) (segs : List Segment) :
    ∀ base, lastFMRest j (repairSegs p len segs base) = lastFMRest j segs := by
  induction segs with
  | nil => intro base; simp [repairSegs]
  | cons seg rest ih =>
    intro base
    simp only [repairSegs, lastFMRest]
    rw [ih (base + 1)]
    simp [Segment.fmRest0, hp base]

theorem repairedBelow_staff (sc : Score) (m : Measure) (j v i : Nat) (hv : v < VOICES) :
    repairedBelow sc m j i (j * VOICES + v) = false := by
  have h : (j * VOICES + v) / VOICES = j := by
    unfold VOICES at hv ⊢; omega
  simp [repairedBelow, h]

theorem foldl_checkUpperVoice (mNumber j : Nat) (mLen : Fraction) (scan : Scan)
    (st : Measure × List SanityMsg × Bool) :
    ((List.range' 1 (VOICES - 1)).foldl (checkUpperVoice mNumber j mLen scan) st).1 = st.1 ∧
      (((List.range' 1 (VOICES - 1)).foldl (checkUpperVoice mNumber j mLen scan) st).2.2 = true ↔
        st.2.2 = true ∧ ∀ v, 1 ≤ v → v < VOICES → scan.voices v ≤ mLen) := by
  have hr : List.range' 1 (VOICES - 1) = [1, 2, 3] := rfl
  have hall : (∀ v, 1 ≤ v → v < VOICES → scan.voices v ≤ mLen)
      ↔ scan.voices 1 ≤ mLen ∧ scan.voices 2 ≤ mLen ∧ scan.voices 3 ≤ mLen := by
    constructor
    · intro h
      exact ⟨h 1 (by decide) (by decide), h 2 (by decide) (by decide),
        h 3 (by decide) (by decide)⟩
    · rintro ⟨h1, h2, h3⟩ v hv1 hv4
      have : v = 1 ∨ v = 2 ∨ v = 3 := by unfold VOICES at hv4; omega
      rcases this with h | h | h <;> subst h <;> assumption
  rw [hr, hall]
  simp only [List.foldl_cons, List.foldl_nil, checkUpperVoice]
  by_cases h1 : scan.voices 1 > mLen <;> by_cases h2 : scan.voices 2 > mLen <;>
    by_cases h3 : scan.voices 3 > mLen <;>
    simp [h1, h2, h3, not_le.mpr, le_of_not_gt]


theorem repairedBelow_succ (sc : Score) (m : Measure) (j i t : Nat) :
    repairedBelow sc m (j + 1) i t
      = (repairedBelow sc m j i t ||
          (decide (voiceSum sc m j 0 ≠ m.ticks ∧ lastFMRest j m.segs = some i)
            && decide (t = j * VOICES))) := by
  by_cases ht : t = j * VOICES
  · subst ht
    have h1 : j * VOICES % VOICES = 0 := Nat.mul_mod_left j VOICES
    have h2 : j * VOICES / VOICES = j := Nat.mul_div_cancel j (by decide)
    simp [repairedBelow, h1, h2]
  · have h3 : ¬ (t % VOICES = 0 ∧ t / VOICES = j) := by
      unfold VOICES at ht ⊢; omega
    have h4 : (t % VOICES = 0 ∧ t / VOICES < j + 1) ↔ (t % VOICES = 0 ∧ t / VOICES < j) := by
      constructor
      · rintro ⟨ha, hb⟩
        refine ⟨ha, ?_⟩
        rcases Nat.lt_succ_iff_lt_or_eq.mp hb with h | h
        · exact h
        · exact absurd ⟨ha, h⟩ h3
      · rintro ⟨ha, hb⟩
        exact ⟨ha, Nat.lt_succ_of_lt hb⟩
    simp only [repairedBelow, ht, decide_False, Bool.and_false, Bool.or_false]
    apply decide_eq_decide.mpr
    constructor
    · rintro ⟨ha, hb, hc⟩
      exact ⟨ha, (h4.mp ⟨ha, hb⟩).2, hc⟩
    · rintro ⟨ha, hb, hc⟩
      exact ⟨ha, (h4.mpr ⟨ha, hb⟩).2, hc⟩

/-- The state of the staff loop of `Score::sanityCheck` after the staves below
`n`: the measure with the slots of `repairedBelow` repaired, and `result` still
true exactly if it was and every staff below `n` passes. -/
theorem foldl_sanityStaff (sc : Score) (mNumber : Nat) (m : Measure) (n : Nat) :
    ∀ (error : List SanityMsg) (result : Bool),
      ((List.range n).foldl (sanityStaff sc mNumber) (m, error, result)).1
          = { m with segs := repairSegs (repairedBelow sc m n) m.ticks m.segs 0 } ∧
        (((List.range n).foldl (sanityStaff sc mNumber) (m, error, result)).2.2 = true ↔
          result = true ∧ ∀ j, j < n → staffOk sc m j) := by
  induction n with
  | zero =>
    intro error result
    simp only [List.range_zero, List.foldl_nil]
    constructor
    · rw [repairSegs_none]
      intro i t _
      simp [repairedBelow]
    · simp
  | succ n ih =>
    intro error result
    obtain ⟨ihm, ihr⟩ := ih error result
    rw [List.range_succ, List.foldl_append, List.foldl_cons, List.foldl_nil]
    generalize hst : (List.range n).foldl (sanityStaff sc mNumber) (m, error, result) = st at ihm ihr
    obtain ⟨m1, err1, res1⟩ := st
    simp only at ihm ihr
    have hvoices : ∀ v, v < VOICES →
        (scanSegs sc m1 n m1.segs 0 { voices := fun _ => 0, fmrest0 := none }).voices v
          = voiceSum sc m n v := by
      intro v hv
      rw [(scanSegs_spec sc m1 n m1.segs 0 _).1 v hv, ihm]
      simp only [zero_add, voiceSum]
      exact congrArg List.sum (repairSegs_voiceTicks sc _ m n v _ _ rfl
        (fun i => repairedBelow_staff sc m n v i hv) m.segs 0)
    have hfm : (scanSegs sc m1 n m1.segs 0 { voices := fun _ => 0, fmrest0 := none }).fmrest0
        = lastFMRest n m.segs := by
      rw [(scanSegs_spec sc m1 n m1.segs 0 _).2, ihm]
      simp only
      rw [repairSegs_lastFMRest n _ _
        (fun i => by simpa using repairedBelow_staff sc m n 0 i (by decide))]
      cases lastFMRest n m.segs <;> simp
    have hticks : m1.ticks = m.ticks := by rw [ihm]
    unfold sanityStaff
    simp only
    obtain ⟨hu1, hu2⟩ := foldl_checkUpperVoice mNumber n m1.ticks
      (scanSegs sc m1 n m1.segs 0 { voices := fun _ => 0, fmrest0 := none })
      (if (scanSegs sc m1 n m1.segs 0 { voices := fun _ => 0, fmrest0 := none }).voices 0
            ≠ m1.ticks then
          ((match (scanSegs sc m1 n m1.segs 0
                { voices := fun _ => 0, fmrest0 := none }).fmrest0 with
            | some idx => { m1 with segs := setTicksAt (n * VOICES) m1.ticks idx m1.segs }
            | none => m1),
           err1 ++ [SanityMsg.incomplete mNumber (n + 1) m1.ticks
            ((scanSegs sc m1 n m1.segs 0 { voices := fun _ => 0, fmrest0 := none }).voices 0)],
           false)
        else (m1, err1, res1))
    constructor
    · rw [hu1, hvoices 0 (by decide), hfm, hticks]
      by_cases hmis : voiceSum sc m n 0 ≠ m.ticks
      · rw [if_pos hmis]
        cases hl : lastFMRest n m.segs with
        | none =>
          simp only
          rw [ihm]
          congr 1
          apply repairSegs_congr
          intro i t _
          rw [repairedBelow_succ]
          simp [hl]
        | some idx =>
          simp only
          rw [ihm]
          simp only
          congr 1
          have hp : repairedBelow sc m n (0 + idx) (n * VOICES) = false := by
            simpa using repairedBelow_staff sc m n 0 (0 + idx) (by decide)
          rw [setTicksAt_repairSegs _ _ _ _ 0 idx hp]
          apply repairSegs_congr
          intro i t _
          rw [repairedBelow_succ]
          simp only [hl, zero_add]
          by_cases hi : i = idx
          · subst hi; simp [hmis]
          · have : ¬ (idx = i) := fun h => hi h.symm
            simp [hi, this]
      · rw [if_neg hmis]
        simp only
        rw [ihm]
        congr 1
        apply repairSegs_congr
        intro i t _
        rw [repairedBelow_succ]
        have : voiceSum sc m n 0 = m.ticks := not_not.mp hmis
        simp [this]
    · rw [hu2]
      have hupper : (∀ v, 1 ≤ v → v < VOICES →
          (scanSegs sc m1 n m1.segs 0 { voices := fun _ => 0, fmrest0 := none }).voices v
            ≤ m1.ticks) ↔ ∀ v, 1 ≤ v → v < VOICES → voiceSum sc m n v ≤ m.ticks := by
        constructor
        · intro h v h1 h4
          rw [← hvoices v h4, ← hticks]; exact h v h1 h4
        · intro h v h1 h4
          rw [hvoices v h4, hticks]; exact h v h1 h4
      rw [hupper, hvoices 0 (by decide), hticks]
      have hlt : (∀ j, j < n + 1 → staffOk sc m j)
          ↔ (∀ j, j < n → staffOk sc m j) ∧ staffOk sc m n := by
        constructor
        · intro h
          exact ⟨fun j hj => h j (Nat.lt_succ_of_lt hj), h n (Nat.lt_succ_self n)⟩
        · rintro ⟨h1, h2⟩ j hj
          rcases Nat.lt_succ_iff_lt_or_eq.mp hj with h | h
          · exact h1 j h
          · subst h; exact h2
      rw [hlt]
      by_cases hmis : voiceSum sc m n 0 ≠ m.ticks
      · rw [if_pos hmis]
        simp only [staffOk]
        constructor
        · rintro ⟨h, _⟩; exact absurd h (by simp)
        · rintro ⟨_, _, h, _⟩; exact absurd h hmis
      · rw [if_neg hmis]
        have heq : voiceSum sc m n 0 = m.ticks := not_not.mp hmis
        simp only [staffOk, ihr]
        constructor
        · rintro ⟨⟨h1, h2⟩, h3⟩; exact ⟨h1, h2, heq, h3⟩
        · rintro ⟨h1, h2, _, h3⟩; exact ⟨⟨h1, h2⟩, h3⟩

/-- The measure loop of `Score::sanityCheck`: every measure is left as
`repairedMeasure` describes, and `result` is still true exactly if it was and
every staff of every measure passes. -/
theorem sanityMeasures_spec (sc : Score) (ms : List Measure) :
    ∀ (mNumber : Nat) (error : List SanityMsg) (result : Bool),
      (sanityMeasures sc ms mNumber error result).1 = ms.map (repairedMeasure sc) ∧
        ((sanityMeasures sc ms mNumber error result).2.2 = true ↔
          result = true ∧ ∀ m ∈ ms, ∀ j, j < sc.nstaves → staffOk sc m j) := by
  induction ms with
  | nil => intro mNumber error result; simp [sanityMeasures]
  | cons m rest ih =>
    intro mNumber error result
    obtain ⟨hm, hr⟩ := foldl_sanityStaff sc mNumber m sc.nstaves error result
    obtain ⟨ihm, ihr⟩ := ih (mNumber + 1)
      ((List.range sc.nstaves).foldl (sanityStaff sc mNumber) (m, error, result)).2.1
      ((List.range sc.nstaves).foldl (sanityStaff sc mNumber) (m, error, result)).2.2
    simp only [sanityMeasures, List.map_cons]
    constructor
    · rw [ihm, hm]
      rfl
    · rw [ihr, hr]
      simp only [List.mem_cons, forall_eq_or_imp]
      tauto

theorem sanityCheck_score_eq (sc : Score) (name : String) (canOpen : Bool)
    (lastError : List SanityMsg) :
    (sanityCheck sc name canOpen lastError).score
      = { sc with measures := sc.measures.map (repairedMeasure sc) } := by
  unfold sanityCheck
  simp only
  split
  · split <;> simp only [(sanityMeasures_spec sc sc.measures 1 [] true).1]
  · simp only [(sanityMeasures_spec sc sc.measures 1 [] true).1]

theorem sanityCheck_result_empty_name (sc : Score) (canOpen : Bool)
    (lastError : List SanityMsg) :
    (sanityCheck sc "" canOpen lastError).result = true
      ↔ ∀ m ∈ sc.measures, ∀ j, j < sc.nstaves → staffOk sc m j := by
  have h := (sanityMeasures_spec sc sc.measures 1 [] true).2
  unfold sanityCheck
  simp only [String.isEmpty]
  simpa using h

/-! ### The claims on `Score::sanityCheck` -/

/-- C9: called with an empty file name, `Score::sanityCheck` returns true if and
only if, in every measure and for every staff of the score, the actual lengths
of the ChordRest elements of voice 0 add up to the length of the measure and
those of each voice 1..VOICES-1 add up to at most that length. -/
theorem sanityCheck_true_iff (sc : Score) (canOpen : Bool) (lastError : List SanityMsg) :
    (sanityCheck sc "" canOpen lastError).result = true
      ↔ ∀ m ∈ sc.measures, ∀ staffIdx, staffIdx < sc.nstaves →
          voiceSum sc m staffIdx 0 = m.ticks ∧
            ∀ v, 1 ≤ v → v < VOICES → voiceSum sc m staffIdx v ≤ m.ticks :=
  sanityCheck_result_empty_name sc canOpen lastError

/-- C10, amended: `Score::sanityCheck` leaves the score with every measure as
`repairedMeasure` describes: an element changes only by having its length set
to the length of the measure, and only in voice 0 of a staff whose voice 0 does
not add up to that length, in the last segment of the chain holding a full
measure rest in that voice, whatever else the voice holds; a measure in which
every staff has a matching voice 0 or no full measure rest in voice 0 is left
as it was, however long its other voices are. -/
theorem sanityCheck_repair (sc : Score) (name : String) (canOpen : Bool)
    (lastError : List SanityMsg) :
    (sanityCheck sc name canOpen lastError).score
        = { sc with measures := sc.measures.map (repairedMeasure sc) } ∧
      ∀ m, (∀ j, j < sc.nstaves →
          voiceSum sc m j 0 = m.ticks ∨ lastFMRest j m.segs = none) →
        repairedMeasure sc m = m := by
  refine ⟨sanityCheck_score_eq sc name canOpen lastError, ?_⟩
  intro m h
  unfold repairedMeasure
  rw [repairSegs_none]
  intro i t _
  simp only [repaired, repairedBelow, decide_eq_false_iff_not]
  rintro ⟨_, hlt, hne, hl⟩
  rcases h _ hlt with h1 | h1
  · exact hne h1
  · rw [h1] at hl; exact absurd hl (by simp)

/-- Counterexample to C10 as stated: voice 0 of `mixedVoice` holds a full
measure rest of length 1/2 and a quarter chord, 3/4 in a 4/4 measure; the rest
is not alone in the voice, and `Score::sanityCheck` sets its length to 1. -/
theorem sanityCheck_repairs_mixed_voice :
    mixedVoice.segs.map (fun s => (s.element 0).map (fun cr => cr.ticks))
        = [some (1 / 2), some (1 / 4)] ∧
      (sanityCheck (oneStaff [mixedVoice]) "" true []).score.measures.map
          (fun m => m.segs.map (fun s => (s.element 0).map (fun cr => cr.ticks)))
        = [[some 1, some (1 / 4)]] := by
  constructor
  · simp [mixedVoice, measure44, Segment.single, plainRest, chord]
  · rw [sanityCheck_score_eq]
    have hsum : voiceSum (oneStaff [mixedVoice]) mixedVoice 0 0 = 3 / 4 := by
      simp [voiceSum, voiceTicks, mixedVoice, measure44, Segment.single, plainRest, chord,
        actualTicks, oneStaff, VOICES]
      norm_num
    have hlast : lastFMRest 0 mixedVoice.segs = some 0 := by
      simp [lastFMRest, Segment.fmRest0, mixedVoice, measure44, Segment.single, plainRest,
        chord, VOICES, DurationType.isMeasure]
    have hticks : mixedVoice.ticks = 1 := rfl
    have hsegs : mixedVoice.segs
        = [Segment.single 0 0 (plainRest (1 / 2) DurationType.V_MEASURE),
          Segment.single (1 / 2) 0 (chord (1 / 4) DurationType.V_QUARTER)] := rfl
    have hn : (oneStaff [mixedVoice]).nstaves = 1 := rfl
    have hms : (oneStaff [mixedVoice]).measures = [mixedVoice] := rfl
    have hr0 : repaired (oneStaff [mixedVoice]) mixedVoice 0 0 = true := by
      simp [repaired, repairedBelow, hsum, hlast, hticks, hn, VOICES]
      norm_num
    have hr1 : repaired (oneStaff [mixedVoice]) mixedVoice 1 0 = false := by
      simp [repaired, repairedBelow, hlast, VOICES]
    simp only [hms, List.map_cons, List.map_nil, repairedMeasure, hsegs, repairSegs, hticks]
    simp [hr0, hr1, Segment.single, plainRest, chord]

/-! ### The content of a track -/

theorem trackView_nil (t : Nat) : trackView t [] = [] := rfl

theorem trackView_cons_none (t : Nat) (seg : Segment) (rest : List Segment)
    (h : seg.element t = none) : trackView t (seg :: rest) = trackView t rest := by
  simp [trackView, List.filterMap_cons, h]

theorem trackView_cons_some (t : Nat) (seg : Segment) (rest : List Segment) (cr : ChordRest)
    (h : seg.element t = some cr) :
    trackView t (seg :: rest) = (seg.rtick, cr) :: trackView t rest := by
  simp [trackView, List.filterMap_cons, h]

theorem trackView_append (t : Nat) (a b : List Segment) :
    trackView t (a ++ b) = trackView t a ++ trackView t b := by
  simp [trackView, List.filterMap_append]

theorem trackView_eq_nil (t : Nat) (segs : List Segment) :
    trackView t segs = [] ↔ ∀ seg ∈ segs, seg.element t = none := by
  induction segs with
  | nil => simp [trackView]
  | cons seg rest ih =>
    cases h : seg.element t with
    | none => rw [trackView_cons_none t seg rest h, ih]; simp [h]
    | some cr => rw [trackView_cons_some t seg rest cr h]; simp [h]

theorem any_inTuplet_view (tuplet : Tuplet) (t : Nat) (segs : List Segment) :
    segs.any (Segment.inTuplet tuplet t)
      = (trackView t segs).any (fun q => decide (q.2.topTuplet = some tuplet)) := by
  induction segs with
  | nil => simp [trackView]
  | cons seg rest ih =>
    cases h : seg.element t with
    | none =>
      rw [trackView_cons_none t seg rest h, List.any_cons, ih]
      simp [Segment.inTuplet, h]
    | some cr =>
      rw [trackView_cons_some t seg rest cr h, List.any_cons, List.any_cons, ih]
      simp [Segment.inTuplet, h]

theorem skipV_of_not_any (tuplet : Tuplet) (v : List (Fraction × ChordRest))
    (h : v.any (fun q => decide (q.2.topTuplet = some tuplet)) = false) :
    skipV tuplet v = v := by
  cases v with
  | nil => rfl
  | cons p rest => rw [skipV]; simp only [h, Bool.false_eq_true, if_false]

theorem trackView_skipTuplet (tuplet : Tuplet) (t : Nat) (segs : List Segment) :
    trackView t (skipTuplet tuplet t segs) = skipV tuplet (trackView t segs) := by
  induction segs with
  | nil => simp [skipTuplet, trackView, skipV]
  | cons seg rest ih =>
    by_cases hany : (seg :: rest).any (Segment.inTuplet tuplet t) = true
    · have hskip : skipTuplet tuplet t (seg :: rest) = skipTuplet tuplet t rest := by
        rw [skipTuplet]; simp only [hany, if_true]
      rw [hskip, ih]
      have hv := any_inTuplet_view tuplet t (seg :: rest)
      rw [hany] at hv
      cases h : seg.element t with
      | none => rw [trackView_cons_none t seg rest h]
      | some cr =>
        rw [trackView_cons_some t seg rest cr h] at hv ⊢
        rw [skipV]; simp only [← hv, if_true]
    · have hany' : (seg :: rest).any (Segment.inTuplet tuplet t) = false := by
        simpa using hany
      have hskip : skipTuplet tuplet t (seg :: rest) = seg :: rest := by
        rw [skipTuplet]; simp only [hany', Bool.false_eq_true, if_false]
      rw [hskip, skipV_of_not_any]
      rw [← any_inTuplet_view, hany']

theorem trackView_resume (cr : ChordRest) (t : Nat) (segs : List Segment) :
    trackView t (resume cr t segs) = resumeV cr (trackView t segs) := by
  unfold resume resumeV
  split
  · exact trackView_skipTuplet _ t segs
  · rfl

theorem skipV_no_member (tuplet : Tuplet) (v : List (Fraction × ChordRest)) :
    ∀ q ∈ skipV tuplet v, q.2.topTuplet ≠ some tuplet := by
  induction v with
  | nil => simp [skipV]
  | cons p rest ih =>
    unfold skipV
    split
    · exact ih
    · rename_i hany
      intro q hq hmem
      exact hany (List.any_eq_true.mpr ⟨q, hq, by simpa using hmem⟩)

theorem skipV_split (tuplet : Tuplet) (v : List (Fraction × ChordRest)) :
    ∃ run, v = run ++ skipV tuplet v ∧
      (run = [] ∨ ∃ init last, run = init ++ [last] ∧ last.2.topTuplet = some tuplet) := by
  induction v with
  | nil => exact ⟨[], by simp [skipV], Or.inl rfl⟩
  | cons p rest ih =>
    by_cases hany : (p :: rest).any (fun q => decide (q.2.topTuplet = some tuplet)) = true
    · have hskip : skipV tuplet (p :: rest) = skipV tuplet rest := by
        rw [skipV]; simp only [hany, if_true]
      obtain ⟨run, hrun, hlast⟩ := ih
      refine ⟨p :: run, ?_, Or.inr ?_⟩
      · rw [hskip, List.cons_append, ← hrun]
      · rcases hlast with hnil | ⟨init, last, hinit, hmem⟩
        · subst hnil
          refine ⟨[], p, rfl, ?_⟩
          have hrest : rest = skipV tuplet rest := by simpa using hrun
          obtain ⟨x, hx, hx'⟩ := List.any_eq_true.mp hany
          rcases List.mem_cons.mp hx with h1 | h1
          · rw [← h1]; simpa using hx'
          · rw [hrest] at h1
            exact absurd (by simpa using hx') (skipV_no_member tuplet rest x h1)
        · exact ⟨p :: init, last, by rw [hinit, List.cons_append], hmem⟩
    · have hany' : (p :: rest).any (fun q => decide (q.2.topTuplet = some tuplet)) = false := by
        simpa using hany
      exact ⟨[], by rw [skipV_of_not_any tuplet _ hany']; rfl, Or.inl rfl⟩

theorem skipV_append_of (tuplet : Tuplet) (run tail : List (Fraction × ChordRest))
    (hrun : run = [] ∨ ∃ init last, run = init ++ [last] ∧ last.2.topTuplet = some tuplet)
    (htail : ∀ q ∈ tail, q.2.topTuplet ≠ some tuplet) :
    skipV tuplet (run ++ tail) = tail := by
  induction run with
  | nil =>
    apply skipV_of_not_any
    rw [List.nil_append]
    cases h : tail.any (fun q => decide (q.2.topTuplet = some tuplet)) with
    | false => rfl
    | true =>
      obtain ⟨x, hx, hx'⟩ := List.any_eq_true.mp h
      exact absurd (by simpa using hx') (htail x hx)
  | cons p rest ih =>
    rcases hrun with hnil | ⟨init, last, hinit, hmem⟩
    · exact absurd hnil (by simp)
    · have hany : ((p :: rest) ++ tail).any (fun q => decide (q.2.topTuplet = some tuplet))
          = true := by
        apply List.any_eq_true.mpr
        refine ⟨last, ?_, by simpa using hmem⟩
        rw [hinit]; simp
      have hskip : skipV tuplet ((p :: rest) ++ tail) = skipV tuplet (rest ++ tail) := by
        rw [List.cons_append, skipV]
        rw [List.cons_append] at hany
        simp only [hany, if_true]
      rw [hskip]
      apply ih
      cases init with
      | nil =>
        left
        simp only [List.nil_append, List.cons.injEq] at hinit
        exact hinit.2
      | cons i0 init' =>
        right
        simp only [List.cons_append, List.cons.injEq] at hinit
        exact ⟨init', last, hinit.2, hmem⟩

theorem resumeV_eq_iff (cr : ChordRest) (run tail : List (Fraction × ChordRest)) :
    resumeV cr (run ++ tail) = tail ↔ SkipOk cr run ∧ NoMember cr tail := by
  unfold resumeV SkipOk NoMember
  cases cr.topTuplet with
  | none =>
    simp only [and_true]
    constructor
    · intro h
      have hlen := congrArg List.length h
      simp only [List.length_append] at hlen
      exact List.length_eq_zero.mp (by omega)
    · intro h; rw [h]; rfl
  | some tuplet =>
    simp only
    constructor
    · intro h
      obtain ⟨run', hrun', hok⟩ := skipV_split tuplet (run ++ tail)
      rw [h] at hrun'
      have hrr : run = run' := List.append_cancel_right hrun'
      refine ⟨hrr ▸ hok, ?_⟩
      have := skipV_no_member tuplet (run ++ tail)
      rw [h] at this
      exact this
    · rintro ⟨h1, h2⟩
      exact skipV_append_of tuplet run tail h1 h2

/-! ### Elements found at their expected position -/

theorem ReachV.snoc (s : Fraction) (walked : List (Fraction × ChordRest))
    (q : Fraction × ChordRest) (run ahead : List (Fraction × ChordRest)) (e0 e : Fraction)
    (h : ReachV s walked (q :: (run ++ ahead)) e0 e) (hq : q.1 * s = e)
    (hskip : SkipOk q.2 run) (hno : NoMember q.2 ahead) :
    ReachV s (walked ++ q :: run) ahead e0 (e + q.2.deTicks) := by
  generalize hA : q :: (run ++ ahead) = A at h
  induction h with
  | nil ahead' e' =>
    subst hA
    have := ReachV.step (s := s) q run [] ahead e' (e' + q.2.deTicks) hq hskip
      (by simpa using hno) (ReachV.nil ahead _)
    simpa using this
  | step p run' walked' ahead' e0' e' hp hsk hnm _ ih =>
    subst hA
    have hnm' : NoMember p.2 ((walked' ++ q :: run) ++ ahead) := by
      simpa [List.append_assoc] using hnm
    have := ReachV.step (s := s) p run' (walked' ++ q :: run) ahead e0' _ hp hsk hnm'
      (ih hq rfl)
    simpa [List.append_assoc] using this

theorem NoMember_insert (cr : ChordRest) (a b : List (Fraction × ChordRest))
    (x : Fraction × ChordRest) (hx : x.2.topTuplet = none) (h : NoMember cr (a ++ b)) :
    NoMember cr (a ++ x :: b) := by
  unfold NoMember at h ⊢
  cases hc : cr.topTuplet with
  | none => simp
  | some tuplet =>
    rw [hc] at h
    simp only at h ⊢
    intro q hq
    rcases List.mem_append.mp hq with h1 | h1
    · exact h q (List.mem_append_left _ h1)
    · rcases List.mem_cons.mp h1 with h2 | h2
      · rw [h2, hx]; simp
      · exact h q (List.mem_append_right _ h2)

theorem ReachV.push (s : Fraction) (walked ahead : List (Fraction × ChordRest))
    (x : Fraction × ChordRest) (e0 e : Fraction) (h : ReachV s walked ahead e0 e)
    (hx : x.2.topTuplet = none) (hpos : x.1 * s = e) :
    ReachV s (walked ++ [x]) ahead e0 (e + x.2.ticks) := by
  induction h with
  | nil ahead' e' =>
    have hde : x.2.deTicks = x.2.ticks := by simp [ChordRest.deTicks, hx]
    have := ReachV.step (s := s) x [] [] ahead' e' (e' + x.2.deTicks) hpos
      (by simp [SkipOk, hx]) (by simp [NoMember, hx]) (ReachV.nil ahead' _)
    rw [hde] at this
    simpa using this
  | step p run' walked' ahead' e0' e' hp hsk hnm _ ih =>
    have hnm' : NoMember p.2 ((walked' ++ [x]) ++ ahead') := by
      rw [List.append_assoc]
      exact NoMember_insert p.2 walked' ahead' x hx hnm
    have := ReachV.step (s := s) p run' (walked' ++ [x]) ahead' e0' _ hp hsk hnm' (ih hpos)
    simpa [List.append_assoc] using this

/-! ### From the content of a track back to the chain -/

theorem walk_skip_prefix (env : Env) (t : Nat) (s : Fraction) (u : Bool) (pre rest : List Segment)
    (e : Fraction) (m : Measure) (log : List Diag) (h : ∀ x ∈ pre, x.element t = none) :
    walk env t s u (pre ++ rest) e m log = walk env t s u rest e m log := by
  induction pre with
  | nil => rfl
  | cons x pre' ih =>
    rw [List.cons_append, walk_cons_none _ _ _ _ _ _ _ _ _ (h x (List.mem_cons_self _ _))]
    exact ih (fun y hy => h y (List.mem_cons_of_mem _ hy))

theorem trackView_cons_decomp (t : Nat) (segs : List Segment) (p : Fraction × ChordRest)
    (v : List (Fraction × ChordRest)) (h : trackView t segs = p :: v) :
    ∃ pre seg rest, segs = pre ++ seg :: rest ∧ (∀ x ∈ pre, x.element t = none) ∧
      seg.element t = some p.2 ∧ seg.rtick = p.1 ∧ trackView t rest = v := by
  induction segs with
  | nil => simp [trackView] at h
  | cons seg rest ih =>
    cases hs : seg.element t with
    | none =>
      rw [trackView_cons_none t seg rest hs] at h
      obtain ⟨pre, seg', rest', h1, h2, h3, h4, h5⟩ := ih h
      refine ⟨seg :: pre, seg', rest', by rw [h1]; rfl, ?_, h3, h4, h5⟩
      intro x hx
      rcases List.mem_cons.mp hx with hx1 | hx1
      · rw [hx1]; exact hs
      · exact h2 x hx1
    | some cr =>
      rw [trackView_cons_some t seg rest cr hs] at h
      simp only [List.cons.injEq] at h
      refine ⟨[], seg, rest, rfl, by simp, ?_, ?_, h.2⟩
      · rw [hs, ← h.1]
      · rw [← h.1]

theorem trackView_mem (t : Nat) (segs : List Segment) (p : Fraction × ChordRest)
    (h : p ∈ trackView t segs) : ∃ y ∈ segs, y.rtick = p.1 ∧ y.element t = some p.2 := by
  simp only [trackView, List.mem_filterMap, Option.map_eq_some'] at h
  obtain ⟨y, hy, cr, hcr, hp⟩ := h
  exact ⟨y, hy, by rw [← hp], by rw [← hp]; exact hcr⟩

/-- A track whose content is found entirely at the expected positions is
walked without a message and without a change of the measure. -/
theorem walk_of_reach (env : Env) (t : Nat) (s : Fraction) (u : Bool)
    (walked ahead : List (Fraction × ChordRest)) (e0 e : Fraction)
    (h : ReachV s walked ahead e0 e) :
    ahead = [] → ∀ (segs : List Segment) (m : Measure) (log : List Diag),
      trackView t segs = walked → walk env t s u segs e0 m log = (m, log, e) := by
  induction h with
  | nil ahead' e' =>
    intro _ segs m log hv
    exact walk_empty_track env t s u segs e' m log ((trackView_eq_nil t segs).mp hv)
  | step p run walked' ahead' e0' e' hp hsk hnm _ ih =>
    intro hah segs m log hv
    subst hah
    obtain ⟨pre, seg, rest, h1, h2, h3, h4, h5⟩ := trackView_cons_decomp t segs p _ hv
    rw [h1, walk_skip_prefix env t s u pre _ _ _ _ h2,
      walk_cons_exact env t s u seg rest e0' m log p.2 h3 (by rw [h4]; exact hp)]
    apply ih rfl
    rw [trackView_resume, h5]
    exact (resumeV_eq_iff p.2 run walked').mpr ⟨hsk, by simpa using hnm⟩

/-! ### Inserting into a sorted chain -/

theorem addToChain_mem_rtick (r : Fraction) (t : Nat) (x : ChordRest) (segs : List Segment) :
    ∀ y ∈ addToChain r t x segs, y.rtick = r ∨ ∃ z ∈ segs, z.rtick = y.rtick := by
  induction segs with
  | nil =>
    intro y hy
    simp only [addToChain, List.mem_singleton] at hy
    left; rw [hy]; rfl
  | cons seg rest ih =>
    intro y hy
    unfold addToChain at hy
    split at hy
    · rcases List.mem_cons.mp hy with h1 | h1
      · right; exact ⟨seg, List.mem_cons_self _ _, by rw [h1]⟩
      · rcases ih y h1 with h2 | ⟨z, hz, hz'⟩
        · left; exact h2
        · right; exact ⟨z, List.mem_cons_of_mem _ hz, hz'⟩
    · split at hy
      · rcases List.mem_cons.mp hy with h1 | h1
        · right; exact ⟨seg, List.mem_cons_self _ _, by rw [h1]; rfl⟩
        · right; exact ⟨y, List.mem_cons_of_mem _ h1, rfl⟩
      · rcases List.mem_cons.mp hy with h1 | h1
        · left; rw [h1]; rfl
        · right; exact ⟨y, h1, rfl⟩

theorem addToChain_sorted (r : Fraction) (t : Nat) (x : ChordRest) (segs : List Segment)
    (h : ChainSorted segs) : ChainSorted (addToChain r t x segs) := by
  unfold ChainSorted at h ⊢
  induction segs with
  | nil => simp [addToChain]
  | cons seg rest ih =>
    obtain ⟨hhead, htail⟩ := List.pairwise_cons.mp h
    unfold addToChain
    split
    · rename_i hlt
      apply List.pairwise_cons.mpr
      refine ⟨?_, ih htail⟩
      intro y hy
      rcases addToChain_mem_rtick r t x rest y hy with h1 | ⟨z, hz, hz'⟩
      · rw [h1]; exact hlt
      · rw [← hz']; exact hhead z hz
    · split
      · apply List.pairwise_cons.mpr
        exact ⟨fun y hy => hhead y hy, htail⟩
      · rename_i hnlt hne
        have hgt : r < seg.rtick := lt_of_le_of_ne (not_lt.mp hnlt) (fun h => hne h.symm)
        apply List.pairwise_cons.mpr
        refine ⟨?_, h⟩
        intro y hy
        rcases List.mem_cons.mp hy with h1 | h1
        · rw [h1]; exact hgt
        · exact lt_trans hgt (hhead y h1)

theorem addToChain_view_other (r : Fraction) (t t1 : Nat) (x : ChordRest) (hne : t ≠ t1)
    (segs : List Segment) : trackView t (addToChain r t1 x segs) = trackView t segs := by
  induction segs with
  | nil => simp [addToChain, trackView, Segment.single, Function.update_noteq hne]
  | cons seg rest ih =>
    unfold addToChain
    split
    · cases hs : seg.element t with
      | none => rw [trackView_cons_none t _ _ hs, trackView_cons_none t _ _ hs, ih]
      | some cr => rw [trackView_cons_some t _ _ cr hs, trackView_cons_some t _ _ cr hs, ih]
    · split
      · simp [trackView, List.filterMap_cons, Segment.setElement, Function.update_noteq hne]
      · have h1 : (Segment.single r t1 x).element t = none := by
          simp [Segment.single, Function.update_noteq hne]
        rw [trackView_cons_none t _ _ h1]

theorem addToChain_view (r : Fraction) (t : Nat) (x : ChordRest) (segs : List Segment) :
    ∀ (P Q : List (Fraction × ChordRest)), ChainSorted segs → trackView t segs = P ++ Q →
      (∀ p ∈ P, p.1 < r) → (∀ q ∈ Q, r < q.1) →
      trackView t (addToChain r t x segs) = P ++ (r, x) :: Q := by
  induction segs with
  | nil =>
    intro P Q _ hv _ _
    have hv' : P ++ Q = [] := by rw [← hv]; rfl
    obtain ⟨hP, hQ⟩ := List.append_eq_nil.mp hv'
    subst hP; subst hQ
    simp [addToChain, trackView, Segment.single]
  | cons seg rest ih =>
    intro P Q hsorted hv hP hQ
    obtain ⟨hhead, htail⟩ := List.pairwise_cons.mp hsorted
    have hfar : r ≤ seg.rtick → ∀ p ∈ trackView t rest, r < p.1 := by
      intro hle p hp
      obtain ⟨y, hy, hy1, _⟩ := trackView_mem t rest p hp
      rw [← hy1]; exact lt_of_le_of_lt hle (hhead y hy)
    have hPnil : r ≤ seg.rtick → P = [] := by
      intro hle
      cases P with
      | nil => rfl
      | cons p0 P' =>
        exfalso
        have hp0 : p0.1 < r := hP p0 (List.mem_cons_self _ _)
        cases hs : seg.element t with
        | none =>
          rw [trackView_cons_none t _ _ hs] at hv
          have : p0 ∈ trackView t rest := by rw [hv]; simp
          exact absurd (hfar hle p0 this) (not_lt.mpr (le_of_lt hp0))
        | some cr =>
          rw [trackView_cons_some t _ _ cr hs] at hv
          simp only [List.cons_append, List.cons.injEq] at hv
          rw [← hv.1] at hp0
          exact absurd hp0 (not_lt.mpr hle)
    unfold addToChain
    split
    · rename_i hlt
      cases hs : seg.element t with
      | none =>
        rw [trackView_cons_none t _ _ hs] at hv ⊢
        exact ih P Q htail hv hP hQ
      | some cr =>
        rw [trackView_cons_some t _ _ cr hs] at hv ⊢
        cases P with
        | nil =>
          exfalso
          rw [List.nil_append] at hv
          have : r < seg.rtick := hQ (seg.rtick, cr) (by rw [← hv]; simp)
          exact absurd this (not_lt.mpr (le_of_lt hlt))
        | cons p0 P' =>
          simp only [List.cons_append, List.cons.injEq] at hv
          rw [ih P' Q htail hv.2 (fun p hp => hP p (List.mem_cons_of_mem _ hp)) hQ, hv.1]
          rfl
    · rename_i hnlt
      have hle : r ≤ seg.rtick := not_lt.mp hnlt
      have hPn := hPnil hle
      subst hPn
      rw [List.nil_append] at hv ⊢
      split
      · rename_i heq
        have hnone : seg.element t = none := by
          cases hs : seg.element t with
          | none => rfl
          | some cr =>
            exfalso
            rw [trackView_cons_some t _ _ cr hs] at hv
            have : r < seg.rtick := hQ (seg.rtick, cr) (by rw [← hv]; simp)
            rw [heq] at this
            exact lt_irrefl _ this
        rw [trackView_cons_none t _ _ hnone] at hv
        have h1 : (seg.setElement t x).element t = some x := by
          simp [Segment.setElement]
        rw [trackView_cons_some t _ _ x h1, hv]
        simp [Segment.setElement, heq]
      · have h1 : (Segment.single r t x).element t = some x := by simp [Segment.single]
        rw [trackView_cons_some t _ _ x h1, hv]
        rfl

theorem trackView_sorted (t : Nat) (segs : List Segment) (h : ChainSorted segs) :
    (trackView t segs).Pairwise (fun a b => a.1 < b.1) := by
  unfold ChainSorted at h
  unfold trackView
  refine List.Pairwise.filterMap _ ?_ h
  intro a a' haa b hb b' hb'
  simp only [Option.mem_def, Option.map_eq_some'] at hb hb'
  obtain ⟨_, _, hb1⟩ := hb
  obtain ⟨_, _, hb1'⟩ := hb'
  rw [← hb1, ← hb1']
  exact haa

/-! ### The invariant of the walk -/

theorem globalSum_append (a b : List (Fraction × ChordRest)) :
    globalSum (a ++ b) = globalSum a + globalSum b := by
  simp [globalSum, List.map_append, List.sum_append]

theorem WalkInv.step (s : Fraction) (t : Nat) (segs : List Segment) (p : Fraction × ChordRest)
    (run tail : List (Fraction × ChordRest)) (e : Fraction)
    (h : WalkInv s t segs (p :: (run ++ tail)) e) (hp : p.1 * s = e)
    (hres : resumeV p.2 (run ++ tail) = tail) (hpos : 0 < p.2.deTicks)
    (hsum : globalSum (p :: run) = p.2.deTicks)
    (hbound : ∀ q ∈ run, q.1 * s < p.1 * s + p.2.deTicks) :
    WalkInv s t segs tail (e + p.2.deTicks) := by
  obtain ⟨hsorted, P, hview, hreach, hG, hb, h0, _⟩ := h
  obtain ⟨hsk, hnm⟩ := (resumeV_eq_iff p.2 run tail).mp hres
  refine ⟨hsorted, P ++ p :: run, ?_, ReachV.snoc s P p run tail 0 e hreach hp hsk hnm, ?_, ?_,
    by linarith, fun _ => by linarith⟩
  · rw [hview]; simp [List.append_assoc]
  · rw [globalSum_append, hG, hsum]
  · intro q hq
    rcases List.mem_append.mp hq with h1 | h1
    · have := hb q h1; linarith
    · rcases List.mem_cons.mp h1 with h2 | h2
      · rw [h2, hp]; linarith
      · have := hbound q h2; rw [hp] at this; exact this

theorem WalkInv.fill (s : Fraction) (t : Nat) (segs : List Segment) (p : Fraction × ChordRest)
    (rest : List (Fraction × ChordRest)) (e : Fraction) (x : ChordRest) (hs : 0 < s)
    (h : WalkInv s t segs (p :: rest) e) (hgap : e < p.1 * s)
    (hx : x.topTuplet = none) (hr : x.ratio = 1) (hlen : x.ticks = p.1 * s - e) :
    WalkInv s t (addToChain (e / s) t x segs) (p :: rest) (p.1 * s) := by
  obtain ⟨hsorted, P, hview, hreach, hG, hb, h0, _⟩ := h
  have hne : s ≠ 0 := ne_of_gt hs
  have hes : e / s * s = e := div_mul_cancel₀ e hne
  have hvs := trackView_sorted t segs hsorted
  rw [hview] at hvs
  have hPlt : ∀ q ∈ P, q.1 < e / s := by
    intro q hq
    exact (lt_div_iff₀ hs).mpr (hb q hq)
  have hQgt : ∀ q ∈ p :: rest, e / s < q.1 := by
    have hp1 : e / s < p.1 := (div_lt_iff₀ hs).mpr hgap
    intro q hq
    rcases List.mem_cons.mp hq with h1 | h1
    · rw [h1]; exact hp1
    · have h2 := (List.pairwise_append.mp hvs).2.1
      exact lt_trans hp1 ((List.pairwise_cons.mp h2).1 q h1)
  refine ⟨addToChain_sorted _ t x segs hsorted, P ++ [(e / s, x)], ?_, ?_, ?_, ?_, by linarith,
    fun _ => by linarith⟩
  · rw [addToChain_view (e / s) t x segs P (p :: rest) hsorted hview hPlt hQgt]
    simp
  · have := ReachV.push s P (p :: rest) (e / s, x) 0 e hreach hx hes
    simp only [hlen] at this
    have he : e + (p.1 * s - e) = p.1 * s := by ring
    rw [he] at this
    exact this
  · rw [globalSum_append, hG]
    simp [globalSum, hr, hlen]
  · intro q hq
    rcases List.mem_append.mp hq with h1 | h1
    · have := hb q h1; linarith
    · simp only [List.mem_singleton] at h1
      rw [h1]; simp only; rw [hes]; exact hgap

theorem fillGap_valid (env : Env) (m : Measure) (pos len : Fraction) (t : Nat)
    (s : Fraction) (u : Bool) (hv : (env.setVal len).isValid = true) :
    fillGap env m pos len t s u
      = { m with segs := addToChain (pos / s) t (gapRest len (env.setVal len) u) m.segs } := by
  simp [fillGap, hv, undoAddCR]

/-- The walk of a regular voice that reports no overrun ends with the whole
content of the track passed. -/
theorem walk_inv (env : Env) (t : Nat) (s : Fraction) (u : Bool) (hs : 0 < s)
    (hvalid : ∀ len, 0 < len → (env.setVal len).isValid = true)
    (rem : List Segment) (e : Fraction) (m : Measure) (log : List Diag) :
    RegularV s (trackView t rem) → WalkInv s t m.segs (trackView t rem) e →
      Diag.inMeasureOverrun t ∉ (walk env t s u rem e m log).2.1 →
      WalkInv s t (walk env t s u rem e m log).1.segs [] (walk env t s u rem e m log).2.2 := by
  refine walk_induction env t s u
    (fun rem e m log => RegularV s (trackView t rem) → WalkInv s t m.segs (trackView t rem) e →
      Diag.inMeasureOverrun t ∉ (walk env t s u rem e m log).2.1 →
      WalkInv s t (walk env t s u rem e m log).1.segs [] (walk env t s u rem e m log).2.2)
    ?_ ?_ ?_ ?_ ?_ rem e m log
  · intro e m log _ hinv _
    rw [walk_nil]
    simpa [trackView] using hinv
  · intro seg rest e m log hnone ih hreg hinv hlog
    rw [walk_cons_none _ _ _ _ _ _ _ _ _ hnone] at hlog ⊢
    rw [trackView_cons_none t seg rest hnone] at hreg hinv
    exact ih hreg hinv hlog
  · intro seg rest e m log cr hcr hlt _ _ hlog
    rw [walk_cons_overrun _ _ _ _ _ _ _ _ _ cr hcr hlt] at hlog
    exact absurd (by simp) hlog
  · intro seg rest e m log cr hcr heq ih hreg hinv hlog
    rw [walk_cons_exact _ _ _ _ _ _ _ _ _ cr hcr heq] at hlog ⊢
    rw [trackView_cons_some t seg rest cr hcr] at hreg hinv
    generalize hv : (seg.rtick, cr) :: trackView t rest = v at hreg
    cases hreg with
    | nil => exact absurd hv (by simp)
    | step p run tail h1 h2 h3 h4 h5 =>
      simp only [List.cons.injEq] at hv
      obtain ⟨hp, hrest⟩ := hv
      subst hp
      rw [hrest] at hinv
      have hres : trackView t (resume cr t rest) = tail := by
        rw [trackView_resume, hrest]; exact h1
      apply ih
      · rw [hres]; exact h5
      · rw [hres]
        exact WalkInv.step s t m.segs (seg.rtick, cr) run tail e hinv heq h1 h2 h3 h4
      · exact hlog
  · intro seg rest e m log cr hcr hgt ih hreg hinv hlog
    rw [walk_cons_gap _ _ _ _ _ _ _ _ _ cr hcr hgt] at hlog ⊢
    rw [trackView_cons_some t seg rest cr hcr] at hreg hinv
    have hfill := fillGap_valid env m e (seg.rtick * s - e) t s u
      (hvalid _ (by linarith))
    have hinv1 : WalkInv s t (fillGap env m e (seg.rtick * s - e) t s u).segs
        ((seg.rtick, cr) :: trackView t rest) (seg.rtick * s) := by
      rw [hfill]
      exact WalkInv.fill s t m.segs (seg.rtick, cr) (trackView t rest) e _ hs hinv hgt rfl rfl rfl
    generalize hv : (seg.rtick, cr) :: trackView t rest = v at hreg
    cases hreg with
    | nil => exact absurd hv (by simp)
    | step p run tail h1 h2 h3 h4 h5 =>
      simp only [List.cons.injEq] at hv
      obtain ⟨hp, hrest⟩ := hv
      subst hp
      rw [hrest] at hinv1
      have hres : trackView t (resume cr t rest) = tail := by
        rw [trackView_resume, hrest]; exact h1
      apply ih
      · rw [hres]; exact h5
      · rw [hres]
        exact WalkInv.step s t _ (seg.rtick, cr) run tail (seg.rtick * s) hinv1 rfl h1 h2 h3 h4
      · exact hlog

/-! ### What the walk of a track leaves alone -/

theorem fillGap_tick (env : Env) (m : Measure) (pos len : Fraction) (t : Nat) (s : Fraction)
    (u : Bool) :
    (fillGap env m pos len t s u).tick = m.tick ∧ (fillGap env m pos len t s u).ticks = m.ticks ∧
      (fillGap env m pos len t s u).isMMRest = m.isMMRest ∧
      (fillGap env m pos len t s u).hasVoices = m.hasVoices := by
  unfold fillGap undoAddCR
  dsimp only
  split <;> exact ⟨rfl, rfl, rfl, rfl⟩

theorem fillGap_view_other (env : Env) (m : Measure) (pos len : Fraction) (t t1 : Nat)
    (s : Fraction) (u : Bool) (hne : t ≠ t1) :
    trackView t (fillGap env m pos len t1 s u).segs = trackView t m.segs := by
  unfold fillGap undoAddCR
  dsimp only
  split
  · exact addToChain_view_other _ t t1 _ hne m.segs
  · rfl

theorem fillGap_sorted (env : Env) (m : Measure) (pos len : Fraction) (t : Nat) (s : Fraction)
    (u : Bool) (h : ChainSorted m.segs) : ChainSorted (fillGap env m pos len t s u).segs := by
  unfold fillGap undoAddCR
  dsimp only
  split
  · exact addToChain_sorted _ t _ m.segs h
  · exact h

theorem walk_frame (env : Env) (t1 : Nat) (s : Fraction) (u : Bool)
    (rem : List Segment) (e : Fraction) (m : Measure) (log : List Diag) :
    (walk env t1 s u rem e m log).1.tick = m.tick ∧
      (walk env t1 s u rem e m log).1.ticks = m.ticks ∧
      (walk env t1 s u rem e m log).1.isMMRest = m.isMMRest ∧
      (walk env t1 s u rem e m log).1.hasVoices = m.hasVoices ∧
      (ChainSorted m.segs → ChainSorted (walk env t1 s u rem e m log).1.segs) ∧
      (∀ t, t ≠ t1 → trackView t (walk env t1 s u rem e m log).1.segs = trackView t m.segs) ∧
      ∃ extra, (walk env t1 s u rem e m log).2.1 = log ++ extra := by
  refine walk_induction env t1 s u
    (fun rem e m log => (walk env t1 s u rem e m log).1.tick = m.tick ∧
      (walk env t1 s u rem e m log).1.ticks = m.ticks ∧
      (walk env t1 s u rem e m log).1.isMMRest = m.isMMRest ∧
      (walk env t1 s u rem e m log).1.hasVoices = m.hasVoices ∧
      (ChainSorted m.segs → ChainSorted (walk env t1 s u rem e m log).1.segs) ∧
      (∀ t, t ≠ t1 → trackView t (walk env t1 s u rem e m log).1.segs = trackView t m.segs) ∧
      ∃ extra, (walk env t1 s u rem e m log).2.1 = log ++ extra)
    ?_ ?_ ?_ ?_ ?_ rem e m log
  · intro e m log
    rw [walk_nil]
    exact ⟨rfl, rfl, rfl, rfl, id, fun _ _ => rfl, [], by simp⟩
  · intro seg rest e m log hnone ih
    rw [walk_cons_none _ _ _ _ _ _ _ _ _ hnone]; exact ih
  · intro seg rest e m log cr hcr hlt
    rw [walk_cons_overrun _ _ _ _ _ _ _ _ _ cr hcr hlt]
    exact ⟨rfl, rfl, rfl, rfl, id, fun _ _ => rfl, [Diag.inMeasureOverrun t1], rfl⟩
  · intro seg rest e m log cr hcr heq ih
    rw [walk_cons_exact _ _ _ _ _ _ _ _ _ cr hcr heq]; exact ih
  · intro seg rest e m log cr hcr hgt ih
    rw [walk_cons_gap _ _ _ _ _ _ _ _ _ cr hcr hgt]
    obtain ⟨h1, h2, h3, h4, h5, h6, extra, h7⟩ := ih
    obtain ⟨f1, f2, f3, f4⟩ := fillGap_tick env m e (seg.rtick * s - e) t1 s u
    refine ⟨h1.trans f1, h2.trans f2, h3.trans f3, h4.trans f4,
      fun hs => h5 (fillGap_sorted env m _ _ t1 s u hs), ?_,
      [Diag.inMeasureUnderrun t1] ++ extra, ?_⟩
    · intro t hne
      rw [h6 t hne, fillGap_view_other env m _ _ t t1 s u hne]
    · rw [h7, List.append_assoc]

theorem checkTrack_frame (env : Env) (s f : Fraction) (u : Bool) (st : Measure × List Diag)
    (t1 : Nat) :
    (checkTrack env s f u st t1).1.tick = st.1.tick ∧
      (checkTrack env s f u st t1).1.ticks = st.1.ticks ∧
      (checkTrack env s f u st t1).1.isMMRest = st.1.isMMRest ∧
      (checkTrack env s f u st t1).1.hasVoices = st.1.hasVoices ∧
      (ChainSorted st.1.segs → ChainSorted (checkTrack env s f u st t1).1.segs) ∧
      (∀ t, t ≠ t1 → trackView t (checkTrack env s f u st t1).1.segs = trackView t st.1.segs) ∧
      ∃ extra, (checkTrack env s f u st t1).2 = st.2 ++ extra := by
  obtain ⟨h1, h2, h3, h4, h5, h6, extra, h7⟩ := walk_frame env t1 s u st.1.segs 0 st.1 st.2
  unfold checkTrack
  dsimp only
  split
  · split
    · obtain ⟨f1, f2, f3, f4⟩ := fillGap_tick env (walk env t1 s u st.1.segs 0 st.1 st.2).1
        (walk env t1 s u st.1.segs 0 st.1 st.2).2.2
        (f - (walk env t1 s u st.1.segs 0 st.1 st.2).2.2) t1 s env.fillGapDefault
      refine ⟨f1.trans h1, f2.trans h2, f3.trans h3, f4.trans h4,
        fun hs => fillGap_sorted env _ _ _ t1 s _ (h5 hs), ?_, extra, h7⟩
      intro t hne
      rw [fillGap_view_other env _ _ _ t t1 s _ hne, h6 t hne]
    · exact ⟨h1, h2, h3, h4, h5, h6, extra, h7⟩
  · split
    · exact ⟨h1, h2, h3, h4, h5, h6, extra ++ [Diag.measureOverrun t1], by
        simp only [h7, List.append_assoc]⟩
    · exact ⟨h1, h2, h3, h4, h5, h6, extra, h7⟩

theorem foldl_checkTrack_frame (env : Env) (s f : Fraction) (u : Bool) (tracks : List Nat) :
    ∀ (st : Measure × List Diag),
      (tracks.foldl (checkTrack env s f u) st).1.tick = st.1.tick ∧
      (tracks.foldl (checkTrack env s f u) st).1.ticks = st.1.ticks ∧
      (tracks.foldl (checkTrack env s f u) st).1.isMMRest = st.1.isMMRest ∧
      (tracks.foldl (checkTrack env s f u) st).1.hasVoices = st.1.hasVoices ∧
      (ChainSorted st.1.segs → ChainSorted (tracks.foldl (checkTrack env s f u) st).1.segs) ∧
      (∀ t, t ∉ tracks →
        trackView t (tracks.foldl (checkTrack env s f u) st).1.segs = trackView t st.1.segs) ∧
      ∃ extra, (tracks.foldl (checkTrack env s f u) st).2 = st.2 ++ extra := by
  induction tracks with
  | nil => intro st; exact ⟨rfl, rfl, rfl, rfl, id, fun _ _ => rfl, [], by simp⟩
  | cons t1 rest ih =>
    intro st
    rw [List.foldl_cons]
    obtain ⟨h1, h2, h3, h4, h5, h6, extra, h7⟩ := ih (checkTrack env s f u st t1)
    obtain ⟨g1, g2, g3, g4, g5, g6, extra', g7⟩ := checkTrack_frame env s f u st t1
    refine ⟨h1.trans g1, h2.trans g2, h3.trans g3, h4.trans g4, fun hs => h5 (g5 hs), ?_,
      extra' ++ extra, by rw [h7, g7, List.append_assoc]⟩
    intro t ht
    rw [h6 t (fun hm => ht (List.mem_cons_of_mem _ hm)),
      g6 t (fun hEq => ht (by rw [hEq]; exact List.mem_cons_self _ _))]

theorem addToChain_view_ne_nil (r : Fraction) (t : Nat) (x : ChordRest) (segs : List Segment) :
    trackView t (addToChain r t x segs) ≠ [] := by
  induction segs with
  | nil => simp [addToChain, trackView, Segment.single]
  | cons seg rest ih =>
    unfold addToChain
    split
    · cases hs : seg.element t with
      | none => rw [trackView_cons_none t _ _ hs]; exact ih
      | some cr => rw [trackView_cons_some t _ _ cr hs]; simp
    · split
      · have h1 : (seg.setElement t x).element t = some x := by simp [Segment.setElement]
        rw [trackView_cons_some t _ _ x h1]; simp
      · have h1 : (Segment.single r t x).element t = some x := by simp [Segment.single]
        rw [trackView_cons_some t _ _ x h1]; simp

theorem fillGap_view_ne_nil (env : Env) (m : Measure) (pos len : Fraction) (t : Nat)
    (s : Fraction) (u : Bool) (h : trackView t m.segs ≠ []) :
    trackView t (fillGap env m pos len t s u).segs ≠ [] := by
  unfold fillGap undoAddCR
  dsimp only
  split
  · exact addToChain_view_ne_nil _ t _ m.segs
  · exact h

theorem walk_view_ne_nil (env : Env) (t : Nat) (s : Fraction) (u : Bool)
    (rem : List Segment) (e : Fraction) (m : Measure) (log : List Diag) :
    trackView t m.segs ≠ [] → trackView t (walk env t s u rem e m log).1.segs ≠ [] := by
  refine walk_induction env t s u
    (fun rem e m log => trackView t m.segs ≠ [] →
      trackView t (walk env t s u rem e m log).1.segs ≠ [])
    ?_ ?_ ?_ ?_ ?_ rem e m log
  · intro e m log h; rw [walk_nil]; exact h
  · intro seg rest e m log hnone ih h
    rw [walk_cons_none _ _ _ _ _ _ _ _ _ hnone]; exact ih h
  · intro seg rest e m log cr hcr hlt h
    rw [walk_cons_overrun _ _ _ _ _ _ _ _ _ cr hcr hlt]; exact h
  · intro seg rest e m log cr hcr heq ih h
    rw [walk_cons_exact _ _ _ _ _ _ _ _ _ cr hcr heq]; exact ih h
  · intro seg rest e m log cr hcr hgt ih h
    rw [walk_cons_gap _ _ _ _ _ _ _ _ _ cr hcr hgt]
    exact ih (fillGap_view_ne_nil env m _ _ t s u h)

/-- One round of the track loop on a regular voice, with no overrun reported
for the track: an empty track stays empty, and the content of any other track
is afterwards found entirely at the expected positions from 0 to `f`, its
global lengths adding up to `f`. -/
theorem checkTrack_settles (env : Env) (s f : Fraction) (u : Bool) (hs : 0 < s)
    (hvalid : ∀ len, 0 < len → (env.setVal len).isValid = true)
    (st : Measure × List Diag) (t : Nat) (hsorted : ChainSorted st.1.segs)
    (hreg : RegularV s (trackView t st.1.segs))
    (hin : Diag.inMeasureOverrun t ∉ (checkTrack env s f u st t).2)
    (hout : Diag.measureOverrun t ∉ (checkTrack env s f u st t).2) :
    (trackView t st.1.segs = [] → trackView t (checkTrack env s f u st t).1.segs = []) ∧
      (trackView t st.1.segs ≠ [] →
        ReachV s (trackView t (checkTrack env s f u st t).1.segs) [] 0 f ∧
          globalSum (trackView t (checkTrack env s f u st t).1.segs) = f) := by
  constructor
  · intro hnil
    have hw := walk_empty_track env t s u st.1.segs 0 st.1 st.2
      ((trackView_eq_nil t st.1.segs).mp hnil)
    unfold checkTrack
    rw [hw]
    simp only [ne_eq, not_true_eq_false, if_false]
    split
    · exact hnil
    · split <;> exact hnil
  · intro hne
    have hinit : WalkInv s t st.1.segs (trackView t st.1.segs) 0 :=
      ⟨hsorted, [], rfl, ReachV.nil _ _, rfl, by simp, le_refl _, fun h => absurd rfl h⟩
    have hwlog : Diag.inMeasureOverrun t ∉ (walk env t s u st.1.segs 0 st.1 st.2).2.1 := by
      intro hmem
      apply hin
      unfold checkTrack
      dsimp only
      split
      · split <;> exact hmem
      · split
        · exact List.mem_append_left _ hmem
        · exact hmem
    obtain ⟨hsorted', P, hview, hreach, hG, hb, h0, hpos⟩ :=
      walk_inv env t s u hs hvalid st.1.segs 0 st.1 st.2 hreg hinit hwlog
    rw [List.append_nil] at hview
    have hPne : P ≠ [] := by
      rw [← hview]; exact walk_view_ne_nil env t s u st.1.segs 0 st.1 st.2 hne
    have he := hpos hPne
    rcases lt_trichotomy f (walk env t s u st.1.segs 0 st.1 st.2).2.2 with hlt | heq | hgt
    · exfalso
      apply hout
      unfold checkTrack
      dsimp only
      rw [if_neg (not_lt.mpr (le_of_lt hlt)), if_pos hlt]
      simp
    · have hct : checkTrack env s f u st t
          = ((walk env t s u st.1.segs 0 st.1 st.2).1,
            (walk env t s u st.1.segs 0 st.1 st.2).2.1) := by
        unfold checkTrack
        dsimp only
        rw [if_neg (by rw [heq]; exact lt_irrefl _), if_neg (by rw [heq]; exact lt_irrefl _)]
      rw [hct]
      simp only
      rw [hview, heq]
      exact ⟨hreach, hG⟩
    · have hct : checkTrack env s f u st t
          = (fillGap env (walk env t s u st.1.segs 0 st.1 st.2).1
              (walk env t s u st.1.segs 0 st.1 st.2).2.2
              (f - (walk env t s u st.1.segs 0 st.1 st.2).2.2) t s env.fillGapDefault,
            (walk env t s u st.1.segs 0 st.1 st.2).2.1) := by
        unfold checkTrack
        dsimp only
        rw [if_pos hgt, if_pos (ne_of_gt he)]
      rw [hct]
      simp only
      rw [fillGap_valid env _ _ _ t s _ (hvalid _ (by linarith))]
      simp only
      have hne0 : s ≠ 0 := ne_of_gt hs
      have hPlt : ∀ q ∈ P, q.1 < (walk env t s u st.1.segs 0 st.1 st.2).2.2 / s := by
        intro q hq
        exact (lt_div_iff₀ hs).mpr (hb q hq)
      rw [addToChain_view _ t _ _ P [] hsorted' (by rw [hview]; simp) hPlt (by simp)]
      constructor
      · have := ReachV.push s P []
          ((walk env t s u st.1.segs 0 st.1 st.2).2.2 / s,
            gapRest (f - (walk env t s u st.1.segs 0 st.1 st.2).2.2)
              (env.setVal (f - (walk env t s u st.1.segs 0 st.1 st.2).2.2)) env.fillGapDefault)
          0 _ hreach rfl (div_mul_cancel₀ _ hne0)
        simp only [gapRest] at this
        have he2 : (walk env t s u st.1.segs 0 st.1 st.2).2.2
            + (f - (walk env t s u st.1.segs 0 st.1 st.2).2.2) = f := by ring
        rw [he2] at this
        exact this
      · have : P ++ [((walk env t s u st.1.segs 0 st.1 st.2).2.2 / s,
            gapRest (f - (walk env t s u st.1.segs 0 st.1 st.2).2.2)
              (env.setVal (f - (walk env t s u st.1.segs 0 st.1 st.2).2.2)) env.fillGapDefault)]
            = P ++ ((walk env t s u st.1.segs 0 st.1 st.2).2.2 / s,
            gapRest (f - (walk env t s u st.1.segs 0 st.1 st.2).2.2)
              (env.setVal (f - (walk env t s u st.1.segs 0 st.1 st.2).2.2))
              env.fillGapDefault) :: [] := rfl
        rw [← this, globalSum_append, hG]
        simp [globalSum, gapRest]

theorem voiceTicks_sum_eq (sc : Score) (m : Measure) (j v : Nat) (s : Fraction)
    (segs : List Segment) (h : ∀ seg ∈ segs, sc.timeStretch j (m.tick + seg.rtick) = s) :
    (segs.map (voiceTicks sc m j v)).sum = globalSum (trackView (j * VOICES + v) segs) / s := by
  induction segs with
  | nil => simp [globalSum, trackView]
  | cons seg rest ih =>
    have ih' := ih (fun x hx => h x (List.mem_cons_of_mem _ hx))
    rw [List.map_cons, List.sum_cons, ih']
    cases hs : seg.element (j * VOICES + v) with
    | none =>
      rw [trackView_cons_none _ _ _ hs]
      simp [voiceTicks, hs]
    | some cr =>
      rw [trackView_cons_some _ _ _ cr hs]
      simp only [voiceTicks, hs, actualTicks, h seg (List.mem_cons_self _ _), globalSum,
        List.map_cons, List.sum_cons]
      ring

theorem dottedSetVal_valid (len : Fraction) : (dottedSetVal len).isValid = true := by
  unfold dottedSetVal
  split_ifs <;> decide

theorem checkMeasure_scenarioA_eval (env : Env) (sc : Score) (u : Bool)
    (hs : sc.timeStretch 0 0 = 1) (hv : (env.setVal (3 / 4)).isValid = true) :
    checkMeasure env sc scenarioA 0 u
      = ({ scenarioA with segs := scenarioA.segs ++
          [Segment.single (1 / 4) 0 (gapRest (3 / 4) (env.setVal (3 / 4)) env.fillGapDefault)] },
         []) := by
  have h34 : (1 : ℚ) - 1 / 4 = 3 / 4 := by norm_num
  simp [checkMeasure, scenarioA, measure44, VOICES, checkTrack, walk, Segment.single,
    plainRest, fillGap, ChordRest.deTicks, resume, undoAddCR, addToChain, hs, h34, hv]
  norm_num [addToChain, Segment.single]
  exact hv

/-- The check of a staff, seen from its voice 0: if the measure is not a
multi-measure rest, its chain is sorted, voice 0 is regular and not empty and
no overrun is reported for it, the global lengths of voice 0 add up to
`ticks() * stretch` afterwards. -/
theorem checkMeasure_voice0_globalSum (env : Env) (sc : Score) (m : Measure) (j : Nat) (u : Bool)
    (hmm : m.isMMRest = false) (hs : 0 < sc.timeStretch j m.tick)
    (hvalid : ∀ len, 0 < len → (env.setVal len).isValid = true)
    (hsorted : ChainSorted m.segs)
    (hreg : RegularV (sc.timeStretch j m.tick) (trackView (j * VOICES) m.segs))
    (hne : trackView (j * VOICES) m.segs ≠ [])
    (hin : Diag.inMeasureOverrun (j * VOICES) ∉ (checkMeasure env sc m j u).2)
    (hout : Diag.measureOverrun (j * VOICES) ∉ (checkMeasure env sc m j u).2) :
    globalSum (trackView (j * VOICES) (checkMeasure env sc m j u).1.segs)
        = m.ticks * sc.timeStretch j m.tick ∧
      (checkMeasure env sc m j u).1.tick = m.tick := by
  have hrange : List.range' (j * VOICES)
      (j * VOICES + (if m.hasVoices j = true then VOICES else 1) - j * VOICES)
      = j * VOICES :: List.range' (j * VOICES + 1)
          ((if m.hasVoices j = true then VOICES else 1) - 1) := by
    split <;> simp [VOICES, List.range']
  have hcm : checkMeasure env sc m j u
      = (List.range' (j * VOICES + 1) ((if m.hasVoices j = true then VOICES else 1) - 1)).foldl
          (checkTrack env (sc.timeStretch j m.tick) (m.ticks * sc.timeStretch j m.tick) u)
          (checkTrack env (sc.timeStretch j m.tick) (m.ticks * sc.timeStretch j m.tick) u
            (m, []) (j * VOICES)) := by
    unfold checkMeasure
    simp only [hmm, Bool.false_eq_true, if_false]
    rw [hrange, List.foldl_cons]
  rw [hcm] at hin hout ⊢
  obtain ⟨h1, _, _, _, _, h6, extra, h7⟩ := foldl_checkTrack_frame env (sc.timeStretch j m.tick)
    (m.ticks * sc.timeStretch j m.tick) u
    (List.range' (j * VOICES + 1) ((if m.hasVoices j = true then VOICES else 1) - 1))
    (checkTrack env (sc.timeStretch j m.tick) (m.ticks * sc.timeStretch j m.tick) u
      (m, []) (j * VOICES))
  have hnotin : j * VOICES ∉ List.range' (j * VOICES + 1)
      ((if m.hasVoices j = true then VOICES else 1) - 1) := by
    intro hmem
    have := (List.mem_range'_1.mp hmem).1
    omega
  rw [h7] at hin hout
  have hin' := fun hmem => hin (List.mem_append_left _ hmem)
  have hout' := fun hmem => hout (List.mem_append_left _ hmem)
  obtain ⟨_, hset⟩ := checkTrack_settles env (sc.timeStretch j m.tick)
    (m.ticks * sc.timeStretch j m.tick) u hs hvalid (m, []) (j * VOICES) hsorted hreg hin' hout'
  obtain ⟨g1, _⟩ := checkTrack_frame env (sc.timeStretch j m.tick)
    (m.ticks * sc.timeStretch j m.tick) u (m, []) (j * VOICES)
  refine ⟨?_, h1.trans g1⟩
  rw [h6 (j * VOICES) hnotin]
  exact (hset hne).2

/-- C2, amended: after `Measure::checkMeasure` has run on staff `j` of a measure
`m` without reporting an overrun for voice 0, the occupied duration of voice 0
as `Score::sanityCheck` sums it equals the nominal duration of `m` exactly,
provided that `m` is not a multi-measure rest, voice 0 held at least one
ChordRest element, every positive length has a valid duration type, the time
stretch of the staff is positive and is the same at the tick of `m` and at the
segments of the checked measure, the chain is in strictly increasing tick
order and voice 0 is regular (positive lengths, ratio 1 outside tuplets, the
members of each tuplet adding up to the length of the tuplet and starting
before its end). -/
theorem checkMeasure_voice0_complete (env : Env) (sc : Score) (m : Measure) (j : Nat) (u : Bool)
    (hmm : m.isMMRest = false) (hs : 0 < sc.timeStretch j m.tick)
    (hvalid : ∀ len, 0 < len → (env.setVal len).isValid = true)
    (hsorted : ChainSorted m.segs)
    (hreg : RegularV (sc.timeStretch j m.tick) (trackView (j * VOICES) m.segs))
    (hne : trackView (j * VOICES) m.segs ≠ [])
    (hin : Diag.inMeasureOverrun (j * VOICES) ∉ (checkMeasure env sc m j u).2)
    (hout : Diag.measureOverrun (j * VOICES) ∉ (checkMeasure env sc m j u).2)
    (hstretch : ∀ seg ∈ (checkMeasure env sc m j u).1.segs,
      sc.timeStretch j ((checkMeasure env sc m j u).1.tick + seg.rtick)
        = sc.timeStretch j m.tick) :
    voiceSum sc (checkMeasure env sc m j u).1 j 0 = m.ticks := by
  obtain ⟨hsum, _⟩ :=
    checkMeasure_voice0_globalSum env sc m j u hmm hs hvalid hsorted hreg hne hin hout
  unfold voiceSum
  rw [voiceTicks_sum_eq sc _ j 0 (sc.timeStretch j m.tick) _ hstretch]
  simp only [Nat.add_zero]
  rw [hsum]
  field_simp

/-- Witness of C2: scenario A, where voice 0 holds a quarter rest and the check
adds a rest of length 3/4. -/
theorem checkMeasure_voice0_complete_witness :
    voiceSum (oneStaff []) (checkMeasure (dottedEnv true) (oneStaff []) scenarioA 0 true).1 0 0
      = scenarioA.ticks := by
  have hev := checkMeasure_scenarioA_eval (dottedEnv true) (oneStaff []) true rfl
    (dottedSetVal_valid _)
  have hview : trackView (0 * VOICES) scenarioA.segs
      = (0, plainRest (1 / 4) DurationType.V_QUARTER) :: ([] ++ []) := by
    simp [trackView, scenarioA, measure44, Segment.single, VOICES]
  refine checkMeasure_voice0_complete (dottedEnv true) (oneStaff []) scenarioA 0 true rfl
    (by simp [oneStaff]) (fun len _ => dottedSetVal_valid len)
    (by simp [ChainSorted, scenarioA, measure44]) ?_ (by rw [hview]; simp)
    (by rw [hev]; simp) (by rw [hev]; simp) (fun _ _ => rfl)
  rw [hview]
  refine RegularV.step _ [] [] (by simp [resumeV, plainRest])
    (by norm_num [ChordRest.deTicks, plainRest])
    (by simp [globalSum, ChordRest.deTicks, plainRest]) (by simp) RegularV.nil

/-- Counterexample to C2 as stated: voice 0 of `upperVoiceOnly` is empty and
voice 1 fills the measure; `checkMeasure` reports nothing and inserts nothing,
and voice 0 still adds up to 0, not to the nominal 4/4. -/
theorem checkMeasure_empty_voice0 :
    (checkMeasure (dottedEnv true) (oneStaff []) upperVoiceOnly 0 true).2 = [] ∧
      voiceSum (oneStaff []) (checkMeasure (dottedEnv true) (oneStaff []) upperVoiceOnly 0 true).1
        0 0 = 0 ∧
      upperVoiceOnly.ticks = 1 := by
  have hev : checkMeasure (dottedEnv true) (oneStaff []) upperVoiceOnly 0 true
      = (upperVoiceOnly, []) := by
    simp [checkMeasure, upperVoiceOnly, oneStaff, VOICES, checkTrack, walk, Segment.single,
      chord, ChordRest.deTicks, resume, List.range']
  rw [hev]
  refine ⟨rfl, ?_, rfl⟩
  simp [voiceSum, voiceTicks, upperVoiceOnly, Segment.single, VOICES]

/-! ### A second run of the measure check -/

theorem checkTrack_of_settled (env : Env) (s f : Fraction) (u : Bool)
    (st : Measure × List Diag) (t : Nat) (h : Settled s f t st.1.segs) :
    (checkTrack env s f u st t).1 = st.1 := by
  rcases h with hnil | hreach
  · have hw := walk_empty_track env t s u st.1.segs 0 st.1 st.2
      ((trackView_eq_nil t st.1.segs).mp hnil)
    unfold checkTrack
    rw [hw]
    simp only [ne_eq, not_true_eq_false, if_false]
    split
    · rfl
    · split <;> rfl
  · have hw := walk_of_reach env t s u _ [] 0 f hreach rfl st.1.segs st.1 st.2 rfl
    unfold checkTrack
    rw [hw]
    simp only [gt_iff_lt, lt_irrefl, if_false]

theorem foldl_checkTrack_of_settled (env : Env) (s f : Fraction) (u : Bool)
    (tracks : List Nat) :
    ∀ (st : Measure × List Diag), (∀ t ∈ tracks, Settled s f t st.1.segs) →
      (tracks.foldl (checkTrack env s f u) st).1 = st.1 := by
  induction tracks with
  | nil => intro st _; rfl
  | cons t1 rest ih =>
    intro st h
    rw [List.foldl_cons]
    have h1 := checkTrack_of_settled env s f u st t1 (h t1 (List.mem_cons_self _ _))
    rw [ih (checkTrack env s f u st t1)
      (fun t ht => by rw [h1]; exact h t (List.mem_cons_of_mem _ ht)), h1]

theorem checkMeasure_eq_foldl (env : Env) (sc : Score) (m : Measure) (j : Nat) (u : Bool)
    (hmm : m.isMMRest = false) :
    checkMeasure env sc m j u
      = (staffTracks m j).foldl
          (checkTrack env (sc.timeStretch j m.tick) (m.ticks * sc.timeStretch j m.tick) u)
          (m, []) := by
  unfold checkMeasure staffTracks
  simp only [hmm, Bool.false_eq_true, if_false, Nat.add_sub_cancel_left]

theorem checkMeasure_of_settled (env : Env) (sc : Score) (m : Measure) (j : Nat) (u : Bool)
    (h : StaffSettled sc m j) : (checkMeasure env sc m j u).1 = m := by
  cases hmm : m.isMMRest with
  | true => unfold checkMeasure; simp [hmm]
  | false =>
    rcases h with h1 | h1
    · rw [hmm] at h1; exact absurd h1 (by simp)
    · rw [checkMeasure_eq_foldl env sc m j u hmm]
      exact foldl_checkTrack_of_settled env _ _ u (staffTracks m j) (m, []) h1

theorem foldl_checkStaff_of_settled (env : Env) (sc : Score) (u : Bool) (js : List Nat) :
    ∀ (st : Measure × List Diag), (∀ j ∈ js, StaffSettled sc st.1 j) →
      (js.foldl (checkStaff env sc u) st).1 = st.1 := by
  induction js with
  | nil => intro st _; rfl
  | cons j rest ih =>
    intro st h
    rw [List.foldl_cons]
    have h1 : (checkStaff env sc u st j).1 = st.1 :=
      checkMeasure_of_settled env sc st.1 j u (h j (List.mem_cons_self _ _))
    rw [ih (checkStaff env sc u st j)
      (fun j' hj' => by rw [h1]; exact h j' (List.mem_cons_of_mem _ hj')), h1]

/-! ### The first run of the measure check -/

theorem foldl_checkTrack_settles (env : Env) (s f : Fraction) (u : Bool) (hs : 0 < s)
    (hvalid : ∀ len, 0 < len → (env.setVal len).isValid = true) (tracks : List Nat) :
    ∀ (st : Measure × List Diag), tracks.Nodup → ChainSorted st.1.segs →
      (∀ t ∈ tracks, RegularV s (trackView t st.1.segs)) →
      (∀ d ∈ (tracks.foldl (checkTrack env s f u) st).2, d.isOverrun = false) →
      ∀ t ∈ tracks, Settled s f t (tracks.foldl (checkTrack env s f u) st).1.segs := by
  induction tracks with
  | nil => intro st _ _ _ _ t ht; exact absurd ht (List.not_mem_nil t)
  | cons t1 rest ih =>
    intro st hnd hsorted hreg hlog
    rw [List.foldl_cons] at hlog ⊢
    obtain ⟨hnot, hnd'⟩ := List.nodup_cons.mp hnd
    obtain ⟨_, _, _, _, g5, g6, _, _⟩ := checkTrack_frame env s f u st t1
    obtain ⟨_, _, _, _, _, h6, extra, h7⟩ :=
      foldl_checkTrack_frame env s f u rest (checkTrack env s f u st t1)
    have hlog1 : ∀ d ∈ (checkTrack env s f u st t1).2, d.isOverrun = false := by
      intro d hd
      apply hlog d
      rw [h7]; exact List.mem_append_left _ hd
    have hin : Diag.inMeasureOverrun t1 ∉ (checkTrack env s f u st t1).2 := by
      intro hmem
      have := hlog1 _ hmem
      simp [Diag.isOverrun] at this
    have hout : Diag.measureOverrun t1 ∉ (checkTrack env s f u st t1).2 := by
      intro hmem
      have := hlog1 _ hmem
      simp [Diag.isOverrun] at this
    obtain ⟨hs1, hs2⟩ := checkTrack_settles env s f u hs hvalid st t1 hsorted
      (hreg t1 (List.mem_cons_self _ _)) hin hout
    have hreg' : ∀ t ∈ rest, RegularV s (trackView t (checkTrack env s f u st t1).1.segs) := by
      intro t ht
      have hne : t ≠ t1 := fun hEq => hnot (hEq ▸ ht)
      rw [g6 t hne]
      exact hreg t (List.mem_cons_of_mem _ ht)
    intro t ht
    rcases List.mem_cons.mp ht with h1 | h1
    · subst h1
      unfold Settled
      rw [h6 t hnot]
      by_cases hnil : trackView t st.1.segs = []
      · left; exact hs1 hnil
      · right; exact (hs2 hnil).1
    · exact ih (checkTrack env s f u st t1) hnd' (g5 hsorted) hreg' hlog t h1

theorem staffTracks_nodup (m : Measure) (j : Nat) : (staffTracks m j).Nodup := by
  unfold staffTracks
  exact List.nodup_range' _ _

theorem staffTracks_mem (m : Measure) (j t : Nat) (h : t ∈ staffTracks m j) :
    t / VOICES = j := by
  unfold staffTracks at h
  have h1 := List.mem_range'_1.mp h
  have h2 : (if m.hasVoices j = true then VOICES else 1) ≤ VOICES := by
    split
    · exact Nat.le_refl _
    · decide
  unfold VOICES at h1 h2 ⊢
  omega

theorem staffTracks_congr (m1 m : Measure) (j : Nat) (h : m1.hasVoices = m.hasVoices) :
    staffTracks m1 j = staffTracks m j := by
  unfold staffTracks
  rw [h]

/-- What a call of `Measure::checkMeasure` leaves alone: the fields of the
measure other than the chain, the order of the chain, and the content of every
track that is not of the staff; the messages are those of the tracks. -/
theorem checkMeasure_frame (env : Env) (sc : Score) (m : Measure) (j : Nat) (u : Bool) :
    (checkMeasure env sc m j u).1.tick = m.tick ∧
      (checkMeasure env sc m j u).1.ticks = m.ticks ∧
      (checkMeasure env sc m j u).1.isMMRest = m.isMMRest ∧
      (checkMeasure env sc m j u).1.hasVoices = m.hasVoices ∧
      (ChainSorted m.segs → ChainSorted (checkMeasure env sc m j u).1.segs) ∧
      (∀ t, t / VOICES ≠ j →
        trackView t (checkMeasure env sc m j u).1.segs = trackView t m.segs) := by
  cases hmm : m.isMMRest with
  | true =>
    have : checkMeasure env sc m j u = (m, []) := by unfold checkMeasure; simp [hmm]
    rw [this]
    exact ⟨rfl, rfl, hmm, rfl, id, fun _ _ => rfl⟩
  | false =>
    rw [checkMeasure_eq_foldl env sc m j u hmm]
    obtain ⟨h1, h2, h3, h4, h5, h6, _⟩ := foldl_checkTrack_frame env (sc.timeStretch j m.tick)
      (m.ticks * sc.timeStretch j m.tick) u (staffTracks m j) (m, [])
    refine ⟨h1, h2, h3.trans hmm, h4, h5, ?_⟩
    intro t ht
    exact h6 t (fun hmem => ht (staffTracks_mem m j t hmem))

/-- The first run of `Measure::checkMeasure` on a staff whose walked voices are
regular, with no overrun reported, settles the staff. -/
theorem checkMeasure_settles (env : Env) (sc : Score) (m : Measure) (j : Nat) (u : Bool)
    (hs : 0 < sc.timeStretch j m.tick)
    (hvalid : ∀ len, 0 < len → (env.setVal len).isValid = true)
    (hsorted : ChainSorted m.segs)
    (hreg : ∀ t ∈ staffTracks m j, RegularV (sc.timeStretch j m.tick) (trackView t m.segs))
    (hlog : ∀ d ∈ (checkMeasure env sc m j u).2, d.isOverrun = false) :
    StaffSettled sc (checkMeasure env sc m j u).1 j := by
  obtain ⟨f1, f2, f3, f4, _, _⟩ := checkMeasure_frame env sc m j u
  cases hmm : m.isMMRest with
  | true => left; rw [f3]; exact hmm
  | false =>
    right
    rw [f1, f2, staffTracks_congr _ m j f4]
    rw [checkMeasure_eq_foldl env sc m j u hmm] at hlog ⊢
    exact foldl_checkTrack_settles env _ _ u hs hvalid (staffTracks m j) (m, [])
      (staffTracks_nodup m j) hsorted hreg hlog

theorem StaffSettled_congr (sc : Score) (m1 m : Measure) (j : Nat)
    (h1 : m1.tick = m.tick) (h2 : m1.ticks = m.ticks) (h3 : m1.isMMRest = m.isMMRest)
    (h4 : m1.hasVoices = m.hasVoices)
    (h5 : ∀ t, t / VOICES = j → trackView t m1.segs = trackView t m.segs)
    (h : StaffSettled sc m j) : StaffSettled sc m1 j := by
  rcases h with h | h
  · left; rw [h3]; exact h
  · right
    rw [h1, h2, staffTracks_congr m1 m j h4]
    intro t ht
    have := h t ht
    unfold Settled at this ⊢
    rw [h5 t (staffTracks_mem m j t ht)]
    exact this

theorem foldl_checkStaff_log (env : Env) (sc : Score) (u : Bool) (js : List Nat) :
    ∀ (st : Measure × List Diag), ∃ extra, (js.foldl (checkStaff env sc u) st).2 = st.2 ++ extra := by
  induction js with
  | nil => intro st; exact ⟨[], by simp⟩
  | cons j rest ih =>
    intro st
    rw [List.foldl_cons]
    obtain ⟨extra, h⟩ := ih (checkStaff env sc u st j)
    exact ⟨(checkMeasure env sc st.1 j u).2 ++ extra, by
      rw [h]; simp only [checkStaff, List.append_assoc]⟩

theorem foldl_checkStaff_settles (env : Env) (sc : Score) (u : Bool)
    (hvalid : ∀ len, 0 < len → (env.setVal len).isValid = true) (js : List Nat) :
    ∀ (st : Measure × List Diag), js.Nodup → ChainSorted st.1.segs →
      (∀ j ∈ js, 0 < sc.timeStretch j st.1.tick) →
      (∀ j ∈ js, ∀ t ∈ staffTracks st.1 j,
        RegularV (sc.timeStretch j st.1.tick) (trackView t st.1.segs)) →
      (∀ d ∈ (js.foldl (checkStaff env sc u) st).2, d.isOverrun = false) →
      (∀ j ∈ js, StaffSettled sc (js.foldl (checkStaff env sc u) st).1 j) ∧
        ∀ j, j ∉ js → StaffSettled sc st.1 j →
          StaffSettled sc (js.foldl (checkStaff env sc u) st).1 j := by
  induction js with
  | nil =>
    intro st _ _ _ _ _
    exact ⟨fun j hj => absurd hj (List.not_mem_nil j), fun _ _ h => h⟩
  | cons j0 rest ih =>
    intro st hnd hsorted hpos hreg hlog
    rw [List.foldl_cons] at hlog ⊢
    obtain ⟨hnot, hnd'⟩ := List.nodup_cons.mp hnd
    obtain ⟨f1, f2, f3, f4, f5, f6⟩ := checkMeasure_frame env sc st.1 j0 u
    obtain ⟨extra, hex⟩ := foldl_checkStaff_log env sc u rest (checkStaff env sc u st j0)
    have hlog0 : ∀ d ∈ (checkMeasure env sc st.1 j0 u).2, d.isOverrun = false := by
      intro d hd
      apply hlog d
      rw [hex]
      exact List.mem_append_left _ (List.mem_append_right _ hd)
    have hset0 : StaffSettled sc (checkStaff env sc u st j0).1 j0 :=
      checkMeasure_settles env sc st.1 j0 u (hpos j0 (List.mem_cons_self _ _)) hvalid hsorted
        (hreg j0 (List.mem_cons_self _ _)) hlog0
    have hkeep : ∀ j, j ≠ j0 → StaffSettled sc st.1 j →
        StaffSettled sc (checkStaff env sc u st j0).1 j := by
      intro j hne h
      exact StaffSettled_congr sc _ st.1 j f1 f2 f3 f4
        (fun t ht => f6 t (by rw [ht]; exact hne)) h
    obtain ⟨ih1, ih2⟩ := ih (checkStaff env sc u st j0) hnd' (f5 hsorted)
      (fun j hj => by
        show 0 < sc.timeStretch j (checkMeasure env sc st.1 j0 u).1.tick
        rw [f1]; exact hpos j (List.mem_cons_of_mem _ hj))
      (fun j hj t ht => by
        have hne : j ≠ j0 := fun hEq => hnot (hEq ▸ hj)
        show RegularV (sc.timeStretch j (checkMeasure env sc st.1 j0 u).1.tick)
          (trackView t (checkMeasure env sc st.1 j0 u).1.segs)
        have ht' : t ∈ staffTracks st.1 j := by
          rw [← staffTracks_congr _ st.1 j f4]; exact ht
        rw [f1, f6 t (by rw [staffTracks_mem st.1 j t ht']; exact hne)]
        exact hreg j (List.mem_cons_of_mem _ hj) t ht')
      hlog
    constructor
    · intro j hj
      rcases List.mem_cons.mp hj with h1 | h1
      · subst h1
        exact ih2 j hnot hset0
      · exact ih1 j h1
    · intro j hj h
      have hne : j ≠ j0 := fun hEq => hj (by rw [hEq]; exact List.mem_cons_self _ _)
      exact ih2 j (fun hm => hj (List.mem_cons_of_mem _ hm)) (hkeep j hne h)

/-! ### The whole check, run twice -/

theorem checkMeasure_congr (env : Env) (sc1 sc : Score) (m : Measure) (j : Nat) (u : Bool)
    (h : sc1.timeStretch = sc.timeStretch) :
    checkMeasure env sc1 m j u = checkMeasure env sc m j u := by
  unfold checkMeasure
  rw [h]

theorem checkAllStaves_congr (env : Env) (sc1 sc : Score) (u : Bool) (m : Measure)
    (hn : sc1.nstaves = sc.nstaves) (h : sc1.timeStretch = sc.timeStretch) :
    checkAllStaves env sc1 u m = checkAllStaves env sc u m := by
  unfold checkAllStaves
  rw [hn]
  have : checkStaff env sc1 u = checkStaff env sc u := by
    funext st j
    unfold checkStaff
    rw [checkMeasure_congr env sc1 sc st.1 j u h]
  rw [this]

theorem checkAllStaves_settles (env : Env) (sc : Score) (u : Bool) (m : Measure)
    (hvalid : ∀ len, 0 < len → (env.setVal len).isValid = true)
    (hsorted : ChainSorted m.segs)
    (hpos : ∀ j, j < sc.nstaves → 0 < sc.timeStretch j m.tick)
    (hreg : ∀ j, j < sc.nstaves → ∀ t ∈ staffTracks m j,
      RegularV (sc.timeStretch j m.tick) (trackView t m.segs))
    (hlog : ∀ d ∈ (checkAllStaves env sc u m).2, d.isOverrun = false) :
    ∀ j, j < sc.nstaves → StaffSettled sc (checkAllStaves env sc u m).1 j := by
  intro j hj
  exact (foldl_checkStaff_settles env sc u hvalid (List.range sc.nstaves) (m, [])
    (List.nodup_range _) hsorted
    (fun j hj => hpos j (List.mem_range.mp hj))
    (fun j hj => hreg j (List.mem_range.mp hj)) hlog).1 j (List.mem_range.mpr hj)

theorem checkAllStaves_of_settled (env : Env) (sc : Score) (u : Bool) (m : Measure)
    (h : ∀ j, j < sc.nstaves → StaffSettled sc m j) : (checkAllStaves env sc u m).1 = m :=
  foldl_checkStaff_of_settled env sc u (List.range sc.nstaves) (m, [])
    (fun j hj => h j (List.mem_range.mp hj))

/-- A second run of the measure check on the score the first run left changes
nothing, when the first run had regular voices to walk and reported no
overrun. -/
theorem checkAll_twice (env : Env) (sc : Score) (u : Bool)
    (hvalid : ∀ len, 0 < len → (env.setVal len).isValid = true)
    (hsorted : ∀ m ∈ sc.measures, ChainSorted m.segs)
    (hpos : ∀ m ∈ sc.measures, ∀ j, j < sc.nstaves → 0 < sc.timeStretch j m.tick)
    (hreg : ∀ m ∈ sc.measures, ∀ j, j < sc.nstaves → ∀ t ∈ staffTracks m j,
      RegularV (sc.timeStretch j m.tick) (trackView t m.segs))
    (hlog : ∀ d ∈ (checkAll env sc u).2, d.isOverrun = false) :
    (checkAll env (checkAll env sc u).1 u).1 = (checkAll env sc u).1 := by
  have hmap : (sc.measures.map (fun m => (checkAllStaves env sc u m).1)).map
      (fun m => (checkAllStaves env sc u m).1)
      = sc.measures.map (fun m => (checkAllStaves env sc u m).1) := by
    rw [List.map_map]
    apply List.map_congr_left
    intro m hm
    simp only [Function.comp]
    apply checkAllStaves_of_settled
    apply checkAllStaves_settles env sc u m hvalid (hsorted m hm) (hpos m hm) (hreg m hm)
    intro d hd
    apply hlog d
    simp only [checkAll, List.mem_flatten, List.mem_map]
    exact ⟨_, ⟨m, hm, rfl⟩, hd⟩
  have hcongr : ∀ m, checkAllStaves env (checkAll env sc u).1 u m = checkAllStaves env sc u m :=
    fun m => checkAllStaves_congr env _ sc u m rfl rfl
  show ({ (checkAll env sc u).1 with
      measures := (checkAll env sc u).1.measures.map
        (fun m => (checkAllStaves env (checkAll env sc u).1 u m).1) } : Score)
    = (checkAll env sc u).1
  simp only [hcongr]
  simp only [checkAll]
  rw [hmap]

theorem sanityCheck_lastError_again (sc : Score) (name : String) (canOpen : Bool)
    (lastError : List SanityMsg) :
    sanityCheck sc name canOpen (sanityCheck sc name canOpen lastError).lastError
      = sanityCheck sc name canOpen lastError := by
  unfold sanityCheck
  simp only
  split
  · split <;> rfl
  · rfl

theorem repairedMeasure_eq_self (sc : Score) (m : Measure)
    (h : ∀ j, j < sc.nstaves → voiceSum sc m j 0 = m.ticks ∨ lastFMRest j m.segs = none) :
    repairedMeasure sc m = m := by
  unfold repairedMeasure
  rw [repairSegs_none]
  intro i t _
  simp only [repaired, repairedBelow, decide_eq_false_iff_not]
  rintro ⟨_, hlt, hne, hl⟩
  rcases h _ hlt with h1 | h1
  · exact hne h1
  · rw [h1] at hl; exact absurd hl (by simp)

/-- C8, amended: when the first run of the whole check (the measure check on
every measure and staff, then the sanity check) reports no overrun and its
sanity check repairs no full measure rest, on a score whose chains are sorted,
whose time stretches are positive and whose walked voices are regular, with a
valid duration type for every positive length, then a second run right after
it inserts nothing (the measure check leaves the score as it found it) and
gives the same outcome of the sanity check: same result, same error messages,
same score. -/
theorem runConsistencyCheck_twice (env : Env) (sc : Score) (u : Bool) (name : String)
    (canOpen : Bool) (lastError : List SanityMsg)
    (hvalid : ∀ len, 0 < len → (env.setVal len).isValid = true)
    (hsorted : ∀ m ∈ sc.measures, ChainSorted m.segs)
    (hpos : ∀ m ∈ sc.measures, ∀ j, j < sc.nstaves → 0 < sc.timeStretch j m.tick)
    (hreg : ∀ m ∈ sc.measures, ∀ j, j < sc.nstaves → ∀ t ∈ staffTracks m j,
      RegularV (sc.timeStretch j m.tick) (trackView t m.segs))
    (hlog : ∀ d ∈ (runConsistencyCheck env sc u name canOpen lastError).2, d.isOverrun = false)
    (hfix : (runConsistencyCheck env sc u name canOpen lastError).1.score
      = (checkAll env sc u).1) :
    (checkAll env (runConsistencyCheck env sc u name canOpen lastError).1.score u).1
        = (runConsistencyCheck env sc u name canOpen lastError).1.score ∧
      (runConsistencyCheck env (runConsistencyCheck env sc u name canOpen lastError).1.score u
          name canOpen (runConsistencyCheck env sc u name canOpen lastError).1.lastError).1
        = (runConsistencyCheck env sc u name canOpen lastError).1 := by
  have htw := checkAll_twice env sc u hvalid hsorted hpos hreg hlog
  constructor
  · rw [hfix]; exact htw
  · show sanityCheck
        (checkAll env (runConsistencyCheck env sc u name canOpen lastError).1.score u).1
        name canOpen (sanityCheck (checkAll env sc u).1 name canOpen lastError).lastError
      = sanityCheck (checkAll env sc u).1 name canOpen lastError
    rw [hfix, htw]
    exact sanityCheck_lastError_again _ name canOpen lastError

theorem checkAll_scenarioA :
    checkAll (dottedEnv true) (oneStaff [scenarioA]) true
      = (oneStaff [{ scenarioA with segs := scenarioA.segs ++
          [Segment.single (1 / 4) 0 (gapRest (3 / 4) ((dottedEnv true).setVal (3 / 4))
            (dottedEnv true).fillGapDefault)] }], []) := by
  have hev := checkMeasure_scenarioA_eval (dottedEnv true) (oneStaff [scenarioA]) true rfl
    (dottedSetVal_valid _)
  simp only [checkAll, checkAllStaves, checkStaff, oneStaff, List.map_cons, List.map_nil,
    List.range_succ, List.range_zero, List.nil_append, List.foldl_cons, List.foldl_nil]
  simp only [oneStaff] at hev
  rw [hev]
  simp

/-- Witness of C8: scenario A; the first run adds the rest of length 3/4 and
reports nothing, and the sanity check finds voice 0 complete. -/
theorem runConsistencyCheck_twice_witness :
    (checkAll (dottedEnv true)
        (runConsistencyCheck (dottedEnv true) (oneStaff [scenarioA]) true "" true []).1.score
        true).1
        = (runConsistencyCheck (dottedEnv true) (oneStaff [scenarioA]) true "" true []).1.score ∧
      (runConsistencyCheck (dottedEnv true)
          (runConsistencyCheck (dottedEnv true) (oneStaff [scenarioA]) true "" true []).1.score
          true "" true
          (runConsistencyCheck (dottedEnv true) (oneStaff [scenarioA]) true "" true
            []).1.lastError).1
        = (runConsistencyCheck (dottedEnv true) (oneStaff [scenarioA]) true "" true []).1 := by
  have hview : trackView 0 scenarioA.segs
      = (0, plainRest (1 / 4) DurationType.V_QUARTER) :: ([] ++ []) := by
    simp [trackView, scenarioA, measure44, Segment.single]
  refine runConsistencyCheck_twice (dottedEnv true) (oneStaff [scenarioA]) true "" true []
    (fun len _ => dottedSetVal_valid len) ?_ ?_ ?_ ?_ ?_
  · intro m hm
    simp only [oneStaff, List.mem_singleton] at hm
    subst hm
    simp [ChainSorted, scenarioA, measure44]
  · intro m _ j _
    simp [oneStaff]
  · intro m hm j hj t ht
    simp only [oneStaff, List.mem_singleton] at hm hj
    subst hm
    have hj0 : j = 0 := by omega
    subst hj0
    have ht0 : t = 0 := by
      simpa [staffTracks, scenarioA, measure44, VOICES, List.range'] using ht
    subst ht0
    rw [hview]
    exact RegularV.step _ [] [] (by simp [resumeV, plainRest])
      (by norm_num [ChordRest.deTicks, plainRest])
      (by simp [globalSum, ChordRest.deTicks, plainRest]) (by simp) RegularV.nil
  · intro d hd
    simp only [runConsistencyCheck, checkAll_scenarioA] at hd
    exact absurd hd (List.not_mem_nil d)
  · simp only [runConsistencyCheck]
    rw [sanityCheck_score_eq, checkAll_scenarioA]
    simp only [oneStaff, List.map_cons, List.map_nil]
    rw [repairedMeasure_eq_self]
    intro j hj
    have hj0 : j = 0 := by simp only at hj; omega
    subst hj0
    left
    simp [voiceSum, voiceTicks, scenarioA, measure44, VOICES, Segment.single, plainRest,
      gapRest, actualTicks]
    norm_num

theorem checkAll_longRest :
    checkAll (dottedEnv true) (oneStaff [longRest]) true
      = (oneStaff [longRest], [Diag.measureOverrun 0]) := by
  simp [checkAll, checkAllStaves, checkStaff, oneStaff, checkMeasure, longRest, measure44,
    VOICES, checkTrack, walk, Segment.single, plainRest, ChordRest.deTicks, resume,
    List.range_succ, List.range']
  norm_num

theorem checkAll_longRestFixed :
    checkAll (dottedEnv true) (oneStaff [longRestFixed]) true
      = (oneStaff [longRestFixed], []) := by
  simp [checkAll, checkAllStaves, checkStaff, oneStaff, checkMeasure, longRestFixed, measure44,
    VOICES, checkTrack, walk, Segment.single, plainRest, ChordRest.deTicks, resume,
    List.range_succ, List.range']

theorem repairedMeasure_longRest :
    repairedMeasure (oneStaff [longRest]) longRest = longRestFixed := by
  have hsum : voiceSum (oneStaff [longRest]) longRest 0 0 = 5 / 4 := by
    simp [voiceSum, voiceTicks, longRest, measure44, Segment.single, plainRest, actualTicks,
      oneStaff, VOICES]
  have hlast : lastFMRest 0 longRest.segs = some 0 := by
    simp [lastFMRest, Segment.fmRest0, longRest, measure44, Segment.single, plainRest, VOICES,
      DurationType.isMeasure]
  have hr : ∀ t, repaired (oneStaff [longRest]) longRest 0 t = decide (t = 0) := by
    intro t
    by_cases ht : t = 0
    · subst ht
      have hn : (oneStaff [longRest]).nstaves = 1 := rfl
      have hticks : longRest.ticks = 1 := rfl
      simp [repaired, repairedBelow, hsum, hlast, hticks, hn, VOICES]
      norm_num
    · have : ¬ (t % VOICES = 0 ∧ t / VOICES < 1) := by
        unfold VOICES; omega
      have hn : (oneStaff [longRest]).nstaves = 1 := rfl
      simp only [repaired, repairedBelow, hn, ht, decide_False, decide_eq_false_iff_not]
      rintro ⟨h1, h2, _⟩
      exact this ⟨h1, h2⟩
  have hsegs : longRest.segs = [Segment.single 0 0 (plainRest (5 / 4) DurationType.V_MEASURE)] :=
    rfl
  unfold repairedMeasure
  rw [hsegs]
  simp only [repairSegs, hr]
  unfold longRestFixed measure44 longRest measure44
  simp only [Measure.mk.injEq, true_and, List.cons.injEq, and_true]
  unfold Segment.single
  simp only [Segment.mk.injEq, true_and]
  funext t
  by_cases ht : t = 0
  · subst ht; simp [plainRest]
  · simp [ht, Function.update_noteq ht]

/-- Counterexample to C8 as stated: `longRest` holds in voice 0 a full measure
rest of length 5/4 in a 4/4 measure.  The first run reports the measure as
incomplete and sets the length of the rest to 4/4; the second run, right after
it, finds nothing to report. -/
theorem runConsistencyCheck_not_idempotent :
    (runConsistencyCheck (dottedEnv true) (oneStaff [longRest]) true "" true []).1.result = false ∧
      (runConsistencyCheck (dottedEnv true)
          (runConsistencyCheck (dottedEnv true) (oneStaff [longRest]) true "" true []).1.score
          true "" true
          (runConsistencyCheck (dottedEnv true) (oneStaff [longRest]) true "" true
            []).1.lastError).1.result = true := by
  have hscore : (runConsistencyCheck (dottedEnv true) (oneStaff [longRest]) true "" true
      []).1.score = oneStaff [longRestFixed] := by
    simp only [runConsistencyCheck]
    rw [sanityCheck_score_eq, checkAll_longRest]
    simp only [oneStaff, List.map_cons, List.map_nil]
    have := repairedMeasure_longRest
    simp only [oneStaff] at this
    rw [this]
  constructor
  · simp only [runConsistencyCheck]
    rw [checkAll_longRest]
    apply Bool.eq_false_iff.mpr
    intro htrue
    have hall := (sanityCheck_result_empty_name _ true []).mp htrue longRest
      (by simp [oneStaff]) 0 (by simp [oneStaff])
    have hsum : voiceSum (oneStaff [longRest]) longRest 0 0 = 5 / 4 := by
      simp [voiceSum, voiceTicks, longRest, measure44, Segment.single, plainRest, actualTicks,
        oneStaff, VOICES]
    have h1 := hall.1
    rw [hsum] at h1
    have : longRest.ticks = 1 := rfl
    rw [this] at h1
    norm_num at h1
  · rw [hscore]
    simp only [runConsistencyCheck]
    rw [checkAll_longRestFixed]
    apply (sanityCheck_result_empty_name _ true _).mpr
    intro m hm j hj
    simp only [oneStaff, List.mem_singleton] at hm hj
    subst hm
    have hj0 : j = 0 := by omega
    subst hj0
    constructor
    · simp [voiceSum, voiceTicks, longRestFixed, measure44, Segment.single, plainRest,
        actualTicks, VOICES, oneStaff]
    · intro v hv1 hv4
      have hne : 0 * VOICES + v ≠ 0 := by omega
      simp [voiceSum, voiceTicks, longRestFixed, measure44, Segment.single, plainRest,
        Function.update_noteq hne]

/-! ### The chain still to walk -/

/-- A rest inserted at a tick in front of the segment `seg` goes into the chain
in front of `seg`: the chain from `seg` on is the one seen before the insertion,
as the walk takes it. -/
theorem addToChain_in_front (r : Fraction) (t : Nat) (x : ChordRest) (seg : Segment)
    (pre rest : List Segment) (h : r < seg.rtick) :
    addToChain r t x (pre ++ seg :: rest) = addToChain r t x pre ++ seg :: rest := by
  induction pre with
  | nil =>
    simp only [List.nil_append, addToChain]
    rw [if_neg (not_lt.mpr (le_of_lt h)), if_neg (ne_of_gt h)]
    rfl
  | cons s pre' ih =>
    rw [List.cons_append, addToChain, addToChain]
    split
    · rw [ih]; rfl
    · split <;> rfl

/-- The rest that the walk inserts for a gap in front of the segment `seg`
(`expectedPos < currentPos`, positive time stretch) leaves the chain from `seg`
on as it was. -/
theorem fillGap_in_front (env : Env) (m : Measure) (e : Fraction) (t : Nat) (s : Fraction)
    (u : Bool) (seg : Segment) (pre rest : List Segment) (hs : 0 < s)
    (hm : m.segs = pre ++ seg :: rest) (hgap : e < seg.rtick * s) :
    ∃ pre1, (fillGap env m e (seg.rtick * s - e) t s u).segs = pre1 ++ seg :: rest := by
  unfold fillGap undoAddCR
  dsimp only
  split
  · refine ⟨addToChain (e / s) t
      (gapRest (seg.rtick * s - e) (env.setVal (seg.rtick * s - e)) u) pre, ?_⟩
    rw [hm, add_sub_cancel_right]
    exact addToChain_in_front _ t _ seg pre rest ((div_lt_iff₀ hs).mpr hgap)
  · exact ⟨pre, hm⟩

/-! ### The report of `Score::sanityCheck` -/

theorem foldl_checkUpperVoice_error (mNumber j : Nat) (mLen : Fraction) (scan : Scan)
    (st : Measure × List SanityMsg × Bool) :
    ((List.range' 1 (VOICES - 1)).foldl (checkUpperVoice mNumber j mLen scan) st).2.1
      = st.2.1 ++ ((List.range' 1 (VOICES - 1)).filter
          (fun v => decide (scan.voices v > mLen))).map
          (fun v => SanityMsg.tooLong mNumber (j + 1) (v + 1) mLen (scan.voices v)) := by
  have hr : List.range' 1 (VOICES - 1) = [1, 2, 3] := rfl
  rw [hr]
  simp only [List.foldl_cons, List.foldl_nil, checkUpperVoice]
  by_cases h1 : scan.voices 1 > mLen <;> by_cases h2 : scan.voices 2 > mLen <;>
    by_cases h3 : scan.voices 3 > mLen <;>
    simp [h1, h2, h3, List.filter]

theorem foldl_sanityStaff_error (sc : Score) (mNumber : Nat) (m : Measure) (n : Nat) :
    ∀ (error : List SanityMsg) (result : Bool),
      ((List.range n).foldl (sanityStaff sc mNumber) (m, error, result)).2.1
        = error ++ measureReport sc m mNumber n := by
  induction n with
  | zero => intro error result; simp [measureReport]
  | succ n ih =>
    intro error result
    have ihe := ih error result
    obtain ⟨ihm, -⟩ := foldl_sanityStaff sc mNumber m n error result
    rw [List.range_succ, List.foldl_append, List.foldl_cons, List.foldl_nil]
    generalize hst : (List.range n).foldl (sanityStaff sc mNumber) (m, error, result) = st
      at ihm ihe
    obtain ⟨m1, err1, res1⟩ := st
    simp only at ihm ihe
    have hvoices : ∀ v, v < VOICES →
        (scanSegs sc m1 n m1.segs 0 { voices := fun _ => 0, fmrest0 := none }).voices v
          = voiceSum sc m n v := by
      intro v hv
      rw [(scanSegs_spec sc m1 n m1.segs 0 _).1 v hv, ihm]
      simp only [zero_add, voiceSum]
      exact congrArg List.sum (repairSegs_voiceTicks sc _ m n v _ _ rfl
        (fun i => repairedBelow_staff sc m n v i hv) m.segs 0)
    have hticks : m1.ticks = m.ticks := by rw [ihm]
    have hrep : measureReport sc m mNumber (n + 1)
        = measureReport sc m mNumber n ++ staffReport sc m mNumber n := by
      simp [measureReport, List.range_succ]
    unfold sanityStaff
    simp only
    rw [foldl_checkUpperVoice_error, hrep, ← List.append_assoc, ← ihe]
    have hr : List.range' 1 (VOICES - 1) = [1, 2, 3] := rfl
    have h0 := hvoices 0 (by decide)
    have h1 := hvoices 1 (by decide)
    have h2 := hvoices 2 (by decide)
    have h3 := hvoices 3 (by decide)
    simp only [staffReport, hr, hticks, h0]
    by_cases hmis : voiceSum sc m n 0 ≠ m.ticks <;>
      by_cases c1 : voiceSum sc m n 1 > m.ticks <;>
      by_cases c2 : voiceSum sc m n 2 > m.ticks <;>
      by_cases c3 : voiceSum sc m n 3 > m.ticks <;>
      simp [List.filter, h1, h2, h3, hmis, c1, c2, c3]

theorem sanityMeasures_error (sc : Score) (ms : List Measure) :
    ∀ (mNumber : Nat) (error : List SanityMsg) (result : Bool),
      (sanityMeasures sc ms mNumber error result).2.1
        = error ++ scoreReport sc ms mNumber := by
  induction ms with
  | nil => intro mNumber error result; simp [sanityMeasures, scoreReport]
  | cons m rest ih =>
    intro mNumber error result
    simp only [sanityMeasures, scoreReport]
    rw [ih, foldl_sanityStaff_error, List.append_assoc]

/-- Every failed test adds a line to the report and every line comes from a
failed test: the report is empty exactly if every staff passes. -/
theorem staffReport_eq_nil (sc : Score) (m : Measure) (mNumber j : Nat) :
    staffReport sc m mNumber j = [] ↔ staffOk sc m j := by
  have hr : List.range' 1 (VOICES - 1) = [1, 2, 3] := rfl
  have hall : (∀ v, 1 ≤ v → v < VOICES → voiceSum sc m j v ≤ m.ticks)
      ↔ voiceSum sc m j 1 ≤ m.ticks ∧ voiceSum sc m j 2 ≤ m.ticks
        ∧ voiceSum sc m j 3 ≤ m.ticks := by
    constructor
    · intro h
      exact ⟨h 1 (by decide) (by decide), h 2 (by decide) (by decide),
        h 3 (by decide) (by decide)⟩
    · rintro ⟨h1, h2, h3⟩ v hv1 hv4
      have : v = 1 ∨ v = 2 ∨ v = 3 := by unfold VOICES at hv4; omega
      rcases this with h | h | h <;> subst h <;> assumption
  simp only [staffReport, staffOk, hall, hr]
  by_cases h0 : voiceSum sc m j 0 = m.ticks <;>
    by_cases h1 : voiceSum sc m j 1 > m.ticks <;> by_cases h2 : voiceSum sc m j 2 > m.ticks <;>
    by_cases h3 : voiceSum sc m j 3 > m.ticks <;>
    simp [h0, h1, h2, h3, List.filter, not_le.mpr, le_of_not_gt]

theorem scoreReport_eq_nil (sc : Score) (ms : List Measure) :
    ∀ mNumber, scoreReport sc ms mNumber = []
      ↔ ∀ m ∈ ms, ∀ j, j < sc.nstaves → staffOk sc m j := by
  induction ms with
  | nil => intro mNumber; simp [scoreReport]
  | cons m rest ih =>
    intro mNumber
    simp only [scoreReport, List.append_eq_nil, ih, List.mem_cons, forall_eq_or_imp,
      measureReport, List.flatten_eq_nil_iff, List.mem_map, List.mem_range]
    constructor
    · rintro ⟨h1, h2⟩
      exact ⟨fun j hj => (staffReport_eq_nil sc m mNumber j).mp (h1 _ ⟨j, hj, rfl⟩), h2⟩
    · rintro ⟨h1, h2⟩
      refine ⟨?_, h2⟩
      rintro l ⟨j, hj, rfl⟩
      exact (staffReport_eq_nil sc m mNumber j).mpr (h1 j hj)

/-- C11: called with an empty file name, `Score::sanityCheck` stores in
`MScore::lastError` the report `scoreReport`: for each measure in the order of
the chain, numbered from 1, and each staff in turn, one line if voice 0 does not
add up to the length of the measure and one line for each voice 1..VOICES-1 that
is longer, staves and voices numbered from 1; and the stored report is empty if
and only if the returned result is true. -/
theorem sanityCheck_report (sc : Score) (canOpen : Bool) (lastError : List SanityMsg) :
    (sanityCheck sc "" canOpen lastError).lastError = scoreReport sc sc.measures 1 ∧
      ((sanityCheck sc "" canOpen lastError).lastError = []
        ↔ (sanityCheck sc "" canOpen lastError).result = true) := by
  have he : (sanityCheck sc "" canOpen lastError).lastError = scoreReport sc sc.measures 1 := by
    have h := sanityMeasures_error sc sc.measures 1 [] true
    unfold sanityCheck
    simp only [String.isEmpty]
    simpa using h
  refine ⟨he, ?_⟩
  rw [he, scoreReport_eq_nil, sanityCheck_result_empty_name]

/-! ### How `Score::writeSegments` gets from one state to the next -/

namespace Scorefile

theorem Steps.trans {ctx : Context} {r : Range} {spanners : List Spanner} {startTick : Fraction}
    {track : Int} {a b c : TrackState} (h1 : Steps ctx r spanners startTick track a b)
    (h2 : Steps ctx r spanners startTick track b c) :
    Steps ctx r spanners startTick track a c := by
  induction h2 with
  | refl => exact h1
  | emit ev _ hw ih => exact Steps.emit ev ih hw
  | voiceMove segTick _ ih => exact Steps.voiceMove segTick ih
  | frame st2 _ ho hc hl hv ih => exact Steps.frame st2 ih ho hc hl hv

theorem steps_moveIfNeeded {ctx : Context} {r : Range} {spanners : List Spanner}
    {startTick : Fraction} {track : Int} {st : TrackState} (segTick : Fraction)
    (p : TrackState × Bool) (h : Steps ctx r spanners startTick track st p.1) :
    Steps ctx r spanners startTick track st (moveIfNeeded segTick startTick track p).1 := by
  unfold moveIfNeeded
  split
  · exact Steps.voiceMove segTick h
  · exact h

theorem steps_writeAnnotated {ctx : Context} {r : Range} {spanners : List Spanner}
    {startTick : Fraction} {track : Int} {st : TrackState} (seg : Segment)
    (p : TrackState × Bool) (e1 : EngravingItem)
    (h : Steps ctx r spanners startTick track st p.1) :
    Steps ctx r spanners startTick track st (writeAnnotated r seg startTick track p e1).1 := by
  unfold writeAnnotated
  split
  · exact h
  · rename_i hc
    simp only [not_or, not_and] at hc
    refine Steps.emit _ (steps_moveIfNeeded seg.tick p h) ?_
    refine ⟨by simpa using hc.2.1, ?_⟩
    intro hs
    simpa using hc.2.2 hs

theorem steps_foldl_writeAnnotated {ctx : Context} {r : Range} {spanners : List Spanner}
    {startTick : Fraction} {track : Int} {st : TrackState} (seg : Segment)
    (l : List EngravingItem) :
    ∀ (p : TrackState × Bool), Steps ctx r spanners startTick track st p.1 →
      Steps ctx r spanners startTick track st
        (l.foldl (writeAnnotated r seg startTick track) p).1 := by
  induction l with
  | nil => intro p h; exact h
  | cons e1 rest ih =>
    intro p h
    rw [List.foldl_cons]
    exact ih _ (steps_writeAnnotated seg p e1 h)

theorem steps_writeSpannerEdges {ctx : Context} {r : Range} {spanners : List Spanner}
    {startTick : Fraction} {track : Int} {st : TrackState} (clip : Bool) (seg : Segment)
    (p : TrackState × Bool) (s : Spanner) (hs : s ∈ spanners)
    (h : Steps ctx r spanners startTick track st p.1) :
    Steps ctx r spanners startTick track st
      (writeSpannerEdges r clip seg startTick track p s).1 := by
  unfold writeSpannerEdges
  simp only
  generalize (if s.anchor = Anchor.CHORD ∨ s.anchor = Anchor.NOTE then decide (s.tick2 < r.endTick)
      else decide (s.tick2 ≤ r.endTick)) = isEnd
  have h1 : Steps ctx r spanners startTick track st
      (if s.track = track then
        if s.tick = seg.tick ∧ (clip = false ∨ isEnd = true) ∧ s.isSlur = false then
          ((moveIfNeeded seg.tick startTick track p).1.emit (Event.spannerStart s seg.tick track),
            (moveIfNeeded seg.tick startTick track p).2)
        else p
      else p).1 := by
    split
    · split
      · exact Steps.emit (Event.spannerStart s seg.tick track)
          (steps_moveIfNeeded seg.tick p h) hs
      · exact h
    · exact h
  split
  · exact Steps.emit (Event.spannerEnd s seg.tick track) (steps_moveIfNeeded seg.tick _ h1) hs
  · exact h1

theorem steps_foldl_writeSpannerEdges {ctx : Context} {r : Range} {spanners : List Spanner}
    {startTick : Fraction} {track : Int} {st : TrackState} (clip : Bool) (seg : Segment)
    (l : List Spanner) :
    (∀ s ∈ l, s ∈ spanners) →
    ∀ (p : TrackState × Bool), Steps ctx r spanners startTick track st p.1 →
      Steps ctx r spanners startTick track st
        (l.foldl (writeSpannerEdges r clip seg startTick track) p).1 := by
  induction l with
  | nil => intro _ p h; exact h
  | cons s rest ih =>
    intro hl p h
    rw [List.foldl_cons]
    exact ih (fun x hx => hl x (List.mem_cons_of_mem _ hx)) _
      (steps_writeSpannerEdges clip seg p s (hl s (List.mem_cons_self _ _)) h)

theorem steps_forceSignatures {ctx : Context} {r : Range} {spanners : List Spanner}
    {startTick : Fraction} {track : Int} {st : TrackState} (seg : Segment) (st1 : TrackState)
    (h : Steps ctx r spanners startTick track st st1) :
    Steps ctx r spanners startTick track st (forceSignatures ctx seg startTick track st1) := by
  unfold forceSignatures
  simp only
  have ha := Steps.voiceMove seg.tick h
  refine Steps.frame _ (Steps.emit (Event.timeSig (ctx.timesig seg.tick)) ?_ trivial) rfl rfl rfl rfl
  split
  · exact Steps.frame _ (Steps.emit (Event.keySig (ctx.key (track / VOICES) seg.tick)) ha trivial)
      rfl rfl rfl rfl
  · exact ha

theorem steps_writeElement {ctx : Context} {r : Range} {spanners : List Spanner}
    {startTick : Fraction} {track : Int} {st : TrackState} (seg : Segment)
    (p : TrackState × Bool) (e : EngravingItem) (hg : e.generated = false)
    (hc : ctx.canWrite e = true) (h : Steps ctx r spanners startTick track st p.1) :
    Steps ctx r spanners startTick track st (writeElement ctx r seg startTick track p e).1 := by
  unfold writeElement
  simp only
  have h4 : Steps ctx r spanners startTick track st
      (if r.forceTimeSig = true ∧ track % VOICES = 0 ∧ seg.segmentType = SegmentType.ChordRest
          ∧ p.1.timeSigWritten = false ∧ p.1.crWritten = false then
        forceSignatures ctx seg startTick track p.1
      else p.1) := by
    split
    · exact steps_forceSignatures seg p.1 h
    · exact h
  generalize (if r.forceTimeSig = true ∧ track % VOICES = 0
      ∧ seg.segmentType = SegmentType.ChordRest
      ∧ p.1.timeSigWritten = false ∧ p.1.crWritten = false then
        forceSignatures ctx seg startTick track p.1
      else p.1) = st4 at h4 ⊢
  have h5 : Steps ctx r spanners startTick track st
      (if p.2 = true then st4.voiceMove seg.tick startTick track else st4) := by
    split
    · exact Steps.voiceMove seg.tick h4
    · exact h4
  generalize (if p.2 = true then st4.voiceMove seg.tick startTick track else st4) = st5 at h5 ⊢
  have h6 : Steps ctx r spanners startTick track st
      (if e.isChordRest = true then st5.emit (Event.tupletStart e) else st5) := by
    split
    · exact Steps.emit _ h5 trivial
    · exact h5
  generalize (if e.isChordRest = true then st5.emit (Event.tupletStart e) else st5) = st6
    at h6 ⊢
  have h7 : Steps ctx r spanners startTick track st
      { st6 with xml := { st6.xml.emit (Event.element seg.segmentType e) with
                          curTick := ctx.tickAfter e st6.xml.curTick } } :=
    Steps.frame _ (Steps.emit (Event.element seg.segmentType e) h6 ⟨hg, hc⟩) rfl rfl rfl rfl
  generalize ({ st6 with xml := { st6.xml.emit (Event.element seg.segmentType e) with
                          curTick := ctx.tickAfter e st6.xml.curTick } } : TrackState) = st7
    at h7 ⊢
  have h8 : Steps ctx r spanners startTick track st
      (if e.isChordRest = true then st7.emit (Event.tupletEnd e) else st7) := by
    split
    · exact Steps.emit _ h7 trivial
    · exact h7
  generalize (if e.isChordRest = true then st7.emit (Event.tupletEnd e) else st7) = st8
    at h8 ⊢
  have h9 : Steps ctx r spanners startTick track st
      { st8 with xml := (if e.isGapRest = true then (st8.xml, seg) else seg.write st8.xml).1 } := by
    by_cases hgap : e.isGapRest = true
    · rw [if_pos hgap]; exact h8
    · rw [if_neg hgap]
      unfold Segment.write
      split
      · exact h8
      · exact Steps.emit (Event.segment seg.tick) h8 trivial
  split
  · exact Steps.frame _ h9 rfl rfl rfl rfl
  · exact h9

end Scorefile

namespace Scorefile

theorem steps_writeSegment {ctx : Context} {r : Range} {spanners : List Spanner}
    {startTick : Fraction} {track : Int} {st0 : TrackState} (clip : Bool) (st : TrackState)
    (seg0 : Segment) (h : Steps ctx r spanners startTick track st0 st) :
    Steps ctx r spanners startTick track st0
      (writeSegment ctx r clip spanners startTick track st seg0).1 := by
  unfold writeSegment
  split
  · exact h
  · simp only
    generalize (if track = 0 then { seg0 with written := false } else seg0) = seg
    have h1 : Steps ctx r spanners startTick track st0 (writeBarLine r seg track st) := by
      unfold writeBarLine
      split
      · split
        · exact Steps.emit _ h trivial
        · exact h
      · exact h
    generalize writeBarLine r seg track st = st1 at h1 ⊢
    generalize decide (seg.tick ≠ st.xml.curTick ∨ track > st.lastTrackWritten) = needMove
    have h2 := steps_foldl_writeAnnotated seg seg.annotations (st1, needMove) h1
    generalize seg.annotations.foldl (writeAnnotated r seg startTick track) (st1, needMove) = p2
      at h2 ⊢
    have h3 : Steps ctx r spanners startTick track st0
        (if seg.inMMRest = false ∧ seg.segmentType = SegmentType.ChordRest then
          spanners.foldl (writeSpannerEdges r clip seg startTick track) p2
        else p2).1 := by
      split
      · exact steps_foldl_writeSpannerEdges clip seg spanners (fun s hs => hs) p2 h2
      · exact h2
    generalize (if seg.inMMRest = false ∧ seg.segmentType = SegmentType.ChordRest then
          spanners.foldl (writeSpannerEdges r clip seg startTick track) p2
        else p2) = p3 at h3 ⊢
    split
    · exact h3
    · rename_i e _
      split
      · exact h3
      · rename_i hc
        split
        · exact h3
        · rename_i hg
          exact steps_writeElement seg p3 e (by simpa using hg) (by simpa using hc) h3

theorem steps_writeChain {ctx : Context} {r : Range} {spanners : List Spanner}
    {startTick : Fraction} {track : Int} {st0 : TrackState} (clip : Bool)
    (segs : List Segment) :
    ∀ (st : TrackState), Steps ctx r spanners startTick track st0 st →
      Steps ctx r spanners startTick track st0
        (writeChain ctx r clip spanners startTick track st segs).1 := by
  induction segs with
  | nil => intro st h; exact h
  | cons seg rest ih =>
    intro st h
    simp only [writeChain]
    exact ih _ (steps_writeSegment clip st seg h)

theorem steps_foldl_writeLastSpannerEnd {ctx : Context} {r : Range} {spanners : List Spanner}
    {startTick : Fraction} {track : Int} {st0 : TrackState} (clip : Bool)
    (l : List Spanner) :
    (∀ s ∈ l, s ∈ spanners) →
    ∀ (st : TrackState), Steps ctx r spanners startTick track st0 st →
      Steps ctx r spanners startTick track st0
        (l.foldl (writeLastSpannerEnd r clip track) st) := by
  induction l with
  | nil => intro _ st h; exact h
  | cons s rest ih =>
    intro hl st h
    rw [List.foldl_cons]
    apply ih (fun x hx => hl x (List.mem_cons_of_mem _ hx))
    unfold writeLastSpannerEnd
    split
    · exact Steps.emit _ h (hl s (List.mem_cons_self _ _))
    · exact h

/-- The body of the track loop up to the closing voice tag. -/
theorem steps_writeTrack_body {ctx : Context} {r : Range} {spanners : List Spanner}
    {startTick : Fraction} {track : Int} (clip : Bool) (st0 : TrackState)
    (segs : List Segment) :
    Steps ctx r spanners startTick track st0
      (if clip = true ∨ r.esegTick = none then
        spanners.foldl (writeLastSpannerEnd r clip track)
          (writeChain ctx r clip spanners startTick track st0 segs).1
      else (writeChain ctx r clip spanners startTick track st0 segs).1) := by
  have h := steps_writeChain clip segs st0
    (@Steps.refl ctx r spanners startTick track st0)
  split
  · exact steps_foldl_writeLastSpannerEnd clip spanners (fun s hs => hs) _ h
  · exact h

end Scorefile

/-! ### Function `writeVoiceMove` -/

namespace Scorefile

theorem emptyVoices_eq (track : Int) :
    ∀ (n : Nat) (xml : XmlWriter) (ltw : Int), (track - 1 - ltw).toNat = n →
      emptyVoices track xml ltw
        = ({ xml with out := xml.out ++ List.replicate n Event.voiceEmpty }, ltw + n) := by
  intro n
  induction n with
  | zero =>
    intro xml ltw hn
    rw [emptyVoices]
    have : ¬ ltw < track - 1 := by omega
    simp [this]
  | succ n ih =>
    intro xml ltw hn
    rw [emptyVoices]
    have h : ltw < track - 1 := by omega
    rw [if_pos h, ih (xml.emit Event.voiceEmpty) (ltw + 1) (by omega)]
    simp only [XmlWriter.emit, List.replicate_succ, List.append_assoc, List.singleton_append,
      Prod.mk.injEq, true_and]
    push_cast
    omega

/-- What a call of `writeVoiceMove` leaves, in closed form. -/
theorem writeVoiceMove_eq (xml : XmlWriter) (segTick startTick : Fraction)
    (track ltw : Int) :
    writeVoiceMove xml segTick startTick track ltw
      = if ltw < track ∧ xml.clipboardmode = false then
          ({ curTick := segTick, curTrack := track, clipboardmode := xml.clipboardmode,
             out := xml.out ++ List.replicate (track - 1 - ltw).toNat Event.voiceEmpty
               ++ [Event.voiceOpen track]
               ++ (if startTick ≠ segTick then
                    [Event.move { frac := segTick - startTick, track := 0 }] else []) },
            track, true)
        else
          ({ curTick := segTick, curTrack := track, clipboardmode := xml.clipboardmode,
             out := xml.out
               ++ (if xml.curTick ≠ segTick ∨ track ≠ xml.curTrack then
                    [Event.move { frac := segTick - xml.curTick,
                                  track := track - xml.curTrack }] else []) },
            ltw, false) := by
  unfold writeVoiceMove
  by_cases h : ltw < track ∧ xml.clipboardmode = false
  · rw [if_pos h, if_pos h, emptyVoices_eq track _ xml ltw rfl]
    have hl : ltw + ((track - 1 - ltw).toNat : Int) + 1 = track := by
      have := h.1
      omega
    generalize (track - 1 - ltw).toNat = n at hl ⊢
    by_cases hm : startTick ≠ segTick
    · simp [hm, XmlWriter.emit, Location.toRelative, hl]
    · have hm1 : startTick = segTick := not_not.mp hm
      simp [hm1, XmlWriter.emit, hl]
  · rw [if_neg h, if_neg h]
    by_cases hm : xml.curTick ≠ segTick ∨ track ≠ xml.curTrack
    · simp only [if_pos hm, XmlWriter.emit, Location.toRelative]
    · simp only [if_neg hm, List.append_nil]
      rw [not_or, not_not, not_not] at hm
      obtain ⟨h1, h2⟩ := hm
      cases xml
      simp only at h1 h2
      subst h1; subst h2
      rfl

end Scorefile

/-! ### The voice tags of `Score::writeSegments` -/

namespace Scorefile

theorem Written.not_voice {ctx : Context} {r : Range} {spanners : List Spanner} {ev : Event}
    (h : Written ctx r spanners ev) : ev.isVoice = false := by
  cases ev <;> first | rfl | exact absurd h (by simp [Written])

theorem VoiceTrace.empties {strack : Int} {l : List Event} {ltw : Int}
    (h : VoiceTrace strack l ltw false) :
    ∀ n : Nat, VoiceTrace strack (l ++ List.replicate n Event.voiceEmpty) (ltw + n) false := by
  intro n
  induction n with
  | zero => simpa using h
  | succ n ih =>
    rw [List.replicate_succ', ← List.append_assoc]
    have := VoiceTrace.empty ih
    have he : ltw + ((n + 1 : Nat) : Int) = ltw + (n : Int) + 1 := by push_cast; ring
    rw [he]
    exact this

theorem VoiceTrace.others {strack : Int} {l : List Event} {ltw : Int} {b : Bool}
    (h : VoiceTrace strack l ltw b) :
    ∀ l2 : List Event, (∀ ev ∈ l2, ev.isVoice = false) → VoiceTrace strack (l ++ l2) ltw b := by
  intro l2
  induction l2 using List.reverseRecOn with
  | nil => intro _; simpa using h
  | append_singleton l2 ev ih =>
    intro hall
    rw [← List.append_assoc]
    exact VoiceTrace.other ev (ih (fun x hx => hall x (List.mem_append_left _ hx)))
      (hall ev (by simp))

theorem voiceInv_voiceMove {strack track : Int} {st : TrackState} {out0 new : List Event}
    (segTick startTick : Fraction) (ho : st.xml.out = out0 ++ new)
    (h : VoiceInv strack track st new) :
    ∃ new1, (st.voiceMove segTick startTick track).xml.out = out0 ++ new1
      ∧ VoiceInv strack track (st.voiceMove segTick startTick track) new1 := by
  unfold TrackState.voiceMove
  simp only
  rw [writeVoiceMove_eq]
  rcases h with ⟨hv, hlt, ht⟩ | ⟨hv, heq, ht⟩
  · by_cases hc : st.xml.clipboardmode = false
    · rw [if_pos ⟨hlt, hc⟩]
      simp only [ho, hv, Bool.false_or, List.append_assoc]
      refine ⟨_, rfl, Or.inr ⟨rfl, rfl, ?_⟩⟩
      have h1 := VoiceTrace.opened
        (VoiceTrace.empties ht (track - 1 - st.lastTrackWritten).toNat)
      have he : st.lastTrackWritten + ((track - 1 - st.lastTrackWritten).toNat : Int) + 1
          = track := by omega
      rw [he] at h1
      have h2 := VoiceTrace.others h1
        (if startTick ≠ segTick then
          [Event.move { frac := segTick - startTick, track := 0 }] else [])
        (by intro ev hev; split at hev <;> simp at hev; subst hev; rfl)
      simpa [List.append_assoc] using h2
    · have hn : ¬ (st.lastTrackWritten < track ∧ st.xml.clipboardmode = false) :=
        fun h => hc h.2
      rw [if_neg hn]
      simp only [ho, hv, Bool.false_or, List.append_assoc, Bool.or_false]
      refine ⟨_, rfl, Or.inl ⟨rfl, hlt, ?_⟩⟩
      exact VoiceTrace.others ht _
        (by intro ev hev; split at hev <;> simp at hev; subst hev; rfl)
  · have hn : ¬ (st.lastTrackWritten < track ∧ st.xml.clipboardmode = false) := by
      rw [heq]; exact fun h => lt_irrefl _ h.1
    rw [if_neg hn]
    simp only [ho, hv, Bool.true_or, List.append_assoc]
    refine ⟨_, rfl, Or.inr ⟨rfl, heq, ?_⟩⟩
    exact VoiceTrace.others ht _
      (by intro ev hev; split at hev <;> simp at hev; subst hev; rfl)

theorem voiceInv_steps {ctx : Context} {r : Range} {spanners : List Spanner}
    {startTick : Fraction} {strack track : Int} {st0 st : TrackState} {out0 : List Event}
    (hs : Steps ctx r spanners startTick track st0 st) :
    ∀ new0, st0.xml.out = out0 ++ new0 → VoiceInv strack track st0 new0 →
      ∃ new, st.xml.out = out0 ++ new ∧ VoiceInv strack track st new := by
  induction hs with
  | refl => intro new0 ho h; exact ⟨new0, ho, h⟩
  | emit ev _ hw ih =>
    intro new0 ho h
    obtain ⟨new, ho1, h1⟩ := ih new0 ho h
    refine ⟨new ++ [ev], by simp [TrackState.emit, XmlWriter.emit, ho1], ?_⟩
    rcases h1 with ⟨hv, hlt, ht⟩ | ⟨hv, heq, ht⟩
    · exact Or.inl ⟨hv, hlt, VoiceTrace.other ev ht hw.not_voice⟩
    · exact Or.inr ⟨hv, heq, VoiceTrace.other ev ht hw.not_voice⟩
  | voiceMove segTick _ ih =>
    intro new0 ho h
    obtain ⟨new, ho1, h1⟩ := ih new0 ho h
    exact voiceInv_voiceMove segTick startTick ho1 h1
  | frame st2 _ ho2 _ hl hv ih =>
    intro new0 ho h
    obtain ⟨new, ho1, h1⟩ := ih new0 ho h
    refine ⟨new, by rw [ho2, ho1], ?_⟩
    unfold VoiceInv at h1 ⊢
    rw [hl, hv]
    exact h1

end Scorefile

/-! ### What the voice tags of an output tell -/

namespace Scorefile

theorem snoc_eq_append_cons {α : Type} (l pre post : List α) (a x : α)
    (h : l ++ [a] = pre ++ x :: post) :
    (post = [] ∧ pre = l ∧ x = a) ∨ ∃ post1, post = post1 ++ [a] ∧ l = pre ++ x :: post1 := by
  rcases List.eq_nil_or_concat post with hp | ⟨post1, b, hp⟩
  · subst hp
    have h1 : l ++ [a] = pre ++ [x] := h
    have h2 := List.append_inj' h1 rfl
    exact Or.inl ⟨rfl, h2.1.symm, by simpa using h2.2.symm⟩
  · subst hp
    have h1 : l ++ [a] = (pre ++ x :: post1) ++ [b] := by
      rw [h]; simp [List.concat_eq_append]
    have h2 := List.append_inj' h1 rfl
    have hb : a = b := by simpa using h2.2
    subst hb
    exact Or.inr ⟨post1, by simp [List.concat_eq_append], h2.1⟩

theorem markerCount_append (l1 l2 : List Event) :
    markerCount (l1 ++ l2) = markerCount l1 + markerCount l2 := by
  simp [markerCount, List.countP_append]

theorem markerCount_of_not_voice (ev : Event) (h : ev.isVoice = false) :
    markerCount [ev] = 0 := by
  cases ev <;> simp_all [markerCount, Event.isVoice, Event.isMarker]

theorem VoiceTrace.count {strack : Int} {l : List Event} {ltw : Int} {b : Bool}
    (h : VoiceTrace strack l ltw b) : (markerCount l : Int) = ltw - strack + 1 := by
  induction h with
  | nil => simp [markerCount]
  | other ev _ hv ih =>
    rw [markerCount_append, markerCount_of_not_voice ev hv]
    simpa using ih
  | empty _ ih =>
    rw [markerCount_append]
    simp only [markerCount, List.countP_singleton, Event.isMarker] at ih ⊢
    push_cast
    omega
  | opened _ ih =>
    rw [markerCount_append]
    simp only [markerCount, List.countP_singleton, Event.isMarker] at ih ⊢
    push_cast
    omega
  | closed _ ih =>
    rw [markerCount_append]
    simp only [markerCount, List.countP_singleton, Event.isMarker] at ih ⊢
    simpa using ih

theorem VoiceTrace.open_le {strack : Int} {l : List Event} {ltw : Int} {b : Bool}
    (h : VoiceTrace strack l ltw b) : ∀ t, Event.voiceOpen t ∈ l → t ≤ ltw := by
  induction h with
  | nil => intro t ht; simp at ht
  | other ev _ hv ih =>
    intro t ht
    rw [List.mem_append, List.mem_singleton] at ht
    rcases ht with ht | ht
    · exact ih t ht
    · subst ht; simp [Event.isVoice] at hv
  | empty _ ih =>
    intro t ht
    rw [List.mem_append, List.mem_singleton] at ht
    rcases ht with ht | ht
    · have := ih t ht; omega
    · simp at ht
  | opened _ ih =>
    intro t ht
    rw [List.mem_append, List.mem_singleton] at ht
    rcases ht with ht | ht
    · have := ih t ht; omega
    · injection ht with ht; omega
  | closed _ ih =>
    intro t ht
    rw [List.mem_append, List.mem_singleton] at ht
    rcases ht with ht | ht
    · exact ih t ht
    · simp at ht

theorem VoiceTrace.count_before {strack : Int} {l : List Event} {ltw : Int} {b : Bool}
    (h : VoiceTrace strack l ltw b) :
    ∀ pre post t, l = pre ++ Event.voiceOpen t :: post → (markerCount pre : Int) = t - strack := by
  induction h with
  | nil => intro pre post t he; simp at he
  | other ev _ hv ih =>
    intro pre post t he
    rcases snoc_eq_append_cons _ _ _ _ _ he with ⟨_, _, hx⟩ | ⟨post1, _, hl⟩
    · subst hx; simp [Event.isVoice] at hv
    · exact ih pre post1 t hl
  | empty _ ih =>
    intro pre post t he
    rcases snoc_eq_append_cons _ _ _ _ _ he with ⟨_, _, hx⟩ | ⟨post1, _, hl⟩
    · simp at hx
    · exact ih pre post1 t hl
  | opened hprev ih =>
    intro pre post t he
    rcases snoc_eq_append_cons _ _ _ _ _ he with ⟨_, hp, hx⟩ | ⟨post1, _, hl⟩
    · injection hx with hx
      subst hp
      have := hprev.count
      omega
    · exact ih pre post1 t hl
  | closed _ ih =>
    intro pre post t he
    rcases snoc_eq_append_cons _ _ _ _ _ he with ⟨_, _, hx⟩ | ⟨post1, _, hl⟩
    · simp at hx
    · exact ih pre post1 t hl

/-- An opening voice tag of a track stands once in the output, after as many
markers as there are tracks from `strack` up to it. -/
theorem VoiceTrace.open_once {strack : Int} {l : List Event} {ltw : Int} {b : Bool}
    (h : VoiceTrace strack l ltw b) (pre post : List Event) (t : Int)
    (he : l = pre ++ Event.voiceOpen t :: post) :
    (markerCount pre : Int) = t - strack ∧ Event.voiceOpen t ∉ pre
      ∧ Event.voiceOpen t ∉ post := by
  have hc := h.count_before pre post t he
  refine ⟨hc, ?_, ?_⟩
  · intro hm
    obtain ⟨p1, p2, hp⟩ := List.append_of_mem hm
    have h1 := h.count_before p1 (p2 ++ Event.voiceOpen t :: post) t
      (by rw [he, hp]; simp)
    rw [hp, markerCount_append] at hc
    have h2 : markerCount (Event.voiceOpen t :: p2) = 1 + markerCount p2 := by
      simp [markerCount, List.countP_cons, Event.isMarker, Nat.add_comm]
    rw [h2] at hc
    push_cast at hc
    omega
  · intro hm
    obtain ⟨p1, p2, hp⟩ := List.append_of_mem hm
    have h1 := h.count_before (pre ++ Event.voiceOpen t :: p1) p2 t
      (by rw [he, hp]; simp)
    rw [markerCount_append] at h1
    have h2 : markerCount (Event.voiceOpen t :: p1) = 1 + markerCount p1 := by
      simp [markerCount, List.countP_cons, Event.isMarker, Nat.add_comm]
    rw [h2] at h1
    push_cast at h1
    omega

end Scorefile

namespace Scorefile

theorem voiceRun_append (l1 l2 : List Event) :
    ∀ o, voiceRun o (l1 ++ l2) = (voiceRun o l1).bind (fun o1 => voiceRun o1 l2) := by
  induction l1 with
  | nil => intro o; simp [voiceRun]
  | cons ev rest ih =>
    intro o
    simp only [List.cons_append, voiceRun]
    cases voiceStep o ev with
    | none => simp
    | some o1 => simpa using ih o1

theorem voiceStep_of_not_voice (o : Option Int) (ev : Event) (h : ev.isVoice = false) :
    voiceStep o ev = some o := by
  cases ev <;> simp_all [voiceStep, Event.isVoice]

theorem VoiceTrace.run {strack : Int} {l : List Event} {ltw : Int} {b : Bool}
    (h : VoiceTrace strack l ltw b) :
    voiceRun none l = some (if b then some ltw else none) := by
  induction h with
  | nil => simp [voiceRun]
  | other ev _ hv ih =>
    rw [voiceRun_append, ih]
    simp [voiceRun, voiceStep_of_not_voice _ ev hv]
  | empty _ ih =>
    rw [voiceRun_append, ih]
    simp [voiceRun, voiceStep]
  | opened _ ih =>
    rw [voiceRun_append, ih]
    simp [voiceRun, voiceStep]
  | closed _ ih =>
    rw [voiceRun_append, ih]
    simp [voiceRun, voiceStep]

theorem VoiceTrace.open_mem {strack : Int} {l : List Event} {ltw : Int} {b : Bool}
    (h : VoiceTrace strack l ltw b) : b = true → Event.voiceOpen ltw ∈ l := by
  induction h with
  | nil => intro hb; simp at hb
  | other ev _ _ ih => intro hb; exact List.mem_append_left _ (ih hb)
  | empty _ _ => intro hb; simp at hb
  | opened _ _ => intro _; simp
  | closed _ _ => intro hb; simp at hb

theorem VoiceTrace.close_iff {strack : Int} {l : List Event} {ltw : Int} {b : Bool}
    (h : VoiceTrace strack l ltw b) :
    ∀ t, Event.voiceClose t ∈ l ↔ (Event.voiceOpen t ∈ l ∧ ¬ (b = true ∧ t = ltw)) := by
  induction h with
  | nil => intro t; simp
  | other ev _ hv ih =>
    intro t
    have h1 : Event.voiceClose t ≠ ev := by
      intro he; subst he; simp [Event.isVoice] at hv
    have h2 : Event.voiceOpen t ≠ ev := by
      intro he; subst he; simp [Event.isVoice] at hv
    simp only [List.mem_append, List.mem_singleton, h1, h2, or_false]
    exact ih t
  | empty hprev ih =>
    intro t
    simp only [List.mem_append, List.mem_singleton, reduceCtorEq, or_false]
    rw [ih t]
    simp
  | opened hprev ih =>
    rename_i l0 ltw0
    intro t
    simp only [List.mem_append, List.mem_singleton, reduceCtorEq, or_false, Event.voiceOpen.injEq]
    rw [ih t]
    constructor
    · rintro ⟨ho, _⟩
      refine ⟨Or.inl ho, ?_⟩
      have := hprev.open_le t ho
      omega
    · rintro ⟨ho | ho, hne⟩
      · exact ⟨ho, by simp⟩
      · exact absurd ⟨trivial, ho⟩ hne
  | closed hprev ih =>
    rename_i l0 ltw0
    intro t
    simp only [List.mem_append, List.mem_singleton, reduceCtorEq, or_false, Event.voiceClose.injEq]
    rw [ih t]
    constructor
    · rintro (⟨ho, _⟩ | ht)
      · exact ⟨ho, by simp⟩
      · subst ht
        exact ⟨hprev.open_mem rfl, by simp⟩
    · rintro ⟨ho, _⟩
      by_cases ht : t = ltw0
      · exact Or.inr ht
      · exact Or.inl ⟨ho, by simp [ht]⟩

/-- The voice tags of a finished output are balanced, and a track has a closing
tag exactly if it has an opening one. -/
theorem VoiceTrace.balanced {strack : Int} {l : List Event} {ltw : Int}
    (h : VoiceTrace strack l ltw false) :
    Balanced l ∧ ∀ t, Event.voiceClose t ∈ l ↔ Event.voiceOpen t ∈ l := by
  refine ⟨by simpa [Balanced] using h.run, ?_⟩
  intro t
  rw [h.close_iff t]
  simp

end Scorefile

/-! ### The voice tags over the track loop -/

namespace Scorefile

theorem writeTrack_voice (ctx : Context) (r : Range) (clip : Bool) (spanners : List Spanner)
    (startTick : Fraction) (strack track : Int) (acc : XmlWriter × Int × List Segment)
    (out0 new : List Event) (ho : acc.1.out = out0 ++ new) (hlt : acc.2.1 < track)
    (ht : VoiceTrace strack new acc.2.1 false) :
    ∃ new1, (writeTrack ctx r clip spanners startTick acc track).1.out = out0 ++ new1
      ∧ (writeTrack ctx r clip spanners startTick acc track).2.1 < track + 1
      ∧ VoiceTrace strack new1 (writeTrack ctx r clip spanners startTick acc track).2.1 false := by
  unfold writeTrack
  split
  · exact ⟨new, ho, by omega, ht⟩
  · simp only
    obtain ⟨new1, ho1, h1⟩ := @voiceInv_steps ctx r spanners startTick strack track _ _ out0
      (@steps_writeTrack_body ctx r spanners startTick track clip
        { xml := acc.1, lastTrackWritten := acc.2.1, voiceTagWritten := false,
          timeSigWritten := false, crWritten := false, keySigWritten := false } acc.2.2)
      new ho (Or.inl ⟨rfl, hlt, ht⟩)
    generalize (if clip = true ∨ r.esegTick = none then
        spanners.foldl (writeLastSpannerEnd r clip track)
          (writeChain ctx r clip spanners startTick track
            { xml := acc.1, lastTrackWritten := acc.2.1, voiceTagWritten := false,
              timeSigWritten := false, crWritten := false, keySigWritten := false } acc.2.2).1
      else (writeChain ctx r clip spanners startTick track
            { xml := acc.1, lastTrackWritten := acc.2.1, voiceTagWritten := false,
              timeSigWritten := false, crWritten := false, keySigWritten := false } acc.2.2).1)
      = st1 at ho1 h1 ⊢
    rcases h1 with ⟨hv, hl, htr⟩ | ⟨hv, hl, htr⟩
    · rw [if_neg (by simp [hv])]
      exact ⟨new1, ho1, by omega, htr⟩
    · rw [if_pos hv]
      refine ⟨new1 ++ [Event.voiceClose track], ?_, ?_, ?_⟩
      · simp [TrackState.emit, XmlWriter.emit, ho1]
      · simp only [TrackState.emit]; omega
      · simp only [TrackState.emit]
        rw [hl]
        exact VoiceTrace.closed htr

theorem foldl_writeTrack_voice (ctx : Context) (r : Range) (clip : Bool)
    (spanners : List Spanner) (startTick : Fraction) (strack : Int) (xml : XmlWriter)
    (segs : List Segment) (n : Nat) :
    ∃ new, (((List.range n).map (fun (k : Nat) => strack + (k : Int))).foldl
          (writeTrack ctx r clip spanners startTick) (xml, strack - 1, segs)).1.out
        = xml.out ++ new
      ∧ (((List.range n).map (fun (k : Nat) => strack + (k : Int))).foldl
          (writeTrack ctx r clip spanners startTick) (xml, strack - 1, segs)).2.1 < strack + n
      ∧ VoiceTrace strack new
        (((List.range n).map (fun (k : Nat) => strack + (k : Int))).foldl
          (writeTrack ctx r clip spanners startTick) (xml, strack - 1, segs)).2.1 false := by
  induction n with
  | zero =>
    refine ⟨[], by simp, by simp, ?_⟩
    simpa using VoiceTrace.nil
  | succ n ih =>
    obtain ⟨new, ho, hlt, ht⟩ := ih
    rw [List.range_succ, List.map_append, List.foldl_append, List.map_singleton,
      List.foldl_cons, List.foldl_nil]
    obtain ⟨new1, ho1, hlt1, ht1⟩ := writeTrack_voice ctx r clip spanners startTick strack
      (strack + (n : Int)) _ xml.out new ho hlt ht
    refine ⟨new1, ho1, ?_, ht1⟩
    push_cast
    omega

/-- The output of `Score::writeSegments` is the output before the call followed
by one whose voice tags are those of a `VoiceTrace` with no voice tag left
open. -/
theorem writeSegments_voice (ctx : Context) (xml : XmlWriter) (r : Range)
    (segs : List Segment) :
    ∃ new ltw, (writeSegments ctx xml r segs).1.out = xml.out ++ new
      ∧ VoiceTrace r.strack new ltw false := by
  obtain ⟨new, ho, _, ht⟩ := foldl_writeTrack_voice ctx r xml.clipboardmode
    (selectSpanners ctx xml.clipboardmode r.sl) xml.curTick r.strack xml segs
    (r.etrack - r.strack).toNat
  exact ⟨new, _, ho, ht⟩

end Scorefile

/-! ### The claims on the voice tags and the moves -/

namespace Scorefile

theorem closeInv_steps {ctx : Context} {r : Range} {spanners : List Spanner}
    {startTick : Fraction} {track : Int} {st0 st : TrackState} {out0 : List Event}
    (hs : Steps ctx r spanners startTick track st0 st) :
    ∀ body0, st0.xml.out = out0 ++ body0 → (∀ t, Event.voiceClose t ∉ body0) →
      (st0.voiceTagWritten = true ↔ Event.voiceOpen track ∈ body0) →
      ∃ body, st.xml.out = out0 ++ body ∧ (∀ t, Event.voiceClose t ∉ body)
        ∧ (st.voiceTagWritten = true ↔ Event.voiceOpen track ∈ body) := by
  induction hs with
  | refl => intro body0 ho hc hv; exact ⟨body0, ho, hc, hv⟩
  | emit ev _ hw ih =>
    intro body0 ho hc hv
    obtain ⟨body, ho1, hc1, hv1⟩ := ih body0 ho hc hv
    have hnv := hw.not_voice
    refine ⟨body ++ [ev], by simp [TrackState.emit, XmlWriter.emit, ho1], ?_, ?_⟩
    · intro t hm
      rw [List.mem_append, List.mem_singleton] at hm
      rcases hm with hm | hm
      · exact hc1 t hm
      · subst hm; simp [Event.isVoice] at hnv
    · have hne : Event.voiceOpen track ≠ ev := by
        intro he; subst he; simp [Event.isVoice] at hnv
      simp only [TrackState.emit, List.mem_append, List.mem_singleton, hne, or_false]
      exact hv1
  | voiceMove segTick _ ih =>
    intro body0 ho hc hv
    obtain ⟨body, ho1, hc1, hv1⟩ := ih body0 ho hc hv
    rename_i st1 _
    unfold TrackState.voiceMove
    simp only
    rw [writeVoiceMove_eq]
    by_cases hcond : st1.lastTrackWritten < track ∧ st1.xml.clipboardmode = false
    · rw [if_pos hcond]
      refine ⟨body ++ (List.replicate (track - 1 - st1.lastTrackWritten).toNat Event.voiceEmpty
        ++ [Event.voiceOpen track]
        ++ (if startTick ≠ segTick then
              [Event.move { frac := segTick - startTick, track := 0 }] else [])), ?_, ?_, ?_⟩
      · simp [ho1, List.append_assoc]
      · intro t hm
        simp only [List.mem_append, List.mem_replicate, List.mem_singleton, reduceCtorEq,
          and_false, or_false] at hm
        rcases hm with hm | hm
        · exact hc1 t hm
        · split at hm <;> simp at hm
      · simp
    · rw [if_neg hcond]
      refine ⟨body ++ (if st1.xml.curTick ≠ segTick ∨ track ≠ st1.xml.curTrack then
              [Event.move { frac := segTick - st1.xml.curTick,
                            track := track - st1.xml.curTrack }] else []), ?_, ?_, ?_⟩
      · simp [ho1, List.append_assoc]
      · intro t hm
        rw [List.mem_append] at hm
        rcases hm with hm | hm
        · exact hc1 t hm
        · split at hm <;> simp at hm
      · simp only [Bool.or_false, List.mem_append]
        rw [hv1]
        constructor
        · exact Or.inl
        · rintro (h | h)
          · exact h
          · split at h <;> simp at h
  | frame st2 _ ho2 _ _ hv2 ih =>
    intro body0 ho hc hv
    obtain ⟨body, ho1, hc1, hv1⟩ := ih body0 ho hc hv
    exact ⟨body, by rw [ho2, ho1], hc1, by rw [hv2]; exact hv1⟩

/-- C12: in non-clipboard mode a call of `writeVoiceMove` for a track greater
than `lastTrackWritten` writes one empty voice marker for every track strictly
between `lastTrackWritten` and the track, then one opening voice marker (and
after it at most a move), and sets `lastTrackWritten` to the track; and in the
output of one call of `Score::writeSegments` the opening marker of a track
stands at most once, the markers up to and including it being
`track - strack + 1` in number. -/
theorem writeVoiceMove_markers (ctx : Context) (xml : XmlWriter) (r : Range)
    (segs : List Segment) (segTick startTick : Fraction) (track ltw : Int)
    (pre post : List Event) (t : Int) :
    (xml.clipboardmode = false → ltw < track →
      (∃ moves, (∀ ev ∈ moves, ev.isVoice = false) ∧
        (writeVoiceMove xml segTick startTick track ltw).1.out
          = xml.out ++ List.replicate (track - 1 - ltw).toNat Event.voiceEmpty
              ++ [Event.voiceOpen track] ++ moves)
      ∧ (writeVoiceMove xml segTick startTick track ltw).2.1 = track) ∧
    ((writeSegments ctx xml r segs).1.out = xml.out ++ (pre ++ Event.voiceOpen t :: post) →
      (markerCount (pre ++ [Event.voiceOpen t]) : Int) = t - r.strack + 1
        ∧ Event.voiceOpen t ∉ pre ∧ Event.voiceOpen t ∉ post) := by
  constructor
  · intro hc hlt
    rw [writeVoiceMove_eq, if_pos ⟨hlt, hc⟩]
    refine ⟨⟨_, ?_, rfl⟩, rfl⟩
    intro ev hev
    split at hev <;> simp at hev
    subst hev; rfl
  · intro ho
    obtain ⟨new, ltw1, ho1, ht⟩ := writeSegments_voice ctx xml r segs
    have hnew : new = pre ++ Event.voiceOpen t :: post :=
      List.append_cancel_left (ho1.symm.trans ho)
    obtain ⟨h1, h2, h3⟩ := ht.open_once pre post t hnew
    refine ⟨?_, h2, h3⟩
    rw [markerCount_append]
    have : markerCount [Event.voiceOpen t] = 1 := by
      simp [markerCount, Event.isMarker]
    rw [this]
    push_cast
    omega

theorem writeVoiceMove_markers_witness :
    ((freshWriter 0 0 false).clipboardmode = false ∧ (-1 : Int) < 1) ∧
    ((∃ moves, (∀ ev ∈ moves, ev.isVoice = false) ∧
        (writeVoiceMove (freshWriter 0 0 false) 0 0 1 (-1)).1.out
          = (freshWriter 0 0 false).out
              ++ List.replicate ((1 : Int) - 1 - (-1)).toNat Event.voiceEmpty
              ++ [Event.voiceOpen 1] ++ moves)
      ∧ (writeVoiceMove (freshWriter 0 0 false) 0 0 1 (-1)).2.1 = 1) ∧
    ((markerCount ([Event.voiceEmpty] ++ [Event.voiceOpen 1]) : Int)
        = 1 - (plainRange 0 2 1 []).strack + 1
      ∧ Event.voiceOpen 1 ∉ [Event.voiceEmpty]
      ∧ Event.voiceOpen 1 ∉ [Event.tupletStart (chordItem 1 1),
          Event.element SegmentType.ChordRest (chordItem 1 1), Event.tupletEnd (chordItem 1 1),
          Event.segment 0, Event.voiceClose 1]) :=
  ⟨⟨rfl, by decide⟩,
    (writeVoiceMove_markers plainContext (freshWriter 0 0 false) (plainRange 0 2 1 [])
      [segmentOf SegmentType.ChordRest 0 (chordItem 1 1)] 0 0 1 (-1) [Event.voiceEmpty]
      [Event.tupletStart (chordItem 1 1),
        Event.element SegmentType.ChordRest (chordItem 1 1), Event.tupletEnd (chordItem 1 1),
        Event.segment 0, Event.voiceClose 1] 1).1 rfl (by decide),
    (writeVoiceMove_markers plainContext (freshWriter 0 0 false) (plainRange 0 2 1 [])
      [segmentOf SegmentType.ChordRest 0 (chordItem 1 1)] 0 0 1 (-1) [Event.voiceEmpty]
      [Event.tupletStart (chordItem 1 1),
        Event.element SegmentType.ChordRest (chordItem 1 1), Event.tupletEnd (chordItem 1 1),
        Event.segment 0, Event.voiceClose 1] 1).2 (by
        simp [writeSegments, trackRange, plainRange, List.range, List.range.loop, writeTrack,
          plainContext, writeChain, writeSegment, segmentOf, chordItem, writeBarLine,
          selectSpanners, freshWriter, writeElement, TrackState.voiceMove, writeVoiceMove_eq,
          TrackState.emit, XmlWriter.emit, Segment.write, Range.endTick, moveIfNeeded])⟩

/-- C13: `writeVoiceMove` writes a move exactly if the position of the writer,
taken after an opening voice marker has set it to `(startTick, track)`, differs
from `(seg->tick(), track)`; the move is the difference of the two positions, so
that adding it to the position of the writer gives the tick of the segment and
the track; and after the call the writer is at `(seg->tick(), track)`. -/
theorem writeVoiceMove_move (xml : XmlWriter) (segTick startTick : Fraction)
    (track ltw : Int) :
    let cur : Location :=
      if ltw < track ∧ xml.clipboardmode = false then { frac := startTick, track := track }
      else { frac := xml.curTick, track := xml.curTrack }
    let dest : Location := { frac := segTick, track := track }
    let voice : List Event :=
      if ltw < track ∧ xml.clipboardmode = false then
        List.replicate (track - 1 - ltw).toNat Event.voiceEmpty ++ [Event.voiceOpen track]
      else []
    (writeVoiceMove xml segTick startTick track ltw).1.out
        = xml.out ++ voice ++ (if cur ≠ dest then [Event.move (dest.toRelative cur)] else [])
      ∧ ((∃ d, (writeVoiceMove xml segTick startTick track ltw).1.out
            = xml.out ++ voice ++ [Event.move d]) ↔ cur ≠ dest)
      ∧ (dest.toRelative cur).frac = segTick - cur.frac
      ∧ (dest.toRelative cur).track = track - cur.track
      ∧ cur.frac + (dest.toRelative cur).frac = segTick
      ∧ cur.track + (dest.toRelative cur).track = track
      ∧ (writeVoiceMove xml segTick startTick track ltw).1.curTick = segTick
      ∧ (writeVoiceMove xml segTick startTick track ltw).1.curTrack = track := by
  intro cur dest voice
  have hout : (writeVoiceMove xml segTick startTick track ltw).1.out
      = xml.out ++ voice ++ (if cur ≠ dest then [Event.move (dest.toRelative cur)] else []) := by
    rw [writeVoiceMove_eq]
    by_cases h : ltw < track ∧ xml.clipboardmode = false
    · simp only [cur, dest, voice, if_pos h, Location.toRelative, Location.mk.injEq, and_true,
        sub_self, List.append_assoc, ne_eq]
    · simp only [cur, dest, voice, if_neg h, Location.toRelative, Location.mk.injEq,
        List.append_nil, ne_eq, not_and_or]
      by_cases hm : xml.curTick ≠ segTick ∨ track ≠ xml.curTrack
      · have hm2 : ¬xml.curTick = segTick ∨ ¬xml.curTrack = track := by
          rcases hm with h1 | h1
          · exact Or.inl h1
          · exact Or.inr (fun h2 => h1 h2.symm)
        rw [if_pos hm, if_pos hm2]
      · have hm2 : ¬ (¬xml.curTick = segTick ∨ ¬xml.curTrack = track) := by
          intro h2
          apply hm
          rcases h2 with h1 | h1
          · exact Or.inl h1
          · exact Or.inr (fun h3 => h1 h3.symm)
        rw [if_neg hm, if_neg hm2]
  refine ⟨hout, ?_, rfl, rfl, ?_, ?_, ?_, ?_⟩
  · rw [hout]
    by_cases hne : cur ≠ dest
    · rw [if_pos hne]
      exact ⟨fun _ => hne, fun _ => ⟨_, rfl⟩⟩
    · rw [if_neg hne]
      constructor
      · rintro ⟨d, hd⟩
        have := congrArg List.length hd
        simp at this
      · intro h
        exact absurd h hne
  · simp [Location.toRelative]
  · simp [Location.toRelative]
  · rw [writeVoiceMove_eq]; split <;> rfl
  · rw [writeVoiceMove_eq]; split <;> rfl

end Scorefile

namespace Scorefile

/-- C14: in `Score::writeSegments` the body of the track loop ends, for every
track, with the closing voice tag exactly if it wrote an opening voice tag for
the track, and writes no closing voice tag before; over the whole call the
opening and closing voice tags are balanced and properly nested, and a track has
a closing tag exactly if it has an opening one. -/
theorem writeSegments_voice_balanced (ctx : Context) (xml : XmlWriter) (r : Range)
    (segs : List Segment) (clip : Bool) (spanners : List Spanner) (startTick : Fraction)
    (acc : XmlWriter × Int × List Segment) (track : Int) :
    (∃ body, (writeTrack ctx r clip spanners startTick acc track).1.out
          = acc.1.out ++ body
            ++ (if Event.voiceOpen track ∈ body then [Event.voiceClose track] else [])
        ∧ ∀ t, Event.voiceClose t ∉ body) ∧
    (∃ new, (writeSegments ctx xml r segs).1.out = xml.out ++ new ∧ Balanced new
        ∧ ∀ t, Event.voiceClose t ∈ new ↔ Event.voiceOpen t ∈ new) := by
  constructor
  · unfold writeTrack
    split
    · exact ⟨[], by simp, by simp⟩
    · simp only
      obtain ⟨body, ho, hc, hv⟩ := @closeInv_steps ctx r spanners startTick track _ _ acc.1.out
        (@steps_writeTrack_body ctx r spanners startTick track clip
          { xml := acc.1, lastTrackWritten := acc.2.1, voiceTagWritten := false,
            timeSigWritten := false, crWritten := false, keySigWritten := false } acc.2.2)
        [] (by simp) (by simp) (by simp)
      generalize (if clip = true ∨ r.esegTick = none then
          spanners.foldl (writeLastSpannerEnd r clip track)
            (writeChain ctx r clip spanners startTick track
              { xml := acc.1, lastTrackWritten := acc.2.1, voiceTagWritten := false,
                timeSigWritten := false, crWritten := false, keySigWritten := false }
              acc.2.2).1
        else (writeChain ctx r clip spanners startTick track
              { xml := acc.1, lastTrackWritten := acc.2.1, voiceTagWritten := false,
                timeSigWritten := false, crWritten := false, keySigWritten := false }
              acc.2.2).1)
        = st1 at ho hc hv ⊢
      refine ⟨body, ?_, hc⟩
      by_cases hw : st1.voiceTagWritten = true
      · rw [if_pos hw, if_pos (hv.mp hw)]
        simp [TrackState.emit, XmlWriter.emit, ho]
      · rw [if_neg hw, if_neg (fun h => hw (hv.mpr h))]
        simp [ho]
  · obtain ⟨new, ltw, ho, ht⟩ := writeSegments_voice ctx xml r segs
    exact ⟨new, ho, ht.balanced.1, ht.balanced.2⟩

end Scorefile

/-! ### The content written at a segment -/

namespace Scorefile

theorem content_append (l1 l2 : List Event) : content (l1 ++ l2) = content l1 ++ content l2 := by
  simp [content]

theorem content_voiceMove (st : TrackState) (segTick startTick : Fraction) (track : Int) :
    content (st.voiceMove segTick startTick track).xml.out = content st.xml.out
      ∧ SameFlags (st.voiceMove segTick startTick track) st := by
  unfold TrackState.voiceMove
  simp only
  rw [writeVoiceMove_eq]
  refine ⟨?_, rfl, rfl, rfl⟩
  split
  · simp only [content_append]
    have h1 : content (List.replicate (track - 1 - st.lastTrackWritten).toNat Event.voiceEmpty)
        = [] := by
      simp [content, Event.isContent]
    have h2 : content (if startTick ≠ segTick then
        [Event.move { frac := segTick - startTick, track := 0 }] else []) = [] := by
      split <;> simp [content, Event.isContent]
    rw [h1, h2]
    simp [content, Event.isContent]
  · simp only [content_append]
    have h2 : content (if st.xml.curTick ≠ segTick ∨ track ≠ st.xml.curTrack then
        [Event.move { frac := segTick - st.xml.curTick, track := track - st.xml.curTrack }]
        else []) = [] := by
      split <;> simp [content, Event.isContent]
    rw [h2]
    simp

theorem content_moveIfNeeded (segTick startTick : Fraction) (track : Int)
    (p : TrackState × Bool) :
    content (moveIfNeeded segTick startTick track p).1.xml.out = content p.1.xml.out
      ∧ SameFlags (moveIfNeeded segTick startTick track p).1 p.1 := by
  unfold moveIfNeeded
  split
  · exact content_voiceMove p.1 segTick startTick track
  · exact ⟨rfl, rfl, rfl, rfl⟩

theorem content_emit (st : TrackState) (ev : Event) (h : ev.isContent = true) :
    content (st.emit ev).xml.out = content st.xml.out ++ [ev] := by
  simp [TrackState.emit, XmlWriter.emit, content, List.filter_append, List.filter, h]

theorem content_foldl_writeAnnotated (r : Range) (seg : Segment) (startTick : Fraction)
    (track : Int) (l : List EngravingItem) :
    ∀ (p : TrackState × Bool),
      content (l.foldl (writeAnnotated r seg startTick track) p).1.xml.out
          = content p.1.xml.out ++ (l.filter (fun e1 =>
              !(decide (e1.track ≠ track) || e1.generated
                || (e1.systemFlag && !r.writeSystemElements)))).map Event.annotated
        ∧ SameFlags (l.foldl (writeAnnotated r seg startTick track) p).1 p.1 := by
  induction l with
  | nil => intro p; exact ⟨by simp, rfl, rfl, rfl⟩
  | cons e1 rest ih =>
    intro p
    rw [List.foldl_cons]
    obtain ⟨h1, h2⟩ := ih (writeAnnotated r seg startTick track p e1)
    obtain ⟨hm1, hm2⟩ := content_moveIfNeeded seg.tick startTick track p
    by_cases hc : e1.track ≠ track ∨ e1.generated = true
        ∨ (e1.systemFlag = true ∧ r.writeSystemElements = false)
    · have hw : writeAnnotated r seg startTick track p e1 = p := by
        unfold writeAnnotated; rw [if_pos hc]
      have hf : (!(decide (e1.track ≠ track) || e1.generated
          || (e1.systemFlag && !r.writeSystemElements))) = false := by
        rcases hc with h | h | ⟨h, h'⟩
        · simp [h]
        · simp [h]
        · simp [h, h']
      rw [hw] at h1 h2 ⊢
      rw [h1, List.filter_cons, hf]
      exact ⟨by simp, h2⟩
    · have hw : writeAnnotated r seg startTick track p e1
          = ((moveIfNeeded seg.tick startTick track p).1.emit (Event.annotated e1),
              (moveIfNeeded seg.tick startTick track p).2) := by
        unfold writeAnnotated; rw [if_neg hc]
      have hf : (!(decide (e1.track ≠ track) || e1.generated
          || (e1.systemFlag && !r.writeSystemElements))) = true := by
        simp only [not_or, not_and, ne_eq, not_not] at hc
        obtain ⟨ha, hb, hd⟩ := hc
        have hb' : e1.generated = false := by simpa using hb
        by_cases hs : e1.systemFlag = true
        · have := hd hs
          simp [ha, hb', hs]
          simpa using this
        · have hs' : e1.systemFlag = false := by simpa using hs
          simp [ha, hb', hs']
      rw [hw] at h1 h2 ⊢
      rw [h1, List.filter_cons, hf, content_emit _ (Event.annotated e1) rfl, hm1]
      refine ⟨by simp, ?_⟩
      exact ⟨h2.1.trans hm2.1, h2.2.1.trans hm2.2.1, h2.2.2.trans hm2.2.2⟩

theorem content_writeSpannerEdges (r : Range) (clip : Bool) (seg : Segment)
    (startTick : Fraction) (track : Int) (p : TrackState × Bool) (s : Spanner) :
    content (writeSpannerEdges r clip seg startTick track p s).1.xml.out
        = content p.1.xml.out ++ spannerEdgesAt r clip seg track s
      ∧ SameFlags (writeSpannerEdges r clip seg startTick track p s).1 p.1 := by
  unfold writeSpannerEdges spannerEdgesAt
  simp only
  generalize (if s.anchor = Anchor.CHORD ∨ s.anchor = Anchor.NOTE then decide (s.tick2 < r.endTick)
      else decide (s.tick2 ≤ r.endTick)) = isEnd
  have h1 : content (if s.track = track then
        if s.tick = seg.tick ∧ (clip = false ∨ isEnd = true) ∧ s.isSlur = false then
          ((moveIfNeeded seg.tick startTick track p).1.emit (Event.spannerStart s seg.tick track),
            (moveIfNeeded seg.tick startTick track p).2)
        else p
      else p).1.xml.out
      = content p.1.xml.out ++
        (if s.track = track ∧ s.tick = seg.tick ∧ (clip = false ∨ isEnd = true)
            ∧ s.isSlur = false then [Event.spannerStart s seg.tick track] else [])
      ∧ SameFlags (if s.track = track then
        if s.tick = seg.tick ∧ (clip = false ∨ isEnd = true) ∧ s.isSlur = false then
          ((moveIfNeeded seg.tick startTick track p).1.emit (Event.spannerStart s seg.tick track),
            (moveIfNeeded seg.tick startTick track p).2)
        else p
      else p).1 p.1 := by
    obtain ⟨hm1, hm2⟩ := content_moveIfNeeded seg.tick startTick track p
    by_cases ht : s.track = track
    · by_cases hc : s.tick = seg.tick ∧ (clip = false ∨ isEnd = true) ∧ s.isSlur = false
      · rw [if_pos ht, if_pos hc, if_pos ⟨ht, hc⟩,
          content_emit _ (Event.spannerStart s seg.tick track) rfl, hm1]
        exact ⟨rfl, hm2⟩
      · rw [if_pos ht, if_neg hc, if_neg (fun h => hc h.2)]
        exact ⟨by simp, rfl, rfl, rfl⟩
    · rw [if_neg ht, if_neg (fun h => ht h.1)]
      exact ⟨by simp, rfl, rfl, rfl⟩
  generalize (if s.track = track then
        if s.tick = seg.tick ∧ (clip = false ∨ isEnd = true) ∧ s.isSlur = false then
          ((moveIfNeeded seg.tick startTick track p).1.emit (Event.spannerStart s seg.tick track),
            (moveIfNeeded seg.tick startTick track p).2)
        else p
      else p) = p1 at h1 ⊢
  obtain ⟨h1a, h1b⟩ := h1
  obtain ⟨hm1, hm2⟩ := content_moveIfNeeded seg.tick startTick track p1
  split
  · rw [content_emit _ (Event.spannerEnd s seg.tick track) rfl, hm1, h1a]
    refine ⟨by simp, ?_⟩
    exact ⟨hm2.1.trans h1b.1, hm2.2.1.trans h1b.2.1, hm2.2.2.trans h1b.2.2⟩
  · rw [h1a]
    exact ⟨by simp, h1b⟩

theorem content_foldl_writeSpannerEdges (r : Range) (clip : Bool) (seg : Segment)
    (startTick : Fraction) (track : Int) (l : List Spanner) :
    ∀ (p : TrackState × Bool),
      content (l.foldl (writeSpannerEdges r clip seg startTick track) p).1.xml.out
          = content p.1.xml.out ++ l.flatMap (spannerEdgesAt r clip seg track)
        ∧ SameFlags (l.foldl (writeSpannerEdges r clip seg startTick track) p).1 p.1 := by
  induction l with
  | nil => intro p; exact ⟨by simp, rfl, rfl, rfl⟩
  | cons s rest ih =>
    intro p
    rw [List.foldl_cons]
    obtain ⟨h1, h2⟩ := ih (writeSpannerEdges r clip seg startTick track p s)
    obtain ⟨h3, h4⟩ := content_writeSpannerEdges r clip seg startTick track p s
    rw [h1, h3]
    refine ⟨by simp [List.flatMap_cons], ?_⟩
    exact ⟨h2.1.trans h4.1, h2.2.1.trans h4.2.1, h2.2.2.trans h4.2.2⟩

theorem content_writeBarLine (r : Range) (seg : Segment) (track : Int) (st : TrackState) :
    content (writeBarLine r seg track st).xml.out
        = content st.xml.out ++ barLineContent r seg track
      ∧ SameFlags (writeBarLine r seg track st) st := by
  unfold writeBarLine barLineContent
  split
  · cases findBarLine seg (track - VOICES) with
    | none => exact ⟨by simp, rfl, rfl, rfl⟩
    | some ib =>
      obtain ⟨idx, b⟩ := ib
      simp only
      rw [content_emit _ (Event.barline idx b) rfl]
      exact ⟨rfl, rfl, rfl, rfl⟩
  · exact ⟨by simp, rfl, rfl, rfl⟩

end Scorefile

namespace Scorefile

theorem content_forceSignatures (ctx : Context) (seg : Segment) (startTick : Fraction)
    (track : Int) (st : TrackState) :
    content (forceSignatures ctx seg startTick track st).xml.out
      = content st.xml.out
        ++ ((if st.keySigWritten = false then
              [Event.keySig (ctx.key (track / VOICES) seg.tick)] else [])
          ++ [Event.timeSig (ctx.timesig seg.tick)]) := by
  unfold forceSignatures
  simp only
  obtain ⟨h1, h2⟩ := content_voiceMove st seg.tick startTick track
  have hk : (st.voiceMove seg.tick startTick track).keySigWritten = st.keySigWritten := h2.2.2
  by_cases hks : st.keySigWritten = false
  · rw [if_pos (hk.trans hks), if_pos hks]
    have := content_emit
      { (st.voiceMove seg.tick startTick track).emit
          (Event.keySig (ctx.key (track / VOICES) seg.tick)) with keySigWritten := true }
      (Event.timeSig (ctx.timesig seg.tick)) rfl
    rw [this]
    have h3 := content_emit (st.voiceMove seg.tick startTick track)
      (Event.keySig (ctx.key (track / VOICES) seg.tick)) rfl
    simp only at h3 ⊢
    rw [h3, h1]
    simp
  · rw [if_neg (fun h => hks (hk.symm.trans h)), if_neg hks]
    rw [content_emit _ (Event.timeSig (ctx.timesig seg.tick)) rfl, h1]
    simp

theorem content_writeElement (ctx : Context) (r : Range) (seg : Segment)
    (startTick : Fraction) (track : Int) (p : TrackState × Bool) (e : EngravingItem) :
    content (writeElement ctx r seg startTick track p e).1.xml.out
      = content p.1.xml.out
        ++ elementContent ctx r seg track p.1.timeSigWritten p.1.crWritten
            p.1.keySigWritten e := by
  unfold writeElement elementContent
  simp only
  have h4 : content (if r.forceTimeSig = true ∧ track % VOICES = 0
        ∧ seg.segmentType = SegmentType.ChordRest
        ∧ p.1.timeSigWritten = false ∧ p.1.crWritten = false then
        forceSignatures ctx seg startTick track p.1
      else p.1).xml.out
      = content p.1.xml.out ++
        (if r.forceTimeSig = true ∧ track % VOICES = 0
            ∧ seg.segmentType = SegmentType.ChordRest
            ∧ p.1.timeSigWritten = false ∧ p.1.crWritten = false then
          (if p.1.keySigWritten = false then
              [Event.keySig (ctx.key (track / VOICES) seg.tick)] else [])
            ++ [Event.timeSig (ctx.timesig seg.tick)]
        else []) := by
    split
    · exact content_forceSignatures ctx seg startTick track p.1
    · simp
  generalize (if r.forceTimeSig = true ∧ track % VOICES = 0
        ∧ seg.segmentType = SegmentType.ChordRest
        ∧ p.1.timeSigWritten = false ∧ p.1.crWritten = false then
        forceSignatures ctx seg startTick track p.1
      else p.1) = st4 at h4 ⊢
  generalize (if r.forceTimeSig = true ∧ track % VOICES = 0
            ∧ seg.segmentType = SegmentType.ChordRest
            ∧ p.1.timeSigWritten = false ∧ p.1.crWritten = false then
          (if p.1.keySigWritten = false then
              [Event.keySig (ctx.key (track / VOICES) seg.tick)] else [])
            ++ [Event.timeSig (ctx.timesig seg.tick)]
        else []) = forced at h4 ⊢
  have h5 : content (if p.2 = true then st4.voiceMove seg.tick startTick track
      else st4).xml.out = content p.1.xml.out ++ forced := by
    split
    · rw [(content_voiceMove st4 seg.tick startTick track).1, h4]
    · exact h4
  generalize (if p.2 = true then st4.voiceMove seg.tick startTick track else st4) = st5
    at h5 ⊢
  have h6 : content (if e.isChordRest = true then st5.emit (Event.tupletStart e)
      else st5).xml.out
      = content p.1.xml.out ++ forced
        ++ (if e.isChordRest = true then [Event.tupletStart e] else []) := by
    cases hcr : e.isChordRest
    · simp only [Bool.false_eq_true, if_false]
      rw [h5]; simp
    · simp only [if_true]
      rw [content_emit _ (Event.tupletStart e) rfl, h5]
  generalize (if e.isChordRest = true then st5.emit (Event.tupletStart e) else st5) = st6
    at h6 ⊢
  have h7 : content ({ st6 with xml := { st6.xml.emit (Event.element seg.segmentType e) with
                          curTick := ctx.tickAfter e st6.xml.curTick } } : TrackState).xml.out
      = content p.1.xml.out ++ forced
        ++ (if e.isChordRest = true then [Event.tupletStart e] else [])
        ++ [Event.element seg.segmentType e] := by
    have := content_emit st6 (Event.element seg.segmentType e) rfl
    simp only [TrackState.emit] at this
    simp only
    rw [this, h6]
  generalize ({ st6 with xml := { st6.xml.emit (Event.element seg.segmentType e) with
                          curTick := ctx.tickAfter e st6.xml.curTick } } : TrackState) = st7
    at h7 ⊢
  have h8 : content (if e.isChordRest = true then st7.emit (Event.tupletEnd e)
      else st7).xml.out
      = content p.1.xml.out ++ forced
        ++ (if e.isChordRest = true then [Event.tupletStart e] else [])
        ++ [Event.element seg.segmentType e]
        ++ (if e.isChordRest = true then [Event.tupletEnd e] else []) := by
    cases hcr : e.isChordRest
    · simp only [hcr, Bool.false_eq_true, if_false] at h7 ⊢
      rw [h7]; simp
    · simp only [hcr, if_true] at h7 ⊢
      rw [content_emit _ (Event.tupletEnd e) rfl, h7]
  generalize (if e.isChordRest = true then st7.emit (Event.tupletEnd e) else st7) = st8
    at h8 ⊢
  have h9 : content (if e.isGapRest = true then (st8.xml, seg) else seg.write st8.xml).1.out
      = content st8.xml.out
        ++ (if e.isGapRest = true ∨ seg.written = true then [] else [Event.segment seg.tick]) := by
    by_cases hg : e.isGapRest = true
    · rw [if_pos hg, if_pos (Or.inl hg)]; simp
    · rw [if_neg hg]
      unfold Segment.write
      by_cases hw : seg.written = true
      · rw [if_pos hw, if_pos (Or.inr hw)]; simp
      · have hcond : ¬ (e.isGapRest = true ∨ seg.written = true) := fun h => h.elim hg hw
        rw [if_neg hw, if_neg hcond]
        simp [XmlWriter.emit, content, List.filter_append, List.filter, Event.isContent]
  have hfin : ∀ st : TrackState,
      st.xml.out = (if e.isGapRest = true then (st8.xml, seg) else seg.write st8.xml).1.out →
      content st.xml.out = content p.1.xml.out ++
        (forced ++ (if e.isChordRest = true then [Event.tupletStart e] else [])
        ++ [Event.element seg.segmentType e]
        ++ (if e.isChordRest = true then [Event.tupletEnd e] else [])
        ++ (if e.isGapRest = true ∨ seg.written = true then [] else [Event.segment seg.tick])) := by
    intro st hst
    rw [hst, h9, h8]
    simp [List.append_assoc]
  split
  · exact hfin _ rfl
  · exact hfin _ rfl

theorem content_writeSegment (ctx : Context) (r : Range) (clip : Bool)
    (spanners : List Spanner) (startTick : Fraction) (track : Int) (st : TrackState)
    (seg0 : Segment) :
    content (writeSegment ctx r clip spanners startTick track st seg0).1.xml.out
      = content st.xml.out ++ segmentContent ctx r clip spanners track st seg0 := by
  unfold writeSegment segmentContent
  split
  · simp
  · simp only
    generalize (if track = 0 then { seg0 with written := false } else seg0) = seg
    obtain ⟨hb1, hb2⟩ := content_writeBarLine r seg track st
    generalize writeBarLine r seg track st = st1 at hb1 hb2 ⊢
    generalize decide (seg.tick ≠ st.xml.curTick ∨ track > st.lastTrackWritten) = needMove
    obtain ⟨ha1, ha2⟩ := content_foldl_writeAnnotated r seg startTick track seg.annotations
      (st1, needMove)
    generalize seg.annotations.foldl (writeAnnotated r seg startTick track) (st1, needMove) = p2
      at ha1 ha2 ⊢
    simp only at ha1 ha2
    have hs : content (if seg.inMMRest = false ∧ seg.segmentType = SegmentType.ChordRest then
          spanners.foldl (writeSpannerEdges r clip seg startTick track) p2
        else p2).1.xml.out
        = content p2.1.xml.out ++
          (if seg.inMMRest = false ∧ seg.segmentType = SegmentType.ChordRest then
            spanners.flatMap (spannerEdgesAt r clip seg track) else [])
        ∧ SameFlags (if seg.inMMRest = false ∧ seg.segmentType = SegmentType.ChordRest then
          spanners.foldl (writeSpannerEdges r clip seg startTick track) p2
        else p2).1 p2.1 := by
      split
      · exact content_foldl_writeSpannerEdges r clip seg startTick track spanners p2
      · exact ⟨by simp, rfl, rfl, rfl⟩
    generalize (if seg.inMMRest = false ∧ seg.segmentType = SegmentType.ChordRest then
          spanners.foldl (writeSpannerEdges r clip seg startTick track) p2
        else p2) = p3 at hs ⊢
    obtain ⟨hs1, hs2⟩ := hs
    have hpre : content p3.1.xml.out = content st.xml.out ++
        (barLineContent r seg track ++ annotatedContent r seg track ++
          (if seg.inMMRest = false ∧ seg.segmentType = SegmentType.ChordRest then
            spanners.flatMap (spannerEdgesAt r clip seg track) else [])) := by
      rw [hs1, ha1, hb1]
      simp [annotatedContent, List.append_assoc]
    have hts : p3.1.timeSigWritten = st.timeSigWritten :=
      hs2.1.trans (ha2.1.trans hb2.1)
    have hcr : p3.1.crWritten = st.crWritten := hs2.2.1.trans (ha2.2.1.trans hb2.2.1)
    have hks : p3.1.keySigWritten = st.keySigWritten :=
      hs2.2.2.trans (ha2.2.2.trans hb2.2.2)
    unfold principalContent
    cases he : seg.element track with
    | none =>
      simp only
      rw [hpre]; simp
    | some e =>
      simp only
      by_cases hc : ctx.canWrite e = false
      · rw [if_pos hc, if_pos (Or.inl hc), hpre]; simp
      · rw [if_neg hc]
        by_cases hg : e.generated = true
        · rw [if_pos hg, if_pos (Or.inr hg), hpre]; simp
        · have hcond : ¬ (ctx.canWrite e = false ∨ e.generated = true) :=
            fun h => h.elim hc hg
          rw [if_neg hg, if_neg hcond]
          rw [content_writeElement, hpre, hts, hcr, hks]
          simp [List.append_assoc]

end Scorefile

/-! ### The claims on the spanner markers -/

namespace Scorefile

theorem out_steps {ctx : Context} {r : Range} {spanners : List Spanner}
    {startTick : Fraction} {track : Int} {st0 st : TrackState}
    (hs : Steps ctx r spanners startTick track st0 st) :
    ∃ delta, st.xml.out = st0.xml.out ++ delta := by
  induction hs with
  | refl => exact ⟨[], by simp⟩
  | emit ev _ _ ih =>
    obtain ⟨delta, hd⟩ := ih
    exact ⟨delta ++ [ev], by simp [TrackState.emit, XmlWriter.emit, hd]⟩
  | voiceMove segTick _ ih =>
    obtain ⟨delta, hd⟩ := ih
    unfold TrackState.voiceMove
    simp only
    rw [writeVoiceMove_eq]
    split
    · exact ⟨_, by simp only [hd, List.append_assoc]; rfl⟩
    · exact ⟨_, by simp only [hd, List.append_assoc]; rfl⟩
  | frame st2 _ ho _ _ _ ih =>
    obtain ⟨delta, hd⟩ := ih
    exact ⟨delta, by rw [ho, hd]⟩

/-- The body of the segment loop adds to the output, and the content of what
it adds is `segmentContent`. -/
theorem writeSegment_delta (ctx : Context) (r : Range) (clip : Bool)
    (spanners : List Spanner) (startTick : Fraction) (track : Int) (st : TrackState)
    (seg : Segment) :
    ∃ delta, (writeSegment ctx r clip spanners startTick track st seg).1.xml.out
        = st.xml.out ++ delta
      ∧ content delta = segmentContent ctx r clip spanners track st seg := by
  obtain ⟨delta, hd⟩ := out_steps (@steps_writeSegment ctx r spanners startTick track st
    clip st seg
    (Steps.refl st))
  refine ⟨delta, hd, ?_⟩
  have h := content_writeSegment ctx r clip spanners startTick track st seg
  rw [hd, content_append] at h
  exact List.append_cancel_left h

theorem mem_selectSpanners (ctx : Context) (clip : Bool) (sl : List Spanner) (s : Spanner) :
    s ∈ selectSpanners ctx clip sl
      ↔ s ∈ sl ∧ s.generated = false ∧ ctx.canWriteSpanner s = true
        ∧ ¬ (clip = true ∧ s.isVolta = true) := by
  unfold selectSpanners
  rw [List.mem_filter]
  cases s.generated <;> cases ctx.canWriteSpanner s <;> cases clip <;> cases s.isVolta <;> simp

theorem mem_segmentContent_edge (ctx : Context) (r : Range) (clip : Bool)
    (spanners : List Spanner) (track : Int) (st : TrackState) (seg : Segment) (ev : Event)
    (hev : ev.isEdge = true) :
    ev ∈ segmentContent ctx r clip spanners track st seg
      ↔ seg.enabled = true ∧ seg.inMMRest = false ∧ seg.segmentType = SegmentType.ChordRest
        ∧ ∃ s ∈ spanners, ev ∈ spannerEdgesAt r clip seg track s := by
  unfold segmentContent
  by_cases hen : seg.enabled = false
  · simp [hen]
  · have hen1 : seg.enabled = true := by simpa using hen
    rw [if_neg hen]
    simp only
    have hs1 : ∃ seg1, (if track = 0 then { seg with written := false } else seg) = seg1
        ∧ seg1.tick = seg.tick ∧ seg1.inMMRest = seg.inMMRest
        ∧ seg1.segmentType = seg.segmentType :=
      ⟨_, rfl, by split <;> rfl, by split <;> rfl, by split <;> rfl⟩
    obtain ⟨seg1, he1, ht1, hm1, hty1⟩ := hs1
    rw [he1]
    have hseg : ∀ s, spannerEdgesAt r clip seg1 track s = spannerEdgesAt r clip seg track s := by
      intro s; unfold spannerEdgesAt; rw [ht1]
    simp only [hseg, hm1, hty1]
    have hbar : ev ∉ barLineContent r seg1 track := by
      unfold barLineContent
      split
      · cases findBarLine seg1 (track - VOICES) with
        | none => simp
        | some ib =>
          simp only [List.mem_singleton]
          intro h; subst h; simp [Event.isEdge] at hev
      · simp
    have hann : ev ∉ annotatedContent r seg1 track := by
      unfold annotatedContent
      simp only [List.mem_map, not_exists, not_and]
      intro a _ h; subst h; simp [Event.isEdge] at hev
    have hel : ev ∉ principalContent ctx r seg1 track st.timeSigWritten st.crWritten
        st.keySigWritten := by
      unfold principalContent
      cases seg1.element track with
      | none => simp
      | some e =>
        simp only
        split
        · simp
        · unfold elementContent
          intro h
          simp only [List.mem_append, List.mem_singleton] at h
          rcases h with (((h | h) | h) | h) | h
          · split at h
            · simp only [List.mem_append, List.mem_singleton] at h
              rcases h with h | h
              · split at h
                · simp only [List.mem_singleton] at h
                  subst h; simp [Event.isEdge] at hev
                · simp at h
              · subst h; simp [Event.isEdge] at hev
            · simp at h
          · split at h
            · simp only [List.mem_singleton] at h
              subst h; simp [Event.isEdge] at hev
            · simp at h
          · subst h; simp [Event.isEdge] at hev
          · split at h
            · simp only [List.mem_singleton] at h
              subst h; simp [Event.isEdge] at hev
            · simp at h
          · split at h
            · simp at h
            · simp only [List.mem_singleton] at h
              subst h; simp [Event.isEdge] at hev
    simp only [List.mem_append, hbar, hann, hel, false_or, or_false, hen1, true_and]
    by_cases hc : seg.inMMRest = false ∧ seg.segmentType = SegmentType.ChordRest
    · rw [if_pos hc]
      simp only [List.mem_flatMap, hc.1, hc.2, true_and, hseg]
    · rw [if_neg hc]
      simp only [List.not_mem_nil, false_iff]
      rintro ⟨h1, h2, _⟩
      exact hc ⟨h1, h2⟩

end Scorefile

namespace Scorefile

theorem mem_spannerEdgesAt_start (r : Range) (seg : Segment) (track : Int) (s1 s : Spanner)
    (tk : Fraction) (tr : Int) :
    Event.spannerStart s tk tr ∈ spannerEdgesAt r false seg track s1
      ↔ s = s1 ∧ tk = seg.tick ∧ tr = track ∧ s1.track = track ∧ s1.tick = seg.tick
        ∧ s1.isSlur = false := by
  unfold spannerEdgesAt
  generalize (if s1.anchor = Anchor.CHORD ∨ s1.anchor = Anchor.NOTE then
      decide (s1.tick2 < r.endTick) else decide (s1.tick2 ≤ r.endTick)) = isEnd
  rw [List.mem_append]
  constructor
  · rintro (h | h)
    · split at h
      · rename_i hc
        simp only [List.mem_singleton, Event.spannerStart.injEq] at h
        exact ⟨h.1, h.2.1, h.2.2, hc.1, hc.2.1, hc.2.2.2⟩
      · simp at h
    · split at h <;> simp at h
  · rintro ⟨h1, h2, h3, h4, h5, h6⟩
    left
    rw [if_pos ⟨h4, h5, Or.inl rfl, h6⟩]
    simp [h1, h2, h3]

theorem mem_spannerEdgesAt_end (r : Range) (seg : Segment) (track : Int) (s1 s : Spanner)
    (tk : Fraction) (tr : Int) :
    Event.spannerEnd s tk tr ∈ spannerEdgesAt r false seg track s1
      ↔ s = s1 ∧ tk = seg.tick ∧ tr = track ∧ s1.effectiveTrack2 = track
        ∧ s1.tick2 = seg.tick ∧ s1.isSlur = false := by
  unfold spannerEdgesAt
  generalize (if s1.anchor = Anchor.CHORD ∨ s1.anchor = Anchor.NOTE then
      decide (s1.tick2 < r.endTick) else decide (s1.tick2 ≤ r.endTick)) = isEnd
  rw [List.mem_append]
  constructor
  · rintro (h | h)
    · split at h <;> simp at h
    · split at h
      · rename_i hc
        simp only [List.mem_singleton, Event.spannerEnd.injEq] at h
        exact ⟨h.1, h.2.1, h.2.2, hc.2.2.1, hc.1, hc.2.1⟩
      · simp at h
  · rintro ⟨h1, h2, h3, h4, h5, h6⟩
    right
    rw [if_pos ⟨h5, h6, h4, Or.inl rfl⟩]
    simp [h1, h2, h3]

/-- C15: in non-clipboard mode, for a spanner `s` that the overlap query
returns, that is not generated, that the writer can write and that is no slur,
the body of the segment loop of `Score::writeSegments`, at an enabled ChordRest
segment outside a multi-measure rest and for `track`, writes the start marker of
`s` exactly if the tick of the segment is the start tick of `s` and `track` its
start track, and the end marker exactly if the tick of the segment is the end
tick of `s` and `track` the end track that `s` records (its start track when it
records none).  A spanner from tick 10 on track 0 to tick 50 on track 4 has its
start marker written at the segment of tick 10 in track 0 and its end marker at
the segment of tick 50 in track 4, and no other marker. -/
theorem writeSegment_spanner_edges (ctx : Context) (r : Range) (startTick : Fraction)
    (track : Int) (st : TrackState) (seg : Segment) (s : Spanner)
    (hs : s ∈ r.sl) (hg : s.generated = false) (hw : ctx.canWriteSpanner s = true)
    (hslur : s.isSlur = false) (hen : seg.enabled = true)
    (hcr : seg.segmentType = SegmentType.ChordRest) (hmm : seg.inMMRest = false) :
    (∃ delta,
      (writeSegment ctx r false (selectSpanners ctx false r.sl) startTick track st seg).1.xml.out
          = st.xml.out ++ delta
        ∧ (∀ tk tr, Event.spannerStart s tk tr ∈ delta
            ↔ tk = seg.tick ∧ tr = track ∧ seg.tick = s.tick ∧ track = s.track)
        ∧ (∀ tk tr, Event.spannerEnd s tk tr ∈ delta
            ↔ tk = seg.tick ∧ tr = track ∧ seg.tick = s.tick2 ∧ track = s.effectiveTrack2)) ∧
    (writeSegments plainContext (freshWriter 0 0 false) (plainRange 0 8 60 [crossStaff])
        crossStaffSegments).1.out
      = [Event.voiceOpen 0, Event.move { frac := 10, track := 0 },
        Event.spannerStart crossStaff 10 0, Event.tupletStart (chordItem 1 0),
        Event.element SegmentType.ChordRest (chordItem 1 0), Event.tupletEnd (chordItem 1 0),
        Event.segment 10, Event.voiceClose 0, Event.voiceEmpty, Event.voiceEmpty,
        Event.voiceEmpty, Event.voiceOpen 4, Event.move { frac := 50, track := 0 },
        Event.spannerEnd crossStaff 50 4, Event.tupletStart (chordItem 2 4),
        Event.element SegmentType.ChordRest (chordItem 2 4), Event.tupletEnd (chordItem 2 4),
        Event.segment 50, Event.voiceClose 4] := by
  constructor
  · obtain ⟨delta, hd, hcont⟩ := writeSegment_delta ctx r false (selectSpanners ctx false r.sl)
      startTick track st seg
    have hsel : s ∈ selectSpanners ctx false r.sl :=
      (mem_selectSpanners ctx false r.sl s).mpr ⟨hs, hg, hw, by simp⟩
    have hmem : ∀ ev : Event, ev.isEdge = true →
        (ev ∈ delta ↔ ∃ s1 ∈ selectSpanners ctx false r.sl,
          ev ∈ spannerEdgesAt r false seg track s1) := by
      intro ev hev
      have hc : ev.isContent = true := by
        cases ev <;> first | rfl | simp [Event.isEdge] at hev
      have h1 : ev ∈ delta ↔ ev ∈ content delta := by
        simp [content, List.mem_filter, hc]
      rw [h1, hcont, mem_segmentContent_edge _ _ _ _ _ _ _ _ hev]
      simp [hen, hcr, hmm]
    refine ⟨delta, hd, ?_, ?_⟩
    · intro tk tr
      rw [hmem (Event.spannerStart s tk tr) rfl]
      constructor
      · rintro ⟨s1, _, h⟩
        obtain ⟨h1, h2, h3, h4, h5, _⟩ := (mem_spannerEdgesAt_start r seg track s1 s tk tr).mp h
        subst h1
        exact ⟨h2, h3, h5.symm, h4.symm⟩
      · rintro ⟨h1, h2, h3, h4⟩
        exact ⟨s, hsel, (mem_spannerEdgesAt_start r seg track s s tk tr).mpr
          ⟨rfl, h1, h2, h4.symm, h3.symm, hslur⟩⟩
    · intro tk tr
      rw [hmem (Event.spannerEnd s tk tr) rfl]
      constructor
      · rintro ⟨s1, _, h⟩
        obtain ⟨h1, h2, h3, h4, h5, _⟩ := (mem_spannerEdgesAt_end r seg track s1 s tk tr).mp h
        subst h1
        exact ⟨h2, h3, h5.symm, h4.symm⟩
      · rintro ⟨h1, h2, h3, h4⟩
        exact ⟨s, hsel, (mem_spannerEdgesAt_end r seg track s s tk tr).mpr
          ⟨rfl, h1, h2, h4.symm, h3.symm, hslur⟩⟩
  · simp [writeSegments, trackRange, plainRange, List.range, List.range.loop, writeTrack,
      plainContext, writeChain, writeSegment, segmentOf, chordItem, writeBarLine,
      selectSpanners, freshWriter, writeElement, TrackState.voiceMove, writeVoiceMove_eq,
      TrackState.emit, XmlWriter.emit, Segment.write, Range.endTick, moveIfNeeded,
      crossStaffSegments, crossStaff, writeSpannerEdges, writeLastSpannerEnd,
      Spanner.effectiveTrack2]

theorem writeSegment_spanner_edges_witness :
    ∃ delta,
      (writeSegment plainContext (plainRange 0 8 60 [crossStaff]) false
          (selectSpanners plainContext false (plainRange 0 8 60 [crossStaff]).sl) 0 0 freshState
          (segmentOf SegmentType.ChordRest 50 (chordItem 2 4))).1.xml.out
          = freshState.xml.out ++ delta
        ∧ (∀ tk tr, Event.spannerStart crossStaff tk tr ∈ delta
            ↔ tk = (segmentOf SegmentType.ChordRest 50 (chordItem 2 4)).tick ∧ tr = 0
              ∧ (segmentOf SegmentType.ChordRest 50 (chordItem 2 4)).tick = crossStaff.tick
              ∧ (0 : Int) = crossStaff.track)
        ∧ (∀ tk tr, Event.spannerEnd crossStaff tk tr ∈ delta
            ↔ tk = (segmentOf SegmentType.ChordRest 50 (chordItem 2 4)).tick ∧ tr = 0
              ∧ (segmentOf SegmentType.ChordRest 50 (chordItem 2 4)).tick = crossStaff.tick2
              ∧ (0 : Int) = crossStaff.effectiveTrack2) :=
  (writeSegment_spanner_edges plainContext (plainRange 0 8 60 [crossStaff]) 0 0 freshState
    (segmentOf SegmentType.ChordRest 50 (chordItem 2 4)) crossStaff
    (by simp [plainRange]) rfl rfl rfl rfl rfl rfl).1

end Scorefile

/-! ### The spanner endings after the last segment -/

namespace Scorefile

theorem foldl_writeLastSpannerEnd (r : Range) (clip : Bool) (track : Int)
    (l : List Spanner) :
    ∀ st : TrackState,
      (l.foldl (writeLastSpannerEnd r clip track) st).xml.out
          = st.xml.out ++ (l.filter (endsAtRangeEnd r clip track)).map
              (fun s => Event.spannerEndLast s track r.endTick)
        ∧ (l.foldl (writeLastSpannerEnd r clip track) st).voiceTagWritten
          = st.voiceTagWritten := by
  induction l with
  | nil => intro st; simp
  | cons s rest ih =>
    intro st
    rw [List.foldl_cons]
    obtain ⟨h1, h2⟩ := ih (writeLastSpannerEnd r clip track st s)
    rw [h1, h2]
    unfold writeLastSpannerEnd
    by_cases hc : s.tick2 = r.endTick ∧ s.isSlur = false
        ∧ (s.track2 = track ∨ (s.track2 = -1 ∧ s.track = track))
        ∧ (clip = false ∨ s.tick ≥ r.ssegTick)
    · have hf : endsAtRangeEnd r clip track s = true := by
        simp only [endsAtRangeEnd, decide_eq_true_eq]; exact hc
      rw [if_pos hc, List.filter_cons, hf]
      simp [TrackState.emit, XmlWriter.emit]
    · have hf : endsAtRangeEnd r clip track s = false := by
        simp only [endsAtRangeEnd, decide_eq_false_iff_not]; exact hc
      rw [if_neg hc, List.filter_cons, hf]
      simp

/-- C16, amended: a call of `Score::writeSegments` in clipboard mode or without
an end segment writes for every track that the writer lets through, after the
last segment of the walk and before the closing voice tag, the end marker of
every spanner selected for writing that is no slur, whose end tick is the end
tick of the range, whose start tick is not before the tick of the start segment
if the call is in clipboard mode, and whose end track is the track (its start
track when it records no end track); it writes no other such marker, and a call
outside clipboard mode with an end segment writes none. -/
theorem writeTrack_last_spanner_end (ctx : Context) (r : Range) (clip : Bool)
    (spanners : List Spanner) (startTick : Fraction) (acc : XmlWriter × Int × List Segment)
    (track : Int) (hv : ctx.canWriteVoice track = true) :
    ∃ ends close,
      (writeTrack ctx r clip spanners startTick acc track).1.out
          = (writeChain ctx r clip spanners startTick track
              { xml := acc.1, lastTrackWritten := acc.2.1, voiceTagWritten := false,
                timeSigWritten := false, crWritten := false, keySigWritten := false }
              acc.2.2).1.xml.out ++ ends ++ close
        ∧ (close = [] ∨ close = [Event.voiceClose track])
        ∧ (∀ ev ∈ ends, ∃ s, ev = Event.spannerEndLast s track r.endTick)
        ∧ (∀ s, Event.spannerEndLast s track r.endTick ∈ ends
            ↔ (clip = true ∨ r.esegTick = none) ∧ s ∈ spanners ∧ s.tick2 = r.endTick
              ∧ s.isSlur = false ∧ (s.track2 = track ∨ (s.track2 = -1 ∧ s.track = track))
              ∧ (clip = false ∨ s.tick ≥ r.ssegTick)) := by
  unfold writeTrack
  rw [if_neg (by simp [hv])]
  simp only
  generalize (writeChain ctx r clip spanners startTick track
      { xml := acc.1, lastTrackWritten := acc.2.1, voiceTagWritten := false,
        timeSigWritten := false, crWritten := false, keySigWritten := false } acc.2.2).1 = w
  by_cases hc : clip = true ∨ r.esegTick = none
  · rw [if_pos hc]
    obtain ⟨h1, h2⟩ := foldl_writeLastSpannerEnd r clip track spanners w
    refine ⟨(spanners.filter (endsAtRangeEnd r clip track)).map
        (fun s => Event.spannerEndLast s track r.endTick),
      if w.voiceTagWritten = true then [Event.voiceClose track] else [], ?_, ?_, ?_, ?_⟩
    · rw [h2]
      by_cases hw : w.voiceTagWritten = true
      · rw [if_pos hw, if_pos hw]
        simp [TrackState.emit, XmlWriter.emit, h1]
      · rw [if_neg hw, if_neg hw]
        simp [h1]
    · by_cases hw : w.voiceTagWritten = true
      · right; rw [if_pos hw]
      · left; rw [if_neg hw]
    · intro ev hev
      rw [List.mem_map] at hev
      obtain ⟨s, _, hs⟩ := hev
      exact ⟨s, hs.symm⟩
    · intro s
      simp only [List.mem_map, List.mem_filter, endsAtRangeEnd, decide_eq_true_eq,
        Event.spannerEndLast.injEq, and_true, exists_eq_right, hc, true_and]
  · rw [if_neg hc]
    refine ⟨[], if w.voiceTagWritten = true then [Event.voiceClose track] else [], ?_, ?_, ?_, ?_⟩
    · by_cases hw : w.voiceTagWritten = true
      · rw [if_pos hw, if_pos hw]
        simp [TrackState.emit, XmlWriter.emit]
      · rw [if_neg hw, if_neg hw]
        simp
    · by_cases hw : w.voiceTagWritten = true
      · right; rw [if_pos hw]
      · left; rw [if_neg hw]
    · intro ev hev; simp at hev
    · intro s
      simp [hc]

theorem writeTrack_last_spanner_end_witness :
    ∃ ends close,
      (writeTrack plainContext (plainRange 0 1 1 [endingSpanner]) false [endingSpanner] 0
          (freshWriter 0 0 false, -1, [segmentOf SegmentType.ChordRest 0 (chordItem 1 0)]) 0).1.out
          = (writeChain plainContext (plainRange 0 1 1 [endingSpanner]) false [endingSpanner] 0 0
              { xml := freshWriter 0 0 false, lastTrackWritten := -1, voiceTagWritten := false,
                timeSigWritten := false, crWritten := false, keySigWritten := false }
              [segmentOf SegmentType.ChordRest 0 (chordItem 1 0)]).1.xml.out ++ ends ++ close
        ∧ (close = [] ∨ close = [Event.voiceClose 0])
        ∧ (∀ ev ∈ ends,
            ∃ s, ev = Event.spannerEndLast s 0 (plainRange 0 1 1 [endingSpanner]).endTick)
        ∧ (∀ s, Event.spannerEndLast s 0 (plainRange 0 1 1 [endingSpanner]).endTick ∈ ends
            ↔ (false = true ∨ (plainRange 0 1 1 [endingSpanner]).esegTick = none)
              ∧ s ∈ [endingSpanner] ∧ s.tick2 = (plainRange 0 1 1 [endingSpanner]).endTick
              ∧ s.isSlur = false ∧ (s.track2 = 0 ∨ (s.track2 = -1 ∧ s.track = 0))
              ∧ (false = false ∨ s.tick ≥ (plainRange 0 1 1 [endingSpanner]).ssegTick)) :=
  writeTrack_last_spanner_end plainContext (plainRange 0 1 1 [endingSpanner]) false
    [endingSpanner] 0 (freshWriter 0 0 false, -1,
      [segmentOf SegmentType.ChordRest 0 (chordItem 1 0)]) 0 rfl

/-- Counterexample to C16 as stated: outside clipboard mode and with an end
segment, the spanner `endingSpanner` is selected for writing, is no slur and
ends at the end tick of the range, and the call writes its start marker but no
end marker, on no track. -/
theorem writeSegments_no_end_marker :
    endingSpanner ∈ selectSpanners plainContext false rangeToSegment.sl
      ∧ endingSpanner.isSlur = false ∧ endingSpanner.tick2 = rangeToSegment.endTick
      ∧ (writeSegments plainContext (freshWriter 0 0 false) rangeToSegment
          [segmentOf SegmentType.ChordRest 0 (chordItem 1 0)]).1.out
        = [Event.voiceOpen 0, Event.spannerStart endingSpanner 0 0,
            Event.tupletStart (chordItem 1 0),
            Event.element SegmentType.ChordRest (chordItem 1 0),
            Event.tupletEnd (chordItem 1 0), Event.segment 0, Event.voiceClose 0] := by
  refine ⟨?_, rfl, ?_, ?_⟩
  · simp [selectSpanners, rangeToSegment, plainRange, plainContext, endingSpanner]
  · simp [rangeToSegment, plainRange, Range.endTick, endingSpanner]
  · simp [writeSegments, trackRange, rangeToSegment, plainRange, List.range, List.range.loop,
      writeTrack, plainContext, writeChain, writeSegment, segmentOf, chordItem, writeBarLine,
      selectSpanners, freshWriter, writeElement, TrackState.voiceMove, writeVoiceMove_eq,
      TrackState.emit, XmlWriter.emit, Segment.write, Range.endTick, moveIfNeeded,
      endingSpanner, writeSpannerEdges, writeLastSpannerEnd, Spanner.effectiveTrack2]

end Scorefile

/-! ### The claims on the signatures made up for `forceTimeSig` -/

namespace Scorefile

/-- C17 fails on the code: track 0 of a selection is written with `forceTimeSig`
set, the key of the staff is D major, and the range holds a time signature
element but no key signature before the first chord.  With the chord alone
`Score::writeSegments` makes up the key signature and the time signature; with
the time signature element before the chord it writes that element and no key
signature at all, the block that makes up the key signature being entered only
while no time signature was written. -/
theorem writeSegments_key_missing :
    plainContext.key 0 4 = 2
      ∧ (writeSegments plainContext (freshWriter 4 0 false) selectionRange
          [segmentOf SegmentType.ChordRest 4 (chordItem 1 0)]).1.out
        = [Event.voiceOpen 0, Event.keySig 2, Event.timeSig 1,
            Event.tupletStart (chordItem 1 0),
            Event.element SegmentType.ChordRest (chordItem 1 0),
            Event.tupletEnd (chordItem 1 0), Event.segment 4, Event.voiceClose 0]
      ∧ (writeSegments plainContext (freshWriter 4 0 false) selectionRange
          [segmentOf SegmentType.TimeSig 4 timeSigItem,
            segmentOf SegmentType.ChordRest 4 (chordItem 1 0)]).1.out
        = [Event.voiceOpen 0, Event.element SegmentType.TimeSig timeSigItem, Event.segment 4,
            Event.tupletStart (chordItem 1 0),
            Event.element SegmentType.ChordRest (chordItem 1 0),
            Event.tupletEnd (chordItem 1 0), Event.segment 4, Event.voiceClose 0] := by
  refine ⟨rfl, ?_, ?_⟩
  · simp [writeSegments, trackRange, selectionRange, List.range, List.range.loop,
      writeTrack, plainContext, writeChain, writeSegment, segmentOf, chordItem, writeBarLine,
      selectSpanners, freshWriter, writeElement, TrackState.voiceMove, writeVoiceMove_eq,
      TrackState.emit, XmlWriter.emit, Segment.write, Range.endTick, moveIfNeeded,
      forceSignatures, VOICES]
  · simp [writeSegments, trackRange, selectionRange, List.range, List.range.loop,
      writeTrack, plainContext, writeChain, writeSegment, segmentOf, chordItem, writeBarLine,
      selectSpanners, freshWriter, writeElement, TrackState.voiceMove, writeVoiceMove_eq,
      TrackState.emit, XmlWriter.emit, Segment.write, Range.endTick, moveIfNeeded,
      forceSignatures, VOICES, timeSigItem]

/-- Counterexample to C18 as stated: the first ChordRest segment of the
selection holds a dynamic of track 0 among its annotations; the first content
written for the track is that annotation, and the key signature made up for
D major comes after it. -/
theorem writeSegments_annotated_before_key :
    plainContext.key 0 4 = 2
      ∧ (writeSegments plainContext (freshWriter 4 0 false) selectionRange
          [{ segmentOf SegmentType.ChordRest 4 (chordItem 1 0) with
              annotations := [dynamicItem] }]).1.out
        = [Event.voiceOpen 0, Event.annotated dynamicItem, Event.keySig 2, Event.timeSig 1,
            Event.tupletStart (chordItem 1 0),
            Event.element SegmentType.ChordRest (chordItem 1 0),
            Event.tupletEnd (chordItem 1 0), Event.segment 4, Event.voiceClose 0] := by
  refine ⟨rfl, ?_⟩
  simp [writeSegments, trackRange, selectionRange, List.range, List.range.loop,
    writeTrack, plainContext, writeChain, writeSegment, segmentOf, chordItem, writeBarLine,
    selectSpanners, freshWriter, writeElement, TrackState.voiceMove, writeVoiceMove_eq,
    TrackState.emit, XmlWriter.emit, Segment.write, Range.endTick, moveIfNeeded,
    forceSignatures, VOICES, dynamicItem, writeAnnotated]

end Scorefile

namespace Scorefile

/-- C18, amended: when `Score::writeSegments` runs with `forceTimeSig` set and
reaches, for the first voice of a staff, an enabled ChordRest segment whose
element of the track is written, no element of a KeySig, TimeSig or ChordRest
segment having been written for the track before, then the content written at
that segment is, in this order: the annotations of the track, the spanner
markers, the key signature made up for the key of the staff at the tick of the
segment, the time signature made up, and then what comes with the element.  In
the scenario with the key D major and no annotation or spanner the key
signature made up is the first content of the track, after the opening voice
tag. -/
theorem writeSegment_forced_key (ctx : Context) (r : Range) (clip : Bool)
    (spanners : List Spanner) (startTick : Fraction) (track : Int) (st : TrackState)
    (seg : Segment) (e : EngravingItem)
    (hf : r.forceTimeSig = true) (hv : track % VOICES = 0) (hen : seg.enabled = true)
    (hty : seg.segmentType = SegmentType.ChordRest) (he : seg.element track = some e)
    (hcw : ctx.canWrite e = true) (hg : e.generated = false)
    (hts : st.timeSigWritten = false) (hcr : st.crWritten = false)
    (hks : st.keySigWritten = false) :
    (∃ delta rest,
      (writeSegment ctx r clip spanners startTick track st seg).1.xml.out = st.xml.out ++ delta
        ∧ content delta
          = annotatedContent r seg track
            ++ (if seg.inMMRest = false then spanners.flatMap (spannerEdgesAt r clip seg track)
                else [])
            ++ Event.keySig (ctx.key (track / VOICES) seg.tick)
              :: Event.timeSig (ctx.timesig seg.tick) :: rest
        ∧ Event.element SegmentType.ChordRest e ∈ rest) ∧
    (plainContext.key 0 4 = 2
      ∧ (writeSegments plainContext (freshWriter 4 0 false) selectionRange
          [segmentOf SegmentType.ChordRest 4 (chordItem 1 0)]).1.out
        = [Event.voiceOpen 0, Event.keySig 2, Event.timeSig 1,
            Event.tupletStart (chordItem 1 0),
            Event.element SegmentType.ChordRest (chordItem 1 0),
            Event.tupletEnd (chordItem 1 0), Event.segment 4, Event.voiceClose 0]) := by
  constructor
  · obtain ⟨delta, hd, hcont⟩ := writeSegment_delta ctx r clip spanners startTick track st seg
    have hs1 : ∃ seg1, (if track = 0 then { seg with written := false } else seg) = seg1
        ∧ seg1.tick = seg.tick ∧ seg1.inMMRest = seg.inMMRest
        ∧ seg1.segmentType = seg.segmentType ∧ seg1.annotations = seg.annotations
        ∧ seg1.element = seg.element :=
      ⟨_, rfl, by split <;> rfl, by split <;> rfl, by split <;> rfl, by split <;> rfl,
        by split <;> rfl⟩
    obtain ⟨seg1, he1, ht1, hm1, hty1, han1, hel1⟩ := hs1
    have hbar : barLineContent r seg1 track = [] := by
      unfold barLineContent
      rw [if_neg]
      rw [hty1, hty]
      rintro ⟨h, _⟩
      exact absurd h (by decide)
    have hann : annotatedContent r seg1 track = annotatedContent r seg track := by
      unfold annotatedContent; rw [han1]
    have hedges : ∀ s, spannerEdgesAt r clip seg1 track s = spannerEdgesAt r clip seg track s := by
      intro s; unfold spannerEdgesAt; rw [ht1]
    refine ⟨delta, (if e.isChordRest then [Event.tupletStart e] else [])
      ++ [Event.element SegmentType.ChordRest e]
      ++ (if e.isChordRest then [Event.tupletEnd e] else [])
      ++ (if e.isGapRest = true ∨ seg1.written = true then [] else [Event.segment seg.tick]),
      hd, ?_, by simp⟩
    rw [hcont]
    unfold segmentContent
    rw [if_neg (by simp [hen])]
    simp only
    rw [he1, hbar, hann]
    unfold principalContent
    rw [hel1, he]
    simp only
    have hc1 : ¬ (ctx.canWrite e = false ∨ e.generated = true) := by simp [hcw, hg]
    rw [if_neg hc1]
    unfold elementContent
    have hc2 : r.forceTimeSig = true ∧ track % VOICES = 0
        ∧ seg1.segmentType = SegmentType.ChordRest
        ∧ st.timeSigWritten = false ∧ st.crWritten = false :=
      ⟨hf, hv, by rw [hty1, hty], hts, hcr⟩
    rw [if_pos hc2, if_pos hks, hm1, hty1, hty, ht1]
    have hfun : spannerEdgesAt r clip seg1 track = spannerEdgesAt r clip seg track :=
      funext hedges
    simp only [hfun, and_true, List.nil_append, List.append_assoc, List.singleton_append,
      List.cons_append]
  · refine ⟨rfl, ?_⟩
    simp [writeSegments, trackRange, selectionRange, List.range, List.range.loop,
      writeTrack, plainContext, writeChain, writeSegment, segmentOf, chordItem, writeBarLine,
      selectSpanners, freshWriter, writeElement, TrackState.voiceMove, writeVoiceMove_eq,
      TrackState.emit, XmlWriter.emit, Segment.write, Range.endTick, moveIfNeeded,
      forceSignatures, VOICES]

theorem writeSegment_forced_key_witness :
    ∃ delta rest,
      (writeSegment plainContext selectionRange false [] 4 0
          { freshState with xml := freshWriter 4 0 false }
          { segmentOf SegmentType.ChordRest 4 (chordItem 1 0) with
              annotations := [dynamicItem] }).1.xml.out
          = ({ freshState with xml := freshWriter 4 0 false } : TrackState).xml.out ++ delta
        ∧ content delta
          = annotatedContent selectionRange
              { segmentOf SegmentType.ChordRest 4 (chordItem 1 0) with
                  annotations := [dynamicItem] } 0
            ++ (if ({ segmentOf SegmentType.ChordRest 4 (chordItem 1 0) with
                  annotations := [dynamicItem] } : Segment).inMMRest = false then
                  ([] : List Spanner).flatMap (spannerEdgesAt selectionRange false
                    { segmentOf SegmentType.ChordRest 4 (chordItem 1 0) with
                        annotations := [dynamicItem] } 0)
                else [])
            ++ Event.keySig (plainContext.key (0 / VOICES)
                  ({ segmentOf SegmentType.ChordRest 4 (chordItem 1 0) with
                      annotations := [dynamicItem] } : Segment).tick)
              :: Event.timeSig (plainContext.timesig
                  ({ segmentOf SegmentType.ChordRest 4 (chordItem 1 0) with
                      annotations := [dynamicItem] } : Segment).tick) :: rest
        ∧ Event.element SegmentType.ChordRest (chordItem 1 0) ∈ rest :=
  (writeSegment_forced_key plainContext selectionRange false [] 4 0
    { freshState with xml := freshWriter 4 0 false }
    { segmentOf SegmentType.ChordRest 4 (chordItem 1 0) with annotations := [dynamicItem] }
    (chordItem 1 0) rfl (by decide) rfl rfl (by simp [segmentOf, chordItem]) rfl rfl rfl rfl
    rfl).1

end Scorefile

/-! ### The claims on what is left out of the output -/

namespace Scorefile

theorem written_steps {ctx : Context} {r : Range} {spanners : List Spanner}
    {startTick : Fraction} {track : Int} {st0 st : TrackState}
    (hs : Steps ctx r spanners startTick track st0 st) :
    ∃ delta, st.xml.out = st0.xml.out ++ delta
      ∧ ∀ ev ∈ delta, ev.isContent = true → Written ctx r spanners ev := by
  induction hs with
  | refl => exact ⟨[], by simp, by simp⟩
  | emit ev _ hw ih =>
    obtain ⟨delta, hd, hall⟩ := ih
    refine ⟨delta ++ [ev], by simp [TrackState.emit, XmlWriter.emit, hd], ?_⟩
    intro x hx hc
    rw [List.mem_append, List.mem_singleton] at hx
    rcases hx with hx | hx
    · exact hall x hx hc
    · subst hx; exact hw
  | voiceMove segTick _ ih =>
    obtain ⟨delta, hd, hall⟩ := ih
    rename_i st1 _
    obtain ⟨hc1, _⟩ := content_voiceMove st1 segTick startTick track
    obtain ⟨d2, hd2⟩ := out_steps
      (@Steps.voiceMove ctx r spanners startTick track st1 st1 segTick (Steps.refl st1))
    rw [hd2, content_append] at hc1
    have hnil : content d2 = [] := by
      have := List.append_cancel_left (hc1.trans (List.append_nil _).symm)
      exact this
    refine ⟨delta ++ d2, by rw [hd2, hd, List.append_assoc], ?_⟩
    intro x hx hc
    rw [List.mem_append] at hx
    rcases hx with hx | hx
    · exact hall x hx hc
    · have : x ∈ content d2 := by
        simp only [content, List.mem_filter]; exact ⟨hx, hc⟩
      rw [hnil] at this
      simp at this
  | frame st2 _ ho _ _ _ ih =>
    obtain ⟨delta, hd, hall⟩ := ih
    exact ⟨delta, by rw [ho, hd], hall⟩

theorem writeTrack_written (ctx : Context) (r : Range) (clip : Bool) (spanners : List Spanner)
    (startTick : Fraction) (acc : XmlWriter × Int × List Segment) (track : Int) :
    ∃ delta, (writeTrack ctx r clip spanners startTick acc track).1.out = acc.1.out ++ delta
      ∧ ∀ ev ∈ delta, ev.isContent = true → Written ctx r spanners ev := by
  unfold writeTrack
  split
  · exact ⟨[], by simp, by simp⟩
  · simp only
    obtain ⟨delta, hd, hall⟩ := written_steps
      (@steps_writeTrack_body ctx r spanners startTick track clip
        { xml := acc.1, lastTrackWritten := acc.2.1, voiceTagWritten := false,
          timeSigWritten := false, crWritten := false, keySigWritten := false } acc.2.2)
    generalize (if clip = true ∨ r.esegTick = none then
        spanners.foldl (writeLastSpannerEnd r clip track)
          (writeChain ctx r clip spanners startTick track
            { xml := acc.1, lastTrackWritten := acc.2.1, voiceTagWritten := false,
              timeSigWritten := false, crWritten := false, keySigWritten := false } acc.2.2).1
      else (writeChain ctx r clip spanners startTick track
            { xml := acc.1, lastTrackWritten := acc.2.1, voiceTagWritten := false,
              timeSigWritten := false, crWritten := false, keySigWritten := false } acc.2.2).1)
      = st1 at hd ⊢
    simp only at hd
    split
    · refine ⟨delta ++ [Event.voiceClose track],
        by simp [TrackState.emit, XmlWriter.emit, hd], ?_⟩
      intro x hx hc
      rw [List.mem_append, List.mem_singleton] at hx
      rcases hx with hx | hx
      · exact hall x hx hc
      · subst hx; simp [Event.isContent] at hc
    · exact ⟨delta, hd, hall⟩

theorem foldl_writeTrack_written (ctx : Context) (r : Range) (clip : Bool)
    (spanners : List Spanner) (startTick : Fraction) (tracks : List Int) :
    ∀ acc : XmlWriter × Int × List Segment,
      ∃ delta, (tracks.foldl (writeTrack ctx r clip spanners startTick) acc).1.out
          = acc.1.out ++ delta
        ∧ ∀ ev ∈ delta, ev.isContent = true → Written ctx r spanners ev := by
  induction tracks with
  | nil => intro acc; exact ⟨[], by simp, by simp⟩
  | cons t rest ih =>
    intro acc
    rw [List.foldl_cons]
    obtain ⟨d1, hd1, h1⟩ := writeTrack_written ctx r clip spanners startTick acc t
    obtain ⟨d2, hd2, h2⟩ := ih (writeTrack ctx r clip spanners startTick acc t)
    refine ⟨d1 ++ d2, by rw [hd2, hd1, List.append_assoc], ?_⟩
    intro x hx hc
    rw [List.mem_append] at hx
    rcases hx with hx | hx
    · exact h1 x hx hc
    · exact h2 x hx hc

theorem filter_isAnnotated_content (l : List Event) :
    (content l).filter Event.isAnnotated = l.filter Event.isAnnotated := by
  unfold content
  rw [List.filter_filter]
  congr 1
  funext ev
  cases ev <;> rfl

theorem filter_isAnnotated_segmentContent (ctx : Context) (r : Range) (clip : Bool)
    (spanners : List Spanner) (track : Int) (st : TrackState) (seg : Segment) :
    (segmentContent ctx r clip spanners track st seg).filter Event.isAnnotated
      = if seg.enabled = true then annotatedContent r seg track else [] := by
  unfold segmentContent
  by_cases hen : seg.enabled = false
  · simp [hen]
  · have hen1 : seg.enabled = true := by simpa using hen
    rw [if_neg hen, if_pos hen1]
    simp only
    have hs1 : ∃ seg1, (if track = 0 then { seg with written := false } else seg) = seg1
        ∧ seg1.annotations = seg.annotations := ⟨_, rfl, by split <;> rfl⟩
    obtain ⟨seg1, he1, han1⟩ := hs1
    rw [he1]
    have hann : annotatedContent r seg1 track = annotatedContent r seg track := by
      unfold annotatedContent; rw [han1]
    have hnone : ∀ l : List Event, (∀ ev ∈ l, ev.isAnnotated = false) →
        l.filter Event.isAnnotated = [] := by
      intro l hl
      rw [List.filter_eq_nil_iff]
      intro ev hev
      simp [hl ev hev]
    have hbar : (barLineContent r seg1 track).filter Event.isAnnotated = [] := by
      apply hnone
      unfold barLineContent
      intro ev hev
      split at hev
      · cases hfb : findBarLine seg1 (track - VOICES) with
        | none => rw [hfb] at hev; simp at hev
        | some ib =>
          rw [hfb] at hev
          simp only [List.mem_singleton] at hev
          subst hev; rfl
      · simp at hev
    have hed : (if seg1.inMMRest = false ∧ seg1.segmentType = SegmentType.ChordRest then
        spanners.flatMap (spannerEdgesAt r clip seg1 track) else []).filter Event.isAnnotated
        = [] := by
      apply hnone
      intro ev hev
      split at hev
      · rw [List.mem_flatMap] at hev
        obtain ⟨s, _, hs⟩ := hev
        unfold spannerEdgesAt at hs
        rw [List.mem_append] at hs
        rcases hs with hs | hs
        · by_cases hc : s.track = track ∧ s.tick = seg1.tick
              ∧ (clip = false ∨
                (if s.anchor = Anchor.CHORD ∨ s.anchor = Anchor.NOTE then
                    decide (s.tick2 < r.endTick)
                  else decide (s.tick2 ≤ r.endTick)) = true)
              ∧ s.isSlur = false
          · rw [if_pos hc, List.mem_singleton] at hs
            subst hs; rfl
          · rw [if_neg hc] at hs; simp at hs
        · split at hs
          · rw [List.mem_singleton] at hs
            subst hs; rfl
          · simp at hs
      · simp at hev
    have hpr : (principalContent ctx r seg1 track st.timeSigWritten st.crWritten
        st.keySigWritten).filter Event.isAnnotated = [] := by
      apply hnone
      unfold principalContent
      intro ev hev
      cases hel : seg1.element track with
      | none => rw [hel] at hev; simp at hev
      | some e =>
        rw [hel] at hev
        simp only at hev
        split at hev
        · simp at hev
        · unfold elementContent at hev
          simp only [List.mem_append, List.mem_singleton] at hev
          rcases hev with (((h | h) | h) | h) | h
          · split at h
            · simp only [List.mem_append, List.mem_singleton] at h
              rcases h with h | h
              · split at h
                · simp only [List.mem_singleton] at h
                  subst h; rfl
                · simp at h
              · subst h; rfl
            · simp at h
          · split at h
            · simp only [List.mem_singleton] at h
              subst h; rfl
            · simp at h
          · subst h; rfl
          · split at h
            · simp only [List.mem_singleton] at h
              subst h; rfl
            · simp at h
          · split at h
            · simp at h
            · simp only [List.mem_singleton] at h
              subst h; rfl
    have hself : (annotatedContent r seg track).filter Event.isAnnotated
        = annotatedContent r seg track := by
      rw [List.filter_eq_self]
      intro ev hev
      unfold annotatedContent at hev
      rw [List.mem_map] at hev
      obtain ⟨a, _, ha⟩ := hev
      subst ha; rfl
    rw [List.filter_append, List.filter_append, List.filter_append, hbar, hann, hself, hed, hpr]
    simp

end Scorefile

namespace Scorefile

/-- C19, amended: `Score::writeSegments` writes no annotation and no spanner
marker whose annotation or spanner is generated, and writes the principal
element of the track it is writing only if that element is not generated; it
writes an annotation carrying the system flag only when `writeSystemElements`
is true; and at every enabled segment it walks, for the track it is writing, the
annotations that it writes are those of the segment that have this track, are
not generated and pass the test of the system flag, each once and in the order
of the list.  The bar line of a staff above, written by the bar line case, is
left out of this statement. -/
theorem writeSegments_generated (ctx : Context) (xml : XmlWriter) (r : Range)
    (segs : List Segment) (clip : Bool) (spanners : List Spanner) (startTick : Fraction)
    (track : Int) (st : TrackState) (seg : Segment) :
    (∃ new, (writeSegments ctx xml r segs).1.out = xml.out ++ new
      ∧ (∀ a, Event.annotated a ∈ new →
          a.generated = false ∧ (a.systemFlag = true → r.writeSystemElements = true))
      ∧ (∀ type e, Event.element type e ∈ new → e.generated = false)
      ∧ (∀ s tick tr, Event.spannerStart s tick tr ∈ new → s.generated = false)
      ∧ (∀ s tick tr, Event.spannerEnd s tick tr ∈ new → s.generated = false)
      ∧ (∀ s tr tick, Event.spannerEndLast s tr tick ∈ new → s.generated = false)) ∧
    (∃ delta,
      (writeSegment ctx r clip spanners startTick track st seg).1.xml.out = st.xml.out ++ delta
        ∧ delta.filter Event.isAnnotated
          = if seg.enabled = true then annotatedContent r seg track else []) := by
  constructor
  · obtain ⟨new, hn, hall⟩ := foldl_writeTrack_written ctx r xml.clipboardmode
      (selectSpanners ctx xml.clipboardmode r.sl) xml.curTick (trackRange r.strack r.etrack)
      (xml, r.strack - 1, segs)
    have hgen : ∀ s, s ∈ selectSpanners ctx xml.clipboardmode r.sl → s.generated = false :=
      fun s hs => ((mem_selectSpanners ctx xml.clipboardmode r.sl s).mp hs).2.1
    refine ⟨new, hn, ?_, ?_, ?_, ?_, ?_⟩
    · intro a ha
      exact hall _ ha rfl
    · intro type e he
      exact (hall _ he rfl).1
    · intro s tick tr hs
      exact hgen s (hall _ hs rfl)
    · intro s tick tr hs
      exact hgen s (hall _ hs rfl)
    · intro s tr tick hs
      exact hgen s (hall _ hs rfl)
  · obtain ⟨delta, hd, hcont⟩ := writeSegment_delta ctx r clip spanners startTick track st seg
    refine ⟨delta, hd, ?_⟩
    rw [← filter_isAnnotated_content, hcont, filter_isAnnotated_segmentContent]

/-- Counterexample to C19 as stated: staff 1 is written alone, with system
elements; the end bar line segment holds a generated bar line in track 0 and
nothing in track 4, and `Score::writeSegments` writes that generated bar line
for track 4. -/
theorem writeSegments_generated_barline :
    generatedBarLine.generated = true
      ∧ (writeSegments plainContext (freshWriter 0 4 false) (plainRange 4 5 1 [])
          [segmentOf SegmentType.EndBarLine 1 generatedBarLine]).1.out
        = [Event.barline 0 generatedBarLine] := by
  refine ⟨rfl, ?_⟩
  have hfb : findBarLine (segmentOf SegmentType.EndBarLine 1 generatedBarLine) 0
      = some (0, generatedBarLine) := by
    rw [findBarLine]
    simp [segmentOf, generatedBarLine]
  simp [writeSegments, trackRange, plainRange, List.range, List.range.loop,
    writeTrack, plainContext, writeChain, writeSegment, writeBarLine,
    selectSpanners, freshWriter, TrackState.emit, XmlWriter.emit, Range.endTick,
    VOICES, hfb]
  simp [segmentOf, generatedBarLine]

end Scorefile

/-! ### What writing leaves of the score -/

namespace Scorefile

theorem zipWith_hideAgain (l : List Part) :
    List.zipWith (fun p h => if h then { p with shown := false } else p)
        (l.map (fun p => if p.shown then p else { p with shown := true }))
        (l.map (fun p => !p.shown))
      = l := by
  induction l with
  | nil => rfl
  | cons p rest ih =>
    simp only [List.map_cons, List.zipWith_cons_cons, ih]
    congr 1
    obtain ⟨id, shown⟩ := p
    cases shown <;> simp

theorem map_show_of_all_shown (l : List Part)
    (h : (l.map (fun p => !p.shown)).any (fun h => h) = false) :
    l.map (fun p => if p.shown then p else { p with shown := true }) = l := by
  induction l with
  | nil => rfl
  | cons p rest ih =>
    simp only [List.map_cons, List.any_cons, Bool.or_eq_false_iff] at h
    simp only [List.map_cons, ih h.2]
    congr 1
    have : p.shown = true := by simpa using h.1
    simp [this]

theorem Score.write_eq (sc : Score) : sc.write = sc := by
  unfold Score.write showHiddenParts
  by_cases hc : sc.createMultiMeasureRests = true
  · simp only [hc, if_true]
    by_cases hu : (sc.parts.map (fun p => !p.shown)).any (fun h => h) = true
    · rw [if_pos hu]
      simp only [hideAgain, zipWith_hideAgain]
      cases sc
      simp only at hc
      subst hc
      rfl
    · rw [if_neg hu]
      have hu1 : (sc.parts.map (fun p => !p.shown)).any (fun h => h) = false := by
        simpa using hu
      rw [map_show_of_all_shown _ hu1]
      cases sc
      simp only at hc
      subst hc
      rfl
  · have hc1 : sc.createMultiMeasureRests = false := by simpa using hc
    simp [hc1]

theorem writeElement_segment (ctx : Context) (r : Range) (seg : Segment)
    (startTick : Fraction) (track : Int) (p : TrackState × Bool) (e : EngravingItem) :
    { (writeElement ctx r seg startTick track p e).2 with written := false }
      = { seg with written := false } := by
  unfold writeElement
  simp only
  by_cases hg : e.isGapRest = true
  · simp [hg]
  · simp only [hg, Bool.false_eq_true, if_false]
    unfold Segment.write
    split <;> rfl

theorem writeSegment_segment (ctx : Context) (r : Range) (clip : Bool)
    (spanners : List Spanner) (startTick : Fraction) (track : Int) (st : TrackState)
    (seg : Segment) :
    { (writeSegment ctx r clip spanners startTick track st seg).2 with written := false }
      = { seg with written := false } := by
  unfold writeSegment
  split
  · rfl
  · simp only
    have hs1 : ({ (if track = 0 then { seg with written := false } else seg) with
        written := false } : Segment) = { seg with written := false } := by
      split <;> rfl
    generalize (if track = 0 then { seg with written := false } else seg) = seg1 at hs1 ⊢
    split
    · exact hs1
    · split
      · exact hs1
      · split
        · exact hs1
        · rw [writeElement_segment]; exact hs1

theorem writeChain_segments (ctx : Context) (r : Range) (clip : Bool)
    (spanners : List Spanner) (startTick : Fraction) (track : Int) (segs : List Segment) :
    ∀ st : TrackState,
      (writeChain ctx r clip spanners startTick track st segs).2.map
          (fun s => { s with written := false })
        = segs.map (fun s => { s with written := false }) := by
  induction segs with
  | nil => intro st; rfl
  | cons seg rest ih =>
    intro st
    simp only [writeChain, List.map_cons, ih, writeSegment_segment]

theorem foldl_writeTrack_segments (ctx : Context) (r : Range) (clip : Bool)
    (spanners : List Spanner) (startTick : Fraction) (tracks : List Int) :
    ∀ acc : XmlWriter × Int × List Segment,
      (tracks.foldl (writeTrack ctx r clip spanners startTick) acc).2.2.map
          (fun s => { s with written := false })
        = acc.2.2.map (fun s => { s with written := false }) := by
  induction tracks with
  | nil => intro acc; rfl
  | cons t rest ih =>
    intro acc
    rw [List.foldl_cons, ih]
    unfold writeTrack
    split
    · rfl
    · simp only [writeChain_segments]

/-- C20, amended: writing leaves the score as it was but for its bookkeeping.
`Score::writeSegments` changes no segment of the chain apart from its flag
`written`; `Score::writeScore` called for the selection leaves the parts and
the version attributes of the score as they were, the hidden parts having been
shown and hidden again by `Score::write`; and called for the whole score it sets
the attributes `_mscoreVersion`, `_mscoreRevision` and `_mscVersion` to the
values of the running program and changes nothing else. -/
theorem writeScore_frame (ctx : Context) (xml : XmlWriter) (r : Range)
    (segs : List Segment) (prog : Program) (sc : Score) :
    (writeSegments ctx xml r segs).2.map (fun s => { s with written := false })
        = segs.map (fun s => { s with written := false })
      ∧ sc.write = sc
      ∧ (sc.writeScore prog true).1 = sc
      ∧ (sc.writeScore prog false).1
        = { sc with mscoreVersion := prog.version, mscoreRevision := prog.revision,
                    mscVersion := prog.mscVersion } := by
  refine ⟨?_, Score.write_eq sc, ?_, ?_⟩
  · unfold writeSegments
    simp only
    exact foldl_writeTrack_segments ctx r _ _ _ _ _
  · simp [Score.writeScore, Score.write_eq]
  · simp [Score.writeScore, Score.write_eq]

/-- Counterexample to C20 as stated: writing the whole of a score read from a
file of version 3.01 with a program of version 4.00 changes the attributes
`_mscoreVersion` and `_mscVersion` of the score; and `Score::writeSegments`
called for track 0 on a segment that holds nothing in that track resets the
flag `written` of the segment. -/
theorem writeScore_sets_version :
    oldScore.mscVersion = 301 ∧ (oldScore.writeScore newProgram false).1.mscVersion = 400
      ∧ (oldScore.writeScore newProgram false).1 ≠ oldScore
      ∧ (writeSegments plainContext (freshWriter 0 0 false) (plainRange 0 1 1 [])
          [{ segmentOf SegmentType.ChordRest 0 (chordItem 1 1) with written := true }]).2.map
          (fun s => s.written)
        = [false] := by
  refine ⟨rfl, ?_, ?_, ?_⟩
  · simp [Score.writeScore, newProgram]
  · intro h
    have h1 := congrArg Score.mscVersion h
    simp [Score.writeScore, newProgram, Score.write_eq, oldScore] at h1
  · simp [writeSegments, trackRange, plainRange, List.range, List.range.loop,
      writeTrack, plainContext, writeChain, writeSegment, segmentOf, chordItem, writeBarLine,
      selectSpanners, freshWriter, Range.endTick]

end Scorefile

/-! ### The element kinds and the casts -/

namespace Engraving

/-- C21, amended: `isDurationElement()` holds exactly for the kinds chord,
rest, multi-measure rest, measure repeat and tuplet. -/
theorem isDurationElement_iff (e : EngravingObject) :
    e.isDurationElement = true
      ↔ e.type = ElementType.CHORD ∨ e.type = ElementType.REST ∨ e.type = ElementType.MMREST
        ∨ e.type = ElementType.MEASURE_REPEAT ∨ e.type = ElementType.TUPLET := by
  simp only [EngravingObject.isDurationElement, EngravingObject.isChordRest,
    EngravingObject.isRestFamily, EngravingObject.isRest, EngravingObject.isMMRest,
    EngravingObject.isMeasureRepeat, EngravingObject.isChord, EngravingObject.isTuplet,
    Bool.or_eq_true, decide_eq_true_eq]
  tauto

/-- Counterexample to C21 as stated: `isDurationElement()` holds for a measure
repeat, which is none of chord, rest, multi-measure rest and tuplet. -/
theorem isDurationElement_measureRepeat :
    EngravingObject.isDurationElement { type := ElementType.MEASURE_REPEAT } = true
      ∧ ElementType.MEASURE_REPEAT ≠ ElementType.CHORD
      ∧ ElementType.MEASURE_REPEAT ≠ ElementType.REST
      ∧ ElementType.MEASURE_REPEAT ≠ ElementType.MMREST
      ∧ ElementType.MEASURE_REPEAT ≠ ElementType.TUPLET := by
  refine ⟨by decide, by decide, by decide, by decide, by decide⟩

theorem castIf_isSome (cond : Bool) (e : Option EngravingObject) :
    (castIf cond e).isSome = true ↔ cond = true := by
  unfold castIf
  cases cond <;> simp

/-- C22: each of the grouped casts accepts exactly a null pointer and the
objects for which its test holds: `toChordRest` those of `isChordRest()`,
`toDurationElement` those of `isDurationElement()`, `toRest` those of
`isRestFamily()`, `toSlurTieSegment` those of `isSlurTieSegment()`, and both
overloads of `toMeasureBase` those of `isMeasureBase()`; an accepted pointer
comes back as it is. -/
theorem casts_accept_iff (e : Option EngravingObject) :
    ((toChordRest e).isSome = true ↔ Accepts EngravingObject.isChordRest e)
      ∧ ((toDurationElement e).isSome = true ↔ Accepts EngravingObject.isDurationElement e)
      ∧ ((toRest e).isSome = true ↔ Accepts EngravingObject.isRestFamily e)
      ∧ ((toSlurTieSegment e).isSome = true ↔ Accepts EngravingObject.isSlurTieSegment e)
      ∧ ((toMeasureBaseConst e).isSome = true ↔ Accepts EngravingObject.isMeasureBase e)
      ∧ ((toMeasureBase e).isSome = true ↔ Accepts EngravingObject.isMeasureBase e)
      ∧ (∀ r, toChordRest e = some r ∨ toDurationElement e = some r ∨ toRest e = some r
          ∨ toSlurTieSegment e = some r ∨ toMeasureBaseConst e = some r
          ∨ toMeasureBase e = some r → r = e) := by
  refine ⟨?_, ?_, ?_, ?_, ?_, ?_, ?_⟩
  · unfold toChordRest
    rw [castIf_isSome]
    cases e with
    | none => simp [Accepts]
    | some o =>
      simp only [Accepts, reduceCtorEq, Option.some.injEq, exists_eq_left', false_or,
        EngravingObject.isChordRest, EngravingObject.isRestFamily, EngravingObject.isRest,
        EngravingObject.isMMRest, EngravingObject.isMeasureRepeat, EngravingObject.isChord,
        Bool.or_eq_true, decide_eq_true_eq]
      tauto
  · unfold toDurationElement
    rw [castIf_isSome]
    cases e with
    | none => simp [Accepts]
    | some o =>
      simp only [Accepts, reduceCtorEq, Option.some.injEq, exists_eq_left', false_or,
        EngravingObject.isDurationElement, EngravingObject.isTuplet,
        EngravingObject.isChordRest, EngravingObject.isRestFamily, EngravingObject.isRest,
        EngravingObject.isMMRest, EngravingObject.isMeasureRepeat, EngravingObject.isChord,
        Bool.or_eq_true, decide_eq_true_eq]
      tauto
  · unfold toRest
    rw [castIf_isSome]
    cases e with
    | none => simp [Accepts]
    | some o => simp [Accepts]
  · unfold toSlurTieSegment
    rw [castIf_isSome]
    cases e with
    | none => simp [Accepts]
    | some o =>
      simp [Accepts, EngravingObject.isSlurTieSegment, EngravingObject.isSlurSegment,
        EngravingObject.isTieSegment]
  · unfold toMeasureBaseConst
    rw [castIf_isSome]
    cases e with
    | none => simp [Accepts]
    | some o =>
      simp [Accepts, EngravingObject.isMeasureBase, EngravingObject.isBox, Bool.or_assoc]
  · unfold toMeasureBase
    rw [castIf_isSome]
    cases e with
    | none => simp [Accepts]
    | some o => simp [Accepts]
  · intro r h
    simp only [toChordRest, toDurationElement, toRest, toSlurTieSegment, toMeasureBaseConst,
      toMeasureBase, castIf] at h
    rcases h with h | h | h | h | h | h <;>
    · split at h
      · exact (Option.some.inj h).symm
      · exact absurd h (by simp)

end Engraving

/-! ### The check of the keys -/

namespace CheckKeys

theorem actualKey_snoc (sc : Score) (i : Nat) (pre : List Measure) (m : Measure) :
    actualKey sc i (pre ++ [m])
      = match keySigAt i m with
        | some k => k
        | none => actualKey sc i pre := by
  unfold actualKey
  rw [List.reverse_append, List.reverse_singleton, List.singleton_append, List.filterMap_cons]
  cases keySigAt i m with
  | none => rfl
  | some k => rfl

theorem checkMeasureKey_fst (sc : Score) (i : Nat) (pre : List Measure) (b : Bool)
    (m : Measure) :
    (checkMeasureKey sc i (actualKey sc i pre, b) m).1 = actualKey sc i (pre ++ [m]) := by
  rw [actualKey_snoc]
  unfold checkMeasureKey keySigAt
  simp only
  cases m.findSegment Scorefile.SegmentType.KeySig m.tick with
  | none => rfl
  | some s =>
    show (match s.element (i * VOICES) with
          | some key => key
          | none => actualKey sc i pre)
        = match s.element (i * VOICES) with
          | some k => k
          | none => actualKey sc i pre
    rfl

theorem foldl_checkMeasureKey (sc : Score) (i : Nat) (ms : List Measure) :
    ∀ (pre : List Measure) (b : Bool),
      (ms.foldl (checkMeasureKey sc i) (actualKey sc i pre, b)).2 = true
        ↔ b = true ∧ ∀ n m, ms[n]? = some m →
            sc.key i m.tick = actualKey sc i (pre ++ ms.take (n + 1)) := by
  induction ms with
  | nil => intro pre b; simp
  | cons m rest ih =>
    intro pre b
    rw [List.foldl_cons]
    have hst : checkMeasureKey sc i (actualKey sc i pre, b) m
        = (actualKey sc i (pre ++ [m]),
            if sc.key i m.tick ≠ actualKey sc i (pre ++ [m]) then false else b) := by
      rw [← checkMeasureKey_fst sc i pre b m]
      rfl
    rw [hst, ih (pre ++ [m])]
    constructor
    · rintro ⟨hb, hall⟩
      by_cases hk : sc.key i m.tick ≠ actualKey sc i (pre ++ [m])
      · rw [if_pos hk] at hb; exact absurd hb (by simp)
      · rw [if_neg hk] at hb
        refine ⟨hb, ?_⟩
        intro n x hx
        cases n with
        | zero =>
          simp only [List.getElem?_cons_zero, Option.some.injEq] at hx
          subst hx
          simpa using not_not.mp hk
        | succ n =>
          simp only [List.getElem?_cons_succ] at hx
          have := hall n x hx
          simpa [List.append_assoc] using this
    · rintro ⟨hb, hall⟩
      have h0 : sc.key i m.tick = actualKey sc i (pre ++ [m]) := by
        simpa using hall 0 m (by simp)
      refine ⟨by simp [h0, hb], ?_⟩
      intro n x hx
      have := hall (n + 1) x (by simpa using hx)
      simpa [List.append_assoc] using this

theorem checkStaffKeys_iff (sc : Score) (rc : Bool) (i : Nat) :
    checkStaffKeys sc rc i = true
      ↔ rc = true ∧ ∀ n m, sc.measures[n]? = some m →
          sc.key i m.tick = actualKey sc i (sc.measures.take (n + 1)) := by
  have h := foldl_checkMeasureKey sc i sc.measures [] rc
  have h0 : actualKey sc i [] = sc.key i 0 := rfl
  rw [h0] at h
  simpa [checkStaffKeys] using h

theorem foldl_checkStaffKeys (sc : Score) (n : Nat) :
    (List.range n).foldl (checkStaffKeys sc) true = true
      ↔ ∀ i, i < n → ∀ k m, sc.measures[k]? = some m →
          sc.key i m.tick = actualKey sc i (sc.measures.take (k + 1)) := by
  induction n with
  | zero => simp
  | succ n ih =>
    rw [List.range_succ, List.foldl_append, List.foldl_cons, List.foldl_nil,
      checkStaffKeys_iff, ih]
    constructor
    · rintro ⟨h1, h2⟩ i hi
      rcases Nat.lt_succ_iff_lt_or_eq.mp hi with h | h
      · exact h1 i h
      · subst h; exact h2
    · intro h
      exact ⟨fun i hi => h i (Nat.lt_succ_of_lt hi), h n (Nat.lt_succ_self n)⟩

/-- C25: `Score::checkKeys` returns true if and only if, for every staff and
every measure of the chain, the value of the key map of the staff at the tick
of the measure is the actual key there: the key of the most recent key
signature element on the first track of the staff that stands in a KeySig
segment at the start tick of that measure or of a measure before it, and the
value of the key map at tick 0 when there is none. -/
theorem checkKeys_iff (sc : Score) :
    checkKeys sc = true
      ↔ ∀ i, i < sc.nstaves → ∀ n m, sc.measures[n]? = some m →
          sc.key i m.tick = actualKey sc i (sc.measures.take (n + 1)) :=
  foldl_checkStaffKeys sc sc.nstaves

end CheckKeys

/-! ### The rest of `Measure::fillGap` -/

theorem addToChain_mem_slot (r : Fraction) (t : Nat) (x : ChordRest) (segs : List Segment) :
    ∃ seg ∈ addToChain r t x segs, seg.rtick = r ∧ seg.element t = some x := by
  induction segs with
  | nil =>
    exact ⟨Segment.single r t x, by simp [addToChain], rfl, by simp [Segment.single]⟩
  | cons s rest ih =>
    unfold addToChain
    by_cases h1 : s.rtick < r
    · rw [if_pos h1]
      obtain ⟨seg, hmem, hr, he⟩ := ih
      exact ⟨seg, List.mem_cons_of_mem _ hmem, hr, he⟩
    · rw [if_neg h1]
      by_cases h2 : s.rtick = r
      · rw [if_pos h2]
        exact ⟨s.setElement t x, List.mem_cons_self _ _, h2, by simp [Segment.setElement]⟩
      · rw [if_neg h2]
        exact ⟨Segment.single r t x, List.mem_cons_self _ _, rfl, by simp [Segment.single]⟩

/-- C28: `Measure::fillGap` inserts a rest exactly if `TDuration::setVal` leaves
a valid duration for the gap length.  If it does, the measure returned is the
one `undoAddCR` gives for a rest of length `len` with the gap flag
`useGapRests` at tick `pos / stretch + tick` of the measure, and that rest then
sits in the slot of `track` of a ChordRest segment at that tick; the other
tracks hold what they held.  If it does not, the measure is returned as it
was. -/
theorem fillGap_inserts_iff_valid (env : Env) (m : Measure) (pos len : Fraction) (track : Nat)
    (stretch : Fraction) (useGapRests : Bool) :
    ((env.setVal len).isValid = true →
      fillGap env m pos len track stretch useGapRests
          = undoAddCR (gapRest len (env.setVal len) useGapRests) track m
              (pos / stretch + m.tick) ∧
        (∃ seg ∈ (fillGap env m pos len track stretch useGapRests).segs,
          m.tick + seg.rtick = pos / stretch + m.tick ∧
          ∃ rest, seg.element track = some rest ∧ rest.isRest = true ∧ rest.ticks = len ∧
            rest.gap = useGapRests ∧ rest.durationType = env.setVal len) ∧
        ∀ t, t ≠ track →
          trackView t (fillGap env m pos len track stretch useGapRests).segs
            = trackView t m.segs) ∧
    ((env.setVal len).isValid = false →
      fillGap env m pos len track stretch useGapRests = m) := by
  constructor
  · intro hv
    have hfill : fillGap env m pos len track stretch useGapRests
        = undoAddCR (gapRest len (env.setVal len) useGapRests) track m
            (pos / stretch + m.tick) := by
      simp [fillGap, hv]
    refine ⟨hfill, ?_, fun t ht => fillGap_view_other env m pos len t track stretch useGapRests ht⟩
    rw [hfill]
    obtain ⟨seg, hmem, hr, he⟩ :=
      addToChain_mem_slot (pos / stretch + m.tick - m.tick) track
        (gapRest len (env.setVal len) useGapRests) m.segs
    refine ⟨seg, hmem, ?_, gapRest len (env.setVal len) useGapRests, he, rfl, rfl, rfl, rfl⟩
    rw [hr]; ring
  · intro hv
    simp [fillGap, hv]

/-- Witness of C28: the gap of scenario A, 3/4 behind the quarter rest, with a
duration table that has the dotted half. -/
theorem fillGap_inserts_iff_valid_witness :
    ((dottedEnv true).setVal (3 / 4)).isValid = true ∧
      fillGap (dottedEnv true) scenarioA (1 / 4) (3 / 4) 0 1 true
          = undoAddCR (gapRest (3 / 4) ((dottedEnv true).setVal (3 / 4)) true) 0 scenarioA
              (1 / 4 / 1 + scenarioA.tick) :=
  ⟨dottedSetVal_valid (3 / 4),
   ((fillGap_inserts_iff_valid (dottedEnv true) scenarioA (1 / 4) (3 / 4) 0 1 true).1
      (dottedSetVal_valid (3 / 4))).1⟩

/-! ### The fill of a gap met by the walk -/

/-- C1: for a duration table that leaves no duration invalid, whenever the
walk meets a ChordRest element behind a gap (`expectedPos < currentPos`) it reports the underrun and goes on
with the measure that has exactly one more `undoAddCR`: of a rest of length
`currentPos - expectedPos` on the walked track at tick
`expectedPos / stretch + tick`, whatever the length of the gap.  The rest then
sits in the slot of the track of a ChordRest segment at that tick, and the
other tracks hold what they held. -/
theorem checkMeasure_gap_filled (env : Env) (track : Nat) (stretch : Fraction) (u : Bool)
    (seg : Segment) (rest : List Segment) (e : Fraction) (m : Measure) (log : List Diag)
    (cr : ChordRest) (hcr : seg.element track = some cr) (hgap : e < seg.rtick * stretch)
    (hvalid : ∀ len, (env.setVal len).isValid = true) :
    walk env track stretch u (seg :: rest) e m log
        = walk env track stretch u (resume cr track rest) (seg.rtick * stretch + cr.deTicks)
            (undoAddCR (gapRest (seg.rtick * stretch - e) (env.setVal (seg.rtick * stretch - e)) u)
              track m (e / stretch + m.tick))
            (log ++ [Diag.inMeasureUnderrun track]) ∧
      (∃ sg ∈ (undoAddCR
            (gapRest (seg.rtick * stretch - e) (env.setVal (seg.rtick * stretch - e)) u)
            track m (e / stretch + m.tick)).segs,
        m.tick + sg.rtick = e / stretch + m.tick ∧
        ∃ r, sg.element track = some r ∧ r.isRest = true ∧
          r.ticks = seg.rtick * stretch - e ∧ r.gap = u) ∧
      ∀ t, t ≠ track →
        trackView t (undoAddCR
            (gapRest (seg.rtick * stretch - e) (env.setVal (seg.rtick * stretch - e)) u)
            track m (e / stretch + m.tick)).segs
          = trackView t m.segs := by
  refine ⟨?_, ?_, ?_⟩
  · rw [walk_cons_gap _ _ _ _ _ _ _ _ _ cr hcr hgap]
    simp [fillGap, hvalid]
  · obtain ⟨sg, hmem, hr, he⟩ :=
      addToChain_mem_slot (e / stretch + m.tick - m.tick) track
        (gapRest (seg.rtick * stretch - e) (env.setVal (seg.rtick * stretch - e)) u) m.segs
    refine ⟨sg, hmem, ?_, _, he, rfl, rfl, rfl⟩
    rw [hr]; ring
  · intro t ht
    exact addToChain_view_other _ t track _ ht m.segs

/-- Witness of C1: the chord of `lateChord` at tick 3/8 is met with
`expectedPos = 0`, under the table `dottedSetVal`, which accepts every
length. -/
theorem checkMeasure_gap_filled_witness :
    (Segment.single (3 / 8) 0 (chord (5 / 8) DurationType.V_HALF)).element 0
        = some (chord (5 / 8) DurationType.V_HALF) ∧
      (0 : Fraction) < (Segment.single (3 / 8) 0 (chord (5 / 8) DurationType.V_HALF)).rtick * 1 ∧
      (∀ len, ((dottedEnv true).setVal len).isValid = true) ∧
      walk (dottedEnv true) 0 1 true
          [Segment.single (3 / 8) 0 (chord (5 / 8) DurationType.V_HALF)] 0 lateChord []
        = walk (dottedEnv true) 0 1 true
            (resume (chord (5 / 8) DurationType.V_HALF) 0 [])
            ((Segment.single (3 / 8) 0 (chord (5 / 8) DurationType.V_HALF)).rtick * 1
              + (chord (5 / 8) DurationType.V_HALF).deTicks)
            (undoAddCR
              (gapRest ((Segment.single (3 / 8) 0 (chord (5 / 8) DurationType.V_HALF)).rtick * 1 - 0)
                ((dottedEnv true).setVal
                  ((Segment.single (3 / 8) 0 (chord (5 / 8) DurationType.V_HALF)).rtick * 1 - 0))
                true)
              0 lateChord (0 / 1 + lateChord.tick))
            ([] ++ [Diag.inMeasureUnderrun 0]) :=
  ⟨by simp [Segment.single], by norm_num [Segment.single],
   fun len => dottedSetVal_valid len,
   (checkMeasure_gap_filled (dottedEnv true) 0 1 true
      (Segment.single (3 / 8) 0 (chord (5 / 8) DurationType.V_HALF)) [] 0 lateChord []
      (chord (5 / 8) DurationType.V_HALF) (by simp [Segment.single])
      (by norm_num [Segment.single]) (fun len => dottedSetVal_valid len)).1⟩

/-! ### The cursor: `MCursor::createMeasures` -/

namespace Cursor

theorem endTick_concat (ms : List Measure) (m : Measure) :
    endTick (ms ++ [m]) = m.tick + m.ticks := by
  simp [endTick]

theorem pastCursor_iff (ct : Fraction) (ms : List Measure) :
    pastCursor ct ms ↔ ms ≠ [] ∧ ct < endTick ms := by
  unfold pastCursor endTick
  cases h : ms.getLast? with
  | none =>
    have : ms = [] := List.getLast?_eq_none_iff.mp h
    simp [this]
  | some m =>
    have : ms ≠ [] := by
      intro hnil
      rw [hnil] at h
      simp at h
    simp [this]

theorem createMeasuresLoop_stop (sig ct : Fraction) (fuel : Nat) (ms : List Measure)
    (h : pastCursor ct ms) : createMeasuresLoop sig ct (fuel + 1) ms = some ms := by
  obtain ⟨m, hm, hlt⟩ := h
  unfold createMeasuresLoop
  rw [hm]
  simp only
  rw [if_pos hlt]

theorem createMeasuresLoop_go (sig ct : Fraction) (fuel : Nat) (ms : List Measure)
    (h : ¬ pastCursor ct ms) :
    createMeasuresLoop sig ct (fuel + 1) ms
      = createMeasuresLoop sig ct fuel (ms ++ [newMeasure (endTick ms) sig]) := by
  rw [createMeasuresLoop]
  unfold endTick
  cases hm : ms.getLast? with
  | none => rfl
  | some m =>
    simp only
    have hlt : ¬ m.tick + m.ticks > ct := fun hgt => h ⟨m, hm, hgt⟩
    rw [if_neg hlt]

/-- What the loop of `createMeasures` appends to the list `ms`: measures `app`
built by `newMeasure`, each at the end tick of the list before it, none when
the last measure of `ms` ends behind the cursor tick, and with them the last
measure ends behind the cursor tick. -/
theorem createMeasuresLoop_nonempty (sig ct : Fraction) :
    ∀ (k : Nat) (ms : List Measure), ms ≠ [] → ct - endTick ms < k * sig →
      ∃ app : List Measure,
        (∀ fuel, k + 1 ≤ fuel → createMeasuresLoop sig ct fuel ms = some (ms ++ app)) ∧
        (∀ pre m post, app = pre ++ m :: post → m = newMeasure (endTick (ms ++ pre)) sig) ∧
        (pastCursor ct ms → app = []) ∧ pastCursor ct (ms ++ app) := by
  intro k
  induction k with
  | zero =>
    intro ms hne hk
    have hp : pastCursor ct ms := (pastCursor_iff ct ms).mpr ⟨hne, by simpa using hk⟩
    refine ⟨[], ?_, ?_, fun _ => rfl, by simpa using hp⟩
    · intro fuel hf
      obtain ⟨f, rfl⟩ : ∃ f, fuel = f + 1 := ⟨fuel - 1, by omega⟩
      rw [createMeasuresLoop_stop sig ct f ms hp, List.append_nil]
    · intro pre m post h
      exact absurd h (by simp)
  | succ k ih =>
    intro ms hne hk
    by_cases hp : pastCursor ct ms
    · refine ⟨[], ?_, ?_, fun _ => rfl, by simpa using hp⟩
      · intro fuel hf
        obtain ⟨f, rfl⟩ : ∃ f, fuel = f + 1 := ⟨fuel - 1, by omega⟩
        rw [createMeasuresLoop_stop sig ct f ms hp, List.append_nil]
      · intro pre m post h
        exact absurd h (by simp)
    · have hk2 : ct - endTick (ms ++ [newMeasure (endTick ms) sig]) < k * sig := by
        rw [endTick_concat]
        simp only [newMeasure]
        push_cast at hk
        linarith
      obtain ⟨app, h1, h2, _, h4⟩ := ih (ms ++ [newMeasure (endTick ms) sig]) (by simp) hk2
      refine ⟨newMeasure (endTick ms) sig :: app, ?_, ?_, fun h => absurd h hp, by simpa using h4⟩
      · intro fuel hf
        obtain ⟨f, rfl⟩ : ∃ f, fuel = f + 1 := ⟨fuel - 1, by omega⟩
        rw [createMeasuresLoop_go sig ct f ms hp, h1 f (by omega)]
        simp
      · intro pre m post h
        cases pre with
        | nil =>
          simp only [List.nil_append, List.cons.injEq] at h
          rw [← h.1, List.append_nil]
        | cons p pre =>
          simp only [List.cons_append, List.cons.injEq] at h
          have := h2 pre m post h.2
          rw [this, ← h.1]
          simp

theorem createMeasuresLoop_spec (sig ct : Fraction) (hsig : 0 < sig) (ms : List Measure) :
    ∃ (n : Nat) (app : List Measure),
      (∀ fuel, n ≤ fuel → createMeasuresLoop sig ct fuel ms = some (ms ++ app)) ∧
      (∀ pre m post, app = pre ++ m :: post → m = newMeasure (endTick (ms ++ pre)) sig) ∧
      (pastCursor ct ms → app = []) ∧ pastCursor ct (ms ++ app) := by
  by_cases hne : ms = []
  · subst hne
    obtain ⟨k, hk⟩ := exists_nat_gt ((ct - endTick [newMeasure 0 sig]) / sig)
    have hk2 : ct - endTick ([] ++ [newMeasure (endTick []) sig]) < k * sig := by
      have : ct - endTick [newMeasure 0 sig] < k * sig := (div_lt_iff₀ hsig).mp hk
      simpa [endTick] using this
    have hnp : ¬ pastCursor ct [] := by
      rw [pastCursor_iff]; simp
    obtain ⟨app, h1, h2, _, h4⟩ :=
      createMeasuresLoop_nonempty sig ct k ([] ++ [newMeasure (endTick []) sig]) (by simp) hk2
    refine ⟨k + 2, newMeasure (endTick []) sig :: app, ?_, ?_, fun h => absurd h hnp,
      by simpa using h4⟩
    · intro fuel hf
      obtain ⟨f, rfl⟩ : ∃ f, fuel = f + 1 := ⟨fuel - 1, by omega⟩
      rw [createMeasuresLoop_go sig ct f [] hnp, h1 f (by omega)]
      simp
    · intro pre m post h
      cases pre with
      | nil =>
        simp only [List.nil_append, List.cons.injEq] at h
        rw [← h.1, List.append_nil]
      | cons p pre =>
        simp only [List.cons_append, List.cons.injEq] at h
        have := h2 pre m post h.2
        rw [this, ← h.1]
        simp
  · obtain ⟨k, hk⟩ := exists_nat_gt ((ct - endTick ms) / sig)
    obtain ⟨app, h1, h2, h3, h4⟩ :=
      createMeasuresLoop_nonempty sig ct k ms hne ((div_lt_iff₀ hsig).mp hk)
    exact ⟨k + 1, app, h1, h2, h3, h4⟩

/-- C30: for a cursor with a positive time signature `MCursor::createMeasures`
terminates: with enough fuel the loop returns, and the score it leaves has the
measures it had and behind them measures `app` of which each has the length
and time signature `_sig` and starts at the end tick of the last measure
before it (tick 0 on an empty score); `app` is empty when the last measure
already ends behind the cursor tick, and on return the last measure ends
strictly behind the cursor tick. -/
theorem createMeasures_terminates (c : MCursor) (hsig : 0 < c.sig) :
    ∃ (n : Nat) (app : List Measure),
      (∀ fuel, n ≤ fuel →
        c.createMeasures fuel
          = some { c with score := { measures := c.score.measures ++ app } }) ∧
      (∀ pre m post, app = pre ++ m :: post →
        m.ticks = c.sig ∧ m.timesig = c.sig ∧ m.tick = endTick (c.score.measures ++ pre)) ∧
      (pastCursor c.tick c.score.measures → app = []) ∧
      pastCursor c.tick (c.score.measures ++ app) := by
  obtain ⟨n, app, h1, h2, h3, h4⟩ := createMeasuresLoop_spec c.sig c.tick hsig c.score.measures
  refine ⟨n, app, ?_, ?_, h3, h4⟩
  · intro fuel hf
    simp [MCursor.createMeasures, h1 fuel hf]
  · intro pre m post h
    rw [h2 pre m post h]
    exact ⟨rfl, rfl, rfl⟩

/-- Witness of C30: a new cursor (track 0, tick 0) with the time signature 4/4
on an empty score. -/
theorem createMeasures_terminates_witness :
    (0 : Fraction) < 1 ∧
      ∃ (n : Nat) (app : List Measure),
        (∀ fuel, n ≤ fuel →
          MCursor.createMeasures fuel
              { score := { measures := [] }, tick := 0, track := 0, sig := 1 }
            = some { score := { measures := [] ++ app }, tick := 0, track := 0, sig := 1 }) ∧
        (∀ pre m post, app = pre ++ m :: post →
          m.ticks = 1 ∧ m.timesig = 1 ∧ m.tick = endTick ([] ++ pre)) ∧
        (pastCursor 0 [] → app = []) ∧ pastCursor 0 ([] ++ app) :=
  ⟨by norm_num,
   createMeasures_terminates { score := { measures := [] }, tick := 0, track := 0, sig := 1 }
     (by norm_num)⟩

end Cursor

/-! ### The cursor: `MCursor::addChord` -/

namespace Cursor

theorem chain_init (init : List Measure) (last : Measure) (h : Chain (init ++ [last])) :
    Chain init ∧ last.tick = endTick init := by
  constructor
  · intro pre m post hd
    exact h pre m (post ++ [last]) (by rw [hd]; simp)
  · exact h init last [] rfl

theorem exists_holds (t : Fraction) (ht : 0 ≤ t) :
    ∀ ms : List Measure, Chain ms → pastCursor t ms → ∃ m ∈ ms, m.holds t = true := by
  intro ms
  induction ms using List.reverseRecOn with
  | nil =>
    intro _ hp
    rw [pastCursor_iff] at hp
    exact absurd rfl hp.1
  | append_singleton init last ih =>
    intro hc hp
    obtain ⟨hci, hlast⟩ := chain_init init last hc
    rw [pastCursor_iff, endTick_concat] at hp
    by_cases hle : last.tick ≤ t
    · exact ⟨last, by simp, by simp [Measure.holds, hle, hp.2]⟩
    · have hlt : t < endTick init := by rw [← hlast]; exact lt_of_not_le hle
      have hne : init ≠ [] := by
        intro hnil
        rw [hnil] at hlt
        have h0 : endTick ([] : List Measure) = 0 := rfl
        rw [h0] at hlt
        exact absurd ht (not_le.mpr hlt)
      obtain ⟨m, hm, hh⟩ := ih hci ((pastCursor_iff t init).mpr ⟨hne, hlt⟩)
      exact ⟨m, by simp [hm], hh⟩

theorem chain_append (sig : Fraction) (ms app : List Measure) (hc : Chain ms)
    (happ : ∀ pre m post, app = pre ++ m :: post → m = newMeasure (endTick (ms ++ pre)) sig) :
    Chain (ms ++ app) := by
  intro pre m post hd
  rcases List.append_eq_append_iff.mp hd with ⟨a, ha, hb⟩ | ⟨a, ha, hb⟩
  · -- pre = ms ++ a, app = a ++ m :: post
    rw [ha, happ a m post hb]
    rfl
  · -- ms = pre ++ a, m :: post = a ++ app
    cases a with
    | nil =>
      simp only [List.nil_append] at hb
      simp only [List.append_nil] at ha
      rw [← ha, happ [] m post hb.symm, List.append_nil]
      rfl
    | cons x a =>
      simp only [List.cons_append, List.cons.injEq] at hb
      rw [hb.1]
      exact hc pre x a ha

theorem slot_append (ms app : List Measure) (happ : ∀ m ∈ app, m.segments = [])
    (t : Fraction) (track : Int) : slot (ms ++ app) t track = slot ms t track := by
  unfold slot tick2measure
  rw [List.find?_append]
  cases h : ms.find? (fun m => m.holds t) with
  | some m => rfl
  | none =>
    simp only [Option.none_or, Option.none_bind]
    cases h2 : app.find? (fun m => m.holds t) with
    | none => rfl
    | some m =>
      have hm : m ∈ app := List.mem_of_find?_eq_some h2
      simp [Measure.findSegment, happ m hm]

theorem getSegment_element (m : Measure) (t : Fraction) (track : Int) :
    (m.getSegment t).element track = (m.findSegment t).bind (fun s => s.element track) := by
  unfold Measure.getSegment
  cases m.findSegment t <;> rfl

theorem getSegment_tick (m : Measure) (t : Fraction) : (m.getSegment t).tick = t := by
  unfold Measure.getSegment
  cases h : m.findSegment t with
  | none => rfl
  | some s =>
    have := List.find?_some h
    simpa using this

theorem find_storeSegment_same (seg : Segment) (segs : List Segment) :
    (storeSegment seg segs).find? (fun s => decide (s.tick = seg.tick)) = some seg := by
  induction segs with
  | nil => simp [storeSegment]
  | cons s rest ih =>
    unfold storeSegment
    by_cases h1 : s.tick < seg.tick
    · rw [if_pos h1]
      have hne : ¬ (s.tick = seg.tick) := ne_of_lt h1
      simp only [List.find?_cons, hne, decide_False]
      exact ih
    · rw [if_neg h1]
      by_cases h2 : s.tick = seg.tick
      · rw [if_pos h2]; simp
      · rw [if_neg h2]; simp

theorem find_storeSegment_other (seg : Segment) (t : Fraction) (ht : t ≠ seg.tick)
    (segs : List Segment) :
    (storeSegment seg segs).find? (fun s => decide (s.tick = t))
      = segs.find? (fun s => decide (s.tick = t)) := by
  have hseg : ¬ (seg.tick = t) := fun h => ht h.symm
  induction segs with
  | nil => simp [storeSegment, hseg]
  | cons s rest ih =>
    unfold storeSegment
    by_cases h1 : s.tick < seg.tick
    · rw [if_pos h1]
      by_cases hs : s.tick = t
      · simp [List.find?_cons, hs]
      · simp only [List.find?_cons, hs, decide_False]
        exact ih
    · rw [if_neg h1]
      by_cases h2 : s.tick = seg.tick
      · rw [if_pos h2]
        have hs : ¬ (s.tick = t) := by rw [h2]; exact hseg
        simp [List.find?_cons, hs, hseg]
      · rw [if_neg h2]
        simp [List.find?_cons, hseg]

/-- The slots of the measure with the segment of `getSegment`, holding `item`
on `track`, written back. -/
theorem slot_storeSegment (m : Measure) (t : Fraction) (track : Int) (item : Item)
    (t2 : Fraction) (track2 : Int) :
    (Measure.findSegment (m.store ((m.getSegment t).setElement track item)) t2).bind
        (fun s => s.element track2)
      = if t2 = t ∧ track2 = track then some item
        else (m.findSegment t2).bind (fun s => s.element track2) := by
  have htick : ((m.getSegment t).setElement track item).tick = t := getSegment_tick m t
  by_cases ht : t2 = t
  · subst ht
    have hfind := find_storeSegment_same ((m.getSegment t2).setElement track item) m.segments
    rw [htick] at hfind
    unfold Measure.findSegment Measure.store
    simp only
    rw [hfind]
    by_cases htr : track2 = track
    · subst htr
      simp [Segment.setElement]
    · have hg := getSegment_element m t2 track2
      unfold Measure.findSegment at hg
      simp [Segment.setElement, Function.update_noteq htr, htr, hg]
  · have hfind := find_storeSegment_other ((m.getSegment t).setElement track item) t2
      (by rw [htick]; exact ht) m.segments
    unfold Measure.findSegment Measure.store
    simp only
    rw [hfind]
    simp [ht]

theorem tick2measure_store (t : Fraction) (f : Measure → Measure)
    (hf : ∀ m t2, (f m).holds t2 = m.holds t2) (ms : List Measure) :
    tick2measure (storeMeasure t f ms) t = (tick2measure ms t).map f := by
  unfold tick2measure
  induction ms with
  | nil => rfl
  | cons m rest ih =>
    unfold storeMeasure
    by_cases h : m.holds t = true
    · rw [if_pos h]
      simp [List.find?_cons, hf, h]
    · rw [if_neg h]
      simp only [List.find?_cons, h]
      exact ih

/-- The slots of the list after `f` was applied to the measure `m0` that
`tick2measure` finds for `t`: a slot that `f` leaves as it is in `m0` is left
as it is in the list. -/
theorem slot_storeMeasure (t : Fraction) (f : Measure → Measure)
    (hf : ∀ m t2, (f m).holds t2 = m.holds t2) (m0 : Measure) (t2 : Fraction) (track2 : Int)
    (hslot : ((f m0).findSegment t2).bind (fun s => s.element track2)
      = (m0.findSegment t2).bind (fun s => s.element track2)) :
    ∀ ms : List Measure, tick2measure ms t = some m0 →
      slot (storeMeasure t f ms) t2 track2 = slot ms t2 track2 := by
  intro ms
  unfold slot tick2measure
  induction ms with
  | nil => intro _; rfl
  | cons m rest ih =>
    intro hfind
    unfold storeMeasure
    by_cases h : m.holds t = true
    · rw [if_pos h]
      have hm : m = m0 := by
        simpa [List.find?_cons, h] using hfind
      subst hm
      by_cases h2 : m.holds t2 = true
      · simp only [List.find?_cons, hf, h2, Option.some_bind]
        exact hslot
      · simp only [List.find?_cons, hf, h2]
    · rw [if_neg h]
      have hrest : List.find? (fun m => m.holds t) rest = some m0 := by
        simpa [List.find?_cons, h] using hfind
      by_cases h2 : m.holds t2 = true
      · simp only [List.find?_cons, h2]
      · simp only [List.find?_cons, h2]
        exact ih hrest

end Cursor

namespace Cursor

theorem holds_store (seg : Segment) (m : Measure) (t2 : Fraction) :
    (m.store seg).holds t2 = m.holds t2 := rfl

/-- The element `addChord` adds the note to: the element found, or a new
chord. -/
theorem addChord_found (assertions : Bool) (fuel : Nat) (c : MCursor) (pitch : Int)
    (duration : TDuration) (ms1 : List Measure) (m0 : Measure) (found : Option Item)
    (hcreate : c.createMeasures fuel = some { c with score := { measures := ms1 } })
    (hm : tick2measure ms1 c.tick = some m0)
    (hto : toChord assertions ((m0.getSegment c.tick).element c.track) = some found) :
    c.addChord assertions fuel pitch duration
      = some (MCursor.mk
                (MasterScore.mk (storeMeasure c.tick
                  (fun m => m.store ((m0.getSegment c.tick).setElement c.track
                    (Item.add (found.getD (Item.chord (newChord c.track duration)))
                      { pitch := pitch })))
                  ms1))
                (c.tick + duration.ticks) c.track c.sig,
              Item.add (found.getD (Item.chord (newChord c.track duration)))
                { pitch := pitch }) := by
  unfold MCursor.addChord
  rw [hcreate]
  simp only
  rw [hm]
  simp only
  rw [hto]
  cases found <;> rfl

theorem addChord_assert (assertions : Bool) (fuel : Nat) (c : MCursor) (pitch : Int)
    (duration : TDuration) (ms1 : List Measure) (m0 : Measure)
    (hcreate : c.createMeasures fuel = some { c with score := { measures := ms1 } })
    (hm : tick2measure ms1 c.tick = some m0)
    (hto : toChord assertions ((m0.getSegment c.tick).element c.track) = none) :
    c.addChord assertions fuel pitch duration = none := by
  unfold MCursor.addChord
  rw [hcreate]
  simp only
  rw [hm]
  simp only
  rw [hto]

/-- The score after the element was written back: the slot of the cursor holds
the element and every other slot holds what it held. -/
theorem slot_after_store (ms1 : List Measure) (m0 : Measure) (t : Fraction) (track : Int)
    (item : Item) (hm : tick2measure ms1 t = some m0) (t2 : Fraction) (track2 : Int) :
    slot (storeMeasure t (fun m => m.store ((m0.getSegment t).setElement track item)) ms1)
        t2 track2
      = if t2 = t ∧ track2 = track then some item else slot ms1 t2 track2 := by
  by_cases h : t2 = t ∧ track2 = track
  · rw [if_pos h]
    obtain ⟨h1, h2⟩ := h
    subst h1 h2
    unfold slot
    rw [tick2measure_store t2 _ (fun m x => holds_store _ m x) ms1, hm]
    simp only [Option.map_some', Option.some_bind]
    rw [slot_storeSegment m0 t2 track2 item t2 track2]
    simp
  · rw [if_neg h]
    apply slot_storeMeasure t _ (fun m x => holds_store _ m x) m0 t2 track2 _ ms1 hm
    rw [slot_storeSegment m0 t track item t2 track2, if_neg h]

/-- The slots that `toChord` accepts: for a cursor with a positive time
signature and a tick that is not negative, on a score whose measures form a
chain from tick 0, `MCursor::addChord` returns, with or without assertions.
When the slot of the cursor track in the ChordRest segment at the cursor tick
holds a chord, the note is added to that chord, which stays in the slot; when
the slot is empty, one chord with the given duration, holding the note, is put
into it.  In both cases every other slot holds what it held, the cursor tick
goes on by `duration.ticks()` and the cursor track stays. -/
theorem addChord_chord_or_empty (assertions : Bool) (c : MCursor) (pitch : Int)
    (duration : TDuration)
    (hsig : 0 < c.sig) (htick : 0 ≤ c.tick) (hchain : Chain c.score.measures) :
    ∃ (n : Nat) (ms1 : List Measure),
      (∀ fuel, n ≤ fuel →
        c.createMeasures fuel = some { c with score := { measures := ms1 } }) ∧
      (∀ ch, slot c.score.measures c.tick c.track = some (Item.chord ch) →
        ∃ ms2 : List Measure,
          (∀ fuel, n ≤ fuel →
            c.addChord assertions fuel pitch duration
              = some ({ score := { measures := ms2 }, tick := c.tick + duration.ticks,
                        track := c.track, sig := c.sig },
                      Item.chord (ch.add { pitch := pitch }))) ∧
          slot ms2 c.tick c.track = some (Item.chord (ch.add { pitch := pitch })) ∧
          ∀ t track, ¬ (t = c.tick ∧ track = c.track) →
            slot ms2 t track = slot c.score.measures t track) ∧
      (slot c.score.measures c.tick c.track = none →
        ∃ ms2 : List Measure,
          (∀ fuel, n ≤ fuel →
            c.addChord assertions fuel pitch duration
              = some ({ score := { measures := ms2 }, tick := c.tick + duration.ticks,
                        track := c.track, sig := c.sig },
                      Item.chord ((newChord c.track duration).add { pitch := pitch }))) ∧
          slot ms2 c.tick c.track
            = some (Item.chord ((newChord c.track duration).add { pitch := pitch })) ∧
          ∀ t track, ¬ (t = c.tick ∧ track = c.track) →
            slot ms2 t track = slot c.score.measures t track) := by
  obtain ⟨n, app, h1, h2, _, h4⟩ := createMeasuresLoop_spec c.sig c.tick hsig c.score.measures
  have hcreate : ∀ fuel, n ≤ fuel →
      c.createMeasures fuel = some { c with score := { measures := c.score.measures ++ app } } := by
    intro fuel hf
    simp [MCursor.createMeasures, h1 fuel hf]
  have hchain1 : Chain (c.score.measures ++ app) := chain_append c.sig _ _ hchain h2
  obtain ⟨mh, hmem, hholds⟩ := exists_holds c.tick htick _ hchain1 h4
  have hsome : (tick2measure (c.score.measures ++ app) c.tick).isSome = true := by
    unfold tick2measure
    rw [List.find?_isSome]
    exact ⟨mh, hmem, hholds⟩
  obtain ⟨m0, hm0⟩ := Option.isSome_iff_exists.mp hsome
  have happ : ∀ m ∈ app, m.segments = [] := by
    intro m hm
    obtain ⟨pre, post, hd⟩ := List.append_of_mem hm
    rw [h2 pre m post hd]
    rfl
  have hslot1 : ∀ t track, slot (c.score.measures ++ app) t track
      = slot c.score.measures t track := fun t track => slot_append _ _ happ t track
  have helem : (m0.getSegment c.tick).element c.track = slot c.score.measures c.tick c.track := by
    rw [getSegment_element, ← hslot1]
    unfold slot
    rw [hm0]
    rfl
  refine ⟨n, c.score.measures ++ app, hcreate, ?_, ?_⟩
  · intro ch hch
    have hto : toChord assertions ((m0.getSegment c.tick).element c.track)
        = some (some (Item.chord ch)) := by
      rw [helem, hch]; rfl
    refine ⟨_, fun fuel hf =>
      addChord_found assertions fuel c pitch duration _ m0 (some (Item.chord ch))
        (hcreate fuel hf) hm0 hto, ?_, ?_⟩
    · rw [slot_after_store _ m0 c.tick c.track _ hm0 c.tick c.track]
      simp [Item.add]
    · intro t track hne
      rw [slot_after_store _ m0 c.tick c.track _ hm0 t track, if_neg hne, hslot1]
  · intro hnone
    have hto : toChord assertions ((m0.getSegment c.tick).element c.track) = some none := by
      rw [helem, hnone]; rfl
    refine ⟨_, fun fuel hf =>
      addChord_found assertions fuel c pitch duration _ m0 none (hcreate fuel hf) hm0 hto,
      ?_, ?_⟩
    · rw [slot_after_store _ m0 c.tick c.track _ hm0 c.tick c.track]
      simp [Item.add]
    · intro t track hne
      rw [slot_after_store _ m0 c.tick c.track _ hm0 t track, if_neg hne, hslot1]

/-- The case of a chord in the slot and the case of an empty slot, on concrete
cursors: on `chordCursor` the note 60 joins the chord that holds the note 64,
and on `emptyCursor` a quarter chord with the note 60 is created. -/
theorem addChord_examples (assertions : Bool) :
    (chordCursor.addChord assertions 1 60 quarter).map
        (fun r => (r.1.tick, r.1.track, r.2, slot r.1.score.measures 0 0))
      = some (1 / 4, 0,
          Item.chord { track := 0,
                       durationType := { type := DurationType.V_HALF, fraction := 1 / 2,
                                         ticks := 1 / 2 },
                       ticks := 1 / 2, notes := [{ pitch := 64 }, { pitch := 60 }] },
          some (Item.chord { track := 0,
                             durationType := { type := DurationType.V_HALF, fraction := 1 / 2,
                                               ticks := 1 / 2 },
                             ticks := 1 / 2, notes := [{ pitch := 64 }, { pitch := 60 }] })) ∧
      (emptyCursor.addChord assertions 2 60 quarter).map
          (fun r => (r.1.tick, r.1.track, r.2, slot r.1.score.measures 0 0))
        = some (1 / 4, 0,
            Item.chord { track := 0, durationType := quarter, ticks := 1 / 4,
                         notes := [{ pitch := 60 }] },
            some (Item.chord { track := 0, durationType := quarter, ticks := 1 / 4,
                               notes := [{ pitch := 60 }] })) := by
  constructor
  · have hc : chordCursor.createMeasures 1 = some chordCursor := by
      simp [chordCursor, MCursor.createMeasures, createMeasuresLoop]
    unfold MCursor.addChord
    rw [hc]
    simp [chordCursor, tick2measure, Measure.holds, Measure.getSegment, Measure.findSegment,
      toChord, Item.add, Chord.add, slot, storeMeasure, Measure.store, storeSegment,
      Segment.setElement, quarter]
  · have hc : emptyCursor.createMeasures 2
        = some { emptyCursor with score := { measures := [newMeasure 0 1] } } := by
      simp [emptyCursor, MCursor.createMeasures, createMeasuresLoop, newMeasure]
    unfold MCursor.addChord
    rw [hc]
    simp [emptyCursor, newMeasure, tick2measure, Measure.holds, Measure.getSegment,
      Measure.findSegment, toChord, Item.add, Chord.add, newChord, slot, storeMeasure,
      Measure.store, storeSegment, Segment.setElement, quarter]

end Cursor

/-! ### The measure loop of `Score::write` -/

namespace Scorefile

theorem writeMeasure_writes (sc : Score) (xml : StaffWriter) (m : MeasureBase) (staffIdx : Int)
    (w f : Bool) :
    (writeMeasure sc xml m staffIdx w f).writes = xml.writes ++ writesOf sc staffIdx w ⟨m, f⟩ := by
  unfold writeMeasure writesOf
  by_cases h1 : (m.isMeasure || staffIdx == 0) = true <;>
  by_cases h2 : (sc.createMultiMeasureRests && m.isMeasure) = true <;>
  cases h3 : m.mmRest <;> simp [h1, h2, h3]

theorem passedCalls_cons (selectionOnly fmw force : Bool) (m : MeasureBase)
    (rest : List MeasureBase) :
    passedCalls selectionOnly fmw force (m :: rest)
      = if selectionOnly && m.isMeasure then
          if !fmw then ⟨m, true⟩ :: passedCalls selectionOnly true true rest
          else ⟨m, false⟩ :: passedCalls selectionOnly fmw false rest
        else ⟨m, force⟩ :: passedCalls selectionOnly fmw force rest := by
  rw [passedCalls]

theorem foldl_writeStep (sc : Score) (selectionOnly : Bool) (staffIdx : Int) (w : Bool)
    (range : List MeasureBase) :
    ∀ st : MeasureLoop,
      (range.foldl (writeStep sc selectionOnly staffIdx w) st).calls
          = st.calls ++ passedCalls selectionOnly st.firstMeasureWritten st.forceTimeSig range ∧
        (range.foldl (writeStep sc selectionOnly staffIdx w) st).xml.writes
          = st.xml.writes
            ++ (passedCalls selectionOnly st.firstMeasureWritten st.forceTimeSig range).flatMap
                (writesOf sc staffIdx w) := by
  induction range with
  | nil => intro st; simp [passedCalls]
  | cons m rest ih =>
    intro st
    rw [List.foldl_cons]
    obtain ⟨h1, h2⟩ := ih (writeStep sc selectionOnly staffIdx w st m)
    rw [h1, h2]
    rw [passedCalls_cons]
    unfold writeStep
    by_cases hs : (selectionOnly && m.isMeasure) = true
    · by_cases hf : st.firstMeasureWritten = true
      · simp [hs, hf, writeMeasure_writes, List.append_assoc]
      · simp [hs, hf, writeMeasure_writes, List.append_assoc]
    · simp [hs, writeMeasure_writes, List.append_assoc]

theorem passedCalls_map (selectionOnly : Bool) (range : List MeasureBase) :
    ∀ fmw force, (passedCalls selectionOnly fmw force range).map (fun c => c.m) = range := by
  induction range with
  | nil => intro fmw force; rfl
  | cons m rest ih =>
    intro fmw force
    rw [passedCalls_cons]
    by_cases hs : (selectionOnly && m.isMeasure) = true
    · by_cases hf : fmw = true
      · simp [hs, hf, ih]
      · simp [hs, hf, ih]
    · simp [hs, ih]

theorem passedCalls_flag (selectionOnly : Bool) (pre : List MeasureBase) :
    ∀ (fmw force : Bool) (m : MeasureBase) (post : List MeasureBase), m.isMeasure = true →
      (passedCalls selectionOnly fmw force (pre ++ m :: post))[pre.length]?
        = some ⟨m, if selectionOnly then !fmw && pre.all (fun x => !x.isMeasure) else force⟩ := by
  induction pre with
  | nil =>
    intro fmw force m post hm
    rw [List.nil_append, passedCalls_cons]
    cases selectionOnly <;> cases fmw <;> simp [hm]
  | cons x pre ih =>
    intro fmw force m post hm
    rw [List.cons_append, passedCalls_cons]
    by_cases hs : (selectionOnly && x.isMeasure) = true
    · rw [if_pos hs]
      have hsel : selectionOnly = true := by
        cases selectionOnly
        · simp at hs
        · rfl
      have hx : x.isMeasure = true := by
        cases h : x.isMeasure
        · rw [h] at hs; simp at hs
        · rfl
      cases fmw
      · simp only [Bool.not_false, if_true, List.length_cons, List.getElem?_cons_succ]
        rw [ih true true m post hm]
        simp [hsel, hx]
      · simp only [Bool.not_true, Bool.false_eq_true, if_false, List.length_cons,
          List.getElem?_cons_succ]
        rw [ih true false m post hm]
        simp [hsel]
    · rw [if_neg hs]
      simp only [List.length_cons, List.getElem?_cons_succ]
      rw [ih fmw force m post hm]
      cases hsel : selectionOnly
      · simp
      · have hx : x.isMeasure = false := by
          cases h : x.isMeasure
          · rfl
          · rw [hsel, h] at hs; simp at hs
        simp [hx]

theorem passedCalls_count (selectionOnly : Bool) (range : List MeasureBase) :
    ∀ fmw force, (selectionOnly = false → force = false) →
      ((passedCalls selectionOnly fmw force range).filter
          (fun c => c.m.isMeasure && c.forceTimeSig)).length
        ≤ if selectionOnly && !fmw then 1 else 0 := by
  induction range with
  | nil => intro fmw force _; simp [passedCalls]
  | cons m rest ih =>
    intro fmw force hforce
    rw [passedCalls_cons]
    by_cases hs : (selectionOnly && m.isMeasure) = true
    · have hsel : selectionOnly = true := by
        cases selectionOnly <;> simp_all
      have hx : m.isMeasure = true := by
        cases h : m.isMeasure <;> simp_all
      by_cases hf : fmw = true
      · have := ih fmw false (fun _ => rfl)
        simp only [hsel, hf] at this
        simpa [hs, hf, hsel, hx] using this
      · have := ih true true (fun h => by rw [hsel] at h; exact absurd h (by simp))
        simp only [hsel] at this
        have hf2 : fmw = false := by cases fmw <;> simp_all
        simp [hs, hf2, hsel, hx] at this ⊢
        exact this
    · rw [if_neg hs]
      have := ih fmw force hforce
      cases hsel : selectionOnly
      · have hfo := hforce hsel
        simp only [hsel, hfo] at this ⊢
        simpa [List.filter_cons] using this
      · have hx : m.isMeasure = false := by
          cases h : m.isMeasure <;> simp_all
        simp only [hsel] at this ⊢
        simpa [List.filter_cons, hx] using this

/-- C26, amended: in the measure loop of `Score::write` for a staff,
`writeMeasure` is called once for every measure base of the range, in order;
the flag `forceTimeSig` passed for a measure is true exactly if
`selectionOnly` is set and no measure precedes it in the range, so it is false
for every later measure and for every measure when the whole score is written,
and at most one call for a measure carries the flag.  Each call hands its flag
to the `write` of the measure base and, when the score creates multi-measure
rests, also to the `write` of the multi-measure rest linked to the measure. -/
theorem writeStaff_forceTimeSig (sc : Score) (selectionOnly : Bool) (staffStart staffIdx : Int)
    (startTick : Fraction) (xml : StaffWriter) (range : List MeasureBase) :
    (writeStaff sc selectionOnly staffStart staffIdx startTick xml range).calls.map
        (fun c => c.m) = range ∧
      (∀ pre m post, range = pre ++ m :: post → m.isMeasure = true →
        (writeStaff sc selectionOnly staffStart staffIdx startTick xml range).calls[pre.length]?
          = some ⟨m, selectionOnly && pre.all (fun x => !x.isMeasure)⟩) ∧
      ((writeStaff sc selectionOnly staffStart staffIdx startTick xml range).calls.filter
          (fun c => c.m.isMeasure && c.forceTimeSig)).length ≤ 1 ∧
      (writeStaff sc selectionOnly staffStart staffIdx startTick xml range).xml.writes
        = xml.writes
          ++ (writeStaff sc selectionOnly staffStart staffIdx startTick xml range).calls.flatMap
              (writesOf sc staffIdx (decide (staffIdx = staffStart))) := by
  obtain ⟨hc, hw⟩ := foldl_writeStep sc selectionOnly staffIdx (decide (staffIdx = staffStart))
    range { firstMeasureWritten := false, forceTimeSig := false,
            xml := { xml with curTick := startTick }, calls := [] }
  simp only [List.nil_append] at hc hw
  unfold writeStaff
  rw [hc, hw]
  refine ⟨passedCalls_map selectionOnly range false false, ?_, ?_, rfl⟩
  · intro pre m post hr hm
    rw [hr, passedCalls_flag selectionOnly pre false false m post hm]
    cases selectionOnly <;> simp
  · have := passedCalls_count selectionOnly range false false (fun _ => rfl)
    refine le_trans this ?_
    cases selectionOnly <;> simp

/-- Witness of C26: the first measure of the selection `mmSelection` is written
with the flag set. -/
theorem writeStaff_forceTimeSig_witness :
    mmSelection
        = [] ++ { id := 0, isMeasure := true, mmRest := some 7, endTick := 1 }
          :: [{ id := 1, isMeasure := true, mmRest := none, endTick := 2 }] ∧
      (writeStaff mmScore true 0 0 0 ⟨0, []⟩ mmSelection).calls[0]?
        = some ⟨{ id := 0, isMeasure := true, mmRest := some 7, endTick := 1 },
            true && ([] : List MeasureBase).all (fun x => !x.isMeasure)⟩ :=
  ⟨rfl,
   (writeStaff_forceTimeSig mmScore true 0 0 0 ⟨0, []⟩ mmSelection).2.1 []
     { id := 0, isMeasure := true, mmRest := some 7, endTick := 1 }
     [{ id := 1, isMeasure := true, mmRest := none, endTick := 2 }] rfl rfl⟩

/-- Counterexample to C26 as stated: a selection is written for a score that
creates multi-measure rests, and the first measure of the selection has a
multi-measure rest linked to it.  The one call of `writeMeasure` that carries
the flag writes two measures with `forceTimeSig` set: measure 0 and its
multi-measure rest 7. -/
theorem writeStaff_mmRest_forced :
    (writeStaff mmScore true 0 0 0 ⟨0, []⟩ mmSelection).xml.writes
      = [⟨0, 0, true, true⟩, ⟨7, 0, true, true⟩, ⟨1, 0, true, false⟩] := by
  simp [writeStaff, writeStep, writeMeasure, mmScore, mmSelection]

end Scorefile

/-! ### Reading the first staff -/

namespace ReadStaff

theorem readStaff_append (e : XmlReader) (ms : List MeasureBase) (pre : List Tag) (t : Tag) :
    readStaff e ms (pre ++ [t]) = readStep (readStaff e ms pre) t := by
  simp [readStaff, List.foldl_append]

theorem lastMeasure_eq_some (ms : List MeasureBase) (e : XmlReader) (m1 : MeasureData)
    (h : lastMeasure ms e = some m1) :
    ∃ i old, e.lastMeasure = some i ∧ ms[i]? = some (MeasureBase.measure m1 old) := by
  unfold lastMeasure at h
  cases hl : e.lastMeasure with
  | none => rw [hl] at h; simp at h
  | some i =>
    rw [hl] at h
    simp only at h
    cases hg : ms[i]? with
    | none => rw [hg] at h; simp at h
    | some x =>
      rw [hg] at h
      cases x with
      | box t => simp at h
      | measure m old =>
        simp only [Option.some.injEq] at h
        exact ⟨i, old, rfl, by rw [← h]; exact hg⟩

theorem readStep_mmRest_linked (st : ReadState)
    (read : MeasureData → XmlReader → MeasureData × XmlReader)
    (hmm : (readMeasure st read).1.isMMRest = true) (i : Nat) (m1 : MeasureData)
    (old : Option MeasureData) (hi : (readMeasure st read).2.lastMeasure = some i)
    (hg : st.measures[i]? = some (MeasureBase.measure m1 old)) :
    readStep st (Tag.measure read)
      = { e := (readMeasure st read).2, measureIdx := st.measureIdx + 1,
          measures := st.measures.set i
            (MeasureBase.measure m1 (some ((readMeasure st read).1.setTick m1.tick))) } := by
  have hl : lastMeasure st.measures (readMeasure st read).2 = some m1 := by
    simp [lastMeasure, hi, hg]
  simp [readStep, hmm, hi, hl, setMMRest, hg]

theorem readStep_mmRest_dropped (st : ReadState)
    (read : MeasureData → XmlReader → MeasureData × XmlReader)
    (hmm : (readMeasure st read).1.isMMRest = true)
    (hl : lastMeasure st.measures (readMeasure st read).2 = none) :
    readStep st (Tag.measure read)
      = { e := (readMeasure st read).2, measureIdx := st.measureIdx + 1,
          measures := st.measures } := by
  unfold readStep
  simp only [hmm, Bool.not_true, Bool.false_eq_true, if_false, hl]
  cases (readMeasure st read).2.lastMeasure <;> rfl

theorem readStep_plain (st : ReadState)
    (read : MeasureData → XmlReader → MeasureData × XmlReader)
    (hplain : (readMeasure st read).1.isMMRest = false) :
    readStep st (Tag.measure read)
      = { e := { (readMeasure st read).2 with
                 lastMeasure := some st.measures.length,
                 tick := (readMeasure st read).1.tick + (readMeasure st read).1.ticks },
          measureIdx := st.measureIdx + 1,
          measures := st.measures ++ [MeasureBase.measure (readMeasure st read).1 none] } := by
  simp [readStep, hplain]

theorem readStep_linkInv (st : ReadState) (t : Tag) (h : LinkInv st.measures) :
    LinkInv (readStep st t).measures := by
  cases t with
  | unknown => exact h
  | tick val => exact h
  | box read =>
    intro m mm hmem
    simp only [readStep, List.mem_append, List.mem_singleton] at hmem
    rcases hmem with hmem | hmem
    · exact h m mm hmem
    · exact absurd hmem (by simp)
  | measure read =>
    cases hmm : (readMeasure st read).1.isMMRest with
    | false =>
      rw [readStep_plain st read hmm]
      intro m mm hmem
      simp only [List.mem_append, List.mem_singleton] at hmem
      rcases hmem with hmem | hmem
      · exact h m mm hmem
      · simp only [MeasureBase.measure.injEq] at hmem
        obtain ⟨h1, h2⟩ := hmem
        subst h1 h2
        exact ⟨hmm, fun r hr => absurd hr (by simp)⟩
    | true =>
      cases hl : lastMeasure st.measures (readMeasure st read).2 with
      | none =>
        rw [readStep_mmRest_dropped st read hmm hl]
        exact h
      | some m1 =>
        obtain ⟨i, old, hi, hg⟩ := lastMeasure_eq_some _ _ m1 hl
        rw [readStep_mmRest_linked st read hmm i m1 old hi hg]
        intro m mm hmem
        rcases List.mem_or_eq_of_mem_set hmem with hmem | hmem
        · exact h m mm hmem
        · simp only [MeasureBase.measure.injEq] at hmem
          obtain ⟨h1, h2⟩ := hmem
          subst h1 h2
          have hm1 : MeasureBase.measure m old ∈ st.measures := by
            obtain ⟨hlt, hget⟩ := List.getElem?_eq_some_iff.mp hg
            rw [← hget]
            exact List.getElem_mem hlt
          refine ⟨(h m old hm1).1, ?_⟩
          intro r hr
          simp only [Option.some.injEq] at hr
          subst hr
          exact ⟨hmm, rfl⟩

theorem foldl_linkInv (tags : List Tag) :
    ∀ st : ReadState, LinkInv st.measures → LinkInv (tags.foldl readStep st).measures := by
  induction tags with
  | nil => intro st h; exact h
  | cons t rest ih =>
    intro st h
    rw [List.foldl_cons]
    exact ih _ (readStep_linkInv st t h)

/-- C23, amended: when the branch `staff == 0` of `Score::readStaff` has read
a measure that is a multi-measure rest, the measure is not added to the
measure list, and `readStaff` leaves the reader as `Measure::read` left it:
it sets neither its tick nor its last measure.  If the reader has a last
measure, the last measure added to the list, the multi-measure rest is linked
from that measure, in place of what was linked there, and gets the tick of
that measure; if the reader has none, the multi-measure rest is linked from no
measure.  After the call every measure linked in the list is a multi-measure
rest with the tick of the measure it is linked from, and no measure of the
list is a multi-measure rest. -/
theorem readStaff_mmRest (e0 : XmlReader) (ms0 : List MeasureBase) (pre post : List Tag)
    (read : MeasureData → XmlReader → MeasureData × XmlReader) (hinv : LinkInv ms0)
    (hmm : (readMeasure (readStaff e0 ms0 pre) read).1.isMMRest = true) :
    (∀ i m1 old, (readMeasure (readStaff e0 ms0 pre) read).2.lastMeasure = some i →
        (readStaff e0 ms0 pre).measures[i]? = some (MeasureBase.measure m1 old) →
        (readStaff e0 ms0 (pre ++ [Tag.measure read])).measures
          = (readStaff e0 ms0 pre).measures.set i
              (MeasureBase.measure m1
                (some ((readMeasure (readStaff e0 ms0 pre) read).1.setTick m1.tick)))) ∧
      (lastMeasure (readStaff e0 ms0 pre).measures (readMeasure (readStaff e0 ms0 pre) read).2
          = none →
        (readStaff e0 ms0 (pre ++ [Tag.measure read])).measures
          = (readStaff e0 ms0 pre).measures) ∧
      (readStaff e0 ms0 (pre ++ [Tag.measure read])).measures.length
        = (readStaff e0 ms0 pre).measures.length ∧
      (readStaff e0 ms0 (pre ++ [Tag.measure read])).e
        = (readMeasure (readStaff e0 ms0 pre) read).2 ∧
      LinkInv (readStaff e0 ms0 (pre ++ Tag.measure read :: post)).measures := by
  rw [readStaff_append]
  refine ⟨?_, ?_, ?_, ?_, ?_⟩
  · intro i m1 old hi hg
    rw [readStep_mmRest_linked _ read hmm i m1 old hi hg]
  · intro hl
    rw [readStep_mmRest_dropped _ read hmm hl]
  · cases hl : lastMeasure (readStaff e0 ms0 pre).measures
        (readMeasure (readStaff e0 ms0 pre) read).2 with
    | none => rw [readStep_mmRest_dropped _ read hmm hl]
    | some m1 =>
      obtain ⟨i, old, hi, hg⟩ := lastMeasure_eq_some _ _ m1 hl
      rw [readStep_mmRest_linked _ read hmm i m1 old hi hg]
      simp
  · cases hl : lastMeasure (readStaff e0 ms0 pre).measures
        (readMeasure (readStaff e0 ms0 pre) read).2 with
    | none => rw [readStep_mmRest_dropped _ read hmm hl]
    | some m1 =>
      obtain ⟨i, old, hi, hg⟩ := lastMeasure_eq_some _ _ m1 hl
      rw [readStep_mmRest_linked _ read hmm i m1 old hi hg]
  · unfold readStaff
    exact foldl_linkInv _ _ hinv

/-- Witness of C23: a measure and, behind it, a multi-measure rest of two
measures, read into an empty score. -/
theorem readStaff_mmRest_witness :
    LinkInv [] ∧
      (readMeasure (readStaff newReader [] [Tag.measure readPlain]) (readMMRest 2)).1.isMMRest
        = true ∧
      (readStaff newReader [] ([Tag.measure readPlain] ++ [Tag.measure (readMMRest 2)])).measures.length
        = (readStaff newReader [] [Tag.measure readPlain]).measures.length ∧
      LinkInv
        (readStaff newReader [] ([Tag.measure readPlain] ++ Tag.measure (readMMRest 2) :: [])).measures :=
  have h1 : LinkInv [] := by
    intro m mm h
    simp at h
  have h2 : (readMeasure (readStaff newReader [] [Tag.measure readPlain])
      (readMMRest 2)).1.isMMRest = true := rfl
  ⟨h1, h2,
   (readStaff_mmRest newReader [] [Tag.measure readPlain] [] (readMMRest 2) h1 h2).2.2.1,
   (readStaff_mmRest newReader [] [Tag.measure readPlain] [] (readMMRest 2) h1 h2).2.2.2.2⟩

/-- Counterexample to C23 as stated: a multi-measure rest read first is linked
from no measure; and of two multi-measure rests read behind one measure the
second is linked from that measure, not from the measure read immediately
before it, and the first is linked from no measure after the call. -/
theorem readStaff_mmRest_unlinked :
    (readStaff newReader [] [Tag.measure (readMMRest 2)]).measures = [] ∧
      (readStaff newReader []
          [Tag.measure readPlain, Tag.measure (readMMRest 2), Tag.measure (readMMRest 3)]).measures
        = [MeasureBase.measure ⟨0, 1, 1, false⟩ (some ⟨0, 3, 1, true⟩)] := by
  constructor
  · simp [readStaff, readStep, readMeasure, readMMRest, newReader, lastMeasure, enterMeasure]
  · simp [readStaff, readStep, readMeasure, readMMRest, readPlain, newReader, lastMeasure,
      enterMeasure, newMeasure, setMMRest, MeasureData.setTick]

/-- C29, amended: in the branch `staff == 0` of `Score::readStaff` a measure is
created at the tick of the reader, with its time signature and its length both
set to the time signature of the last measure of the reader (4/4 when there is
none).  When the measure read is no multi-measure rest it is added behind the
measures of the list and becomes the last measure, and the tick of the reader
becomes the tick of the measure plus its length: a measure read directly
behind it is created exactly where it ends, with its time signature as time
signature and length. -/
theorem readStaff_measure (e0 : XmlReader) (ms0 : List MeasureBase) (pre : List Tag)
    (read : MeasureData → XmlReader → MeasureData × XmlReader)
    (hplain : (readMeasure (readStaff e0 ms0 pre) read).1.isMMRest = false) :
    (newMeasure (readStaff e0 ms0 pre)).tick = (readStaff e0 ms0 pre).e.tick ∧
      (newMeasure (readStaff e0 ms0 pre)).ticks = (newMeasure (readStaff e0 ms0 pre)).timesig ∧
      (newMeasure (readStaff e0 ms0 pre)).timesig
        = ((lastMeasure (readStaff e0 ms0 pre).measures (readStaff e0 ms0 pre).e).map
            (fun m => m.timesig)).getD 1 ∧
      (readStaff e0 ms0 (pre ++ [Tag.measure read])).measures
        = (readStaff e0 ms0 pre).measures
          ++ [MeasureBase.measure (readMeasure (readStaff e0 ms0 pre) read).1 none] ∧
      (readStaff e0 ms0 (pre ++ [Tag.measure read])).e.tick
        = (readMeasure (readStaff e0 ms0 pre) read).1.tick
          + (readMeasure (readStaff e0 ms0 pre) read).1.ticks ∧
      lastMeasure (readStaff e0 ms0 (pre ++ [Tag.measure read])).measures
          (readStaff e0 ms0 (pre ++ [Tag.measure read])).e
        = some (readMeasure (readStaff e0 ms0 pre) read).1 ∧
      newMeasure (readStaff e0 ms0 (pre ++ [Tag.measure read]))
        = { tick := (readMeasure (readStaff e0 ms0 pre) read).1.tick
              + (readMeasure (readStaff e0 ms0 pre) read).1.ticks,
            ticks := (readMeasure (readStaff e0 ms0 pre) read).1.timesig,
            timesig := (readMeasure (readStaff e0 ms0 pre) read).1.timesig,
            isMMRest := false } := by
  have hlast : lastMeasure (readStep (readStaff e0 ms0 pre) (Tag.measure read)).measures
      (readStep (readStaff e0 ms0 pre) (Tag.measure read)).e
        = some (readMeasure (readStaff e0 ms0 pre) read).1 := by
    rw [readStep_plain _ read hplain]
    simp [lastMeasure]
  rw [readStaff_append]
  refine ⟨rfl, rfl, ?_, ?_, ?_, hlast, ?_⟩
  · unfold newMeasure
    cases lastMeasure (readStaff e0 ms0 pre).measures (readStaff e0 ms0 pre).e <;> simp
  · rw [readStep_plain _ read hplain]
  · rw [readStep_plain _ read hplain]
  · unfold newMeasure
    rw [hlast]
    rw [readStep_plain _ read hplain]

/-- Witness of C29: the first measure read into an empty score. -/
theorem readStaff_measure_witness :
    (readMeasure (readStaff newReader [] []) readPlain).1.isMMRest = false ∧
      (readStaff newReader [] ([] ++ [Tag.measure readPlain])).measures
        = (readStaff newReader [] []).measures
          ++ [MeasureBase.measure (readMeasure (readStaff newReader [] []) readPlain).1 none] :=
  ⟨rfl, (readStaff_measure newReader [] [] readPlain rfl).2.2.2.1⟩

/-- Counterexample to C29 as stated: behind an upbeat of a quarter in 4/4 the
next measure is created with the length 4/4, the time signature of the upbeat
measure, not with its length 1/4. -/
theorem readStaff_length_from_timesig :
    (readStaff newReader [] [Tag.measure readUpbeat]).measures
        = [MeasureBase.measure ⟨0, 1 / 4, 1, false⟩ none] ∧
      newMeasure (readStaff newReader [] [Tag.measure readUpbeat]) = ⟨1 / 4, 1, 1, false⟩ ∧
      (readStaff newReader [] [Tag.measure readUpbeat, Tag.measure readPlain]).measures
        = [MeasureBase.measure ⟨0, 1 / 4, 1, false⟩ none,
           MeasureBase.measure ⟨1 / 4, 1, 1, false⟩ none] := by
  refine ⟨?_, ?_, ?_⟩ <;>
  simp [readStaff, readStep, readMeasure, readUpbeat, readPlain, newReader, lastMeasure,
    enterMeasure, newMeasure]

end ReadStaff

end Ms
